import Mathlib

/-!
# OsSimulation: a verification development

Shallow embedding of the operating-system simulator (`MetaCommand.h`, `Process.h`,
`ReadyQueue.h`, `MetaData.h`, `Configuration.h`, `OSprocessRunner.h`) and theorems about it.

Conventions of the embedding
* C++ `int` / `long` values are `Int` (or `Nat` for counters that start at a non-negative
  value and are only ever incremented).  The results of `atoi`, the products of `handler`,
  `handleSystemMemory` and `handleBlockSize` and the sums and differences of the time
  remaining of a process are stored in an `int`: they are reduced modulo `2 ^ 32` into the
  range of `int` by `wrapInt`, as the two's-complement machine does.  The other arithmetic
  of the code (the memory address, the counters, the time stamps) is that of the integers.
* `std::vector` / `std::deque` are `List`; unchecked `v[i]` is `List.getD v i default`.
* Code that throws returns `Except String`.
* Member functions take the object as first argument and return the updated object.
-/

namespace OsSim

/-! ## Machine integers -/

/-- The value an `int` of 32 bits holds after an arithmetic result `x`: `x` reduced modulo
`2 ^ 32` into the range from `-2 ^ 31` to `2 ^ 31 - 1` (two's-complement wrap-around). -/
def wrapInt (x : Int) : Int := (x + 2147483648) % 4294967296 - 2147483648

/-- The integer `x` is within the range of an `int` of 32 bits. -/
def InIntRange (x : Int) : Prop := -2147483648 ≤ x ∧ x < 2147483648

instance (x : Int) : Decidable (InIntRange x) := by
  unfold InIntRange; infer_instance

/-- The value a `long` of 64 bits holds after `strtol` has read the number `x`: `x` clamped to
the range from `LONG_MIN` to `LONG_MAX`. -/
def clampLong (x : Int) : Int :=
  if x < -9223372036854775808 then -9223372036854775808
  else if 9223372036854775807 < x then 9223372036854775807
  else x

/-! ## MetaCommand.h -/

/-- One metadata operation: code, descriptor, number of cycles, total time in ms. -/
structure MetaCommand where
  code_ : Char
  descriptor_ : String
  cycles_ : Int
  time_ : Int
deriving DecidableEq, Repr

/-- The default constructor of `MetaCommand`: code `'.'`, descriptor `" "`, zero cycles and time. -/
instance : Inhabited MetaCommand := ⟨{ code_ := '.', descriptor_ := " ", cycles_ := 0, time_ := 0 }⟩

def MetaCommand.getCode (m : MetaCommand) : Char := m.code_
def MetaCommand.getDescriptor (m : MetaCommand) : String := m.descriptor_
def MetaCommand.getCycles (m : MetaCommand) : Int := m.cycles_
def MetaCommand.getTime (m : MetaCommand) : Int := m.time_

/-! ## Process.h -/

/-- The states of a process control block. -/
inductive PCB where
  | START | READY | RUNNING | WAITING | EXIT
deriving DecidableEq, Repr

/-- A process.  `state_` is `none` as long as no statement has written the member: the
constructor does not initialise it, so `none` stands for an indeterminate content, which may
read as any of the five states (`READY` included) and about which nothing may be concluded;
`some s` is the state `setPCBstate` has written.  `processNumber_` is likewise not
initialised by the constructor; it is represented by `0` until `setProcessNumber` stamps the
process. -/
structure Process where
  metaCmdVect_ : List MetaCommand
  numIOoperations_ : Nat
  operationIndex_ : Nat
  state_ : Option PCB
  processTimeRemaining_ : Int
  processNumber_ : Int
deriving DecidableEq, Repr

/-- The default constructor `Process()`: it assigns `numIOoperations_`, `operationIndex_` and
`processTimeRemaining_` only; `state_` is left unwritten (`none`, an indeterminate
content). -/
def Process.new : Process :=
  { metaCmdVect_ := [], numIOoperations_ := 0, operationIndex_ := 0, state_ := none,
    processTimeRemaining_ := 0, processNumber_ := 0 }

instance : Inhabited Process := ⟨Process.new⟩

def Process.getProcessNumber (p : Process) : Int := p.processNumber_
def Process.getNumberOfCommands (p : Process) : Nat := p.metaCmdVect_.length
def Process.getNumberOfIOops (p : Process) : Nat := p.numIOoperations_
def Process.getOpIndex (p : Process) : Nat := p.operationIndex_

/-- Checked lookup `metaCmdVect_.at(index)`: throws when the index is out of bounds. -/
def Process.getMetaCommand (p : Process) (index : Nat) : Except String MetaCommand :=
  match p.metaCmdVect_[index]? with
  | some m => .ok m
  | none => .error "std::out_of_range"

/-- The getter `getPCBstate()`: the state written last, `none` when the member was never
written (the call then returns an indeterminate value). -/
def Process.getPCBstate (p : Process) : Option PCB := p.state_
def Process.getProcessTimeRemain (p : Process) : Int := p.processTimeRemaining_
def Process.setProcessNumber (p : Process) (pNumber : Int) : Process :=
  { p with processNumber_ := pNumber }
def Process.insertCommand (p : Process) (cmdObj : MetaCommand) : Process :=
  { p with metaCmdVect_ := p.metaCmdVect_ ++ [cmdObj] }
def Process.setNumIOops (p : Process) (numOps : Nat) : Process :=
  { p with numIOoperations_ := numOps }
def Process.incrementOpIndex (p : Process) : Process :=
  { p with operationIndex_ := p.operationIndex_ + 1 }
def Process.setPCBstate (p : Process) (state : PCB) : Process :=
  { p with state_ := some state }
/-- The method `addProcessTimeRemain(time)`: `processTimeRemaining_ += time` on an `int`. -/
def Process.addProcessTimeRemain (p : Process) (time : Int) : Process :=
  { p with processTimeRemaining_ := wrapInt (p.processTimeRemaining_ + time) }
/-- The method `subtractProcessTimeRemain(time)`: `processTimeRemaining_ -= time` on an
`int`. -/
def Process.subtractProcessTimeRemain (p : Process) (time : Int) : Process :=
  { p with processTimeRemaining_ := wrapInt (p.processTimeRemaining_ - time) }

/-! ## ReadyQueue.h -/

/-- The ready queue: the process vector, the scheduling code (0 is RR, 1 is STR) and the
process arrival index (the next pid). -/
structure ReadyQueue where
  processVect_ : List Process
  schedCode_ : Int
  processArrivalIndx_ : Nat
deriving DecidableEq, Repr

/-- The constructor `ReadyQueue()` sets the arrival index to 1; the scheduling code is set
right afterwards by `setSchedAlgorithm` and is a parameter here. -/
def ReadyQueue.new (schedCode : Int) : ReadyQueue :=
  { processVect_ := [], schedCode_ := schedCode, processArrivalIndx_ := 1 }

def ReadyQueue.getNumberOfProcesses (q : ReadyQueue) : Nat := q.processVect_.length
def ReadyQueue.getProcessArrivalIndx (q : ReadyQueue) : Nat := q.processArrivalIndx_
def ReadyQueue.incrementProcessArrivalIndx (q : ReadyQueue) : ReadyQueue :=
  { q with processArrivalIndx_ := q.processArrivalIndx_ + 1 }
def ReadyQueue.insertProcess (q : ReadyQueue) (aProcess : Process) : ReadyQueue :=
  { q with processVect_ := q.processVect_ ++ [aProcess] }

/-- The call `removeProcess()`: the front process and the queue without it.  On an empty
vector the C++ dereferences `begin()`; the model returns the default process and leaves the
queue empty. -/
def ReadyQueue.removeProcess (q : ReadyQueue) : Process × ReadyQueue :=
  (q.processVect_.headD default, { q with processVect_ := q.processVect_.tail })

def ReadyQueue.setSchedAlgorithm (q : ReadyQueue) (schedCode : Int) : ReadyQueue :=
  { q with schedCode_ := schedCode }

/-- Inner loop of the selection sort: `for (i = ...; i < numProceses; i++)`, run for the
`n` remaining iterations starting at index `i`, carrying `minIndex` and `tempMinObj`. -/
def scanMin (v : List Process) : Nat → Nat → Nat → Process → Nat × Process
  | 0, _, minIndex, tempMinObj => (minIndex, tempMinObj)
  | n + 1, i, minIndex, tempMinObj =>
    if (v.getD i default).getProcessTimeRemain < tempMinObj.getProcessTimeRemain then
      scanMin v n (i + 1) i (v.getD i default)
    else
      scanMin v n (i + 1) minIndex tempMinObj

/-- Outer loop of the selection sort: `for (startScan = ...; startScan < numProceses - 1;
startScan++)`, run for the `n` remaining iterations starting at `startScan`. -/
def sortPasses : Nat → Nat → List Process → List Process
  | 0, _, v => v
  | n + 1, startScan, v =>
    let r := scanMin v (v.length - (startScan + 1)) (startScan + 1) startScan
      (v.getD startScan default)
    sortPasses n (startScan + 1) ((v.set r.1 (v.getD startScan default)).set startScan r.2)

/-- The method `sortReadyQueue()`: nothing under RR, selection sort by time remaining
under STR. -/
def ReadyQueue.sortReadyQueue (q : ReadyQueue) : ReadyQueue :=
  if q.schedCode_ = 0 then q
  else if q.schedCode_ = 1 then
    { q with processVect_ := sortPasses (q.processVect_.length - 1) 0 q.processVect_ }
  else q

/-! ## CycleTime.h and Configuration.h -/

/-- The name of a cycle and its time per cycle in ms. -/
structure CycleTime where
  description_ : String
  milliseconds_ : Int
deriving DecidableEq, Repr

/-- The default constructor of `CycleTime`. -/
instance : Inhabited CycleTime := ⟨{ description_ := " ", milliseconds_ := 0 }⟩

def CycleTime.getDescription (c : CycleTime) : String := c.description_
def CycleTime.getTime (c : CycleTime) : Int := c.milliseconds_

def NUM_IO_RESOURCES : Nat := 5

/-- The configuration object.  The implicit constructor leaves the scalar members unassigned:
such a member is `none` until its handler stores a value.  `timeMap_` is an association list
in insertion order (`unordered_map::insert` keeps an existing entry).  The member `version_`
(a `double`) is not part of the model. -/
structure Configuration where
  mdfFilePath_ : String
  logFilePath_ : String
  logFileMethod_ : Option Int
  schedCode_ : Option Int
  systemMemory_ : Option Int
  blockSize_ : Option Int
  pqn_ : Option Int
  timeMap_ : List (String × CycleTime)
  ioResources_ : List Int
deriving DecidableEq, Repr

/-- A default-constructed `Configuration`. -/
def Configuration.new : Configuration :=
  { mdfFilePath_ := "", logFilePath_ := "", logFileMethod_ := none, schedCode_ := none,
    systemMemory_ := none, blockSize_ := none, pqn_ := none, timeMap_ := [],
    ioResources_ := [] }

instance : Inhabited Configuration := ⟨Configuration.new⟩

/-- Reads of an unassigned member are indeterminate in C++; the getters read them as `0`. -/
def Configuration.getSystemMemory (c : Configuration) : Int := c.systemMemory_.getD 0
def Configuration.getBlockSize (c : Configuration) : Int := c.blockSize_.getD 0
def Configuration.getSchedCode (c : Configuration) : Int := c.schedCode_.getD 0
def Configuration.getPQN (c : Configuration) : Int := c.pqn_.getD 0
def Configuration.getLogFileMethod (c : Configuration) : Int := c.logFileMethod_.getD 0
def Configuration.getMdfFilePath (c : Configuration) : String := c.mdfFilePath_
def Configuration.getLogFilePath (c : Configuration) : String := c.logFilePath_
def Configuration.getResourceSize (c : Configuration) (resourceIndex : Nat) : Int :=
  c.ioResources_.getD resourceIndex 0

/-- The lookup `getCycleTime(key)`: throws when the key is not in the map. -/
def Configuration.getCycleTime (c : Configuration) (key : String) : Except String CycleTime :=
  match c.timeMap_.lookup key with
  | some t => .ok t
  | none => .error "Configuration Class: Invalid Key Entered"

/-! ## MetaData.h -/

def DESC_ARR : List String :=
  ["run", "hard drive", "keyboard", "scanner", "monitor", "projector", "block", "allocate"]

def KEY_ARR : List String :=
  ["processor", "hardDrive", "keyboard", "scanner", "monitor", "projector", "memory", "memory"]

def NUM_DESC : Nat := 8

/-- The C library predicate `isspace` in the "C" locale. -/
def isspace (c : Char) : Bool :=
  c == ' ' || c == '\t' || c == '\n' || c == '\x0b' || c == '\x0c' || c == '\r'

/-- Value of a run of decimal digits, most significant first. -/
def digitsValue (cs : List Char) : Nat :=
  cs.foldl (fun acc c => 10 * acc + (c.toNat - '0'.toNat)) 0

/-- The number the C library function `strtol` reads in base 10 from the characters of a
string, before it is stored: leading white space is skipped, an optional sign is read, then
the longest run of decimal digits; no digits give 0. -/
def decimalRead (s : String) : Int :=
  match s.data.dropWhile isspace with
  | '-' :: rest => - (digitsValue (rest.takeWhile Char.isDigit) : Int)
  | '+' :: rest => (digitsValue (rest.takeWhile Char.isDigit) : Int)
  | cs => (digitsValue (cs.takeWhile Char.isDigit) : Int)

/-- The C library function `atoi`, which is `(int) strtol(s, NULL, 10)`: the number read is
clamped to the range of `long` by `strtol` and the conversion to `int` keeps its low 32 bits.
A number within the range of `int` is returned as it is; "3000000000" gives
`-1294967296`. -/
def atoi (s : String) : Int := wrapInt (clampLong (decimalRead s))

/-- One match of the command regular expression `(S|A|P|I|O|M)\{([a-z ]+)\}([0-9]+);`:
the three sub-matches handed to `handler`. -/
structure Token where
  code : String
  descriptor : String
  cycles : String
deriving DecidableEq, Repr

/-- The metadata loader. -/
structure MetaData where
  processObj_ : Process
  configObj_ : Configuration
  currentOpIndex_ : Nat
  sFinishFound_ : Bool
  ioOpCountForProcess_ : Nat
deriving DecidableEq, Repr

/-- The default constructor `MetaData()`. -/
def MetaData.new : MetaData :=
  { processObj_ := Process.new, configObj_ := Configuration.new, currentOpIndex_ := 0,
    sFinishFound_ := false, ioOpCountForProcess_ := 0 }

def MetaData.setConfigurationObject (md : MetaData) (configObj : Configuration) : MetaData :=
  { md with configObj_ := configObj }

/-- The method `handleCodeDescErrors`: throws on a descriptor that is wrong for the code.
(The `std::cout` line of the `'I'` case is not modelled.) -/
def MetaData.handleCodeDescErrors (codeChar : Char) (descriptor : String) : Except String Unit :=
  if codeChar = 'S' then
    if descriptor ≠ "begin" ∧ descriptor ≠ "finish" then
      .error "MetaData Class: Incorrect Descriptor for 'S' Command"
    else .ok ()
  else if codeChar = 'A' then
    if descriptor ≠ "begin" ∧ descriptor ≠ "finish" then
      .error "MetaData Class: Incorrect Descriptor for 'A' Command"
    else .ok ()
  else if codeChar = 'P' then
    if descriptor ≠ "run" then
      .error "MetaData Class: Incorrect Descriptor for 'P' Command"
    else .ok ()
  else if codeChar = 'I' then
    if descriptor ≠ "hard drive" ∧ descriptor ≠ "keyboard" ∧ descriptor ≠ "scanner" then
      .error "MetaData Class: Incorrect Descriptor for 'I' Command"
    else .ok ()
  else if codeChar = 'O' then
    if descriptor ≠ "hard drive" ∧ descriptor ≠ "monitor" ∧ descriptor ≠ "projector" then
      .error "MetaData Class: Incorrect Descriptor for 'O' Command"
    else .ok ()
  else if codeChar = 'M' then
    if descriptor ≠ "block" ∧ descriptor ≠ "allocate" then
      .error "MetaData Class: Incorrect Descriptor for 'M' Command"
    else .ok ()
  else .ok ()

/-- The method `checkSpecialCommands`: returns `true` when the handler must return at once. -/
def MetaData.checkSpecialCommands (md : MetaData) (codeChar : Char) (descriptor : String) :
    Except String (Bool × MetaData) :=
  if md.currentOpIndex_ = 0 then
    if codeChar ≠ 'S' ∨ descriptor ≠ "begin" then
      .error "MetaData Class: S{begin} must be first operation"
    else
      .ok (true, { md with currentOpIndex_ := md.currentOpIndex_ + 1 })
  else if md.currentOpIndex_ = 1 ∧ (codeChar ≠ 'A' ∨ descriptor ≠ "begin") then
    .error "MetaData Class: A{begin} must be second operation"
  else if codeChar = 'S' ∧ descriptor = "finish" then
    .ok (true, { md with sFinishFound_ := true, currentOpIndex_ := md.currentOpIndex_ + 1 })
  else
    .ok (false, md)

/-- The loop of `handler` over `DESC_ARR` / `KEY_ARR` (given as the list of the remaining
pairs), carrying `tempTime`.  The assignment `tempTime = (tempObj.getTime() * numCycles)`
multiplies two `int`s into an `int`. -/
def cycleTimeLoop (configObj : Configuration) (descriptor : String) (numCycles : Int) :
    List (String × String) → Int → Except String Int
  | [], tempTime => .ok tempTime
  | (desc, key) :: rest, tempTime =>
    if descriptor = desc then
      match configObj.getCycleTime key with
      | .error e => .error e
      | .ok tempObj => cycleTimeLoop configObj descriptor numCycles rest
          (wrapInt (tempObj.getTime * numCycles))
    else cycleTimeLoop configObj descriptor numCycles rest tempTime

/-- Lines 203-212 of `handler`: an `A{begin}` command overwrites the process object with a
new one and resets the I/O operation count. -/
def MetaData.startProcess (md : MetaData) (codeChar : Char) (descriptor : String) : MetaData :=
  if codeChar = 'A' ∧ descriptor = "begin" then
    { md with ioOpCountForProcess_ := 0, processObj_ := Process.new }
  else md

/-- Lines 224-238 of `handler`: the time of the command is added to the time remaining of
the process object, an I/O command is counted and the command is inserted into the process
object. -/
def MetaData.insertOperation (md : MetaData) (codeChar : Char) (descriptor : String)
    (numCycles tempTime : Int) : MetaData :=
  let md := { md with processObj_ := md.processObj_.addProcessTimeRemain tempTime }
  let tempMetaCmdObj : MetaCommand :=
    { code_ := codeChar, descriptor_ := descriptor, cycles_ := numCycles, time_ := tempTime }
  let md : MetaData :=
    if codeChar = 'I' ∨ codeChar = 'O' then
      { md with ioOpCountForProcess_ := md.ioOpCountForProcess_ + 1 }
    else md
  { md with processObj_ := md.processObj_.insertCommand tempMetaCmdObj }

/-- Lines 240-257 of `handler`: on `A{finish}` the process object is stamped with the number
of its I/O operations and with the process arrival index, the index is incremented and the
process is inserted into the ready queue. -/
def MetaData.finishProcess (md : MetaData) (codeChar : Char) (descriptor : String)
    (readyQ : ReadyQueue) : MetaData × ReadyQueue :=
  if codeChar = 'A' ∧ descriptor = "finish" then
    let p1 := md.processObj_.setNumIOops md.ioOpCountForProcess_
    let p2 := p1.setProcessNumber (readyQ.getProcessArrivalIndx : Int)
    let q1 := readyQ.incrementProcessArrivalIndx
    ({ md with processObj_ := p2 }, q1.insertProcess p2)
  else (md, readyQ)

/-- Lines 203-260 of `handler`: what is done with a command that is not a special one. -/
def MetaData.storeCommand (md : MetaData) (codeChar : Char) (descriptor : String)
    (numCycles : Int) (readyQ : ReadyQueue) : Except String (MetaData × ReadyQueue) :=
  let md := md.startProcess codeChar descriptor
  match cycleTimeLoop md.configObj_ descriptor numCycles
      ((DESC_ARR.zip KEY_ARR).take NUM_DESC) 0 with
  | .error e => .error e
  | .ok tempTime =>
    let md := md.insertOperation codeChar descriptor numCycles tempTime
    let res := md.finishProcess codeChar descriptor readyQ
    .ok ({ res.1 with currentOpIndex_ := res.1.currentOpIndex_ + 1 }, res.2)

/-- The method `handler`: one command of the metadata file. -/
def MetaData.handler (md : MetaData) (code descriptor cycles : String) (readyQ : ReadyQueue) :
    Except String (MetaData × ReadyQueue) :=
  match code.data with
  | [] => .error "std::out_of_range"
  | codeChar :: _ =>
    let numCycles := atoi cycles
    if numCycles < 0 then
      .error "MetaData Class: Number of Cycles is Less Than Zero"
    else
      match MetaData.handleCodeDescErrors codeChar descriptor with
      | .error e => .error e
      | .ok _ =>
        match md.checkSpecialCommands codeChar descriptor with
        | .error e => .error e
        | .ok special =>
          if special.1 then .ok (special.2, readyQ)
          else special.2.storeCommand codeChar descriptor numCycles readyQ

/-- The method `parseFullLine` on the list of the regular-expression matches of one line
(a `Start`/`End` line has none): `while ((rit != rend) && (!sFinishFound_)) handler(...)`. -/
def MetaData.parseFullLine (md : MetaData) : List Token → ReadyQueue →
    Except String (MetaData × ReadyQueue)
  | [], readyQ => .ok (md, readyQ)
  | t :: rest, readyQ =>
    if md.sFinishFound_ then .ok (md, readyQ)
    else
      match md.handler t.code t.descriptor t.cycles readyQ with
      | .error e => .error e
      | .ok (md1, q1) => MetaData.parseFullLine md1 rest q1

/-- The loop of `parseMDF` over the lines of the file. -/
def MetaData.parseLines (md : MetaData) : List (List Token) → ReadyQueue →
    Except String (MetaData × ReadyQueue)
  | [], readyQ => .ok (md, readyQ)
  | l :: rest, readyQ =>
    match md.parseFullLine l readyQ with
    | .error e => .error e
    | .ok (md1, q1) => MetaData.parseLines md1 rest q1

/-- The method `parseMDF`; the file is given by its lines, each as the list of its command
matches, or `none` when it cannot be opened. -/
def MetaData.parseMDF (md : MetaData) (mdf : Option (List (List Token))) (readyQ : ReadyQueue) :
    Except String (MetaData × ReadyQueue) :=
  match mdf with
  | none => .error "MetaData Class: Incorrect Meta Data File Path"
  | some lines => md.parseLines lines readyQ

/-! ## OSprocessRunner.h -/

/-- One line of the log: time stamp, actor, description.  A time stamp is the difference
between a clock reading and `begin_`, in clock ticks. -/
structure OperationInfo where
  timeStamp : Int
  actor : String
  opDescription : String
deriving DecidableEq, Repr

/-- The static members of `OSprocessRunner`: the five semaphores (by their value), the
five resource counts and the five deques of free resources. -/
structure Resources where
  hardDriveSemaphore : Int
  keyboardSemaphore : Int
  scannerSemaphore : Int
  monitorSemaphore : Int
  projectorSemaphore : Int
  hardDriveResources : Int
  keyboardResources : Int
  scannerResources : Int
  monitorResources : Int
  projectorResources : Int
  hardDriveDeque : List String
  keyboardDeque : List String
  scannerDeque : List String
  monitorDeque : List String
  projectorDeque : List String
deriving DecidableEq, Repr

/-- The static members at program start: zero-initialised semaphores and counts, empty deques. -/
def Resources.initial : Resources :=
  { hardDriveSemaphore := 0, keyboardSemaphore := 0, scannerSemaphore := 0,
    monitorSemaphore := 0, projectorSemaphore := 0, hardDriveResources := 0,
    keyboardResources := 0, scannerResources := 0, monitorResources := 0,
    projectorResources := 0, hardDriveDeque := [], keyboardDeque := [], scannerDeque := [],
    monitorDeque := [], projectorDeque := [] }

/-- The loop `for (int i = 0; i < n; i++) deque.push_back(name + std::to_string(i))`. -/
def pushResourceNames (name : String) (n : Int) (deque : List String) : List String :=
  deque ++ (List.range n.toNat).map (fun i => name ++ toString i)

/-- The static function `fillResourceDeques`. -/
def fillResourceDeques (s : Resources) (rsc0 rsc1 rsc2 rsc3 rsc4 : Int) : Resources :=
  { hardDriveSemaphore := rsc0, keyboardSemaphore := rsc1, scannerSemaphore := rsc2,
    monitorSemaphore := rsc3, projectorSemaphore := rsc4,
    hardDriveResources := rsc0, keyboardResources := rsc1, scannerResources := rsc2,
    monitorResources := rsc3, projectorResources := rsc4,
    hardDriveDeque := pushResourceNames "HDD_" rsc0 s.hardDriveDeque,
    keyboardDeque := pushResourceNames "KBRD_" rsc1 s.keyboardDeque,
    scannerDeque := pushResourceNames "SCNR_" rsc2 s.scannerDeque,
    monitorDeque := pushResourceNames "MNTR_" rsc3 s.monitorDeque,
    projectorDeque := pushResourceNames "PROJ_" rsc4 s.projectorDeque }

/-- The engine.  `static_` holds the static members; `clockReads_` is not a member of the
class: it counts the readings of `steady_clock::now()` the engine thread has made, the
`k`-th reading being `clock k` for the clock passed to the functions below. -/
structure OSprocessRunner where
  readyQ_ : ReadyQueue
  configObj_ : Configuration
  timerComplete_ : Bool
  ioComplete_ : Bool
  rrFlag_ : Bool
  waitForOP_ : Bool
  firstOperation_ : Bool
  strFlag_ : Bool
  countDownTime_ : Int
  ioTime_ : Int
  operationsVect_ : List OperationInfo
  begin_ : Int
  systemMemorySize_ : Int
  memoryBlockSize_ : Int
  memAddress_ : Int
  schedCode_ : Int
  processesInRdyQ_ : Nat
  processCyclesExecuted_ : Int
  quantumNumber_ : Int
  static_ : Resources
  clockReads_ : Nat
deriving DecidableEq, Repr

/-- The constructor `OSprocessRunner(begin, configObj)`.  The members it leaves unassigned
(`timerComplete_`, `ioComplete_`, `countDownTime_`, `ioTime_`, `memAddress_`,
`processesInRdyQ_`) are given `false` / `0`. -/
def OSprocessRunner.new (begin : Int) (configObj : Configuration) (statics : Resources) :
    OSprocessRunner :=
  { readyQ_ := (ReadyQueue.new 0).setSchedAlgorithm configObj.getSchedCode,
    configObj_ := configObj, timerComplete_ := false, ioComplete_ := false, rrFlag_ := false,
    waitForOP_ := true, firstOperation_ := true, strFlag_ := false, countDownTime_ := 0,
    ioTime_ := 0, operationsVect_ := [], begin_ := begin,
    systemMemorySize_ := configObj.getSystemMemory, memoryBlockSize_ := configObj.getBlockSize,
    memAddress_ := 0, schedCode_ := configObj.getSchedCode, processesInRdyQ_ := 0,
    processCyclesExecuted_ := 0, quantumNumber_ := configObj.getPQN, static_ := statics,
    clockReads_ := 0 }

/-- The value of `steady_clock::now() - begin_` at the next reading of the clock by the
engine thread. -/
def OSprocessRunner.timeStamp (clock : Nat → Int) (r : OSprocessRunner) : Int :=
  clock r.clockReads_ - r.begin_

/-- The engine after one more reading of the clock. -/
def OSprocessRunner.tick (r : OSprocessRunner) : OSprocessRunner :=
  { r with clockReads_ := r.clockReads_ + 1 }

/-- Appends an event to `operationsVect_`. -/
def OSprocessRunner.pushOperation (r : OSprocessRunner) (e : OperationInfo) : OSprocessRunner :=
  { r with operationsVect_ := r.operationsVect_ ++ [e] }

/-- The output of `stream << std::hex << std::setw(8) << std::setfill('0') << memAddress_`
for the `long` value `memAddress_`: the lowercase hexadecimal digits of the value as an
unsigned 64-bit number, filled on the left with `'0'` up to width 8. -/
def hexField (memAddress : Int) : List Char :=
  let digits := Nat.toDigits 16 (memAddress % 2 ^ 64).toNat
  List.replicate (8 - digits.length) '0' ++ digits

/-- The string `hexAddress` built by the stream of the allocate branch. -/
def hexAddress (memAddress : Int) : String :=
  "0x" ++ String.mk (hexField memAddress)

/-- The method `countDown(time)`: waits for the timer thread to set `timerComplete_`. -/
def OSprocessRunner.countDown (r : OSprocessRunner) (time : Int) : OSprocessRunner :=
  { r with countDownTime_ := time, timerComplete_ := true }

/-- First half of `inputOutput`: `sem_wait` on the semaphore of the device, then the front of
its deque is copied into `resource` and popped.  A semaphore whose value is not positive
blocks the engine for ever, which is returned as an error. -/
def acquireResource (s : Resources) (aDescriptor : String) (resource : String) :
    Except String (Resources × String) :=
  if aDescriptor = "hard drive" then
    if s.hardDriveSemaphore ≤ 0 then .error "sem_wait blocks" else
    match s.hardDriveDeque with
    | [] => .error "front of an empty deque"
    | x :: rest => .ok ({ s with hardDriveSemaphore := s.hardDriveSemaphore - 1,
                                 hardDriveDeque := rest }, x)
  else if aDescriptor = "keyboard" then
    if s.keyboardSemaphore ≤ 0 then .error "sem_wait blocks" else
    match s.keyboardDeque with
    | [] => .error "front of an empty deque"
    | x :: rest => .ok ({ s with keyboardSemaphore := s.keyboardSemaphore - 1,
                                 keyboardDeque := rest }, x)
  else if aDescriptor = "scanner" then
    if s.scannerSemaphore ≤ 0 then .error "sem_wait blocks" else
    match s.scannerDeque with
    | [] => .error "front of an empty deque"
    | x :: rest => .ok ({ s with scannerSemaphore := s.scannerSemaphore - 1,
                                 scannerDeque := rest }, x)
  else if aDescriptor = "monitor" then
    if s.monitorSemaphore ≤ 0 then .error "sem_wait blocks" else
    match s.monitorDeque with
    | [] => .error "front of an empty deque"
    | x :: rest => .ok ({ s with monitorSemaphore := s.monitorSemaphore - 1,
                                 monitorDeque := rest }, x)
  else if aDescriptor = "projector" then
    if s.projectorSemaphore ≤ 0 then .error "sem_wait blocks" else
    match s.projectorDeque with
    | [] => .error "front of an empty deque"
    | x :: rest => .ok ({ s with projectorSemaphore := s.projectorSemaphore - 1,
                                 projectorDeque := rest }, x)
  else .ok (s, resource)

/-- Second half of `inputOutput`: `sem_post` on the semaphore of the device and the resource
is pushed onto the back of its deque. -/
def releaseResource (s : Resources) (aDescriptor : String) (resource : String) : Resources :=
  if aDescriptor = "hard drive" then
    { s with hardDriveSemaphore := s.hardDriveSemaphore + 1,
             hardDriveDeque := s.hardDriveDeque ++ [resource] }
  else if aDescriptor = "keyboard" then
    { s with keyboardSemaphore := s.keyboardSemaphore + 1,
             keyboardDeque := s.keyboardDeque ++ [resource] }
  else if aDescriptor = "scanner" then
    { s with scannerSemaphore := s.scannerSemaphore + 1,
             scannerDeque := s.scannerDeque ++ [resource] }
  else if aDescriptor = "monitor" then
    { s with monitorSemaphore := s.monitorSemaphore + 1,
             monitorDeque := s.monitorDeque ++ [resource] }
  else if aDescriptor = "projector" then
    { s with projectorSemaphore := s.projectorSemaphore + 1,
             projectorDeque := s.projectorDeque ++ [resource] }
  else s

/-- The engine after the I/O thread and its countdown thread have run to completion. -/
def OSprocessRunner.ioThreadDone (r : OSprocessRunner) : OSprocessRunner :=
  { r with countDownTime_ := r.ioTime_, timerComplete_ := true, ioComplete_ := true }

/-- The method `inputOutput(time, aDescriptor, resource)`: takes the front of the deque of the
device, waits for the I/O thread, puts the resource back at the rear.  The result holds the
value left in the reference parameter `resource`. -/
def OSprocessRunner.inputOutput (r : OSprocessRunner) (time : Int) (aDescriptor : String)
    (resource : String) : Except String (OSprocessRunner × String) :=
  let r := { r with ioTime_ := time, ioComplete_ := false }
  match acquireResource r.static_ aDescriptor resource with
  | .error e => .error e
  | .ok acquired =>
    let r := { r with static_ := acquired.1 }
    let r := r.ioThreadDone
    .ok ({ r with static_ := releaseResource r.static_ aDescriptor acquired.2 }, acquired.2)

/-- Case `'A'` of the `switch` of `executeOperation`. -/
def OSprocessRunner.executeApplication (clock : Nat → Int) (r : OSprocessRunner)
    (aDescriptor : String) (processIndex : Int) : OSprocessRunner :=
  if aDescriptor = "begin" then
    let t1 := r.timeStamp clock
    let r := r.tick
    let r := r.pushOperation
      { timeStamp := t1, actor := "OS",
        opDescription := "preparing process " ++ toString processIndex }
    let t2 := r.timeStamp clock
    let r := r.tick
    r.pushOperation
      { timeStamp := t2, actor := "OS",
        opDescription := "starting process " ++ toString processIndex }
  else if aDescriptor = "finish" then
    let t := r.timeStamp clock
    let r := r.tick
    r.pushOperation
      { timeStamp := t, actor := "OS", opDescription := "End process " ++ toString processIndex }
  else r

/-- The end of the allocate branch: the next memory address is reset to zero when it lies
beyond the system memory and is advanced by the block size otherwise. -/
def OSprocessRunner.advanceMemAddress (r : OSprocessRunner) : OSprocessRunner :=
  if r.memAddress_ + r.memoryBlockSize_ > r.systemMemorySize_ then
    { r with memAddress_ := 0 }
  else
    { r with memAddress_ := r.memAddress_ + r.memoryBlockSize_ }

/-- Cases `'P'` and `'M'` of the `switch` of `executeOperation`. -/
def OSprocessRunner.executeProcessorMemory (clock : Nat → Int) (r : OSprocessRunner)
    (aDescriptor : String) (time : Int) (processIndex : Int) : OSprocessRunner :=
  let t1 := r.timeStamp clock
  let r := r.tick
  let startDescription : String :=
    if aDescriptor = "run" then "start processing action"
    else if aDescriptor = "block" then "start memory blocking"
    else if aDescriptor = "allocate" then "allocating memory"
    else ""
  let r := r.pushOperation
    { timeStamp := t1, actor := "Process " ++ toString processIndex,
      opDescription := startDescription }
  let r := r.countDown time
  let t2 := r.timeStamp clock
  let r := r.tick
  let endActor := "Process " ++ toString processIndex
  if aDescriptor = "run" then
    r.pushOperation
      { timeStamp := t2, actor := endActor, opDescription := "end processing action" }
  else if aDescriptor = "block" then
    r.pushOperation
      { timeStamp := t2, actor := endActor, opDescription := "end memory blocking" }
  else if aDescriptor = "allocate" then
    let description := "memory allocated at " ++ hexAddress r.memAddress_
    let r := r.advanceMemAddress
    r.pushOperation { timeStamp := t2, actor := endActor, opDescription := description }
  else
    r.pushOperation { timeStamp := t2, actor := endActor, opDescription := "" }

/-- The description of the start event of an I/O operation. -/
def ioStartDescription (aCode : Char) (aDescriptor : String) (resource : String) : String :=
  if aDescriptor = "hard drive" ∧ aCode = 'I' then "start hard drive input on " ++ resource
  else if aDescriptor = "hard drive" ∧ aCode = 'O' then "start hard drive output on " ++ resource
  else if aDescriptor = "keyboard" then "start keyboard input on " ++ resource
  else if aDescriptor = "scanner" then "start scanner input on " ++ resource
  else if aDescriptor = "monitor" then "start monitor output on " ++ resource
  else if aDescriptor = "projector" then "start projector output on " ++ resource
  else ""

/-- The description of the end event of an I/O operation. -/
def ioEndDescription (aCode : Char) (aDescriptor : String) : String :=
  if aDescriptor = "hard drive" ∧ aCode = 'I' then "end hard drive input"
  else if aDescriptor = "hard drive" ∧ aCode = 'O' then "end hard drive output"
  else if aDescriptor = "keyboard" then "end keyboard input"
  else if aDescriptor = "scanner" then "end scanner input"
  else if aDescriptor = "monitor" then "end monitor output"
  else if aDescriptor = "projector" then "end projector output"
  else ""

/-- Cases `'I'` and `'O'` of the `switch` of `executeOperation`. -/
def OSprocessRunner.executeInputOutput (clock : Nat → Int) (r : OSprocessRunner)
    (aCode : Char) (aDescriptor : String) (time : Int) (processIndex : Int) :
    Except String OSprocessRunner :=
  let t1 := r.timeStamp clock
  let r := r.tick
  match r.inputOutput time aDescriptor "" with
  | .error e => .error e
  | .ok io =>
    let r := io.1
    let t2 := r.timeStamp clock
    let r := r.tick
    let actor := "Process " ++ toString processIndex
    let r := r.pushOperation
      { timeStamp := t1, actor := actor,
        opDescription := ioStartDescription aCode aDescriptor io.2 }
    .ok (r.pushOperation
      { timeStamp := t2, actor := actor, opDescription := ioEndDescription aCode aDescriptor })

/-- The method `executeOperation(metaCmdObj, processIndex)`. -/
def OSprocessRunner.executeOperation (clock : Nat → Int) (r : OSprocessRunner)
    (metaCmdObj : MetaCommand) (processIndex : Int) : Except String OSprocessRunner :=
  let aCode := metaCmdObj.getCode
  let aDescriptor := metaCmdObj.getDescriptor
  let r := { r with timerComplete_ := false }
  if aCode = 'A' then
    .ok (r.executeApplication clock aDescriptor processIndex)
  else if aCode = 'P' ∨ aCode = 'M' then
    .ok (r.executeProcessorMemory clock aDescriptor metaCmdObj.getTime processIndex)
  else if aCode = 'I' ∨ aCode = 'O' then
    r.executeInputOutput clock aCode aDescriptor metaCmdObj.getTime processIndex
  else .ok r

/-- The method `logInterruption(processIndex)`. -/
def OSprocessRunner.logInterruption (clock : Nat → Int) (r : OSprocessRunner)
    (processIndex : Int) : OSprocessRunner :=
  let t := r.timeStamp clock
  let r := r.tick
  let description : String :=
    if r.schedCode_ = 0 then "Process interrupted by round robin scheduling algorithm."
    else if r.schedCode_ = 1 then "Process interrupted by STR scheduling algorithm."
    else ""
  r.pushOperation
    { timeStamp := t, actor := "Process " ++ toString processIndex, opDescription := description }

/-- The method `importMDF()`; `mdf` is the content of the metadata file. -/
def OSprocessRunner.importMDF (mdf : Option (List (List Token))) (r : OSprocessRunner) :
    Except String OSprocessRunner :=
  let metaDataObj := MetaData.new.setConfigurationObject r.configObj_
  match metaDataObj.parseMDF mdf r.readyQ_ with
  | .error e => .error e
  | .ok (_, q) => .ok { r with readyQ_ := q, processesInRdyQ_ := q.getNumberOfProcesses }

/-- The start of `runProcesses()`, up to the creation of the load thread: the memory address
is reset, the metadata file is imported and, under STR, the ready queue is sorted. -/
def OSprocessRunner.runProcessesStart (mdf : Option (List (List Token))) (r : OSprocessRunner) :
    Except String OSprocessRunner :=
  let r := { r with memAddress_ := 0 }
  match r.importMDF mdf with
  | .error e => .error e
  | .ok r =>
    if r.schedCode_ = 1 then .ok { r with readyQ_ := r.readyQ_.sortReadyQueue } else .ok r

/-- One iteration of the inner `while` loop of `runProcesses()` (the loop condition
`getOpIndex() < getNumberOfCommands()` holds) for the running process `currentProcess`.
The result is the engine, the running process and whether the loop was left by `break`.
The quantum timer thread started at the first operation is part of the environment. -/
def OSprocessRunner.innerLoopBody (clock : Nat → Int) (r : OSprocessRunner)
    (currentProcess : Process) : Except String (OSprocessRunner × Process × Bool) :=
  if r.schedCode_ = 0 then
    let r := if r.firstOperation_ then { r with firstOperation_ := false } else r
    if r.rrFlag_ = true then
      let r := { r with rrFlag_ := false }
      let r := { r with readyQ_ := r.readyQ_.insertProcess currentProcess }
      let r := r.logInterruption clock currentProcess.getProcessNumber
      .ok (r, currentProcess, true)
    else
      let r := { r with waitForOP_ := false }
      match currentProcess.getMetaCommand currentProcess.getOpIndex with
      | .error e => .error e
      | .ok cmd =>
        match r.executeOperation clock cmd currentProcess.getProcessNumber with
        | .error e => .error e
        | .ok r => .ok (r, currentProcess.incrementOpIndex, false)
  else if r.schedCode_ = 1 then
    if r.strFlag_ = true then
      let r := { r with strFlag_ := false }
      let r := { r with readyQ_ := r.readyQ_.insertProcess currentProcess }
      let r := { r with readyQ_ := r.readyQ_.sortReadyQueue }
      let r := r.logInterruption clock currentProcess.getProcessNumber
      .ok (r, currentProcess, true)
    else
      match currentProcess.getMetaCommand currentProcess.getOpIndex with
      | .error e => .error e
      | .ok cmd =>
        match r.executeOperation clock cmd currentProcess.getProcessNumber with
        | .error e => .error e
        | .ok r =>
          match currentProcess.getMetaCommand currentProcess.getOpIndex with
          | .error e => .error e
          | .ok tempMetaCmdObj =>
            let timeForOP := tempMetaCmdObj.getTime
            let currentProcess := currentProcess.subtractProcessTimeRemain timeForOP
            .ok (r, currentProcess.incrementOpIndex, false)
  else .ok (r, currentProcess, false)

/-- Executes a list of operations, each with the number of its process, one after the other. -/
def OSprocessRunner.executeOperations (clock : Nat → Int) (r : OSprocessRunner) :
    List (MetaCommand × Int) → Except String OSprocessRunner
  | [] => .ok r
  | (cmd, pid) :: rest =>
    match r.executeOperation clock cmd pid with
    | .error e => .error e
    | .ok r1 => OSprocessRunner.executeOperations clock r1 rest

/-! ## Auxiliary definitions used by the statements and proofs -/

/-- The sort key of the process stored at index `k` (the default process beyond the end). -/
def keyAt (v : List Process) (k : Nat) : Int := (v.getD k default).getProcessTimeRemain

/-- The body of the outer loop of the selection sort at `startScan`. -/
def sortPass (startScan : Nat) (v : List Process) : List Process :=
  let r := scanMin v (v.length - (startScan + 1)) (startScan + 1) startScan
      (v.getD startScan default)
  (v.set r.1 (v.getD startScan default)).set startScan r.2

/-- Every position before `s` holds a key that is at most every key at a later position. -/
def PrefixSorted (s : Nat) (v : List Process) : Prop :=
  ∀ i j, i < s → i < j → j < v.length → keyAt v i ≤ keyAt v j

/-- The processes of `v` whose time remaining is `k`, in queue order. -/
def withKey (k : Int) (v : List Process) : List Process :=
  v.filter (fun p => decide (p.getProcessTimeRemain = k))

/-- Process A: pid 1, 2 ms remaining. -/
def procA : Process := { Process.new with processNumber_ := 1, processTimeRemaining_ := 2 }
/-- Process B: pid 2, 2 ms remaining. -/
def procB : Process := { Process.new with processNumber_ := 2, processTimeRemaining_ := 2 }
/-- Process C: pid 3, 1 ms remaining. -/
def procC : Process := { Process.new with processNumber_ := 3, processTimeRemaining_ := 1 }

/-- The STR ready queue A, B, C with times remaining 2, 2, 1. -/
def queueABC : ReadyQueue :=
  { processVect_ := [procA, procB, procC], schedCode_ := 1, processArrivalIndx_ := 4 }

/-- The STR ready queue A, C, C' with times remaining 2, 1, 1 (C' has pid 4). -/
def queueACC : ReadyQueue :=
  { processVect_ := [procA, procC, { procC with processNumber_ := 4 }], schedCode_ := 1,
    processArrivalIndx_ := 5 }

/-- A metadata file with two identical processes, each `A{begin}0; P{run}1; A{finish}0`. -/
def twinStream : List Token :=
  [⟨"S", "begin", "0"⟩, ⟨"A", "begin", "0"⟩, ⟨"P", "run", "1"⟩, ⟨"A", "finish", "0"⟩,
   ⟨"A", "begin", "0"⟩, ⟨"P", "run", "1"⟩, ⟨"A", "finish", "0"⟩, ⟨"S", "finish", "0"⟩]

/-- A STR configuration: system memory 1000 kB, block size 400 kB, all cycle times 10 ms. -/
def strConfig : Configuration :=
  { Configuration.new with
    schedCode_ := some 1, systemMemory_ := some 1000, blockSize_ := some 400, pqn_ := some 50,
    timeMap_ := [("processor", ⟨"Processor", 10⟩), ("memory", ⟨"Memory", 10⟩)],
    ioResources_ := [1, 1, 1, 1, 1] }

/-- The engine constructed from `strConfig` with one resource of each kind. -/
def strRunner : OSprocessRunner :=
  OSprocessRunner.new 0 strConfig (fillResourceDeques Resources.initial 1 1 1 1 1)

/-- A clock whose `k`-th reading is `k`. -/
def tickClock : Nat → Int := fun k => (k : Int)

/-- A run of the engine up to a STR preemption: the file `twinStream` is imported and the
queue sorted, process 1 is dispatched and executes `A{begin}`, then the load thread imports
the file again and sets the STR flag.  The result is the engine and the running process. -/
def tieScenario : Except String (OSprocessRunner × Process) :=
  match strRunner.runProcessesStart (some [twinStream]) with
  | .error e => .error e
  | .ok r1 =>
    let (p, q) := r1.readyQ_.removeProcess
    let r2 := { r1 with readyQ_ := q, processesInRdyQ_ := q.getNumberOfProcesses }
    match r2.innerLoopBody tickClock p with
    | .error e => .error e
    | .ok (r3, p3, _) =>
      match r3.importMDF (some [twinStream]) with
      | .error e => .error e
      | .ok r4 => .ok ({ r4 with strFlag_ := true }, p3)

/-- The engine and the running process reached by `tieScenario`. -/
def tieState : OSprocessRunner × Process :=
  match tieScenario with
  | .ok x => x
  | .error _ => (strRunner, default)

/-- Whether `executeOperation` runs the allocate branch for the command. -/
def MetaCommand.allocates (m : MetaCommand) : Bool :=
  (m.code_ == 'P' || m.code_ == 'M') && m.descriptor_ == "allocate"

/-- The number of allocations among a list of operations. -/
def countAllocations (ops : List (MetaCommand × Int)) : Nat :=
  ops.countP (fun o => o.1.allocates)

/-- The memory members of the engine: address, block size, system memory size. -/
def OSprocessRunner.memory (r : OSprocessRunner) : Int × Int × Int :=
  (r.memAddress_, r.memoryBlockSize_, r.systemMemorySize_)

/-- The memory address after one allocation at address `a` with block size `b` and system
memory size `S`. -/
def nextAddress (a b S : Int) : Int := if a + b > S then 0 else a + b

/-- The operation `M{allocate}1` of 10 ms. -/
def allocateOp : MetaCommand := { code_ := 'M', descriptor_ := "allocate", cycles_ := 1, time_ := 10 }

/-- The engine of scenario S4 (system memory 1000 kB, block size 400 kB) at the start of
`runProcesses()`, with an empty metadata file. -/
def s4Runner : OSprocessRunner :=
  match strRunner.runProcessesStart (some []) with
  | .ok r => r
  | .error _ => strRunner

/-- The engine of scenario S4 after `n` operations `M{allocate}` of process 1. -/
def s4After (n : Nat) : OSprocessRunner :=
  match s4Runner.executeOperations tickClock (List.replicate n (allocateOp, 1)) with
  | .ok r => r
  | .error _ => s4Runner

/-- The descriptions of the events of a log. -/
def descriptions (log : List OperationInfo) : List String := log.map (fun e => e.opDescription)

/-- The sixteen lowercase hexadecimal digits. -/
def lowerHexDigits : List Char := "0123456789abcdef".data

/-- The value of a lowercase hexadecimal digit. -/
def hexDigitValue (c : Char) : Nat :=
  if c.isDigit then c.toNat - '0'.toNat else c.toNat - 'a'.toNat + 10

/-- The number written by a list of hexadecimal digits, most significant first. -/
def hexValue (cs : List Char) : Nat := cs.foldl (fun acc c => 16 * acc + hexDigitValue c) 0

/-- The category/descriptor table of the specification. -/
def allowedDescriptors (code : Char) : List String :=
  if code = 'S' then ["begin", "finish"]
  else if code = 'A' then ["begin", "finish"]
  else if code = 'P' then ["run"]
  else if code = 'I' then ["hard drive", "keyboard", "scanner"]
  else if code = 'O' then ["hard drive", "monitor", "projector"]
  else if code = 'M' then ["block", "allocate"]
  else []

/-- The loader constructed by `importMDF()` for the configuration `configObj`. -/
def freshLoader (configObj : Configuration) : MetaData :=
  MetaData.new.setConfigurationObject configObj

/-- The token is the command `c{d}`. -/
def Token.isCommand (t : Token) (c : Char) (d : String) : Prop :=
  t.code.data.head? = some c ∧ t.descriptor = d

instance (t : Token) (c : Char) (d : String) : Decidable (t.isCommand c d) := by
  unfold Token.isCommand; infer_instance

/-- The operation is the command `c{d}`. -/
def MetaCommand.isCommand (m : MetaCommand) (c : Char) (d : String) : Bool :=
  m.code_ == c && m.descriptor_ == d

/-- The first operation of the process is `A{begin}` and its last operation is `A{finish}`
(so the operation list is not empty). -/
def Process.beginsAndFinishes (p : Process) : Prop :=
  p.metaCmdVect_.head?.map (fun m => m.isCommand 'A' "begin") = some true ∧
  p.metaCmdVect_.getLast?.map (fun m => m.isCommand 'A' "finish") = some true

/-- No operation after the first one is `A{begin}`. -/
def Process.noOtherBegin (p : Process) : Prop :=
  ∀ m ∈ p.metaCmdVect_.tail, m.isCommand 'A' "begin" = false

/-- No operation before the last one is `A{finish}`. -/
def Process.noOtherFinish (p : Process) : Prop :=
  ∀ m ∈ p.metaCmdVect_.dropLast, m.isCommand 'A' "finish" = false

instance (p : Process) : Decidable p.beginsAndFinishes := by
  unfold Process.beginsAndFinishes; infer_instance

instance (p : Process) : Decidable p.noOtherBegin := by
  unfold Process.noOtherBegin; infer_instance

instance (p : Process) : Decidable p.noOtherFinish := by
  unfold Process.noOtherFinish; infer_instance

/-- An operation list that starts with `A{begin}` and holds no other `A{begin}`. -/
def WellBegun (ops : List MetaCommand) : Prop :=
  ∃ b tail, ops = b :: tail ∧ b.isCommand 'A' "begin" = true ∧
    ∀ m ∈ tail, m.isCommand 'A' "begin" = false

/-- The invariant of the loader: once two commands have been read, the operation list of
the process object is well begun. -/
def LoaderInv (md : MetaData) : Prop :=
  md.currentOpIndex_ = 0 ∨ md.currentOpIndex_ = 1 ∨
    (2 ≤ md.currentOpIndex_ ∧ WellBegun md.processObj_.metaCmdVect_)

/-- The metadata file `S{begin}0; A{begin}0; A{finish}0; P{run}5; A{finish}0; S{finish}0;`. -/
def candidateStream : List Token :=
  [⟨"S", "begin", "0"⟩, ⟨"A", "begin", "0"⟩, ⟨"A", "finish", "0"⟩, ⟨"P", "run", "5"⟩,
   ⟨"A", "finish", "0"⟩, ⟨"S", "finish", "0"⟩]

/-- The loader and the ready queue after the load of `candidateStream` into a new STR queue. -/
def candidateLoad : MetaData × ReadyQueue :=
  match (freshLoader strConfig).parseMDF (some [candidateStream]) (ReadyQueue.new 1) with
  | .ok x => x
  | .error _ => (freshLoader strConfig, ReadyQueue.new 1)

/-- A metadata file whose first command is `A{begin}0`. -/
def headlessStream : List Token :=
  [⟨"A", "begin", "0"⟩, ⟨"P", "run", "5"⟩, ⟨"A", "finish", "0"⟩, ⟨"S", "finish", "0"⟩]

/-- Tokens that follow the `S{finish}` of `candidateStream`: an invalid command and a
command with a wrong descriptor. -/
def trailingTokens : List Token := [⟨"X", "finish", "0"⟩, ⟨"P", "begin", "7"⟩]

/-- The table `DESC_ARR` / `KEY_ARR` as the list of pairs the loop of `handler` runs over. -/
def cycleTable : List (String × String) := (DESC_ARR.zip KEY_ARR).take NUM_DESC

/-- The result of `storeCommand` once the time `t` of the command is known. -/
def storeResult (md : MetaData) (c : Char) (d : String) (n t : Int) (q : ReadyQueue) :
    MetaData × ReadyQueue :=
  ({ ((md.startProcess c d).insertOperation c d n t |>.finishProcess c d q).1 with
      currentOpIndex_ :=
        ((md.startProcess c d).insertOperation c d n t |>.finishProcess c d q).1.currentOpIndex_
          + 1 },
    ((md.startProcess c d).insertOperation c d n t |>.finishProcess c d q).2)

/-- The pids of a list of processes. -/
def pids (ps : List Process) : List Int := ps.map Process.getProcessNumber

/-- The pids `a, a + 1, ..., a + n - 1`. -/
def pidRange (a n : Nat) : List Int := (List.range' a n).map (fun i : Nat => (i : Int))

/-- The state of a load with respect to the queue `q0` it started from: the queue is `q0`
followed by new processes numbered from the arrival index of `q0` on. -/
def Appended (q0 q : ReadyQueue) : Prop :=
  ∃ new, q.processVect_ = q0.processVect_ ++ new ∧
    q.processArrivalIndx_ = q0.processArrivalIndx_ + new.length ∧
    q.schedCode_ = q0.schedCode_ ∧
    pids new = pidRange q0.processArrivalIndx_ new.length

/-- One batch: the load of a metadata file by a fresh loader into the ready queue, as
`importMDF()` does it. -/
def loadBatch (cfg : Configuration) (mdf : Option (List (List Token))) (q : ReadyQueue) :
    Except String ReadyQueue :=
  match (freshLoader cfg).parseMDF mdf q with
  | .error e => .error e
  | .ok x => .ok x.2

/-- A sequence of batches loaded one after the other into the same ready queue. -/
def loadBatches (cfg : Configuration) :
    List (Option (List (List Token))) → ReadyQueue → Except String ReadyQueue
  | [], q => .ok q
  | mdf :: rest, q =>
    match loadBatch cfg mdf q with
    | .error e => .error e
    | .ok q1 => loadBatches cfg rest q1

/-- The ready queue after the batches `candidateStream` and `twinStream`. -/
def twoBatches : ReadyQueue :=
  match loadBatches strConfig [some [candidateStream], some [twinStream]] (ReadyQueue.new 1) with
  | .ok q => q
  | .error _ => ReadyQueue.new 1

/-- The correspondence of the specification between a descriptor and the kind whose cycle
time it uses. -/
def kindOf (descriptor : String) : Option String :=
  if descriptor = "run" then some "processor"
  else if descriptor = "hard drive" then some "hardDrive"
  else if descriptor = "keyboard" then some "keyboard"
  else if descriptor = "scanner" then some "scanner"
  else if descriptor = "monitor" then some "monitor"
  else if descriptor = "projector" then some "projector"
  else if descriptor = "block" then some "memory"
  else if descriptor = "allocate" then some "memory"
  else none

/-- The cost rule of an operation: its time is its number of cycles times the configured
ms-per-cycle of the kind of its descriptor, and 0 when the descriptor has no kind. -/
def CostRule (cfg : Configuration) (m : MetaCommand) : Prop :=
  match kindOf m.descriptor_ with
  | some key => ∃ ct, cfg.timeMap_.lookup key = some ct ∧ m.time_ = m.cycles_ * ct.milliseconds_
  | none => m.time_ = 0

/-- What `handler` stores as the time of an operation: the `int` product of its number of
cycles and the configured ms-per-cycle of the kind of its descriptor, and 0 when the
descriptor has no kind. -/
def StoredCost (cfg : Configuration) (m : MetaCommand) : Prop :=
  match kindOf m.descriptor_ with
  | some key =>
    ∃ ct, cfg.timeMap_.lookup key = some ct ∧ m.time_ = wrapInt (m.cycles_ * ct.milliseconds_)
  | none => m.time_ = 0

/-- The product of the cost rule of the operation (its number of cycles times the configured
ms-per-cycle of the kind of its descriptor) is within the range of `int`. -/
def CostInRange (cfg : Configuration) (m : MetaCommand) : Prop :=
  ∀ key ct, kindOf m.descriptor_ = some key → cfg.timeMap_.lookup key = some ct →
    InIntRange (m.cycles_ * ct.milliseconds_)

/-- A RR configuration with the seven cycle times configured. -/
def fullConfig : Configuration :=
  { Configuration.new with
    schedCode_ := some 0, systemMemory_ := some 1000, blockSize_ := some 400, pqn_ := some 50,
    timeMap_ := [("processor", ⟨"Processor", 10⟩), ("memory", ⟨"Memory", 3⟩),
                 ("projector", ⟨"Projector", 4⟩), ("keyboard", ⟨"Keyboard", 5⟩),
                 ("monitor", ⟨"Monitor", 6⟩), ("scanner", ⟨"Scanner", 7⟩),
                 ("hardDrive", ⟨"Hard Drive", 8⟩)],
    ioResources_ := [1, 1, 1, 1, 1] }

/-- The metadata file `S{begin}0; A{begin}0; P{run}3; I{hard drive}2; M{block}4; A{finish}0;
S{finish}0;`. -/
def costStream : List Token :=
  [⟨"S", "begin", "0"⟩, ⟨"A", "begin", "0"⟩, ⟨"P", "run", "3"⟩, ⟨"I", "hard drive", "2"⟩,
   ⟨"M", "block", "4"⟩, ⟨"A", "finish", "0"⟩, ⟨"S", "finish", "0"⟩]

/-- The invariant of a load for the cost rule, with respect to the queue `q0` it started
from: the operations of the process object and of the processes appended have the stored
cost. -/
def CostInv (cfg : Configuration) (q0 : ReadyQueue) (md : MetaData) (q : ReadyQueue) : Prop :=
  md.configObj_ = cfg ∧ (∀ m ∈ md.processObj_.metaCmdVect_, StoredCost cfg m) ∧
  ∃ new, q.processVect_ = q0.processVect_ ++ new ∧
    ∀ p ∈ new, ∀ m ∈ p.metaCmdVect_, StoredCost cfg m

/-- The metadata file `S{begin}0; A{begin}0; P{run}300000000; A{finish}0; S{finish}0;`:
with 10 ms per processor cycle the product of the cost rule is 3000000000. -/
def overflowStream : List Token :=
  [⟨"S", "begin", "0"⟩, ⟨"A", "begin", "0"⟩, ⟨"P", "run", "300000000"⟩,
   ⟨"A", "finish", "0"⟩, ⟨"S", "finish", "0"⟩]

/-- The load of the file `A{begin}0; P{run}3; I{hard drive}2; M{block}4; A{finish}0` with
every cycle time configured. -/
def costLoad : MetaData × ReadyQueue :=
  match (freshLoader fullConfig).parseMDF (some [costStream]) (ReadyQueue.new 0) with
  | .ok x => x
  | .error _ => (freshLoader fullConfig, ReadyQueue.new 0)

/-- The process with its pid set to 0: what remains when the pid is disregarded. -/
def Process.erasePid (p : Process) : Process := { p with processNumber_ := 0 }

/-- The loader with the pid of its process object disregarded. -/
def MetaData.erasePid (md : MetaData) : MetaData :=
  { md with processObj_ := md.processObj_.erasePid }

/-- The loader and the ready queue after the load of `twinStream` into a new STR queue. -/
def twinLoad : MetaData × ReadyQueue :=
  match (freshLoader strConfig).parseMDF (some [twinStream]) (ReadyQueue.new 1) with
  | .ok x => x
  | .error _ => (freshLoader strConfig, ReadyQueue.new 1)

/-- The invariant of a load for the program counter, with respect to the queue `q0` it
started from: the process object and the processes appended have program counter 0. -/
def PcInv (q0 : ReadyQueue) (md : MetaData) (q : ReadyQueue) : Prop :=
  md.processObj_.operationIndex_ = 0 ∧
  ∃ new, q.processVect_ = q0.processVect_ ++ new ∧ ∀ p ∈ new, p.operationIndex_ = 0

/-- The RR ready queue that holds process A. -/
def rrQueueA : ReadyQueue := { processVect_ := [procA], schedCode_ := 0, processArrivalIndx_ := 2 }

/-- The first `n` calls of `removeProcess()`: the processes popped, in order, and the queue
left. -/
def popProcesses : Nat → ReadyQueue → List Process × ReadyQueue
  | 0, q => ([], q)
  | n + 1, q => ((q.removeProcess).1 :: (popProcesses n (q.removeProcess).2).1,
      (popProcesses n (q.removeProcess).2).2)

/-- The processes of a list inserted one after the other, each insertion followed by a call
of `sortReadyQueue()`. -/
def insertAll (q : ReadyQueue) : List Process → ReadyQueue
  | [] => q
  | p :: ps => insertAll (q.insertProcess p).sortReadyQueue ps

/-- The pairs (actor, description) of the events of a log. -/
def eventPairs (log : List OperationInfo) : List (String × String) :=
  log.map (fun e => (e.actor, e.opDescription))

/-- The descriptors of the five kinds of I/O device. -/
def ioDevices : List String := ["hard drive", "keyboard", "scanner", "monitor", "projector"]

/-- The free list (deque) of the device kind named by a descriptor. -/
def Resources.dequeOf (s : Resources) (d : String) : List String :=
  if d = "hard drive" then s.hardDriveDeque
  else if d = "keyboard" then s.keyboardDeque
  else if d = "scanner" then s.scannerDeque
  else if d = "monitor" then s.monitorDeque
  else if d = "projector" then s.projectorDeque
  else []

/-- The value of the semaphore of the device kind named by a descriptor. -/
def Resources.semaphoreOf (s : Resources) (d : String) : Int :=
  if d = "hard drive" then s.hardDriveSemaphore
  else if d = "keyboard" then s.keyboardSemaphore
  else if d = "scanner" then s.scannerSemaphore
  else if d = "monitor" then s.monitorSemaphore
  else if d = "projector" then s.projectorSemaphore
  else 0

/-- Every semaphore holds the number of handles in the free list of its device kind. -/
def Resources.Balanced (s : Resources) : Prop :=
  ∀ d ∈ ioDevices, s.semaphoreOf d = ((s.dequeOf d).length : Int)

/-- The six I/O operations of the metadata grammar, as pairs of code and descriptor. -/
def ioOperations : List (Char × String) :=
  [('I', "hard drive"), ('I', "keyboard"), ('I', "scanner"),
   ('O', "hard drive"), ('O', "monitor"), ('O', "projector")]

/-- The word for the direction of an I/O operation in its events. -/
def direction (code : Char) : String := if code = 'I' then "input" else "output"

instance (s : Resources) : Decidable s.Balanced := by
  unfold Resources.Balanced; infer_instance

/-- The operation `I{keyboard}1` of 10 ms. -/
def keyboardOp : MetaCommand :=
  { code_ := 'I', descriptor_ := "keyboard", cycles_ := 1, time_ := 10 }

/-- The number written by a list of decimal digits, most significant first. -/
def decimalValue (cs : List Char) : Nat :=
  cs.foldl (fun acc c => 10 * acc + hexDigitValue c) 0

/-- The handle names `prefix_0, ..., prefix_(n-1)`, the underscore being part of the prefix. -/
def handleNames (pre : String) (n : Nat) : List String :=
  (List.range n).map (fun i => pre ++ toString i)

/-- The prefix of the names of the handles of the device kind named by a descriptor. -/
def handlePrefix (d : String) : String :=
  if d = "hard drive" then "HDD_"
  else if d = "keyboard" then "KBRD_"
  else if d = "scanner" then "SCNR_"
  else if d = "monitor" then "MNTR_"
  else if d = "projector" then "PROJ_"
  else ""

/-- The argument of `fillResourceDeques` that gives the capacity of the device kind named by
a descriptor. -/
def capacityOf (d : String) (rsc0 rsc1 rsc2 rsc3 rsc4 : Int) : Int :=
  if d = "hard drive" then rsc0
  else if d = "keyboard" then rsc1
  else if d = "scanner" then rsc2
  else if d = "monitor" then rsc3
  else if d = "projector" then rsc4
  else 0

/-- The operation `O{monitor}2` of 20 ms. -/
def monitorOp : MetaCommand :=
  { code_ := 'O', descriptor_ := "monitor", cycles_ := 2, time_ := 20 }

/-- An engine with three keyboards, two monitors and one device of each other kind. -/
def poolRunner : OSprocessRunner :=
  OSprocessRunner.new 0 strConfig (fillResourceDeques Resources.initial 1 3 1 2 1)

/-- Where the engine thread stands in `runProcesses()` once the load thread is started: at the
test of the outer `while` loop, at the test of the inner `while` loop with the process it
removed from the ready queue, or past the outer loop. -/
inductive Position where
  | outerTest : Position
  | innerTest (currentProcess : Process) : Position
  | returned : Position
deriving DecidableEq, Repr

/-- The engine during `runProcesses()`.  `completed` is not a variable of the program: it
records, in order, the processes whose inner loop ended because their operation index reached
the number of their operations. -/
structure RunState where
  runner : OSprocessRunner
  position : Position
  completed : List Process
deriving DecidableEq, Repr

/-- What happens next in a run: a step of the engine thread, or an action of one of the
other threads on the members they share with it.  The quantum timer thread sets `rrFlag_`
when the quantum is over and sets `waitForOP_` back to `true` when it starts to wait; the load
thread imports the metadata file (whose content at that time is `mdf`) and then, under STR,
sets `strFlag_`. -/
inductive Action where
  | engine : Action
  | quantumExpired : Action
  | timerArmed : Action
  | mdfLoaded (mdf : Option (List (List Token))) : Action
  | strFlagSet : Action
deriving DecidableEq, Repr

/-- One step of the engine thread in the loops of `runProcesses()`.  At the outer test: the
loop is left when `processesInRdyQ_` is zero, otherwise the front process is removed and the
count updated.  At the inner test: when operations are left, one iteration of the inner loop
is run (and after a `break` the count is updated); otherwise the inner loop is left and the
count updated. -/
def RunState.engineStep (clock : Nat → Int) (s : RunState) : Except String RunState :=
  match s.position with
  | .outerTest =>
    if s.runner.processesInRdyQ_ > 0 then
      let removed := s.runner.readyQ_.removeProcess
      let r := { s.runner with readyQ_ := removed.2 }
      let r := { r with processesInRdyQ_ := r.readyQ_.getNumberOfProcesses }
      .ok { s with runner := r, position := .innerTest removed.1 }
    else .ok { s with position := .returned }
  | .innerTest currentProcess =>
    if currentProcess.getOpIndex < currentProcess.getNumberOfCommands then
      match s.runner.innerLoopBody clock currentProcess with
      | .error e => .error e
      | .ok x =>
        if x.2.2 = true then
          .ok { s with
            runner := { x.1 with processesInRdyQ_ := x.1.readyQ_.getNumberOfProcesses },
            position := .outerTest }
        else .ok { s with runner := x.1, position := .innerTest x.2.1 }
    else
      .ok { runner :=
              { s.runner with processesInRdyQ_ := s.runner.readyQ_.getNumberOfProcesses },
            position := .outerTest,
            completed := s.completed ++ [currentProcess] }
  | .returned => .ok s

/-- One step of a run. -/
def RunState.step (clock : Nat → Int) (s : RunState) : Action → Except String RunState
  | .engine => s.engineStep clock
  | .quantumExpired => .ok { s with runner := { s.runner with rrFlag_ := true } }
  | .timerArmed => .ok { s with runner := { s.runner with waitForOP_ := true } }
  | .mdfLoaded mdf =>
    match s.runner.importMDF mdf with
    | .error e => .error e
    | .ok r => .ok { s with runner := r }
  | .strFlagSet =>
    if s.runner.schedCode_ = 1 then .ok { s with runner := { s.runner with strFlag_ := true } }
    else .ok s

/-- A run: the steps of a schedule, one after the other. -/
def RunState.run (clock : Nat → Int) : RunState → List Action → Except String RunState
  | s, [] => .ok s
  | s, a :: rest =>
    match s.step clock a with
    | .error e => .error e
    | .ok s1 => RunState.run clock s1 rest

/-- The method `runProcesses()` under a schedule: its start, then the run of its loops. -/
def OSprocessRunner.runProcesses (clock : Nat → Int) (mdf : Option (List (List Token)))
    (r : OSprocessRunner) (schedule : List Action) : Except String RunState :=
  match r.runProcessesStart mdf with
  | .error e => .error e
  | .ok r1 => RunState.run clock { runner := r1, position := .outerTest, completed := [] } schedule

/-- The metadata file of scenario S1. -/
def s1Stream : List Token :=
  [⟨"S", "begin", "0"⟩, ⟨"A", "begin", "0"⟩, ⟨"P", "run", "3"⟩, ⟨"A", "finish", "0"⟩,
   ⟨"S", "finish", "0"⟩]

/-- The engine of scenario S1: RR, quantum 50 ms, processor cycle 10 ms. -/
def s1Runner : OSprocessRunner :=
  OSprocessRunner.new 0 fullConfig (fillResourceDeques Resources.initial 1 1 1 1 1)

/-- The description of the event that reports the start of the process `pid`. -/
def startMark (pid : Int) : String := "starting process " ++ toString pid

/-- The description of the event that reports the end of the process `pid`. -/
def endMark (pid : Int) : String := "End process " ++ toString pid

/-- The number of events of a log with the description `d`. -/
def occurrences (d : String) (log : List OperationInfo) : Nat := (descriptions log).count d

/-- A description that is neither a start mark nor an end mark, whatever the pid: it differs
from them within its first six characters. -/
def Unmarked (d : String) : Prop :=
  d.data.take 6 ≠ "starti".data ∧ d.data.take 1 ≠ "E".data

instance (d : String) : Decidable (Unmarked d) := by unfold Unmarked; infer_instance

/-- The number of `A{begin}` operations the process has executed. -/
def Process.beginsExecuted (p : Process) : Nat :=
  (p.metaCmdVect_.take p.operationIndex_).countP (fun m => m.isCommand 'A' "begin")

/-- The number of `A{finish}` operations the process has executed. -/
def Process.finishesExecuted (p : Process) : Nat :=
  (p.metaCmdVect_.take p.operationIndex_).countP (fun m => m.isCommand 'A' "finish")

/-- Every occurrence of `b` in the list has an occurrence of `a` before it. -/
def Precedes (a b : String) (l : List String) : Prop :=
  ∀ pre post, l = pre ++ b :: post → a ∈ pre

/-- The bookkeeping that links the descriptions `D` of the trace to the processes `L` the
engine holds (running, ready or completed) when the arrival index of the ready queue is `K`:
the pids are distinct natural numbers below `K`; every process is well formed and its
operation index lies within its operations; the trace holds as many start marks and end
marks of a process as the process has executed `A{begin}` and `A{finish}` operations; it
holds no mark of a pid that is not yet given; and every end mark has the start mark of the
same pid before it. -/
structure Tracked (K : Nat) (D : List String) (L : List Process) : Prop where
  pid : ∀ p ∈ L, ∃ n : Nat, p.processNumber_ = (n : Int) ∧ n < K
  nodup : (pids L).Nodup
  shape : ∀ p ∈ L, p.operationIndex_ ≤ p.metaCmdVect_.length ∧ p.beginsAndFinishes ∧
    p.noOtherBegin
  counts : ∀ p ∈ L, D.count (startMark p.processNumber_) = p.beginsExecuted ∧
    D.count (endMark p.processNumber_) = p.finishesExecuted
  fresh : ∀ n : Nat, K ≤ n → D.count (startMark n) = 0 ∧ D.count (endMark n) = 0
  order : ∀ n : Nat, Precedes (startMark n) (endMark n) D

/-- The effect of one iteration of the inner loop on the engine `r` with the running process
`cur`, as a relation to the result `x`: a preemption puts the running process back into the
queue and logs an event that is no mark; otherwise the operation at the operation index is
executed and the index advanced; with a scheduling code other than 0 and 1 nothing changes. -/
def IterationEffect (r : OSprocessRunner) (cur : Process)
    (x : OSprocessRunner × Process × Bool) : Prop :=
  x.1.readyQ_.processArrivalIndx_ = r.readyQ_.processArrivalIndx_ ∧
  ((x.2.2 = true ∧ x.1.readyQ_.processVect_.Perm (cur :: r.readyQ_.processVect_) ∧
      ∃ e, Unmarked e ∧
        descriptions x.1.operationsVect_ = descriptions r.operationsVect_ ++ [e]) ∨
   (x.2.2 = false ∧ x.1.readyQ_ = r.readyQ_ ∧ ∃ cmd evs,
      cur.metaCmdVect_[cur.operationIndex_]? = some cmd ∧
      x.2.1.metaCmdVect_ = cur.metaCmdVect_ ∧
      x.2.1.operationIndex_ = cur.operationIndex_ + 1 ∧
      x.2.1.processNumber_ = cur.processNumber_ ∧
      descriptions x.1.operationsVect_ = descriptions r.operationsVect_ ++ evs ∧
      (cmd.code_ = 'A' ∧ cmd.descriptor_ = "begin" →
        evs = ["preparing process " ++ toString cur.processNumber_,
               startMark cur.processNumber_]) ∧
      (cmd.code_ = 'A' ∧ cmd.descriptor_ = "finish" → evs = [endMark cur.processNumber_]) ∧
      (¬ (cmd.code_ = 'A' ∧ cmd.descriptor_ = "begin") →
        ¬ (cmd.code_ = 'A' ∧ cmd.descriptor_ = "finish") → ∀ e ∈ evs, Unmarked e)) ∨
   x = (r, cur, false))

/-- The processes the engine holds: the running one, the ready ones, the completed ones. -/
def RunState.processes (s : RunState) : List Process :=
  (match s.position with
   | .innerTest currentProcess => [currentProcess]
   | _ => []) ++ s.runner.readyQ_.processVect_ ++ s.completed

/-- The invariant of a run: the bookkeeping of `Tracked` holds for the processes of the
state, the completed processes have executed all their operations, and at the test of the
outer loop `processesInRdyQ_` is the length of the ready queue. -/
structure RunInv (s : RunState) : Prop where
  tracked : Tracked s.runner.readyQ_.processArrivalIndx_
    (descriptions s.runner.operationsVect_) s.processes
  completed : ∀ p ∈ s.completed, p.operationIndex_ = p.metaCmdVect_.length
  count : s.position = .outerTest →
    s.runner.processesInRdyQ_ = s.runner.readyQ_.processVect_.length

/-- A schedule in which, after the dispatch of the first process and its first operation,
the load thread imports the metadata file of scenario S1 and sets the STR flag; the engine
then takes twenty steps. -/
def preemptedSchedule : List Action :=
  [.engine, .engine, .mdfLoaded (some [s1Stream]), .strFlagSet] ++ List.replicate 20 .engine

/-- The state after the run of `strRunner` on the metadata file `candidateStream` under
`preemptedSchedule`. -/
def preemptedRun : RunState :=
  match strRunner.runProcesses tickClock (some [candidateStream]) preemptedSchedule with
  | .ok s => s
  | .error _ => ⟨strRunner, .returned, []⟩

/-- The engine with the four members replaced that `executeOperation` neither reads nor
writes: the ready queue, the count of ready processes and the two flags of the quantum timer
thread. -/
def OSprocessRunner.withShared (r : OSprocessRunner) (q : ReadyQueue) (n : Nat) (f w : Bool) :
    OSprocessRunner :=
  { r with readyQ_ := q, processesInRdyQ_ := n, firstOperation_ := f, waitForOP_ := w }

/-- A schedule in which no preemption flag is set and no metadata file is loaded: steps of
the engine and armings of the quantum timer only. -/
def Quiet (schedule : List Action) : Prop :=
  ∀ a ∈ schedule, a = Action.engine ∨ a = Action.timerArmed

instance (schedule : List Action) : Decidable (Quiet schedule) := by
  unfold Quiet; infer_instance

/-- The operations the process has not executed yet, in order, each with the pid. -/
def Process.remaining (p : Process) : List (MetaCommand × Int) :=
  (p.metaCmdVect_.drop p.getOpIndex).map (fun m => (m, p.getProcessNumber))

/-- The state `s` is one in which `runProcesses()` has returned with an empty ready queue and
an engine that agrees with `r` on every member but the ready queue, the count of ready
processes and the two flags of the quantum timer. -/
def Finished (r : OSprocessRunner) (s : RunState) : Prop :=
  s.position = .returned ∧
  ∃ (q : ReadyQueue) (n : Nat) (f w : Bool), q.processVect_ = [] ∧
    s.runner = r.withShared q n f w

/-- The engine of scenario S1 after the start of `runProcesses()`. -/
def s1Start : OSprocessRunner :=
  match s1Runner.runProcessesStart (some [s1Stream]) with
  | .ok r => r
  | .error _ => s1Runner

/-- The process of scenario S1. -/
def s1Process : Process := s1Start.readyQ_.processVect_.headD default

/-- The engine `s1Start` after the operations of the process of scenario S1. -/
def s1After : OSprocessRunner :=
  match s1Start.executeOperations tickClock s1Process.remaining with
  | .ok r => r
  | .error _ => s1Start

/-- A schedule of scenario S1: six steps of the engine, with the quantum timer arming itself
after the first operation. -/
def s1Schedule : List Action :=
  [.engine, .engine, .timerArmed, .engine, .engine, .engine, .engine]

/-! ## Configuration.h: the parser of the configuration file -/

/-- The enum `Command`. -/
inductive Command where
  | VERSION | MDF | PROJECTOR | PROCESSOR | KEYBOARD
  | MONITOR | SCANNER | HARD_DRIVE | LOG | LOG_FILE
  | MEMORY | SYSMEMORY | BLOCK_SIZE | RESOURCE | PQN
  | SCHED_CODE | UNKNOWN
deriving DecidableEq, Repr

/-- The method `ClassifyCmd(command, bytesSysMem, bytesBlockSize, resourceIndex)`.  The three
reference parameters are passed in and returned with the command; `bytesSysMem` is `none` as
long as nothing is assigned to it (the caller declares it without an initial value). -/
def ClassifyCmd (command : String) (bytesSysMem : Option Int) (bytesBlockSize : Int)
    (resourceIndex : Int) : Command × Option Int × Int × Int :=
  if command = "Version/Phase" then (.VERSION, bytesSysMem, bytesBlockSize, resourceIndex)
  else if command = "File Path" then (.MDF, bytesSysMem, bytesBlockSize, resourceIndex)
  else if command = "Quantum Number {msec}" then
    (.PQN, bytesSysMem, bytesBlockSize, resourceIndex)
  else if command = "CPU Scheduling Code" then
    (.SCHED_CODE, bytesSysMem, bytesBlockSize, resourceIndex)
  else if command = "Projector cycle time {msec}" then
    (.PROJECTOR, bytesSysMem, bytesBlockSize, resourceIndex)
  else if command = "Processor cycle time {msec}" then
    (.PROCESSOR, bytesSysMem, bytesBlockSize, resourceIndex)
  else if command = "Keyboard cycle time {msec}" then
    (.KEYBOARD, bytesSysMem, bytesBlockSize, resourceIndex)
  else if command = "Monitor display time {msec}" then
    (.MONITOR, bytesSysMem, bytesBlockSize, resourceIndex)
  else if command = "Scanner cycle time {msec}" then
    (.SCANNER, bytesSysMem, bytesBlockSize, resourceIndex)
  else if command = "Hard drive cycle time {msec}" then
    (.HARD_DRIVE, bytesSysMem, bytesBlockSize, resourceIndex)
  else if command = "Memory cycle time {msec}" then
    (.MEMORY, bytesSysMem, bytesBlockSize, resourceIndex)
  else if command = "Log" then (.LOG, bytesSysMem, bytesBlockSize, resourceIndex)
  else if command = "Log File Path" then
    (.LOG_FILE, bytesSysMem, bytesBlockSize, resourceIndex)
  else if command = "System memory {kbytes}" then
    (.SYSMEMORY, some 1, bytesBlockSize, resourceIndex)
  else if command = "System memory {Mbytes}" then
    (.SYSMEMORY, some 2, bytesBlockSize, resourceIndex)
  else if command = "System memory {Gbytes}" then
    (.SYSMEMORY, some 3, bytesBlockSize, resourceIndex)
  else if command = "Memory block size {kbytes}" then
    (.BLOCK_SIZE, some 1, bytesBlockSize, resourceIndex)
  else if command = "Memory block size {Mbytes}" then
    (.BLOCK_SIZE, some 2, bytesBlockSize, resourceIndex)
  else if command = "Memory block size {Gbytes}" then
    (.BLOCK_SIZE, some 3, bytesBlockSize, resourceIndex)
  else if command = "Hard drive quantity" then (.RESOURCE, bytesSysMem, bytesBlockSize, 0)
  else if command = "Keyboard quantity" then (.RESOURCE, bytesSysMem, bytesBlockSize, 1)
  else if command = "Scanner quantity" then (.RESOURCE, bytesSysMem, bytesBlockSize, 2)
  else if command = "Monitor quantity" then (.RESOURCE, bytesSysMem, bytesBlockSize, 3)
  else if command = "Projector quantity" then (.RESOURCE, bytesSysMem, bytesBlockSize, 4)
  else (.UNKNOWN, bytesSysMem, bytesBlockSize, resourceIndex)

/-- The method `handleVersion(value)`.  The member `version_` is not part of the model; the
outcome of the comparison `atof(value) < 0` on doubles is given by `negativeVersion`. -/
def Configuration.handleVersion (c : Configuration) (negativeVersion : String → Bool)
    (value : String) : Except String Configuration :=
  if negativeVersion value = true then
    .error "Configuration Class: Version Number is Less Than Zero"
  else .ok c

/-- The method `handlePQN(value)`. -/
def Configuration.handlePQN (c : Configuration) (value : String) : Except String Configuration :=
  let aPQN := atoi value
  if aPQN < 0 then .error "Configuration Class: PQN is Less Than Zero"
  else .ok { c with pqn_ := some aPQN }

/-- The method `handleMdf(value)`. -/
def Configuration.handleMdf (c : Configuration) (value : String) : Configuration :=
  { c with mdfFilePath_ := value }

/-- The method `handleLogFile(value)`. -/
def Configuration.handleLogFile (c : Configuration) (value : String) : Configuration :=
  { c with logFilePath_ := value }

/-- The method `handleLog(value)`. -/
def Configuration.handleLog (c : Configuration) (value : String) : Except String Configuration :=
  if value = "Log to Both" then .ok { c with logFileMethod_ := some 2 }
  else if value = "Log to Monitor" then .ok { c with logFileMethod_ := some 0 }
  else if value = "Log to File" then .ok { c with logFileMethod_ := some 1 }
  else .error "Configuration Class: Incorrect File Logging Method"

/-- The method `handleSchedCode(value)`. -/
def Configuration.handleSchedCode (c : Configuration) (value : String) :
    Except String Configuration :=
  if value = "RR" then .ok { c with schedCode_ := some 0 }
  else if value = "STR" then .ok { c with schedCode_ := some 1 }
  else .error "Configuration Class: Invalid CPU Scheduling Code"

/-- The method `handleSystemMemory(value, bytesSysMem)`.  The products are `int` products. -/
def Configuration.handleSystemMemory (c : Configuration) (value : String) (bytesSysMem : Int) :
    Except String Configuration :=
  let aMemory := atoi value
  if aMemory < 0 then .error "Configuration Class: System Memory is Less Than Zero"
  else
    let aMemory := if bytesSysMem = 2 then wrapInt (aMemory * 1000) else aMemory
    let aMemory := if bytesSysMem = 3 then wrapInt (aMemory * 1000000) else aMemory
    .ok { c with systemMemory_ := some aMemory }

/-- The method `handleBlockSize(value, bytesBlockSize)`. -/
def Configuration.handleBlockSize (c : Configuration) (value : String) (bytesBlockSize : Int) :
    Except String Configuration :=
  let aMemory := atoi value
  if aMemory < 0 then .error "Configuration Class: Block Size is Less Than Zero"
  else
    let aMemory := if bytesBlockSize = 2 then wrapInt (aMemory * 1000) else aMemory
    let aMemory := if bytesBlockSize = 3 then wrapInt (aMemory * 1000000) else aMemory
    .ok { c with blockSize_ := some aMemory }

/-- The method `handleResource(value, resourceIndex)`: the assignment
`ioResources_[resourceIndex] = aSize` on the array of `NUM_IO_RESOURCES` entries. -/
def Configuration.handleResource (c : Configuration) (value : String) (resourceIndex : Int) :
    Except String Configuration :=
  let aSize := atoi value
  if aSize < 1 then .error "Configuration Class: Resource Size is Less Than One"
  else .ok { c with ioResources_ := c.ioResources_.set resourceIndex.toNat aSize }

/-- The call `timeMap_.insert({key, aCycTime})` of `std::unordered_map`: an entry whose key
is in the map already is kept and nothing is inserted. -/
def Configuration.insertTime (c : Configuration) (key : String) (aCycTime : CycleTime) :
    Configuration :=
  match c.timeMap_.lookup key with
  | some _ => c
  | none => { c with timeMap_ := c.timeMap_ ++ [(key, aCycTime)] }

/-- The method `handleTime(value, cmd)`. -/
def Configuration.handleTime (c : Configuration) (value : String) (cmd : Command) :
    Except String Configuration :=
  let aTime := atoi value
  if aTime < 0 then .error "Configuration Class: Time is Less Than Zero"
  else
    match cmd with
    | .PROJECTOR => .ok (c.insertTime "projector" ⟨"Projector", aTime⟩)
    | .PROCESSOR => .ok (c.insertTime "processor" ⟨"Processor", aTime⟩)
    | .KEYBOARD => .ok (c.insertTime "keyboard" ⟨"Keyboard", aTime⟩)
    | .MONITOR => .ok (c.insertTime "monitor" ⟨"Monitor", aTime⟩)
    | .SCANNER => .ok (c.insertTime "scanner" ⟨"Scanner", aTime⟩)
    | .HARD_DRIVE => .ok (c.insertTime "hardDrive" ⟨"Hard Drive", aTime⟩)
    | .MEMORY => .ok (c.insertTime "memory" ⟨"Memory", aTime⟩)
    | _ => .ok c

/-- One line of the configuration file as the regular expressions of `parseCommandString`
see it: a line that matches the start or the end expression, or the two sub-matches of the
command expression `^[\s]*([\w\{\}/\s]+)[\s]*:[\s]*([\w\.\s]+.)[\s]*$` (both empty when the
line does not match it). -/
inductive ConfigLine where
  | delimiter : ConfigLine
  | command (key value : String) : ConfigLine
deriving DecidableEq, Repr

/-- The method `parseCommandString(cmdString)`. -/
def Configuration.parseCommandString (c : Configuration) (negativeVersion : String → Bool) :
    ConfigLine → Except String Configuration
  | .delimiter => .ok c
  | .command key value =>
    let bytesSysMem : Option Int := none
    let bytesBlockSize : Int := 0
    let resourceIndex : Int := -1
    let classified := ClassifyCmd key bytesSysMem bytesBlockSize resourceIndex
    match classified.1 with
    | .VERSION => c.handleVersion negativeVersion value
    | .MDF => .ok (c.handleMdf value)
    | .PROJECTOR => c.handleTime value .PROJECTOR
    | .PROCESSOR => c.handleTime value .PROCESSOR
    | .KEYBOARD => c.handleTime value .KEYBOARD
    | .MONITOR => c.handleTime value .MONITOR
    | .SCANNER => c.handleTime value .SCANNER
    | .MEMORY => c.handleTime value .MEMORY
    | .HARD_DRIVE => c.handleTime value .HARD_DRIVE
    | .LOG => c.handleLog value
    | .LOG_FILE => .ok (c.handleLogFile value)
    | .SYSMEMORY => c.handleSystemMemory value (classified.2.1.getD 0)
    | .BLOCK_SIZE => c.handleBlockSize value classified.2.2.1
    | .RESOURCE => c.handleResource value classified.2.2.2
    | .PQN => c.handlePQN value
    | .SCHED_CODE => c.handleSchedCode value
    | .UNKNOWN => .error "Configuration Class: Invalid Command In Configuration File"

/-- The loop of `parseConfigFile` over the lines of the file. -/
def Configuration.parseCommandStrings (negativeVersion : String → Bool) :
    Configuration → List ConfigLine → Except String Configuration
  | c, [] => .ok c
  | c, line :: rest =>
    match c.parseCommandString negativeVersion line with
    | .error e => .error e
    | .ok c1 => Configuration.parseCommandStrings negativeVersion c1 rest

/-- The method `parseConfigFile(configFile)`; the argument is the content of the file, `none`
when the file cannot be opened. -/
def Configuration.parseConfigFile (c : Configuration) (negativeVersion : String → Bool)
    (configFile : Option (List ConfigLine)) : Except String Configuration :=
  match configFile with
  | none => .error "Configuration Class: Incorrect Configuration File Path"
  | some lines =>
    let c := { c with ioResources_ := List.replicate NUM_IO_RESOURCES 1 }
    Configuration.parseCommandStrings negativeVersion c lines

/-- The keys of the seven cycle times with the key of the cycle-time table and the
description they store. -/
def cycleTimeKeys : List (String × String × String) :=
  [("Processor cycle time {msec}", "processor", "Processor"),
   ("Memory cycle time {msec}", "memory", "Memory"),
   ("Projector cycle time {msec}", "projector", "Projector"),
   ("Keyboard cycle time {msec}", "keyboard", "Keyboard"),
   ("Monitor display time {msec}", "monitor", "Monitor"),
   ("Scanner cycle time {msec}", "scanner", "Scanner"),
   ("Hard drive cycle time {msec}", "hardDrive", "Hard Drive")]

/-- The five quantity keys with the index of their device in `ioResources_`. -/
def quantityKeys : List (String × Nat) :=
  [("Hard drive quantity", 0), ("Keyboard quantity", 1), ("Scanner quantity", 2),
   ("Monitor quantity", 3), ("Projector quantity", 4)]

/-- The line is a command line with the key `k`. -/
def ConfigLine.hasKey (line : ConfigLine) (k : String) : Prop :=
  match line with
  | .delimiter => False
  | .command key _ => key = k

instance (line : ConfigLine) (k : String) : Decidable (line.hasKey k) := by
  unfold ConfigLine.hasKey
  cases line <;> infer_instance

/-- The keys that `ClassifyCmd` recognises. -/
def knownKeys : List String :=
  ["Version/Phase", "File Path", "Quantum Number {msec}", "CPU Scheduling Code",
   "Projector cycle time {msec}", "Processor cycle time {msec}", "Keyboard cycle time {msec}",
   "Monitor display time {msec}", "Scanner cycle time {msec}", "Hard drive cycle time {msec}",
   "Memory cycle time {msec}", "Log", "Log File Path", "System memory {kbytes}",
   "System memory {Mbytes}", "System memory {Gbytes}", "Memory block size {kbytes}",
   "Memory block size {Mbytes}", "Memory block size {Gbytes}", "Hard drive quantity",
   "Keyboard quantity", "Scanner quantity", "Monitor quantity", "Projector quantity"]

/-- The members `schedCode_`, `pqn_`, `logFileMethod_` and `ioResources_` after a handler. -/
def Kept (c c' : Configuration) (sched pqn log res : Bool) : Prop :=
  (sched = true → c'.schedCode_ = c.schedCode_) ∧ (pqn = true → c'.pqn_ = c.pqn_) ∧
  (log = true → c'.logFileMethod_ = c.logFileMethod_) ∧
  (res = true → c'.ioResources_ = c.ioResources_)

/-- The array `ioResources_` holds `NUM_IO_RESOURCES` quantities, each at least 1. -/
def Configuration.QuantitiesValid (c : Configuration) : Prop :=
  c.ioResources_.length = NUM_IO_RESOURCES ∧ ∀ x ∈ c.ioResources_, 1 ≤ x

/-- A configuration file with the quantity lines "Keyboard quantity: 3" and
"Projector quantity: 2". -/
def quantityLines : List ConfigLine :=
  [.delimiter, .command "Keyboard quantity" "3", .command "Log" "Log to Both",
   .command "Projector quantity" "2", .delimiter]

/-- The configuration after the parse of `quantityLines`. -/
def quantityConfig : Configuration :=
  match Configuration.new.parseConfigFile (fun _ => false) (some quantityLines) with
  | .ok c => c
  | .error _ => Configuration.new

/-- The digits that `atoi` reads from a string: the run of decimal digits after leading
white space and an optional sign. -/
def atoiDigits (s : String) : List Char :=
  match s.data.dropWhile isspace with
  | '-' :: rest => rest.takeWhile Char.isDigit
  | '+' :: rest => rest.takeWhile Char.isDigit
  | cs => cs.takeWhile Char.isDigit

/-- The line is one that `parseCommandString` accepts (on a new configuration). -/
def ConfigLine.accepted (negativeVersion : String → Bool) (line : ConfigLine) : Bool :=
  (Configuration.new.parseCommandString negativeVersion line).toOption.isSome

/-- A configuration file with neither a "CPU Scheduling Code" line nor a
"Quantum Number {msec}" line. -/
def partialLines : List ConfigLine :=
  [.delimiter, .command "Version/Phase" "2.0", .command "File Path" "Test_1a.mdf",
   .command "Processor cycle time {msec}" "10", .command "System memory {kbytes}" "2048",
   .command "Log" "Log to Both", .command "Log File Path" "logfile_1.lgf", .delimiter]

/-- The configuration after the parse of `partialLines`. -/
def partialConfig : Configuration :=
  match Configuration.new.parseConfigFile (fun _ => false) (some partialLines) with
  | .ok c => c
  | .error _ => Configuration.new

/-- The engine `r'` continues the engine `r` for the clock `clock`: the start time is the
same, the trace of `r'` is the trace of `r` followed by new events, and the time stamps of
the new events are the readings of the clock number `k` for strictly increasing numbers `k`
from the number of readings made by `r` on and below the number of readings made by `r'`. -/
def Continues (clock : Nat → Int) (r r' : OSprocessRunner) : Prop :=
  r'.begin_ = r.begin_ ∧ r.clockReads_ ≤ r'.clockReads_ ∧
  ∃ (evs : List OperationInfo) (ks : List Nat),
    r'.operationsVect_ = r.operationsVect_ ++ evs ∧
    evs.map (fun e => e.timeStamp) = ks.map (fun k => clock k - r.begin_) ∧
    ks.Pairwise (fun a b => a < b) ∧
    ∀ k ∈ ks, r.clockReads_ ≤ k ∧ k < r'.clockReads_

/-- The schedule of the first part of the traced run: the process is dispatched, executes
`A{begin}` and `P{run}`, and is preempted at the end of the quantum. -/
def tracedSchedule : List Action :=
  [.engine, .engine, .engine, .quantumExpired, .engine]

/-- The schedule of the second part of the traced run: the process is dispatched again and
executes `I{hard drive}`, `M{block}` and `A{finish}`; the method returns. -/
def tracedMore : List Action := List.replicate 7 .engine

/-- The state after the run of the engine of scenario S1 on the metadata file `costStream`
under `tracedSchedule`. -/
def tracedRun : RunState :=
  match s1Runner.runProcesses tickClock (some [costStream]) tracedSchedule with
  | .ok s => s
  | .error _ => ⟨s1Runner, .returned, []⟩

/-- The state after the run of `tracedRun` under `tracedMore`. -/
def tracedEnd : RunState :=
  match RunState.run tickClock tracedRun tracedMore with
  | .ok s => s
  | .error _ => tracedRun

/-- The state of a run of the engine of scenario S1 on the metadata file `twinStream`: the
first process is dispatched and executes `A{begin}`, then the quantum timer sets `rrFlag_`. -/
def rrPreemptState : RunState :=
  match s1Runner.runProcesses tickClock (some [twinStream])
      [.engine, .engine, .quantumExpired] with
  | .ok s => s
  | .error _ => ⟨s1Runner, .returned, []⟩

/-- The running process of `rrPreemptState`. -/
def rrPreemptProcess : Process :=
  match rrPreemptState.position with
  | .innerTest currentProcess => currentProcess
  | _ => default

/-- The sum of the times of the operations of the process from its operation index on. -/
def Process.timeOfRemaining (p : Process) : Int :=
  ((p.metaCmdVect_.drop p.getOpIndex).map MetaCommand.getTime).sum

/-- The time remaining of the process is the `int` the sum of the times of its operations
from the operation index on wraps to. -/
def Process.RemInv (p : Process) : Prop :=
  p.getProcessTimeRemain = wrapInt p.timeOfRemaining

/-- No operation of the process has a negative time, and the times of its operations sum to
less than `2 ^ 31`: no sum of times of operations of the process leaves the range of
`int`. -/
def Process.TimesInRange (p : Process) : Prop :=
  (∀ m ∈ p.metaCmdVect_, 0 ≤ m.getTime) ∧
  (p.metaCmdVect_.map MetaCommand.getTime).sum < 2147483648

instance (p : Process) : Decidable p.TimesInRange := by
  unfold Process.TimesInRange; infer_instance

/-- No cycle time of the configuration is negative. -/
def Configuration.TimesNonneg (c : Configuration) : Prop :=
  ∀ kv ∈ c.timeMap_, 0 ≤ kv.2.getTime

instance (c : Configuration) : Decidable c.TimesNonneg := by
  unfold Configuration.TimesNonneg; infer_instance

/-- The invariant of a load for the time remaining, with respect to the queue `q0` it started
from: the process object and the processes appended have operation index 0 and satisfy
`RemInv`. -/
def RemLoad (q0 : ReadyQueue) (md : MetaData) (q : ReadyQueue) : Prop :=
  md.processObj_.operationIndex_ = 0 ∧ md.processObj_.RemInv ∧
  ∃ new, q.processVect_ = q0.processVect_ ++ new ∧
    ∀ p ∈ new, p.operationIndex_ = 0 ∧ p.RemInv

/-- The metadata file `S{begin}0; A{begin}0; P{run}200000000; P{run}200000000; A{finish}0;
S{finish}0;`: with 10 ms per processor cycle each `P{run}` takes 2000000000 ms, which an
`int` holds, and the two take 4000000000 ms, which it does not. -/
def remOverflowStream : List Token :=
  [⟨"S", "begin", "0"⟩, ⟨"A", "begin", "0"⟩, ⟨"P", "run", "200000000"⟩,
   ⟨"P", "run", "200000000"⟩, ⟨"A", "finish", "0"⟩, ⟨"S", "finish", "0"⟩]

/-- The invariant of a run under STR for the configuration `cfg`. -/
structure StrInv (cfg : Configuration) (s : RunState) : Prop where
  sched : s.runner.schedCode_ = 1
  config : s.runner.configObj_ = cfg
  rem : ∀ p ∈ s.processes, p.RemInv

/-- A configuration file for STR: quantum 50 ms, processor and memory cycle 10 ms, system
memory 1000 kB, block size 400 kB. -/
def strLines : List ConfigLine :=
  [.delimiter, .command "CPU Scheduling Code" "STR", .command "System memory {kbytes}" "1000",
   .command "Memory block size {kbytes}" "400", .command "Quantum Number {msec}" "50",
   .command "Processor cycle time {msec}" "10", .command "Memory cycle time {msec}" "10",
   .delimiter]

/-- The state of the run of `strRunner` on the metadata file `twinStream` after three steps
of the engine: process 1 is dispatched and has executed `A{begin}` and `P{run}`. -/
def strMidRun : RunState :=
  match strRunner.runProcesses tickClock (some [twinStream]) [.engine, .engine, .engine] with
  | .ok s => s
  | .error _ => ⟨strRunner, .returned, []⟩

/-- Every process of `L` is in `L'` with the same pid, the same operations and an operation
index that is not smaller. -/
def Advances (L L' : List Process) : Prop :=
  ∀ p ∈ L, ∃ p' ∈ L', p'.getProcessNumber = p.getProcessNumber ∧
    p'.metaCmdVect_ = p.metaCmdVect_ ∧ p.getOpIndex ≤ p'.getOpIndex

/-- The state of the run of `strRunner` on the metadata file `twinStream` that continues
`strMidRun`: the load thread sets the STR flag, the engine preempts process 1, dispatches it
again and executes its `A{finish}`. -/
def strLateRun : RunState :=
  match RunState.run tickClock strMidRun [.strFlagSet, .engine, .engine, .engine] with
  | .ok s => s
  | .error _ => strMidRun

/-- The tokens of a stream that stand before its first `S{finish}`. -/
def tokensBeforeFinish (toks : List Token) : List Token :=
  toks.takeWhile (fun t => decide (¬ t.isCommand 'S' "finish"))

/-- The number of `A{finish}` tokens that stand before the first `S{finish}` of a stream. -/
def finishCount (toks : List Token) : Nat :=
  (tokensBeforeFinish toks).countP (fun t => decide (t.isCommand 'A' "finish"))

/-- A metadata file whose second process is not closed by `A{finish}`:
`S{begin}0; A{begin}0; P{run}1; A{finish}0; A{begin}0; P{run}2; S{finish}0`. -/
def unclosedStream : List Token :=
  [⟨"S", "begin", "0"⟩, ⟨"A", "begin", "0"⟩, ⟨"P", "run", "1"⟩, ⟨"A", "finish", "0"⟩,
   ⟨"A", "begin", "0"⟩, ⟨"P", "run", "2"⟩, ⟨"S", "finish", "0"⟩]

/-- The loader and the ready queue after the load of `unclosedStream` into a new STR queue. -/
def unclosedLoad : MetaData × ReadyQueue :=
  match (freshLoader strConfig).parseMDF (some [unclosedStream]) (ReadyQueue.new 1) with
  | .ok x => x
  | .error _ => (freshLoader strConfig, ReadyQueue.new 1)

/-- The invariant of a load for the PCB state, with respect to the queue `q0` it started
from: the process object and the processes appended have an unassigned PCB state. -/
def StateLoad (q0 : ReadyQueue) (md : MetaData) (q : ReadyQueue) : Prop :=
  md.processObj_.state_ = none ∧
  ∃ new, q.processVect_ = q0.processVect_ ++ new ∧ ∀ p ∈ new, p.state_ = none

/-- The operation is an I or O operation on the device kind named by `d`. -/
def MetaCommand.usesDevice (m : MetaCommand) (d : String) : Bool :=
  (m.code_ == 'I' || m.code_ == 'O') && m.descriptor_ == d

/-- The number of I and O operations on the device kind `d` in a list of operations. -/
def ioCount (d : String) (ops : List (MetaCommand × Int)) : Nat :=
  ops.countP (fun o => o.1.usesDevice d)

/-- The operation that a step of a run hands to `executeOperation`, with the pid of its
process: a step of the engine thread in the inner loop, for a process with operations left,
under RR with `rrFlag_` clear or under STR with `strFlag_` clear, executes the operation at
the operation index; every other step executes none. -/
def RunState.stepOperation (s : RunState) : Action → Option (MetaCommand × Int)
  | .engine =>
    match s.position with
    | .innerTest currentProcess =>
      if currentProcess.getOpIndex < currentProcess.getNumberOfCommands ∧
          ((s.runner.schedCode_ = 0 ∧ s.runner.rrFlag_ = false) ∨
           (s.runner.schedCode_ = 1 ∧ s.runner.strFlag_ = false)) then
        match currentProcess.getMetaCommand currentProcess.getOpIndex with
        | .ok cmd => some (cmd, currentProcess.getProcessNumber)
        | .error _ => none
      else none
    | _ => none
  | _ => none

/-- The operations executed during a run, in the order of their execution, each with the pid
of its process. -/
def RunState.operationsExecuted (clock : Nat → Int) :
    RunState → List Action → List (MetaCommand × Int)
  | _, [] => []
  | s, a :: rest =>
    match s.step clock a with
    | .error _ => []
    | .ok s1 => (s.stepOperation a).toList ++ RunState.operationsExecuted clock s1 rest

/-- The operations executed during `runProcesses()` under a schedule. -/
def OSprocessRunner.operationsExecuted (clock : Nat → Int) (mdf : Option (List (List Token)))
    (r : OSprocessRunner) (schedule : List Action) : List (MetaCommand × Int) :=
  match r.runProcessesStart mdf with
  | .error _ => []
  | .ok r1 =>
    RunState.operationsExecuted clock { runner := r1, position := .outerTest, completed := [] }
      schedule

/-- A metadata file with four keyboard inputs and a monitor output:
`S{begin}0; A{begin}0; I{keyboard}1; O{monitor}1; I{keyboard}1; I{keyboard}1; I{keyboard}1;
A{finish}0; S{finish}0`. -/
def ioStream : List Token :=
  [⟨"S", "begin", "0"⟩, ⟨"A", "begin", "0"⟩, ⟨"I", "keyboard", "1"⟩, ⟨"O", "monitor", "1"⟩,
   ⟨"I", "keyboard", "1"⟩, ⟨"I", "keyboard", "1"⟩, ⟨"I", "keyboard", "1"⟩,
   ⟨"A", "finish", "0"⟩, ⟨"S", "finish", "0"⟩]

/-- An engine for `fullConfig` with three keyboards, two monitors and one device of each
other kind. -/
def ioRunner : OSprocessRunner :=
  OSprocessRunner.new 0 fullConfig (fillResourceDeques Resources.initial 1 3 1 2 1)

/-- The state of the run of `ioRunner` on `ioStream` after six steps of the engine: the
process is dispatched and has executed `A{begin}`, a keyboard input, the monitor output and
two more keyboard inputs. -/
def ioRun : RunState :=
  match ioRunner.runProcesses tickClock (some [ioStream]) (List.replicate 6 .engine) with
  | .ok s => s
  | .error _ => ⟨ioRunner, .returned, []⟩

/-- A schedule under STR in which the first process executes its three operations, the load
thread then imports the metadata file and sets the STR flag, and the engine takes three more
steps: it leaves the inner loop of the first process, dispatches the next process and runs
the first iteration of its inner loop. -/
def lateFlagSchedule : List Action :=
  [.engine, .engine, .engine, .engine, .mdfLoaded (some [twinStream]), .strFlagSet,
   .engine, .engine, .engine]

/-- The state after the run of `strRunner` on the metadata file `twinStream` under
`lateFlagSchedule`. -/
def lateFlagRun : RunState :=
  match strRunner.runProcesses tickClock (some [twinStream]) lateFlagSchedule with
  | .ok s => s
  | .error _ => ⟨strRunner, .returned, []⟩

/-- The number of events `executeOperation` appends for an operation: two for `A{begin}`,
one for `A{finish}`, none for another `A` operation, two for a `P`, `M`, `I` or `O`
operation, none for any other code. -/
def MetaCommand.eventCount (m : MetaCommand) : Nat :=
  if m.code_ = 'A' then
    if m.descriptor_ = "begin" then 2 else if m.descriptor_ = "finish" then 1 else 0
  else if m.code_ = 'P' ∨ m.code_ = 'M' then 2
  else if m.code_ = 'I' ∨ m.code_ = 'O' then 2
  else 0

/-- An event appended by an operation of the process `pid`: its description does not begin
with `P` (so it is not an interruption event), and its actor is "Process <pid>" or it is one
of the three events of the actor "OS" that name the process. -/
def OperationInfo.isOperationOf (pid : Int) (e : OperationInfo) : Prop :=
  e.opDescription.data.take 1 ≠ "P".data ∧
  (e.actor = "Process " ++ toString pid ∨
   (e.actor = "OS" ∧
     (e.opDescription = "preparing process " ++ toString pid ∨
      e.opDescription = startMark pid ∨ e.opDescription = endMark pid)))

instance (pid : Int) (e : OperationInfo) : Decidable (e.isOperationOf pid) := by
  unfold OperationInfo.isOperationOf; infer_instance

/-- The interruption event that `logInterruption` appends for the process `pid`. -/
def interruptionEvent (clock : Nat → Int) (r : OSprocessRunner) (pid : Int) : OperationInfo :=
  { timeStamp := clock r.clockReads_ - r.begin_,
    actor := "Process " ++ toString pid,
    opDescription :=
      if r.schedCode_ = 0 then "Process interrupted by round robin scheduling algorithm."
      else "Process interrupted by STR scheduling algorithm." }

/-- The run under the schedule stays in the inner loop: after each of its steps the engine
stands at the test of the inner loop. -/
def RunState.staysInner (clock : Nat → Int) : RunState → List Action → Bool
  | _, [] => true
  | s, a :: rest =>
    match s.step clock a with
    | .error _ => false
    | .ok s1 =>
      match s1.position with
      | .innerTest _ => RunState.staysInner clock s1 rest
      | _ => false

/-- The events of the operations of a process from the operation index `a` up to the
operation index `b`: their number. -/
def eventsBetween (ops : List MetaCommand) (a b : Nat) : Nat :=
  (((ops.drop a).take (b - a)).map MetaCommand.eventCount).sum

/-- The state of the engine of scenario S1 at the start of the loops of `runProcesses()` on
the metadata file `twinStream`. -/
def placementStart : RunState :=
  match s1Runner.runProcessesStart (some [twinStream]) with
  | .ok r => ⟨r, .outerTest, []⟩
  | .error _ => ⟨s1Runner, .returned, []⟩

/-- The state `placementStart` after the dispatch of the first process. -/
def placementDispatched : RunState :=
  match placementStart.engineStep tickClock with
  | .ok s => s
  | .error _ => placementStart

/-- The process dispatched in `placementDispatched`. -/
def placementProcess : Process :=
  match placementDispatched.position with
  | .innerTest currentProcess => currentProcess
  | _ => default

/-- The state `placementDispatched` after the process has executed `A{begin}` and `P{run}`
and the quantum timer has set `rrFlag_`. -/
def placementSegment : RunState :=
  match RunState.run tickClock placementDispatched [.engine, .engine, .quantumExpired] with
  | .ok s => s
  | .error _ => placementDispatched

/-! # Theorems -/

/-! ## Machine integers -/

theorem wrapInt_of_range (x : Int) (h : InIntRange x) : wrapInt x = x := by
  unfold InIntRange at h
  unfold wrapInt
  omega

theorem wrapInt_range (x : Int) : InIntRange (wrapInt x) := by
  unfold InIntRange wrapInt
  omega

theorem wrapInt_zero : wrapInt 0 = 0 := by decide

theorem wrapInt_wrapInt_add (a b : Int) : wrapInt (wrapInt a + b) = wrapInt (a + b) := by
  unfold wrapInt
  omega

theorem wrapInt_wrapInt_sub (a b : Int) : wrapInt (wrapInt a - b) = wrapInt (a - b) := by
  unfold wrapInt
  omega

theorem wrapInt_nonneg_iff (x : Int) (h : InIntRange x) : 0 ≤ wrapInt x ↔ 0 ≤ x := by
  rw [wrapInt_of_range x h]

theorem clampLong_of_range (x : Int) (h : InIntRange x) : clampLong x = x := by
  unfold InIntRange at h
  unfold clampLong
  rw [if_neg (by omega), if_neg (by omega)]

theorem clampLong_zero : clampLong 0 = 0 := by decide

/-! ## The selection sort of the ready queue -/

theorem scanMin_spec (v : List Process) (s : Nat) :
    ∀ (n i m : Nat) (t : Process), t = v.getD m default → s ≤ m → m < i →
      (∀ k, s ≤ k → k < i → t.getProcessTimeRemain ≤ keyAt v k) →
      (∀ k, s ≤ k → k < m → t.getProcessTimeRemain < keyAt v k) →
      (scanMin v n i m t).2 = v.getD (scanMin v n i m t).1 default ∧
      s ≤ (scanMin v n i m t).1 ∧ (scanMin v n i m t).1 < i + n ∧
      (∀ k, s ≤ k → k < i + n → (scanMin v n i m t).2.getProcessTimeRemain ≤ keyAt v k) ∧
      (∀ k, s ≤ k → k < (scanMin v n i m t).1 →
        (scanMin v n i m t).2.getProcessTimeRemain < keyAt v k) := by
  intro n
  induction n with
  | zero =>
    intro i m t ht hsm hmi hle hlt
    exact ⟨ht, hsm, by simpa [scanMin] using hmi, by simpa [scanMin] using hle,
      by simpa [scanMin] using hlt⟩
  | succ n ih =>
    intro i m t ht hsm hmi hle hlt
    unfold scanMin
    split
    · rename_i hlt'
      have h := ih (i + 1) i (v.getD i default) rfl (by omega) (by omega)
        (by
          intro k hk1 hk2
          by_cases hki : k = i
          · subst hki; exact le_refl _
          · have := hle k hk1 (by omega)
            unfold keyAt at this ⊢
            omega)
        (by
          intro k hk1 hk2
          have := hle k hk1 hk2
          unfold keyAt at this ⊢
          omega)
      obtain ⟨h1, h2, h3, h4, h5⟩ := h
      refine ⟨h1, h2, by omega, ?_, h5⟩
      intro k hk1 hk2
      exact h4 k hk1 (by omega)
    · rename_i hnlt
      have h := ih (i + 1) m t ht hsm (by omega)
        (by
          intro k hk1 hk2
          by_cases hki : k = i
          · subst hki; unfold keyAt; omega
          · exact hle k hk1 (by omega))
        hlt
      obtain ⟨h1, h2, h3, h4, h5⟩ := h
      refine ⟨h1, h2, by omega, ?_, h5⟩
      intro k hk1 hk2
      exact h4 k hk1 (by omega)

theorem sortPasses_succ (n s : Nat) (v : List Process) :
    sortPasses (n + 1) s v = sortPasses n (s + 1) (sortPass s v) := rfl

theorem getD_swap {α : Type} (d : α) (v : List α) (i j k : Nat) (hi : i < v.length)
    (hj : j < v.length) :
    ((v.set j (v.getD i d)).set i (v.getD j d)).getD k d =
      if k = i then v.getD j d else if k = j then v.getD i d else v.getD k d := by
  simp only [List.getD_eq_getElem?_getD, List.getElem?_set, List.length_set]
  by_cases h1 : i = k
  · subst h1; simp [hi]
  · by_cases h2 : j = k
    · subst h2; simp [h1, hj, Ne.symm h1]
    · simp [h1, h2, Ne.symm h1, Ne.symm h2]

theorem cons_set_perm {α : Type} (x : α) :
    ∀ (xs : List α) (j : Nat) (hj : j < xs.length), (xs[j] :: xs.set j x).Perm (x :: xs) := by
  intro xs
  induction xs with
  | nil => intro j hj; simp at hj
  | cons y ys ih =>
    intro j hj
    cases j with
    | zero => simpa using List.Perm.swap x y ys
    | succ j =>
      have hj' : j < ys.length := by simpa using hj
      have h := ih j hj'
      simp only [List.getElem_cons_succ, List.set_cons_succ]
      exact ((List.Perm.swap y (ys[j]) (ys.set j x)).trans (h.cons y)).trans
        (List.Perm.swap x y ys)

theorem swap_perm {α : Type} (d : α) :
    ∀ (v : List α) (i j : Nat), i < v.length → j < v.length →
      ((v.set j (v.getD i d)).set i (v.getD j d)).Perm v := by
  intro v
  induction v with
  | nil => intro i j hi; simp at hi
  | cons x xs ih =>
    intro i j hi hj
    cases i with
    | zero =>
      cases j with
      | zero => simp
      | succ j =>
        have hj' : j < xs.length := by simpa using hj
        have := cons_set_perm x xs j hj'
        simpa [hj'] using this
    | succ i =>
      have hi' : i < xs.length := by simpa using hi
      cases j with
      | zero =>
        have := cons_set_perm x xs i hi'
        simpa [hi'] using this
      | succ j =>
        have hj' : j < xs.length := by simpa using hj
        have := ih i j hi' hj'
        simpa using this


theorem sortPass_spec (s : Nat) (v : List Process) (hs : s < v.length) :
    ∃ idx, s ≤ idx ∧ idx < v.length ∧
      (∀ k, s ≤ k → k < v.length → keyAt v idx ≤ keyAt v k) ∧
      (∀ k, s ≤ k → k < idx → keyAt v idx < keyAt v k) ∧
      sortPass s v = (v.set idx (v.getD s default)).set s (v.getD idx default) := by
  have h := scanMin_spec v s (v.length - (s + 1)) (s + 1) s (v.getD s default) rfl (le_refl _)
    (by omega)
    (by
      intro k hk1 hk2
      have : k = s := by omega
      subst this
      exact le_refl _)
    (by intro k hk1 hk2; omega)
  obtain ⟨h1, h2, h3, h4, h5⟩ := h
  have hlen : s + 1 + (v.length - (s + 1)) = v.length := by omega
  rw [hlen] at h3 h4
  refine ⟨_, h2, h3, ?_, ?_, ?_⟩
  · intro k hk1 hk2
    have := h4 k hk1 hk2
    rw [h1] at this
    exact this
  · intro k hk1 hk2
    have := h5 k hk1 hk2
    rw [h1] at this
    exact this
  · unfold sortPass
    simp only []
    rw [h1]

theorem sortPass_of_length_le (s : Nat) (v : List Process) (hs : v.length ≤ s) :
    sortPass s v = v := by
  unfold sortPass
  have h0 : v.length - (s + 1) = 0 := by omega
  simp only [h0, scanMin]
  rw [List.set_eq_of_length_le hs, List.set_eq_of_length_le hs]

theorem sortPass_perm (s : Nat) (v : List Process) : (sortPass s v).Perm v := by
  by_cases hs : s < v.length
  · obtain ⟨idx, _, h2, _, _, h5⟩ := sortPass_spec s v hs
    rw [h5]
    exact swap_perm default v s idx hs h2
  · rw [sortPass_of_length_le s v (by omega)]

theorem sortPasses_perm : ∀ (n s : Nat) (v : List Process), (sortPasses n s v).Perm v := by
  intro n
  induction n with
  | zero => intro s v; exact List.Perm.refl _
  | succ n ih =>
    intro s v
    rw [sortPasses_succ]
    exact (ih (s + 1) (sortPass s v)).trans (sortPass_perm s v)

theorem sortPass_prefixSorted (s : Nat) (v : List Process) (hs : s < v.length)
    (h : PrefixSorted s v) : PrefixSorted (s + 1) (sortPass s v) := by
  obtain ⟨idx, h1, h2, h3, _, h5⟩ := sortPass_spec s v hs
  intro i j hi hij hj
  rw [h5] at hj ⊢
  simp only [List.length_set] at hj
  unfold keyAt
  rw [getD_swap default v s idx i hs h2, getD_swap default v s idx j hs h2]
  have key : ∀ a b, keyAt v a = b → (v.getD a default).getProcessTimeRemain = b := fun _ _ h => h
  by_cases his : i = s
  · subst his
    simp only [if_true]
    have hjs : j ≠ i := by omega
    simp only [hjs, if_false]
    by_cases hji : j = idx
    · simp only [hji, if_true]
      exact h3 i (le_refl _) hs
    · simp only [hji, if_false]
      exact h3 j (by omega) hj
  · have hidx : i ≠ idx := by omega
    simp only [his, hidx, if_false]
    by_cases hjs : j = s
    · simp only [hjs, if_true]
      exact h i idx (by omega) (by omega) h2
    · simp only [hjs, if_false]
      by_cases hji : j = idx
      · simp only [hji, if_true]
        exact h i s (by omega) (by omega) hs
      · simp only [hji, if_false]
        exact h i j (by omega) hij hj

theorem sortPasses_length (n s : Nat) (v : List Process) :
    (sortPasses n s v).length = v.length := (sortPasses_perm n s v).length_eq

theorem sortPasses_prefixSorted :
    ∀ (n s : Nat) (v : List Process), s + n < v.length → PrefixSorted s v →
      PrefixSorted (s + n) (sortPasses n s v) := by
  intro n
  induction n with
  | zero => intro s v _ h; exact h
  | succ n ih =>
    intro s v hlt h
    rw [sortPasses_succ]
    have hlen : (sortPass s v).length = v.length := (sortPass_perm s v).length_eq
    have := ih (s + 1) (sortPass s v) (by omega) (sortPass_prefixSorted s v (by omega) h)
    have e : s + 1 + n = s + (n + 1) := by omega
    rw [e] at this
    exact this

theorem sortPasses_sorted (v : List Process) :
    (sortPasses (v.length - 1) 0 v).Pairwise
      (fun a b => a.getProcessTimeRemain ≤ b.getProcessTimeRemain) := by
  rw [List.pairwise_iff_getElem]
  intro i j hi hj hij
  have hlen := sortPasses_length (v.length - 1) 0 v
  have hpos : 0 < v.length := by omega
  have h := sortPasses_prefixSorted (v.length - 1) 0 v (by omega)
    (by intro i j hi; omega)
  have := h i j (by omega) hij hj
  unfold keyAt at this
  rw [List.getD_eq_getElem _ _ hi, List.getD_eq_getElem _ _ hj] at this
  exact this


theorem sortPass_getD_lt (s k : Nat) (v : List Process) (hk : k < s) :
    (sortPass s v).getD k default = v.getD k default := by
  by_cases hs : s < v.length
  · obtain ⟨idx, h1, h2, _, _, h5⟩ := sortPass_spec s v hs
    rw [h5, getD_swap default v s idx k hs h2]
    have e1 : k ≠ s := by omega
    have e2 : k ≠ idx := by omega
    simp only [e1, e2, if_false]
  · rw [sortPass_of_length_le s v (by omega)]

theorem sortPasses_getD_lt :
    ∀ (n s k : Nat) (v : List Process), k < s →
      (sortPasses n s v).getD k default = v.getD k default := by
  intro n
  induction n with
  | zero => intro s k v _; rfl
  | succ n ih =>
    intro s k v hk
    rw [sortPasses_succ, ih (s + 1) k (sortPass s v) (by omega), sortPass_getD_lt s k v hk]

theorem sortPasses_head (v : List Process) (hv : 0 < v.length) :
    ∃ idx, idx < v.length ∧
      (∀ k, k < v.length → keyAt v idx ≤ keyAt v k) ∧
      (∀ k, k < idx → keyAt v idx < keyAt v k) ∧
      (sortPasses (v.length - 1) 0 v).getD 0 default = v.getD idx default := by
  obtain ⟨idx, _, h2, h3, h4, h5⟩ := sortPass_spec 0 v hv
  refine ⟨idx, h2, fun k hk => h3 k (Nat.zero_le _) hk, fun k hk => h4 k (Nat.zero_le _) hk, ?_⟩
  have hhead : (sortPass 0 v).getD 0 default = v.getD idx default := by
    rw [h5, getD_swap default v 0 idx 0 hv h2]
    simp
  cases hn : v.length - 1 with
  | zero =>
    have hlen : v.length = 1 := by omega
    have hidx : idx = 0 := by omega
    subst hidx
    rfl
  | succ n =>
    rw [sortPasses_succ, sortPasses_getD_lt n 1 0 (sortPass 0 v) (by omega), hhead]

theorem filter_cons_set {α : Type} (p : α → Bool) (x : α) (hx : p x = false) :
    ∀ (xs : List α) (j : Nat) (hj : j < xs.length),
      (∀ k (hk : k < j), p (xs[k]) = false) →
      (xs[j] :: xs.set j x).filter p = xs.filter p := by
  intro xs
  induction xs with
  | nil => intro j hj; simp at hj
  | cons y ys ih =>
    intro j hj hall
    cases j with
    | zero => simp [List.filter_cons, hx]
    | succ j =>
      have hj' : j < ys.length := by simpa using hj
      have hy : p y = false := by simpa using hall 0 (by omega)
      have h := ih j hj' (by
        intro k hk
        simpa using hall (k + 1) (by omega))
      simp only [List.getElem_cons_succ, List.set_cons_succ]
      simp only [List.filter_cons, hy] at h ⊢
      exact h

theorem swap_filter {α : Type} (d : α) (p : α → Bool) :
    ∀ (v : List α) (i j : Nat), i < j → j < v.length →
      (∀ k, i ≤ k → k < j → p (v.getD k d) = false) →
      ((v.set j (v.getD i d)).set i (v.getD j d)).filter p = v.filter p := by
  intro v
  induction v with
  | nil => intro i j _ hj; simp at hj
  | cons x xs ih =>
    intro i j hij hj hall
    cases j with
    | zero => omega
    | succ j =>
      have hj' : j < xs.length := by simpa using hj
      cases i with
      | zero =>
        have hx : p x = false := by simpa using hall 0 (le_refl _) (by omega)
        have h := filter_cons_set p x hx xs j hj' (by
          intro k hk
          have := hall (k + 1) (by omega) (by omega)
          have hk' : k < xs.length := by omega
          simpa [hk'] using this)
        simp only [List.getD_eq_getElem?_getD, List.getElem?_cons_succ, List.getElem?_cons_zero,
          List.set_cons_succ, List.set_cons_zero, Option.getD_some]
        rw [List.getElem?_eq_getElem hj', Option.getD_some, h]
        simp [List.filter_cons, hx]
      | succ i =>
        have h := ih i j (by omega) hj' (by
          intro k hk1 hk2
          have := hall (k + 1) (by omega) (by omega)
          simpa using this)
        simp only [List.getD_eq_getElem?_getD, List.getElem?_cons_succ,
          List.set_cons_succ] at h ⊢
        simp only [List.filter_cons, h]

theorem set_getD_same {α : Type} (d : α) (v : List α) (i : Nat) :
    v.set i (v.getD i d) = v := by
  apply List.ext_getElem?
  intro k
  rw [List.getElem?_set]
  by_cases hik : i = k
  · subst hik
    by_cases hi : i < v.length
    · simp [hi, List.getD_eq_getElem _ _ hi, List.getElem?_eq_getElem hi]
    · simp [hi, List.getElem?_eq_none (Nat.le_of_not_lt hi)]
  · simp [hik]

theorem keyAt_of_lt (v : List Process) (k : Nat) (hk : k < v.length) :
    keyAt v k = (v[k]).getProcessTimeRemain := by
  unfold keyAt
  rw [List.getD_eq_getElem _ _ hk]

theorem sortPass_withKey_min (s : Nat) (v : List Process) (m : Int)
    (hmin : ∀ p ∈ v, m ≤ p.getProcessTimeRemain) :
    withKey m (sortPass s v) = withKey m v := by
  by_cases hs : s < v.length
  · obtain ⟨idx, h1, h2, h3, h4, h5⟩ := sortPass_spec s v hs
    rw [h5]
    by_cases hidx : idx = s
    · subst hidx
      rw [set_getD_same, set_getD_same]
    · unfold withKey
      apply swap_filter default _ v s idx (by omega) h2
      intro k hk1 hk2
      have hlt := h4 k hk1 hk2
      have hm : m ≤ keyAt v idx := by
        rw [keyAt_of_lt v idx h2]
        exact hmin _ (List.getElem_mem h2)
      have hne : (v.getD k default).getProcessTimeRemain ≠ m := by
        unfold keyAt at hlt hm
        omega
      simpa using hne
  · rw [sortPass_of_length_le s v (by omega)]

theorem sortPasses_withKey_min :
    ∀ (n s : Nat) (v : List Process) (m : Int), (∀ p ∈ v, m ≤ p.getProcessTimeRemain) →
      withKey m (sortPasses n s v) = withKey m v := by
  intro n
  induction n with
  | zero => intro s v m _; rfl
  | succ n ih =>
    intro s v m hmin
    rw [sortPasses_succ, ih (s + 1) (sortPass s v) m, sortPass_withKey_min s v m hmin]
    intro p hp
    exact hmin p ((sortPass_perm s v).mem_iff.mp hp)

theorem sortReadyQueue_str (q : ReadyQueue) (hq : q.schedCode_ = 1) :
    q.sortReadyQueue.processVect_ = sortPasses (q.processVect_.length - 1) 0 q.processVect_ := by
  unfold ReadyQueue.sortReadyQueue
  simp [hq]

/-! ### C1 -/

/-- C1: under policy STR, for every ready queue (of any length, the empty queue and the
one-process queue included) the queue left by `sortReadyQueue` is a permutation of the
original processes and its times remaining are non-decreasing from head to tail. -/
theorem sortReadyQueue_perm_sorted (q : ReadyQueue) (hq : q.schedCode_ = 1) :
    q.sortReadyQueue.processVect_.Perm q.processVect_ ∧
    q.sortReadyQueue.processVect_.Pairwise
      (fun a b => a.getProcessTimeRemain ≤ b.getProcessTimeRemain) := by
  rw [sortReadyQueue_str q hq]
  exact ⟨sortPasses_perm _ _ _, sortPasses_sorted _⟩

/-- Witness of C1 on the queue A, B, C with times remaining 2, 2, 1. -/
theorem sortReadyQueue_perm_sorted_witness :
    queueABC.schedCode_ = 1 ∧
    (queueABC.sortReadyQueue.processVect_.Perm queueABC.processVect_ ∧
      queueABC.sortReadyQueue.processVect_.Pairwise
        (fun a b => a.getProcessTimeRemain ≤ b.getProcessTimeRemain)) :=
  ⟨rfl, sortReadyQueue_perm_sorted queueABC rfl⟩

/-! ### C2 -/

/-- C2, counterexample: the STR sort is not stable.  In the queue A, B, C with times
remaining 2, 2, 1 process A stands before process B and both have 2 ms remaining; the sort
leaves C, B, A, where B stands before A. -/
theorem sortReadyQueue_not_stable :
    procA.getProcessTimeRemain = procB.getProcessTimeRemain ∧
    queueABC.processVect_.indexOf procA < queueABC.processVect_.indexOf procB ∧
    queueABC.sortReadyQueue.processVect_ = [procC, procB, procA] ∧
    queueABC.sortReadyQueue.processVect_.indexOf procB <
      queueABC.sortReadyQueue.processVect_.indexOf procA ∧
    withKey 2 queueABC.sortReadyQueue.processVect_ ≠ withKey 2 queueABC.processVect_ := by
  decide

/-- C2, amended: under policy STR the processes that hold the smallest time remaining of
the queue keep their relative order through `sortReadyQueue` (first-seen wins among them):
the sequence of the processes with time remaining `m` is the same before and after the sort
whenever no process has less than `m` remaining. -/
theorem sortReadyQueue_stable_on_min (q : ReadyQueue) (hq : q.schedCode_ = 1) (m : Int)
    (hmin : ∀ p ∈ q.processVect_, m ≤ p.getProcessTimeRemain) :
    withKey m q.sortReadyQueue.processVect_ = withKey m q.processVect_ := by
  rw [sortReadyQueue_str q hq]
  exact sortPasses_withKey_min _ _ _ m hmin

/-- Witness of the amended C2 on the queue A, C, C' with times remaining 2, 1, 1. -/
theorem sortReadyQueue_stable_on_min_witness :
    queueACC.schedCode_ = 1 ∧ (∀ p ∈ queueACC.processVect_, (1 : Int) ≤ p.getProcessTimeRemain) ∧
    withKey 1 queueACC.sortReadyQueue.processVect_ = withKey 1 queueACC.processVect_ :=
  ⟨rfl, by decide, sortReadyQueue_stable_on_min queueACC rfl 1 (by decide)⟩

/-! ### C3 -/

theorem innerLoopBody_str_preempt (clock : Nat → Int) (r : OSprocessRunner) (cur : Process)
    (hs : r.schedCode_ = 1) (hf : r.strFlag_ = true) :
    ∃ r', r.innerLoopBody clock cur = .ok (r', cur, true) ∧
      r'.readyQ_ = (r.readyQ_.insertProcess cur).sortReadyQueue ∧ r'.strFlag_ = false := by
  refine ⟨OSprocessRunner.logInterruption clock
    { r with strFlag_ := false, readyQ_ := (r.readyQ_.insertProcess cur).sortReadyQueue }
    cur.getProcessNumber, ?_, rfl, rfl⟩
  unfold OSprocessRunner.innerLoopBody
  simp only [hs, hf]
  rfl

/-- C3, counterexample: in the run `tieScenario` (two processes with 10 ms each are loaded,
process 1 executes `A{begin}`, a batch with processes 3 and 4 arrives and sets the STR flag)
the preemption step leaves the queue 2, 3, 4, 1, every process with 10 ms remaining: the
head, dispatched next, is process 2 although process 1 has the same smallest time remaining
and a smaller pid. -/
theorem str_preempt_head_not_smallest_pid :
    tieScenario.toOption.map (fun x => (x.1.schedCode_, x.1.strFlag_, x.2.getProcessNumber)) =
      some (1, true, 1) ∧
    (tieScenario.toOption.bind
        (fun x => (x.1.innerLoopBody tickClock x.2).toOption)).map
      (fun y => (y.1.readyQ_.processVect_.map
        (fun p => (p.getProcessNumber, p.getProcessTimeRemain)), y.2.2)) =
      some ([(2, 10), (3, 10), (4, 10), (1, 10)], true) := by
  decide

/-- C3, amended: under STR, a preemption step (STR flag set) clears the flag, appends the
running process to the queue and sorts it; afterwards the head of the queue, the next
process dispatched, has the smallest time remaining of all queued processes, and among the
processes having that smallest time remaining it is the one that stood first in the queue
as it was with the running process appended at the tail (not the one with the smallest
pid). -/
theorem str_preempt_head (clock : Nat → Int) (r : OSprocessRunner) (cur : Process)
    (hs : r.schedCode_ = 1) (hq : r.readyQ_.schedCode_ = 1) (hf : r.strFlag_ = true) :
    ∃ (r' : OSprocessRunner) (h : Process) (idx : Nat), r.innerLoopBody clock cur = .ok (r', cur, true) ∧
      r'.strFlag_ = false ∧
      r'.readyQ_.processVect_.Perm (r.readyQ_.processVect_ ++ [cur]) ∧
      r'.readyQ_.processVect_.head? = some h ∧
      (∀ p ∈ r'.readyQ_.processVect_, h.getProcessTimeRemain ≤ p.getProcessTimeRemain) ∧
      (r.readyQ_.processVect_ ++ [cur])[idx]? = some h ∧
      (∀ (k : Nat) (p : Process), k < idx → (r.readyQ_.processVect_ ++ [cur])[k]? = some p →
        h.getProcessTimeRemain < p.getProcessTimeRemain) := by
  obtain ⟨r', hstep, hrq, hflag⟩ := innerLoopBody_str_preempt clock r cur hs hf
  have hv : (r.readyQ_.insertProcess cur).processVect_ = r.readyQ_.processVect_ ++ [cur] := rfl
  have hsorted : r'.readyQ_.processVect_ =
      sortPasses ((r.readyQ_.processVect_ ++ [cur]).length - 1) 0
        (r.readyQ_.processVect_ ++ [cur]) := by
    rw [hrq, sortReadyQueue_str _ (by exact hq), hv]
  have hpos : 0 < (r.readyQ_.processVect_ ++ [cur]).length := by simp
  obtain ⟨idx, hidx, hle, hlt, hhead⟩ := sortPasses_head (r.readyQ_.processVect_ ++ [cur]) hpos
  have hperm := sortPasses_perm ((r.readyQ_.processVect_ ++ [cur]).length - 1) 0
    (r.readyQ_.processVect_ ++ [cur])
  have hlen := hperm.length_eq
  refine ⟨r', (r.readyQ_.processVect_ ++ [cur])[idx], idx, hstep, hflag, ?_, ?_, ?_, ?_, ?_⟩
  · rw [hsorted]; exact hperm
  · rw [hsorted]
    rw [List.getD_eq_getElem _ _ (by omega), List.getD_eq_getElem _ _ hidx] at hhead
    rw [← hhead, List.head?_eq_getElem?, List.getElem?_eq_getElem (by omega)]
  · intro p hp
    rw [hsorted] at hp
    have hp' := hperm.mem_iff.mp hp
    obtain ⟨k, hk, hkp⟩ := List.getElem_of_mem hp'
    have := hle k hk
    rw [keyAt_of_lt _ _ hidx, keyAt_of_lt _ _ hk, hkp] at this
    exact this
  · exact List.getElem?_eq_getElem hidx
  · intro k p hk hkp
    have hk' : k < (r.readyQ_.processVect_ ++ [cur]).length := by omega
    have := hlt k hk
    rw [keyAt_of_lt _ _ hidx, keyAt_of_lt _ _ hk'] at this
    rw [List.getElem?_eq_getElem hk'] at hkp
    rw [← Option.some.inj hkp]
    exact this

/-- Witness of the amended C3 on the engine state and running process of `tieScenario`
(ready queue 2, 3, 4 and running process 1, each with 10 ms remaining). -/
theorem str_preempt_head_witness :
    tieState.1.schedCode_ = 1 ∧ tieState.1.readyQ_.schedCode_ = 1 ∧
    tieState.1.strFlag_ = true ∧
    ∃ (r' : OSprocessRunner) (h : Process) (idx : Nat),
      tieState.1.innerLoopBody tickClock tieState.2 = .ok (r', tieState.2, true) ∧
      r'.strFlag_ = false ∧
      r'.readyQ_.processVect_.Perm (tieState.1.readyQ_.processVect_ ++ [tieState.2]) ∧
      r'.readyQ_.processVect_.head? = some h ∧
      (∀ p ∈ r'.readyQ_.processVect_, h.getProcessTimeRemain ≤ p.getProcessTimeRemain) ∧
      (tieState.1.readyQ_.processVect_ ++ [tieState.2])[idx]? = some h ∧
      (∀ (k : Nat) (p : Process), k < idx →
        (tieState.1.readyQ_.processVect_ ++ [tieState.2])[k]? = some p →
        h.getProcessTimeRemain < p.getProcessTimeRemain) :=
  ⟨by decide, by decide, by decide,
    str_preempt_head tickClock tieState.1 tieState.2 (by decide) (by decide) (by decide)⟩

/-! ## The memory allocator -/

@[simp] theorem memory_tick (r : OSprocessRunner) : r.tick.memory = r.memory := rfl
@[simp] theorem memory_pushOperation (r : OSprocessRunner) (e : OperationInfo) :
    (r.pushOperation e).memory = r.memory := rfl
@[simp] theorem memory_countDown (r : OSprocessRunner) (t : Int) :
    (r.countDown t).memory = r.memory := rfl

theorem memory_executeApplication (clock : Nat → Int) (r : OSprocessRunner) (d : String)
    (pid : Int) : (r.executeApplication clock d pid).memory = r.memory := by
  unfold OSprocessRunner.executeApplication
  split_ifs <;> simp

theorem memory_inputOutput (r : OSprocessRunner) (time : Int) (d res : String)
    (io : OSprocessRunner × String) (h : r.inputOutput time d res = .ok io) :
    io.1.memory = r.memory := by
  unfold OSprocessRunner.inputOutput at h
  simp only [] at h
  split at h
  · exact absurd h (by simp)
  · simp only [Except.ok.injEq] at h
    rw [← h]
    rfl

theorem memory_executeInputOutput (clock : Nat → Int) (r r' : OSprocessRunner) (c : Char)
    (d : String) (time pid : Int) (h : r.executeInputOutput clock c d time pid = .ok r') :
    r'.memory = r.memory := by
  unfold OSprocessRunner.executeInputOutput at h
  simp only [] at h
  split at h
  · exact absurd h (by simp)
  · rename_i io hio
    simp only [Except.ok.injEq] at h
    rw [← h]
    simp only [memory_pushOperation, memory_tick]
    rw [memory_inputOutput _ _ _ _ _ hio]
    rfl

theorem memory_executeProcessorMemory (clock : Nat → Int) (r : OSprocessRunner) (d : String)
    (time pid : Int) (hd : d ≠ "allocate") :
    (r.executeProcessorMemory clock d time pid).memory = r.memory := by
  unfold OSprocessRunner.executeProcessorMemory
  simp only [hd, if_false]
  split_ifs <;> simp

theorem memory_executeOperation (clock : Nat → Int) (r r' : OSprocessRunner)
    (cmd : MetaCommand) (pid : Int) (hn : cmd.allocates = false)
    (h : r.executeOperation clock cmd pid = .ok r') : r'.memory = r.memory := by
  unfold OSprocessRunner.executeOperation at h
  simp only [MetaCommand.getCode, MetaCommand.getDescriptor, MetaCommand.getTime] at h
  split_ifs at h with h1 h2 h3
  · simp only [Except.ok.injEq] at h
    rw [← h, memory_executeApplication]; rfl
  · simp only [Except.ok.injEq] at h
    have hd : cmd.descriptor_ ≠ "allocate" := by
      intro hd
      unfold MetaCommand.allocates at hn
      rcases h2 with h2 | h2 <;> simp [h2, hd] at hn
    rw [← h, memory_executeProcessorMemory _ _ _ _ _ hd]; rfl
  · rw [memory_executeInputOutput _ _ _ _ _ _ _ h]; rfl
  · simp only [Except.ok.injEq] at h
    rw [← h]; rfl

theorem nextAddress_closed (n : Nat) (b S : Int) (hb : 1 ≤ b) (hS : 0 ≤ S) :
    nextAddress ((n : Int) % (S / b + 1) * b) b S = ((n + 1 : Nat) : Int) % (S / b + 1) * b := by
  have hbpos : 0 < b := by omega
  have hq : 0 ≤ S / b := Int.ediv_nonneg hS (by omega)
  have hP : 0 < S / b + 1 := by omega
  have hm0 : 0 ≤ (n : Int) % (S / b + 1) := Int.emod_nonneg _ (by omega)
  have hm1 : (n : Int) % (S / b + 1) < S / b + 1 := Int.emod_lt_of_pos _ hP
  have hstep : ((n + 1 : Nat) : Int) % (S / b + 1) =
      ((n : Int) % (S / b + 1) + 1) % (S / b + 1) := by
    rw [Int.emod_add_emod]
    push_cast
    rfl
  rw [hstep]
  generalize (n : Int) % (S / b + 1) = m at hm0 hm1
  unfold nextAddress
  by_cases hle : m + 1 ≤ S / b
  · have h1 : (m + 1) * b ≤ S := (Int.le_ediv_iff_mul_le hbpos).mp hle
    have h2 : ¬ (m * b + b > S) := by
      have : (m + 1) * b = m * b + b := by ring
      omega
    rw [if_neg h2, Int.emod_eq_of_lt (by omega) (by omega)]
    ring
  · have hm : m + 1 = S / b + 1 := by omega
    have h1 : ¬ ((m + 1) * b ≤ S) := fun h => hle ((Int.le_ediv_iff_mul_le hbpos).mpr h)
    have h2 : m * b + b > S := by
      have : (m + 1) * b = m * b + b := by ring
      omega
    rw [if_pos h2, hm, Int.emod_self]
    ring

theorem executeOperation_allocates (clock : Nat → Int) (r : OSprocessRunner)
    (cmd : MetaCommand) (pid : Int) (h : cmd.allocates = true) :
    ∃ r' e1 e2, r.executeOperation clock cmd pid = .ok r' ∧
      r'.operationsVect_ = r.operationsVect_ ++ [e1, e2] ∧
      e1.opDescription = "allocating memory" ∧
      e2.opDescription = "memory allocated at " ++ hexAddress r.memAddress_ ∧
      r'.memory = (nextAddress r.memAddress_ r.memoryBlockSize_ r.systemMemorySize_,
        r.memoryBlockSize_, r.systemMemorySize_) := by
  unfold MetaCommand.allocates at h
  simp only [Bool.and_eq_true, Bool.or_eq_true, beq_iff_eq] at h
  obtain ⟨hc, hd⟩ := h
  have hA : cmd.code_ ≠ 'A' := by
    rcases hc with hc | hc <;> rw [hc] <;> decide
  have s1 : ¬ ("allocate" = "run") := by decide
  have s2 : ¬ ("allocate" = "block") := by decide
  refine ⟨OSprocessRunner.executeProcessorMemory clock { r with timerComplete_ := false }
      "allocate" cmd.time_ pid,
    { timeStamp := clock r.clockReads_ - r.begin_,
               actor := "Process " ++ toString pid, opDescription := "allocating memory" },
    { timeStamp := clock (r.clockReads_ + 1) - r.begin_, actor := "Process " ++ toString pid,
      opDescription := "memory allocated at " ++ hexAddress r.memAddress_ }, ?_, ?_, rfl, rfl, ?_⟩
  · unfold OSprocessRunner.executeOperation
    simp only [MetaCommand.getCode, MetaCommand.getDescriptor, hA, hc, hd, if_false, if_true]
    rfl
  · unfold OSprocessRunner.executeProcessorMemory OSprocessRunner.advanceMemAddress
    simp only [s1, s2, if_false, if_true]
    split_ifs <;> simp [OSprocessRunner.pushOperation, OSprocessRunner.tick,
      OSprocessRunner.countDown, OSprocessRunner.timeStamp]
  · unfold OSprocessRunner.executeProcessorMemory OSprocessRunner.advanceMemAddress nextAddress
    simp only [s1, s2, if_false, if_true]
    simp only [OSprocessRunner.pushOperation, OSprocessRunner.tick,
      OSprocessRunner.countDown, OSprocessRunner.timeStamp, OSprocessRunner.memory]
    split_ifs <;> rfl

theorem countAllocations_cons (o : MetaCommand × Int) (ops : List (MetaCommand × Int)) :
    countAllocations (o :: ops) = countAllocations ops + (if o.1.allocates then 1 else 0) := by
  unfold countAllocations
  rw [List.countP_cons]

theorem executeOperations_memory (clock : Nat → Int) (b S : Int) (hb : 1 ≤ b) (hS : 0 ≤ S) :
    ∀ (ops : List (MetaCommand × Int)) (r r' : OSprocessRunner) (n : Nat),
      r.memory = ((n : Int) % (S / b + 1) * b, b, S) →
      r.executeOperations clock ops = .ok r' →
      r'.memory = (((n + countAllocations ops : Nat) : Int) % (S / b + 1) * b, b, S) := by
  intro ops
  induction ops with
  | nil =>
    intro r r' n hm h
    simp only [OSprocessRunner.executeOperations, Except.ok.injEq] at h
    rw [← h, hm]
    rfl
  | cons o rest ih =>
    intro r r' n hm h
    obtain ⟨cmd, pid⟩ := o
    rw [countAllocations_cons]
    unfold OSprocessRunner.executeOperations at h
    by_cases ha : cmd.allocates = true
    · obtain ⟨r1, e1, e2, hex, _, _, _, hmem⟩ := executeOperation_allocates clock r cmd pid ha
      rw [hex] at h
      simp only [] at h
      have hr : r.memAddress_ = (n : Int) % (S / b + 1) * b ∧ r.memoryBlockSize_ = b ∧
          r.systemMemorySize_ = S := by
        unfold OSprocessRunner.memory at hm
        simpa using hm
      rw [hr.1, hr.2.1, hr.2.2, nextAddress_closed n b S hb hS] at hmem
      have := ih r1 r' (n + 1) hmem h
      simp only [ha, if_true]
      rw [this]
      congr 3
      omega
    · have ha' : cmd.allocates = false := by simpa using ha
      split at h
      · exact absurd h (by simp)
      · rename_i r1 hex
        have hmem := memory_executeOperation clock r r1 cmd pid ha' hex
        rw [hm] at hmem
        have := ih r1 r' n hmem h
        simp only [ha', Bool.false_eq_true, if_false, Nat.add_zero]
        exact this

theorem memory_runProcessesStart (mdf : Option (List (List Token))) (r0 r1 : OSprocessRunner)
    (h : r0.runProcessesStart mdf = .ok r1) : r1.memAddress_ = 0 := by
  unfold OSprocessRunner.runProcessesStart OSprocessRunner.importMDF at h
  simp only [] at h
  split at h
  · exact absurd h (by simp)
  · rename_i r2 h2
    split at h2
    · exact absurd h2 (by simp)
    · simp only [Except.ok.injEq] at h2
      split_ifs at h
      all_goals
        simp only [Except.ok.injEq] at h
        rw [← h, ← h2]

/-! ### C4 -/

/-- C4: `runProcesses()` starts with the memory address 0.  Starting from address 0 with a
block size `b ≥ 1` and a system memory size `S ≥ 0`, an operation `M{allocate}` executed
after the operations `ops` (which hold `n` allocations) appends a start event and an end
event whose description is "memory allocated at " followed by the address
`(n mod (S / b + 1)) * b`, which is the current address `a`; it then leaves the address
`a + b` if `a + b ≤ S` and `0` otherwise. -/
theorem allocate_sequence (clock : Nat → Int) (r r' : OSprocessRunner)
    (ops : List (MetaCommand × Int)) (cmd : MetaCommand) (pid : Int)
    (hb : 1 ≤ r.memoryBlockSize_) (hS : 0 ≤ r.systemMemorySize_) (h0 : r.memAddress_ = 0)
    (hrun : r.executeOperations clock ops = .ok r')
    (hc : cmd.code_ = 'M') (hd : cmd.descriptor_ = "allocate") :
    (∀ (mdf : Option (List (List Token))) (r0 r1 : OSprocessRunner),
      r0.runProcessesStart mdf = .ok r1 → r1.memAddress_ = 0) ∧
    ∃ (r'' : OSprocessRunner) (e1 e2 : OperationInfo),
      r'.executeOperation clock cmd pid = .ok r'' ∧
      r''.operationsVect_ = r'.operationsVect_ ++ [e1, e2] ∧
      e1.opDescription = "allocating memory" ∧
      e2.opDescription = "memory allocated at " ++
        hexAddress ((countAllocations ops : Int) %
          (r.systemMemorySize_ / r.memoryBlockSize_ + 1) * r.memoryBlockSize_) ∧
      r'.memAddress_ = (countAllocations ops : Int) %
        (r.systemMemorySize_ / r.memoryBlockSize_ + 1) * r.memoryBlockSize_ ∧
      r''.memAddress_ =
        (if r'.memAddress_ + r.memoryBlockSize_ ≤ r.systemMemorySize_
          then r'.memAddress_ + r.memoryBlockSize_ else 0) := by
  refine ⟨memory_runProcessesStart, ?_⟩
  have hm : r.memory = (((0 : Nat) : Int) % (r.systemMemorySize_ / r.memoryBlockSize_ + 1) *
      r.memoryBlockSize_, r.memoryBlockSize_, r.systemMemorySize_) := by
    unfold OSprocessRunner.memory
    simp [h0]
  have hmem := executeOperations_memory clock _ _ hb hS ops r r' 0 hm hrun
  have hr : r'.memAddress_ = ((0 + countAllocations ops : Nat) : Int) %
      (r.systemMemorySize_ / r.memoryBlockSize_ + 1) * r.memoryBlockSize_ ∧
      r'.memoryBlockSize_ = r.memoryBlockSize_ ∧ r'.systemMemorySize_ = r.systemMemorySize_ := by
    unfold OSprocessRunner.memory at hmem
    simpa using hmem
  rw [Nat.zero_add] at hr
  have ha : cmd.allocates = true := by
    unfold MetaCommand.allocates
    simp [hc, hd]
  obtain ⟨r'', e1, e2, hex, hops, h1, h2, hmem''⟩ := executeOperation_allocates clock r' cmd pid ha
  refine ⟨r'', e1, e2, hex, hops, h1, ?_, hr.1, ?_⟩
  · rw [h2, hr.1]
  · have : r''.memAddress_ =
        nextAddress r'.memAddress_ r'.memoryBlockSize_ r'.systemMemorySize_ := by
      unfold OSprocessRunner.memory at hmem''
      simp only [Prod.mk.injEq] at hmem''
      exact hmem''.1
    rw [this, hr.2.1, hr.2.2]
    unfold nextAddress
    split_ifs <;> omega

/-- Witness of C4 in scenario S4 (block size 400, system memory 1000): the allocation that
follows two allocations. -/
theorem allocate_sequence_witness :
    (1 : Int) ≤ s4Runner.memoryBlockSize_ ∧ (0 : Int) ≤ s4Runner.systemMemorySize_ ∧
    s4Runner.memAddress_ = 0 ∧
    s4Runner.executeOperations tickClock [(allocateOp, 1), (allocateOp, 1)] = .ok (s4After 2) ∧
    allocateOp.code_ = 'M' ∧ allocateOp.descriptor_ = "allocate" ∧
    ((∀ (mdf : Option (List (List Token))) (r0 r1 : OSprocessRunner),
      r0.runProcessesStart mdf = .ok r1 → r1.memAddress_ = 0) ∧
    ∃ (r'' : OSprocessRunner) (e1 e2 : OperationInfo),
      (s4After 2).executeOperation tickClock allocateOp 1 = .ok r'' ∧
      r''.operationsVect_ = (s4After 2).operationsVect_ ++ [e1, e2] ∧
      e1.opDescription = "allocating memory" ∧
      e2.opDescription = "memory allocated at " ++
        hexAddress ((countAllocations [(allocateOp, 1), (allocateOp, 1)] : Int) %
          (s4Runner.systemMemorySize_ / s4Runner.memoryBlockSize_ + 1) *
            s4Runner.memoryBlockSize_) ∧
      (s4After 2).memAddress_ = (countAllocations [(allocateOp, 1), (allocateOp, 1)] : Int) %
        (s4Runner.systemMemorySize_ / s4Runner.memoryBlockSize_ + 1) *
          s4Runner.memoryBlockSize_ ∧
      r''.memAddress_ =
        (if (s4After 2).memAddress_ + s4Runner.memoryBlockSize_ ≤ s4Runner.systemMemorySize_
          then (s4After 2).memAddress_ + s4Runner.memoryBlockSize_ else 0)) :=
  ⟨by decide, by decide, by decide, by rfl, rfl, rfl,
    allocate_sequence tickClock s4Runner (s4After 2) [(allocateOp, 1), (allocateOp, 1)]
      allocateOp 1 (by decide) (by decide) (by decide) (by rfl) rfl rfl⟩

/-! ### C5 -/

set_option maxRecDepth 8000 in
/-- C5, the code at scenario S4: with system memory 1000 kB and block size 400 kB, three
consecutive `M{allocate}` operations of process 1 log the addresses `0x00000000`,
`0x00000190`, `0x00000320`; the third address is not the `0x00000000` of the scenario. -/
theorem s4_third_address :
    s4Runner.memory = (0, 400, 1000) ∧
    (s4Runner.executeOperations tickClock
        [(allocateOp, 1), (allocateOp, 1), (allocateOp, 1)]).toOption.map
      (fun r => descriptions r.operationsVect_) =
      some ["allocating memory", "memory allocated at 0x00000000",
            "allocating memory", "memory allocated at 0x00000190",
            "allocating memory", "memory allocated at 0x00000320"] := by
  decide

/-! ### C6 -/

/-- C6, the code at block size 400 and system memory 1000 (so `S ≥ b`): after two
allocations the next-allocation address is 800, and the block handed out next, which ends
at 1200, does not fit inside the system memory. -/
theorem next_block_overflows :
    (0 : Int) ≤ s4Runner.memoryBlockSize_ ∧ s4Runner.memoryBlockSize_ ≤ s4Runner.systemMemorySize_ ∧
    s4Runner.executeOperations tickClock [(allocateOp, 1), (allocateOp, 1)] = .ok (s4After 2) ∧
    (s4After 2).memory = (800, 400, 1000) ∧
    ¬ ((s4After 2).memAddress_ + (s4After 2).memoryBlockSize_ ≤ (s4After 2).systemMemorySize_) := by
  refine ⟨by decide, by decide, by rfl, by decide, by decide⟩

/-! ### C7 -/

theorem digitChar_hex (d : Nat) (hd : d < 16) :
    Nat.digitChar d ∈ lowerHexDigits ∧ hexDigitValue (Nat.digitChar d) = d := by
  interval_cases d <;> decide

theorem toDigitsCore_append (b : Nat) :
    ∀ (fuel n : Nat) (ds : List Char),
      Nat.toDigitsCore b fuel n ds = Nat.toDigitsCore b fuel n [] ++ ds := by
  intro fuel
  induction fuel with
  | zero => intro n ds; simp [Nat.toDigitsCore]
  | succ fuel ih =>
    intro n ds
    simp only [Nat.toDigitsCore]
    split_ifs
    · simp
    · rw [ih (n / b) (Nat.digitChar (n % b) :: ds), ih (n / b) [Nat.digitChar (n % b)]]
      simp

theorem hexValue_append (xs : List Char) (c : Char) :
    hexValue (xs ++ [c]) = 16 * hexValue xs + hexDigitValue c := by
  simp [hexValue, List.foldl_append]

theorem toDigitsCore_hex :
    ∀ (fuel n : Nat), n < fuel →
      (∀ c ∈ Nat.toDigitsCore 16 fuel n [], c ∈ lowerHexDigits) ∧
      hexValue (Nat.toDigitsCore 16 fuel n []) = n := by
  intro fuel
  induction fuel with
  | zero => intro n hn; omega
  | succ fuel ih =>
    intro n hn
    simp only [Nat.toDigitsCore]
    have hd := digitChar_hex (n % 16) (Nat.mod_lt _ (by decide))
    split_ifs with h0
    · have hlt : n < 16 := by omega
      have hmod : n % 16 = n := Nat.mod_eq_of_lt hlt
      constructor
      · intro c hc
        simp only [List.mem_singleton] at hc
        rw [hc]; exact hd.1
      · have : hexValue [Nat.digitChar (n % 16)] = hexDigitValue (Nat.digitChar (n % 16)) := by
          simp [hexValue]
        rw [this, hd.2, hmod]
    · have hdiv : n / 16 < fuel := by omega
      obtain ⟨ih1, ih2⟩ := ih (n / 16) hdiv
      rw [toDigitsCore_append]
      constructor
      · intro c hc
        rcases List.mem_append.mp hc with hc | hc
        · exact ih1 c hc
        · simp only [List.mem_singleton] at hc
          rw [hc]; exact hd.1
      · rw [hexValue_append, ih2, hd.2]
        omega

theorem hexValue_zeros (k : Nat) (ds : List Char) :
    hexValue (List.replicate k '0' ++ ds) = hexValue ds := by
  have h0 : hexDigitValue '0' = 0 := by decide
  have : ∀ k, List.foldl (fun acc c => 16 * acc + hexDigitValue c) 0 (List.replicate k '0') = 0 := by
    intro k
    induction k with
    | zero => rfl
    | succ k ih => simp [List.replicate_succ, h0, ih]
  simp [hexValue, List.foldl_append, this]

theorem hexField_spec (a : Int) (h0 : 0 ≤ a) (h1 : a < 2 ^ 32) :
    (hexField a).length = 8 ∧ (∀ c ∈ hexField a, c ∈ lowerHexDigits) ∧
    (hexValue (hexField a) : Int) = a := by
  have hmod : (a % 2 ^ 64).toNat = a.toNat := by
    rw [Int.emod_eq_of_lt h0 (by omega)]
  have hn : a.toNat < 16 ^ 8 := by omega
  have hlen : (Nat.toDigits 16 a.toNat).length ≤ 8 :=
    Nat.toDigitsCore_length 16 (by decide) (a.toNat + 1) a.toNat 8 hn (by decide)
  obtain ⟨hc, hv⟩ := toDigitsCore_hex (a.toNat + 1) a.toNat (by omega)
  unfold hexField
  simp only [hmod]
  refine ⟨?_, ?_, ?_⟩
  · simp only [List.length_append, List.length_replicate]
    omega
  · intro c hcm
    rcases List.mem_append.mp hcm with hcm | hcm
    · rw [(List.mem_replicate.mp hcm).2]
      decide
    · exact hc c hcm
  · rw [hexValue_zeros]
    unfold Nat.toDigits
    rw [hv]
    omega

/-- C7: for every allocation address `a` with `0 ≤ a < 2^32`, the end event of
`M{allocate}` (the last event the operation appends) has the description
"memory allocated at 0x" followed by exactly eight lowercase hexadecimal digits that
encode `a`, zero-padded on the left. -/
theorem allocate_event_format (clock : Nat → Int) (r : OSprocessRunner) (cmd : MetaCommand)
    (pid : Int) (hc : cmd.code_ = 'M') (hd : cmd.descriptor_ = "allocate")
    (h0 : 0 ≤ r.memAddress_) (h1 : r.memAddress_ < 2 ^ 32) :
    ∃ (r' : OSprocessRunner) (e : OperationInfo) (ds : List Char),
      r.executeOperation clock cmd pid = .ok r' ∧
      r'.operationsVect_.getLast? = some e ∧
      e.opDescription = "memory allocated at 0x" ++ String.mk ds ∧
      ds.length = 8 ∧ (∀ c ∈ ds, c ∈ lowerHexDigits) ∧
      (hexValue ds : Int) = r.memAddress_ := by
  have ha : cmd.allocates = true := by
    unfold MetaCommand.allocates
    simp [hc, hd]
  obtain ⟨r', e1, e2, hex, hops, _, h2, _⟩ := executeOperation_allocates clock r cmd pid ha
  obtain ⟨hlen, hchars, hval⟩ := hexField_spec r.memAddress_ h0 h1
  refine ⟨r', e2, hexField r.memAddress_, hex, ?_, ?_, hlen, hchars, hval⟩
  · rw [hops]
    simp
  · rw [h2]
    unfold hexAddress
    rw [← String.append_assoc]
    rfl

/-- Witness of C7 in scenario S4 at the address 400 left by the first allocation. -/
theorem allocate_event_format_witness :
    allocateOp.code_ = 'M' ∧ allocateOp.descriptor_ = "allocate" ∧
    (0 : Int) ≤ (s4After 1).memAddress_ ∧ (s4After 1).memAddress_ < 2 ^ 32 ∧
    ∃ (r' : OSprocessRunner) (e : OperationInfo) (ds : List Char),
      (s4After 1).executeOperation tickClock allocateOp 1 = .ok r' ∧
      r'.operationsVect_.getLast? = some e ∧
      e.opDescription = "memory allocated at 0x" ++ String.mk ds ∧
      ds.length = 8 ∧ (∀ c ∈ ds, c ∈ lowerHexDigits) ∧
      (hexValue ds : Int) = (s4After 1).memAddress_ :=
  ⟨rfl, rfl, by decide, by decide,
    allocate_event_format tickClock (s4After 1) allocateOp 1 rfl rfl (by decide) (by decide)⟩


/-! ## The metadata loader -/

theorem handleCodeDescErrors_error_iff (codeChar : Char) (descriptor : String)
    (hc : codeChar ∈ ['S', 'A', 'P', 'I', 'O', 'M']) :
    (∃ e, MetaData.handleCodeDescErrors codeChar descriptor = .error e) ↔
      descriptor ∉ allowedDescriptors codeChar := by
  simp only [List.mem_cons, List.mem_singleton, List.not_mem_nil, or_false] at hc
  rcases hc with h | h | h | h | h | h <;> subst h <;>
    simp only [MetaData.handleCodeDescErrors, allowedDescriptors, Char.reduceEq, if_true, if_false,
      reduceIte, List.mem_cons, List.mem_singleton, List.not_mem_nil, or_false, not_or] <;>
    split_ifs with hd <;> simp_all

theorem handler_error_of_handleCodeDescErrors (md : MetaData) (code descriptor cycles : String)
    (q : ReadyQueue) (codeChar : Char) (hcode : code.data.head? = some codeChar)
    (e : String) (he : MetaData.handleCodeDescErrors codeChar descriptor = .error e) :
    ∃ e', md.handler code descriptor cycles q = .error e' := by
  unfold MetaData.handler
  cases hdata : code.data with
  | nil => exact ⟨_, rfl⟩
  | cons c rest =>
    rw [hdata] at hcode
    simp only [List.head?_cons, Option.some.injEq] at hcode
    subst hcode
    simp only []
    split_ifs
    · exact ⟨_, rfl⟩
    · rw [he]
      exact ⟨_, rfl⟩

/-! ### C8 -/

/-- C8: for every code in {S, A, P, I, O, M} and every descriptor string,
`handleCodeDescErrors` raises an error if and only if the pair is not in the table
S:{begin, finish}, A:{begin, finish}, P:{run}, I:{hard drive, keyboard, scanner},
O:{hard drive, monitor, projector}, M:{block, allocate}; and `handler` raises an error for
every command whose pair is not in the table. -/
theorem code_descriptor_validation (codeChar : Char) (descriptor : String)
    (hc : codeChar ∈ ['S', 'A', 'P', 'I', 'O', 'M']) :
    ((∃ e, MetaData.handleCodeDescErrors codeChar descriptor = .error e) ↔
      descriptor ∉ allowedDescriptors codeChar) ∧
    (descriptor ∉ allowedDescriptors codeChar →
      ∀ (md : MetaData) (code cycles : String) (q : ReadyQueue),
        code.data.head? = some codeChar →
        ∃ e, md.handler code descriptor cycles q = .error e) := by
  have hiff := handleCodeDescErrors_error_iff codeChar descriptor hc
  refine ⟨hiff, ?_⟩
  intro hnot md code cycles q hcode
  obtain ⟨e, he⟩ := hiff.mpr hnot
  exact handler_error_of_handleCodeDescErrors md code descriptor cycles q codeChar hcode e he

/-- Witness of C8 at the pair I{monitor}, which is not in the table. -/
theorem code_descriptor_validation_witness :
    'I' ∈ ['S', 'A', 'P', 'I', 'O', 'M'] ∧
    (((∃ e, MetaData.handleCodeDescErrors 'I' "monitor" = .error e) ↔
      "monitor" ∉ allowedDescriptors 'I') ∧
    ("monitor" ∉ allowedDescriptors 'I' →
      ∀ (md : MetaData) (code cycles : String) (q : ReadyQueue),
        code.data.head? = some 'I' →
        ∃ e, md.handler code "monitor" cycles q = .error e)) :=
  ⟨by decide, code_descriptor_validation 'I' "monitor" (by decide)⟩

/-! ### C9 -/

theorem parseFullLine_of_sFinishFound (md : MetaData) (toks : List Token) (q : ReadyQueue)
    (h : md.sFinishFound_ = true) : md.parseFullLine toks q = .ok (md, q) := by
  cases toks with
  | nil => rfl
  | cons t rest => simp [MetaData.parseFullLine, h]

theorem parseFullLine_append :
    ∀ (l1 l2 : List Token) (md : MetaData) (q : ReadyQueue),
      md.parseFullLine (l1 ++ l2) q =
        match md.parseFullLine l1 q with
        | .error e => .error e
        | .ok x => x.1.parseFullLine l2 x.2 := by
  intro l1
  induction l1 with
  | nil => intro l2 md q; rfl
  | cons t rest ih =>
    intro l2 md q
    by_cases hs : md.sFinishFound_ = true
    · rw [parseFullLine_of_sFinishFound md _ q hs, parseFullLine_of_sFinishFound md _ q hs]
      simp only []
      rw [parseFullLine_of_sFinishFound md _ q hs]
    · simp only [List.cons_append, MetaData.parseFullLine, hs, Bool.false_eq_true, if_false]
      cases hh : md.handler t.code t.descriptor t.cycles q with
      | error e => rfl
      | ok x => exact ih l2 x.1 x.2

theorem parseLines_eq_flatten :
    ∀ (lines : List (List Token)) (md : MetaData) (q : ReadyQueue),
      md.parseLines lines q = md.parseFullLine lines.flatten q := by
  intro lines
  induction lines with
  | nil => intro md q; rfl
  | cons l rest ih =>
    intro md q
    rw [List.flatten_cons, parseFullLine_append]
    simp only [MetaData.parseLines]
    cases hh : md.parseFullLine l q with
    | error e => rfl
    | ok x => exact ih x.1 x.2

theorem handler_ok (md : MetaData) (code d cycles : String) (q : ReadyQueue)
    (x : MetaData × ReadyQueue) (h : md.handler code d cycles q = .ok x) :
    ∃ (c : Char) (special : Bool × MetaData),
      code.data.head? = some c ∧ 0 ≤ atoi cycles ∧
      md.checkSpecialCommands c d = .ok special ∧
      (special.1 = true → x = (special.2, q)) ∧
      (special.1 = false → special.2.storeCommand c d (atoi cycles) q = .ok x) := by
  unfold MetaData.handler at h
  cases hdata : code.data with
  | nil => rw [hdata] at h; exact absurd h (by simp)
  | cons c rest =>
    rw [hdata] at h
    simp only [] at h
    split_ifs at h with hneg
    cases hcd : MetaData.handleCodeDescErrors c d with
    | error e => rw [hcd] at h; exact absurd h (by simp)
    | ok u =>
      rw [hcd] at h
      simp only [] at h
      cases hsp : md.checkSpecialCommands c d with
      | error e => rw [hsp] at h; exact absurd h (by simp)
      | ok special =>
        rw [hsp] at h
        simp only [] at h
        refine ⟨c, special, rfl, by omega, hsp, ?_, ?_⟩
        · intro h1
          rw [if_pos h1] at h
          exact (Except.ok.inj h).symm
        · intro h1
          rw [if_neg (by simp [h1])] at h
          exact h

theorem checkSpecialCommands_zero (md : MetaData) (c : Char) (d : String)
    (special : Bool × MetaData) (h0 : md.currentOpIndex_ = 0)
    (h : md.checkSpecialCommands c d = .ok special) :
    c = 'S' ∧ d = "begin" ∧ special = (true, { md with currentOpIndex_ := 1 }) := by
  unfold MetaData.checkSpecialCommands at h
  rw [if_pos h0] at h
  split_ifs at h with hcd
  have hcd' : c = 'S' ∧ d = "begin" := by
    constructor
    · by_contra hc; exact hcd (Or.inl hc)
    · by_contra hd; exact hcd (Or.inr hd)
  refine ⟨hcd'.1, hcd'.2, ?_⟩
  rw [← Except.ok.inj h, h0]

theorem checkSpecialCommands_one (md : MetaData) (c : Char) (d : String)
    (special : Bool × MetaData) (h1 : md.currentOpIndex_ = 1)
    (h : md.checkSpecialCommands c d = .ok special) :
    c = 'A' ∧ d = "begin" ∧ special = (false, md) := by
  unfold MetaData.checkSpecialCommands at h
  rw [if_neg (by omega)] at h
  split_ifs at h with hcd hsf
  · have hcd' : c = 'A' ∧ d = "begin" := by
      constructor
      · by_contra hc; exact hcd ⟨h1, Or.inl hc⟩
      · by_contra hd; exact hcd ⟨h1, Or.inr hd⟩
    rw [hcd'.1] at hsf
    exact absurd hsf.1 (by decide)
  · have hcd' : c = 'A' ∧ d = "begin" := by
      constructor
      · by_contra hc; exact hcd ⟨h1, Or.inl hc⟩
      · by_contra hd; exact hcd ⟨h1, Or.inr hd⟩
    exact ⟨hcd'.1, hcd'.2, (Except.ok.inj h).symm⟩

theorem checkSpecialCommands_later (md : MetaData) (c : Char) (d : String)
    (special : Bool × MetaData) (h2 : 2 ≤ md.currentOpIndex_)
    (h : md.checkSpecialCommands c d = .ok special) :
    (c = 'S' ∧ d = "finish" ∧
      special = (true, { md with sFinishFound_ := true,
                                 currentOpIndex_ := md.currentOpIndex_ + 1 })) ∨
    (¬ (c = 'S' ∧ d = "finish") ∧ special = (false, md)) := by
  unfold MetaData.checkSpecialCommands at h
  rw [if_neg (by omega), if_neg (by omega)] at h
  split_ifs at h with hsf
  · exact Or.inl ⟨hsf.1, hsf.2, (Except.ok.inj h).symm⟩
  · exact Or.inr ⟨hsf, (Except.ok.inj h).symm⟩

theorem handler_first (cfg : Configuration) (t : Token) (q : ReadyQueue)
    (x : MetaData × ReadyQueue)
    (h : (freshLoader cfg).handler t.code t.descriptor t.cycles q = .ok x) :
    t.isCommand 'S' "begin" ∧ x = ({ freshLoader cfg with currentOpIndex_ := 1 }, q) := by
  obtain ⟨c, special, hc, _, hsp, htrue, _⟩ := handler_ok _ _ _ _ _ _ h
  obtain ⟨h1, h2, h3⟩ := checkSpecialCommands_zero _ c _ special rfl hsp
  refine ⟨⟨by rw [hc, h1], h2⟩, ?_⟩
  rw [htrue (by rw [h3]), h3]

theorem handler_first_ok (cfg : Configuration) (t : Token) (q : ReadyQueue)
    (ht : t.isCommand 'S' "begin") (hcycles : 0 ≤ atoi t.cycles) :
    (freshLoader cfg).handler t.code t.descriptor t.cycles q =
      .ok ({ freshLoader cfg with currentOpIndex_ := 1 }, q) := by
  obtain ⟨hcode, hdesc⟩ := ht
  unfold MetaData.handler
  cases hdata : t.code.data with
  | nil => rw [hdata] at hcode; simp at hcode
  | cons c rest =>
    rw [hdata] at hcode
    simp only [List.head?_cons, Option.some.injEq] at hcode
    subst hcode
    simp only [hdesc]
    rw [if_neg (by omega)]
    rfl

theorem parseMDF_fresh_cons (cfg : Configuration) (lines : List (List Token)) (t : Token)
    (rest : List Token) (q : ReadyQueue) (hl : lines.flatten = t :: rest) :
    (freshLoader cfg).parseMDF (some lines) q =
      match (freshLoader cfg).handler t.code t.descriptor t.cycles q with
      | .error e => .error e
      | .ok x => x.1.parseFullLine rest x.2 := by
  unfold MetaData.parseMDF
  simp only []
  rw [parseLines_eq_flatten, hl]
  simp only [MetaData.parseFullLine]
  rw [if_neg (by simp [freshLoader, MetaData.setConfigurationObject, MetaData.new])]
  cases (freshLoader cfg).handler t.code t.descriptor t.cycles q with
  | error e => rfl
  | ok x => rfl

/-- C9: for every token stream handed to a fresh loader (the stream is the sequence of the
command matches of the lines of the file), the load raises an error when the first token is
not `S{begin}`, and it raises an error when the second token is not `A{begin}`; when the
first token is `S{begin}` (with a cycle count that is not negative) it is consumed and
stored nowhere: the load is the load of the remaining tokens by the loader that differs from
the fresh one only in its operation index, which is 1, with the ready queue untouched. -/
theorem stream_header_validation (cfg : Configuration) (q : ReadyQueue)
    (lines : List (List Token)) :
    (∀ (t : Token) (rest : List Token), lines.flatten = t :: rest → ¬ t.isCommand 'S' "begin" →
      ∃ e, (freshLoader cfg).parseMDF (some lines) q = .error e) ∧
    (∀ (t1 t2 : Token) (rest : List Token), lines.flatten = t1 :: t2 :: rest →
      ¬ t2.isCommand 'A' "begin" →
      ∃ e, (freshLoader cfg).parseMDF (some lines) q = .error e) ∧
    (∀ (t : Token) (rest : List Token), lines.flatten = t :: rest → t.isCommand 'S' "begin" →
      0 ≤ atoi t.cycles →
      (freshLoader cfg).parseMDF (some lines) q =
        MetaData.parseFullLine { freshLoader cfg with currentOpIndex_ := 1 } rest q) := by
  refine ⟨?_, ?_, ?_⟩
  · intro t rest hl hnot
    rw [parseMDF_fresh_cons cfg lines t rest q hl]
    cases hh : (freshLoader cfg).handler t.code t.descriptor t.cycles q with
    | error e => exact ⟨e, rfl⟩
    | ok x => exact absurd (handler_first cfg t q x hh).1 hnot
  · intro t1 t2 rest hl hnot
    rw [parseMDF_fresh_cons cfg lines t1 (t2 :: rest) q hl]
    cases hh : (freshLoader cfg).handler t1.code t1.descriptor t1.cycles q with
    | error e => exact ⟨e, rfl⟩
    | ok x =>
      have hx := (handler_first cfg t1 q x hh).2
      subst hx
      simp only [MetaData.parseFullLine]
      rw [if_neg (by simp [freshLoader, MetaData.setConfigurationObject, MetaData.new])]
      cases hh2 : MetaData.handler { freshLoader cfg with currentOpIndex_ := 1 }
          t2.code t2.descriptor t2.cycles q with
      | error e => exact ⟨e, rfl⟩
      | ok y =>
        obtain ⟨c, special, hc, _, hsp, _, _⟩ := handler_ok _ _ _ _ _ _ hh2
        obtain ⟨h1, h2, _⟩ := checkSpecialCommands_one _ c _ special rfl hsp
        exact absurd ⟨by rw [hc, h1], h2⟩ hnot
  · intro t rest hl ht hcycles
    rw [parseMDF_fresh_cons cfg lines t rest q hl, handler_first_ok cfg t q ht hcycles]

/-- Witness of C9: the load of `candidateStream` is the load of its tokens after `S{begin}0`
by the loader with operation index 1, and the load of `headlessStream` raises an error. -/
theorem stream_header_validation_witness :
    (freshLoader strConfig).parseMDF (some [candidateStream]) (ReadyQueue.new 1) =
      MetaData.parseFullLine { freshLoader strConfig with currentOpIndex_ := 1 }
        candidateStream.tail (ReadyQueue.new 1) ∧
    ∃ e, (freshLoader strConfig).parseMDF (some [headlessStream]) (ReadyQueue.new 1) = .error e :=
  ⟨(stream_header_validation strConfig (ReadyQueue.new 1) [candidateStream]).2.2
      ⟨"S", "begin", "0"⟩ candidateStream.tail rfl (by decide) (by decide),
    (stream_header_validation strConfig (ReadyQueue.new 1) [headlessStream]).1
      ⟨"A", "begin", "0"⟩ headlessStream.tail rfl (by decide)⟩

/-! ### C10 -/

theorem storeCommand_ok (md : MetaData) (c : Char) (d : String) (n : Int) (q : ReadyQueue)
    (x : MetaData × ReadyQueue) (h : md.storeCommand c d n q = .ok x) :
    ∃ t : Int,
      x.1.currentOpIndex_ = md.currentOpIndex_ + 1 ∧
      x.1.processObj_.metaCmdVect_ =
        (if c = 'A' ∧ d = "begin" then [] else md.processObj_.metaCmdVect_) ++
          [{ code_ := c, descriptor_ := d, cycles_ := n, time_ := t }] ∧
      ((c = 'A' ∧ d = "finish") → ∃ p, x.2.processVect_ = q.processVect_ ++ [p] ∧
        p.metaCmdVect_ = x.1.processObj_.metaCmdVect_) ∧
      (¬ (c = 'A' ∧ d = "finish") → x.2 = q) := by
  unfold MetaData.storeCommand at h
  simp only [] at h
  split at h
  · exact absurd h (by simp)
  · rename_i t ht
    have hx := (Except.ok.inj h).symm
    subst hx
    refine ⟨t, ?_, ?_, ?_, ?_⟩
    · simp only [MetaData.finishProcess, MetaData.insertOperation, MetaData.startProcess]
      split_ifs <;> rfl
    · simp only [MetaData.finishProcess, MetaData.insertOperation, MetaData.startProcess]
      split_ifs <;> rfl
    · intro hf
      simp only [MetaData.finishProcess, hf, and_self, if_true]
      exact ⟨_, rfl, rfl⟩
    · intro hf
      simp only [MetaData.finishProcess, hf, if_false]

theorem wellBegun_append (ops : List MetaCommand) (c : Char) (d : String) (n t : Int)
    (hw : ¬ (c = 'A' ∧ d = "begin") → WellBegun ops) :
    WellBegun ((if c = 'A' ∧ d = "begin" then [] else ops) ++
      [{ code_ := c, descriptor_ := d, cycles_ := n, time_ := t }]) := by
  by_cases hb : c = 'A' ∧ d = "begin"
  · rw [if_pos hb]
    refine ⟨_, [], rfl, ?_, by simp⟩
    simp [MetaCommand.isCommand, hb.1, hb.2]
  · rw [if_neg hb]
    obtain ⟨b, tail, hops, hbeg, htail⟩ := hw hb
    refine ⟨b, tail ++ [{ code_ := c, descriptor_ := d, cycles_ := n, time_ := t }], ?_, hbeg, ?_⟩
    · rw [hops]; rfl
    · intro m hm
      rcases List.mem_append.mp hm with hm | hm
      · exact htail m hm
      · simp only [List.mem_singleton] at hm
        subst hm
        simp only [MetaCommand.isCommand, Bool.and_eq_false_imp, beq_iff_eq]
        intro hc
        simp only [beq_eq_false_iff_ne, ne_eq]
        intro hd
        exact hb ⟨hc, hd⟩

theorem shape_of_wellBegun (p : Process) (ops : List MetaCommand) (n t : Int)
    (hw : WellBegun (ops ++ [{ code_ := 'A', descriptor_ := "finish", cycles_ := n, time_ := t }]))
    (hp : p.metaCmdVect_ =
      ops ++ [{ code_ := 'A', descriptor_ := "finish", cycles_ := n, time_ := t }]) :
    p.beginsAndFinishes ∧ p.noOtherBegin := by
  obtain ⟨b, tail, hops, hbeg, htail⟩ := hw
  unfold Process.beginsAndFinishes Process.noOtherBegin
  refine ⟨⟨?_, ?_⟩, ?_⟩
  · rw [hp, hops]
    simp [hbeg]
  · rw [hp, List.getLast?_concat]
    rfl
  · rw [hp, hops]
    exact htail

theorem handler_step (md : MetaData) (code d cycles : String) (q : ReadyQueue)
    (x : MetaData × ReadyQueue) (hinv : LoaderInv md)
    (h : md.handler code d cycles q = .ok x) :
    LoaderInv x.1 ∧
    (x.2.processVect_ = q.processVect_ ∨
      ∃ p, x.2.processVect_ = q.processVect_ ++ [p] ∧ p.beginsAndFinishes ∧ p.noOtherBegin) := by
  obtain ⟨c, special, _, _, hsp, htrue, hfalse⟩ := handler_ok _ _ _ _ _ _ h
  rcases hinv with h0 | h1 | ⟨h2, hw⟩
  · obtain ⟨_, _, hs⟩ := checkSpecialCommands_zero md c d special h0 hsp
    have hx := htrue (by rw [hs])
    rw [hs] at hx
    subst hx
    exact ⟨Or.inr (Or.inl rfl), Or.inl rfl⟩
  · obtain ⟨hc, hd, hs⟩ := checkSpecialCommands_one md c d special h1 hsp
    have hst := hfalse (by rw [hs])
    rw [hs] at hst
    obtain ⟨t, hidx, hops, _, hq⟩ := storeCommand_ok _ _ _ _ _ _ hst
    have hidx' : x.1.currentOpIndex_ = md.currentOpIndex_ + 1 := hidx
    constructor
    · refine Or.inr (Or.inr ⟨by omega, ?_⟩)
      rw [hops]
      exact wellBegun_append _ c d _ t (fun hn => absurd ⟨hc, hd⟩ hn)
    · left
      rw [hq (by rw [hd]; intro hh; exact absurd hh.2 (by decide))]
  · rcases checkSpecialCommands_later md c d special h2 hsp with ⟨_, _, hs⟩ | ⟨_, hs⟩
    · have hx := htrue (by rw [hs])
      rw [hs] at hx
      subst hx
      exact ⟨Or.inr (Or.inr ⟨by simp only []; omega, hw⟩), Or.inl rfl⟩
    · have hst := hfalse (by rw [hs])
      rw [hs] at hst
      obtain ⟨t, hidx, hops, hfin, hq⟩ := storeCommand_ok _ _ _ _ _ _ hst
      have hidx' : x.1.currentOpIndex_ = md.currentOpIndex_ + 1 := hidx
      have hw' := wellBegun_append md.processObj_.metaCmdVect_ c d (atoi cycles) t (fun _ => hw)
      constructor
      · refine Or.inr (Or.inr ⟨by omega, ?_⟩)
        rw [hops]
        exact hw'
      · by_cases hf : c = 'A' ∧ d = "finish"
        · right
          obtain ⟨p, hpq, hpo⟩ := hfin hf
          refine ⟨p, hpq, ?_⟩
          rw [hops] at hpo
          have hnb : ¬ (c = 'A' ∧ d = "begin") := by
            rw [hf.2]; intro hh; exact absurd hh.2 (by decide)
          rw [if_neg hnb] at hpo hw'
          rw [hf.1, hf.2] at hpo hw'
          exact shape_of_wellBegun p _ _ t hw' hpo
        · left
          rw [hq hf]

theorem parseFullLine_shape :
    ∀ (toks : List Token) (md : MetaData) (q : ReadyQueue) (x : MetaData × ReadyQueue),
      LoaderInv md → md.parseFullLine toks q = .ok x →
      LoaderInv x.1 ∧ ∃ new, x.2.processVect_ = q.processVect_ ++ new ∧
        ∀ p ∈ new, p.beginsAndFinishes ∧ p.noOtherBegin := by
  intro toks
  induction toks with
  | nil =>
    intro md q x hinv h
    simp only [MetaData.parseFullLine] at h
    have hx := (Except.ok.inj h).symm
    subst hx
    exact ⟨hinv, [], by simp, by simp⟩
  | cons t rest ih =>
    intro md q x hinv h
    simp only [MetaData.parseFullLine] at h
    split_ifs at h with hs
    · have hx := (Except.ok.inj h).symm
      subst hx
      exact ⟨hinv, [], by simp, by simp⟩
    · cases hh : md.handler t.code t.descriptor t.cycles q with
      | error e => rw [hh] at h; exact absurd h (by simp)
      | ok y =>
        rw [hh] at h
        obtain ⟨hinv1, hq1⟩ := handler_step md _ _ _ q y hinv hh
        obtain ⟨hinv2, new, hnew, hshape⟩ := ih y.1 y.2 x hinv1 h
        refine ⟨hinv2, ?_⟩
        rcases hq1 with hq1 | ⟨p, hq1, hp⟩
        · exact ⟨new, by rw [hnew, hq1], hshape⟩
        · refine ⟨p :: new, by rw [hnew, hq1]; simp, ?_⟩
          intro p' hp'
          rcases List.mem_cons.mp hp' with hp' | hp'
          · rw [hp']; exact hp
          · exact hshape p' hp'

/-- C10, counterexample: the loader accepts the stream
`S{begin}0; A{begin}0; A{finish}0; P{run}5; A{finish}0; S{finish}0;` and appends two
processes; the second one, with pid 2, has the operations
`A{begin}, A{finish}, P{run}, A{finish}`: it holds an `A{finish}` before its last
operation. -/
theorem loader_process_shape_fails :
    ((freshLoader strConfig).parseMDF (some [candidateStream]) (ReadyQueue.new 1)).toOption.map
      (fun x => x.2.processVect_.map (fun p =>
        (p.getProcessNumber, p.metaCmdVect_.map (fun m => (m.code_, m.descriptor_)),
          decide p.noOtherFinish))) =
      some [(1, [('A', "begin"), ('A', "finish")], true),
            (2, [('A', "begin"), ('A', "finish"), ('P', "run"), ('A', "finish")], false)] := by
  decide

/-- C10, amended: for every token stream a fresh loader accepts, every process it appends to
the ready queue has a non-empty operation list whose first operation is `A{begin}`, whose
last operation is `A{finish}`, and which contains no other `A{begin}` (it may contain other
`A{finish}` operations). -/
theorem loader_process_shape (cfg : Configuration) (lines : List (List Token))
    (q : ReadyQueue) (x : MetaData × ReadyQueue)
    (h : (freshLoader cfg).parseMDF (some lines) q = .ok x) :
    ∃ new, x.2.processVect_ = q.processVect_ ++ new ∧
      ∀ p ∈ new, p.beginsAndFinishes ∧ p.noOtherBegin := by
  unfold MetaData.parseMDF at h
  simp only [] at h
  rw [parseLines_eq_flatten] at h
  exact (parseFullLine_shape lines.flatten (freshLoader cfg) q x (Or.inl rfl) h).2

/-- Witness of the amended C10 on the load of `candidateStream`. -/
theorem loader_process_shape_witness :
    (freshLoader strConfig).parseMDF (some [candidateStream]) (ReadyQueue.new 1) =
      .ok candidateLoad ∧
    ∃ new, candidateLoad.2.processVect_ = (ReadyQueue.new 1).processVect_ ++ new ∧
      ∀ p ∈ new, p.beginsAndFinishes ∧ p.noOtherBegin :=
  ⟨by rfl, loader_process_shape strConfig [candidateStream] (ReadyQueue.new 1) candidateLoad
    (by rfl)⟩

/-! ### C11 -/

theorem parseFullLine_sFinish_last (md : MetaData) (p : List Token) (t : Token) (q : ReadyQueue)
    (x : MetaData × ReadyQueue) (ht : t.isCommand 'S' "finish")
    (h : md.parseFullLine (p ++ [t]) q = .ok x) : x.1.sFinishFound_ = true := by
  rw [parseFullLine_append] at h
  cases hp : md.parseFullLine p q with
  | error e => rw [hp] at h; exact absurd h (by simp)
  | ok y =>
    rw [hp] at h
    simp only [] at h
    by_cases hs : y.1.sFinishFound_ = true
    · rw [parseFullLine_of_sFinishFound _ _ _ hs] at h
      rw [← Except.ok.inj h]; exact hs
    · simp only [MetaData.parseFullLine, hs, Bool.false_eq_true, if_false] at h
      cases hh : y.1.handler t.code t.descriptor t.cycles y.2 with
      | error e => rw [hh] at h; exact absurd h (by simp)
      | ok z =>
        rw [hh] at h
        simp only [] at h
        have hz := Except.ok.inj h
        subst hz
        obtain ⟨c, special, hc, _, hsp, htrue, _⟩ := handler_ok _ _ _ _ _ _ hh
        have hcS : c = 'S' := by
          have := ht.1; rw [hc] at this; exact Option.some.inj this
        have hd : t.descriptor = "finish" := ht.2
        by_cases h0 : y.1.currentOpIndex_ = 0
        · obtain ⟨_, hb, _⟩ := checkSpecialCommands_zero _ c _ special h0 hsp
          rw [hd] at hb; exact absurd hb (by decide)
        · by_cases h1 : y.1.currentOpIndex_ = 1
          · obtain ⟨ha, _, _⟩ := checkSpecialCommands_one _ c _ special h1 hsp
            rw [hcS] at ha; exact absurd ha (by decide)
          · rcases checkSpecialCommands_later _ c _ special (by omega) hsp with
              ⟨_, _, hs'⟩ | ⟨hn, _⟩
            · rw [htrue (by rw [hs']), hs']
            · exact absurd ⟨hcS, hd⟩ hn

/-- C11: `S{finish}` terminates ingestion.  When the load of the token stream `p` by a fresh
loader succeeds and has handled an `S{finish}` (the flag `sFinishFound_` is set, which is
the case whenever the last token of `p` is `S{finish}`), then for every sequence of further
tokens `s`, valid or not, on the same line or on later lines, the load of `p` followed by
`s` has exactly the outcome of the load of `p`: the same loader state, the same ready queue
with the same next-pid counter, and no error. -/
theorem sFinish_terminates_ingestion (cfg : Configuration) (q : ReadyQueue)
    (lines lines' : List (List Token)) (s : List Token) (x : MetaData × ReadyQueue)
    (hp : (freshLoader cfg).parseMDF (some lines) q = .ok x)
    (hs : lines'.flatten = lines.flatten ++ s) :
    (∀ (p : List Token) (t : Token), lines.flatten = p ++ [t] → t.isCommand 'S' "finish" →
      x.1.sFinishFound_ = true) ∧
    (x.1.sFinishFound_ = true → (freshLoader cfg).parseMDF (some lines') q = .ok x) := by
  unfold MetaData.parseMDF at hp ⊢
  simp only [] at hp ⊢
  rw [parseLines_eq_flatten] at hp ⊢
  constructor
  · intro p t hl ht
    rw [hl] at hp
    exact parseFullLine_sFinish_last _ p t q x ht hp
  · intro hf
    rw [hs, parseFullLine_append, hp]
    simp only []
    exact parseFullLine_of_sFinishFound _ _ _ hf


/-- Witness of C11: `candidateStream` followed, on the same line and on a further line, by
the tokens of `trailingTokens`. -/
theorem sFinish_terminates_ingestion_witness :
    (freshLoader strConfig).parseMDF (some [candidateStream]) (ReadyQueue.new 1) =
      .ok candidateLoad ∧
    [candidateStream ++ [⟨"X", "finish", "0"⟩], [⟨"P", "begin", "7"⟩]].flatten =
      [candidateStream].flatten ++ trailingTokens ∧
    ((∀ (p : List Token) (t : Token), [candidateStream].flatten = p ++ [t] →
      t.isCommand 'S' "finish" → candidateLoad.1.sFinishFound_ = true) ∧
    (candidateLoad.1.sFinishFound_ = true →
      (freshLoader strConfig).parseMDF
        (some [candidateStream ++ [⟨"X", "finish", "0"⟩], [⟨"P", "begin", "7"⟩]])
        (ReadyQueue.new 1) = .ok candidateLoad)) :=
  ⟨by rfl, by rfl,
    sFinish_terminates_ingestion strConfig (ReadyQueue.new 1) [candidateStream]
      [candidateStream ++ [⟨"X", "finish", "0"⟩], [⟨"P", "begin", "7"⟩]] trailingTokens
      candidateLoad (by rfl) (by rfl)⟩

theorem startProcess_configObj (md : MetaData) (c : Char) (d : String) :
    (md.startProcess c d).configObj_ = md.configObj_ := by
  unfold MetaData.startProcess
  split_ifs <;> rfl

theorem storeCommand_eq (md : MetaData) (c : Char) (d : String) (n : Int) (q : ReadyQueue) :
    md.storeCommand c d n q =
      match cycleTimeLoop md.configObj_ d n cycleTable 0 with
      | .error e => .error e
      | .ok t => .ok (storeResult md c d n t q) := by
  unfold MetaData.storeCommand
  simp only [startProcess_configObj]
  rfl

theorem handler_eq (md : MetaData) (code d cycles : String) (q : ReadyQueue) (c : Char)
    (hc : code.data.head? = some c) :
    md.handler code d cycles q =
      if atoi cycles < 0 then .error "MetaData Class: Number of Cycles is Less Than Zero"
      else
        match MetaData.handleCodeDescErrors c d with
        | .error e => .error e
        | .ok _ =>
          match md.checkSpecialCommands c d with
          | .error e => .error e
          | .ok special =>
            if special.1 then .ok (special.2, q)
            else special.2.storeCommand c d (atoi cycles) q := by
  unfold MetaData.handler
  cases hdata : code.data with
  | nil => rw [hdata] at hc; simp at hc
  | cons c' rest =>
    rw [hdata] at hc
    simp only [List.head?_cons, Option.some.injEq] at hc
    subst hc
    rfl

theorem handler_cases (md : MetaData) (code d cycles : String) (q : ReadyQueue)
    (x : MetaData × ReadyQueue) (h : md.handler code d cycles q = .ok x) :
    ∃ c : Char, code.data.head? = some c ∧ 0 ≤ atoi cycles ∧
      MetaData.handleCodeDescErrors c d = .ok () ∧
      ((md.currentOpIndex_ = 0 ∧ c = 'S' ∧ d = "begin" ∧
          x = ({ md with currentOpIndex_ := 1 }, q)) ∨
       (2 ≤ md.currentOpIndex_ ∧ c = 'S' ∧ d = "finish" ∧
          x = ({ md with sFinishFound_ := true,
                         currentOpIndex_ := md.currentOpIndex_ + 1 }, q)) ∨
       (1 ≤ md.currentOpIndex_ ∧ (md.currentOpIndex_ = 1 → c = 'A' ∧ d = "begin") ∧
          ¬ (c = 'S' ∧ d = "finish") ∧
          ∃ t, cycleTimeLoop md.configObj_ d (atoi cycles) cycleTable 0 = .ok t ∧
            x = storeResult md c d (atoi cycles) t q)) := by
  obtain ⟨c, special, hc, hn, hsp, htrue, hfalse⟩ := handler_ok _ _ _ _ _ _ h
  have hcd : MetaData.handleCodeDescErrors c d = .ok () := by
    rw [handler_eq md code d cycles q c hc, if_neg (by omega)] at h
    cases hh : MetaData.handleCodeDescErrors c d with
    | error e => rw [hh] at h; exact absurd h (by simp)
    | ok u => rfl
  refine ⟨c, hc, hn, hcd, ?_⟩
  have hstore : ∀ m : MetaData, m.storeCommand c d (atoi cycles) q = .ok x →
      ∃ t, cycleTimeLoop m.configObj_ d (atoi cycles) cycleTable 0 = .ok t ∧
        x = storeResult m c d (atoi cycles) t q := by
    intro m hm
    rw [storeCommand_eq] at hm
    cases ht : cycleTimeLoop m.configObj_ d (atoi cycles) cycleTable 0 with
    | error e => rw [ht] at hm; exact absurd hm (by simp)
    | ok t => rw [ht] at hm; exact ⟨t, rfl, (Except.ok.inj hm).symm⟩
  by_cases h0 : md.currentOpIndex_ = 0
  · obtain ⟨h1, h2, hs⟩ := checkSpecialCommands_zero md c d special h0 hsp
    left
    refine ⟨h0, h1, h2, ?_⟩
    rw [htrue (by rw [hs]), hs]
  · by_cases h1 : md.currentOpIndex_ = 1
    · obtain ⟨ha, hb, hs⟩ := checkSpecialCommands_one md c d special h1 hsp
      right; right
      have hst := hfalse (by rw [hs])
      rw [hs] at hst
      refine ⟨by omega, fun _ => ⟨ha, hb⟩, ?_, hstore md hst⟩
      rw [ha]; intro hh; exact absurd hh.1 (by decide)
    · rcases checkSpecialCommands_later md c d special (by omega) hsp with
        ⟨hS, hF, hs⟩ | ⟨hn', hs⟩
      · right; left
        refine ⟨by omega, hS, hF, ?_⟩
        rw [htrue (by rw [hs]), hs]
      · right; right
        have hst := hfalse (by rw [hs])
        rw [hs] at hst
        exact ⟨by omega, fun hh => absurd hh h1, hn', hstore md hst⟩

theorem storeResult_index (md : MetaData) (c : Char) (d : String) (n t : Int) (q : ReadyQueue) :
    (storeResult md c d n t q).1.currentOpIndex_ = md.currentOpIndex_ + 1 := by
  simp only [storeResult, MetaData.finishProcess, MetaData.insertOperation,
    MetaData.startProcess]
  split_ifs <;> rfl

theorem storeResult_config (md : MetaData) (c : Char) (d : String) (n t : Int)
    (q : ReadyQueue) : (storeResult md c d n t q).1.configObj_ = md.configObj_ := by
  simp only [storeResult, MetaData.finishProcess, MetaData.insertOperation,
    MetaData.startProcess]
  split_ifs <;> rfl

theorem storeResult_sFinishFound (md : MetaData) (c : Char) (d : String) (n t : Int)
    (q : ReadyQueue) : (storeResult md c d n t q).1.sFinishFound_ = md.sFinishFound_ := by
  simp only [storeResult, MetaData.finishProcess, MetaData.insertOperation,
    MetaData.startProcess]
  split_ifs <;> rfl

theorem storeResult_ops (md : MetaData) (c : Char) (d : String) (n t : Int) (q : ReadyQueue) :
    (storeResult md c d n t q).1.processObj_.metaCmdVect_ =
      (if c = 'A' ∧ d = "begin" then [] else md.processObj_.metaCmdVect_) ++
        [{ code_ := c, descriptor_ := d, cycles_ := n, time_ := t }] := by
  simp only [storeResult, MetaData.finishProcess, MetaData.insertOperation,
    MetaData.startProcess]
  split_ifs <;> rfl

theorem storeResult_pc (md : MetaData) (c : Char) (d : String) (n t : Int) (q : ReadyQueue) :
    (storeResult md c d n t q).1.processObj_.operationIndex_ =
      if c = 'A' ∧ d = "begin" then 0 else md.processObj_.operationIndex_ := by
  simp only [storeResult, MetaData.finishProcess, MetaData.insertOperation,
    MetaData.startProcess]
  split_ifs <;> rfl

theorem storeResult_rem (md : MetaData) (c : Char) (d : String) (n t : Int) (q : ReadyQueue) :
    (storeResult md c d n t q).1.processObj_.processTimeRemaining_ =
      wrapInt ((if c = 'A' ∧ d = "begin" then 0 else md.processObj_.processTimeRemaining_) +
        t) := by
  simp only [storeResult, MetaData.finishProcess, MetaData.insertOperation,
    MetaData.startProcess]
  split_ifs <;> rfl

theorem storeResult_queue (md : MetaData) (c : Char) (d : String) (n t : Int)
    (q : ReadyQueue) :
    (storeResult md c d n t q).2 =
      if c = 'A' ∧ d = "finish" then
        { q with processVect_ := q.processVect_ ++ [(storeResult md c d n t q).1.processObj_],
                 processArrivalIndx_ := q.processArrivalIndx_ + 1 }
      else q := by
  simp only [storeResult, MetaData.finishProcess]
  split_ifs <;> rfl

theorem storeResult_pid (md : MetaData) (c : Char) (d : String) (n t : Int) (q : ReadyQueue)
    (hf : c = 'A' ∧ d = "finish") :
    (storeResult md c d n t q).1.processObj_.processNumber_ = (q.processArrivalIndx_ : Int) := by
  simp only [storeResult, MetaData.finishProcess, hf, and_self, if_true]
  rfl

theorem parseFullLine_preserves (P : MetaData → ReadyQueue → Prop)
    (hstep : ∀ (md : MetaData) (q : ReadyQueue) (code d cycles : String)
      (x : MetaData × ReadyQueue), P md q → md.handler code d cycles q = .ok x → P x.1 x.2) :
    ∀ (toks : List Token) (md : MetaData) (q : ReadyQueue) (x : MetaData × ReadyQueue),
      P md q → md.parseFullLine toks q = .ok x → P x.1 x.2 := by
  intro toks
  induction toks with
  | nil =>
    intro md q x hP h
    simp only [MetaData.parseFullLine] at h
    rw [← Except.ok.inj h]; exact hP
  | cons t rest ih =>
    intro md q x hP h
    simp only [MetaData.parseFullLine] at h
    split_ifs at h with hs
    · rw [← Except.ok.inj h]; exact hP
    · cases hh : md.handler t.code t.descriptor t.cycles q with
      | error e => rw [hh] at h; exact absurd h (by simp)
      | ok y =>
        rw [hh] at h
        exact ih y.1 y.2 x (hstep md q _ _ _ y hP hh) h

theorem pidRange_succ (a n : Nat) : pidRange a (n + 1) = pidRange a n ++ [((a + n : Nat) : Int)] := by
  unfold pidRange
  rw [List.range'_concat]
  simp

theorem handler_appended (q0 : ReadyQueue) (md : MetaData) (q : ReadyQueue)
    (code d cycles : String) (x : MetaData × ReadyQueue) (hq : Appended q0 q)
    (h : md.handler code d cycles q = .ok x) : Appended q0 x.2 := by
  obtain ⟨c, _, _, _, hcase⟩ := handler_cases _ _ _ _ _ _ h
  rcases hcase with ⟨_, _, _, hx⟩ | ⟨_, _, _, hx⟩ | ⟨_, _, _, t, _, hx⟩
  · rw [hx]; exact hq
  · rw [hx]; exact hq
  · rw [hx, storeResult_queue]
    split_ifs with hf
    · obtain ⟨new, h1, h2, h3, h4⟩ := hq
      refine ⟨new ++ [(storeResult md c d (atoi cycles) t q).1.processObj_], ?_, ?_, h3, ?_⟩
      · simp only [h1, List.append_assoc]
      · simp only [h2, List.length_append, List.length_singleton]; omega
      · unfold pids at h4 ⊢
        rw [List.map_append, h4, List.length_append, List.length_singleton, pidRange_succ]
        simp only [List.map_cons, List.map_nil, Process.getProcessNumber]
        rw [storeResult_pid _ _ _ _ _ _ hf, h2]
    · exact hq

theorem parseMDF_appended (cfg : Configuration) (mdf : Option (List (List Token)))
    (q : ReadyQueue) (x : MetaData × ReadyQueue)
    (h : (freshLoader cfg).parseMDF mdf q = .ok x) : Appended q x.2 := by
  unfold MetaData.parseMDF at h
  cases mdf with
  | none => exact absurd h (by simp)
  | some lines =>
    simp only [] at h
    rw [parseLines_eq_flatten] at h
    exact parseFullLine_preserves (fun _ q' => Appended q q')
      (fun md q' code d cycles y hP hh => handler_appended q md q' code d cycles y hP hh)
      lines.flatten (freshLoader cfg) q x ⟨[], by simp, by simp, rfl, rfl⟩ h

theorem importMDF_eq (mdf : Option (List (List Token))) (r : OSprocessRunner) :
    r.importMDF mdf =
      match loadBatch r.configObj_ mdf r.readyQ_ with
      | .error e => .error e
      | .ok q => .ok { r with readyQ_ := q, processesInRdyQ_ := q.getNumberOfProcesses } := by
  unfold OSprocessRunner.importMDF loadBatch freshLoader
  simp only []
  cases (MetaData.new.setConfigurationObject r.configObj_).parseMDF mdf r.readyQ_ with
  | error e => rfl
  | ok x => rfl

theorem loadBatch_appended (cfg : Configuration) (mdf : Option (List (List Token)))
    (q q1 : ReadyQueue) (h : loadBatch cfg mdf q = .ok q1) : Appended q q1 := by
  unfold loadBatch at h
  cases hh : (freshLoader cfg).parseMDF mdf q with
  | error e => rw [hh] at h; exact absurd h (by simp)
  | ok x =>
    rw [hh] at h
    rw [← Except.ok.inj h]
    exact parseMDF_appended cfg mdf q x hh

theorem pidRange_append (a m n : Nat) : pidRange a m ++ pidRange (a + m) n = pidRange a (m + n) := by
  induction n with
  | zero => simp [pidRange]
  | succ n ih =>
    rw [pidRange_succ, ← List.append_assoc, ih, ← Nat.add_assoc, pidRange_succ]
    simp [Nat.add_assoc]

theorem pidRange_nodup (a n : Nat) : (pidRange a n).Nodup := by
  unfold pidRange
  exact (List.nodup_range' a n).map (fun i j h => by simpa using h)

theorem pidRange_getElem (a n i : Nat) (hi : i < (pidRange a n).length) :
    (pidRange a n)[i] = ((a + i : Nat) : Int) := by
  unfold pidRange
  simp

theorem loadBatches_numbered (cfg : Configuration) :
    ∀ (batches : List (Option (List (List Token)))) (q0 q : ReadyQueue),
      pids q0.processVect_ = pidRange 1 q0.processVect_.length →
      q0.processArrivalIndx_ = q0.processVect_.length + 1 →
      loadBatches cfg batches q0 = .ok q →
      pids q.processVect_ = pidRange 1 q.processVect_.length ∧
      q.processArrivalIndx_ = q.processVect_.length + 1 := by
  intro batches
  induction batches with
  | nil =>
    intro q0 q h1 h2 h
    simp only [loadBatches] at h
    rw [← Except.ok.inj h]
    exact ⟨h1, h2⟩
  | cons mdf rest ih =>
    intro q0 q h1 h2 h
    simp only [loadBatches] at h
    cases hh : loadBatch cfg mdf q0 with
    | error e => rw [hh] at h; exact absurd h (by simp)
    | ok q1 =>
      rw [hh] at h
      obtain ⟨new, hv, hidx, _, hp⟩ := loadBatch_appended cfg mdf q0 q1 hh
      refine ih q1 q ?_ ?_ h
      · rw [hv]
        unfold pids at h1 hp ⊢
        rw [List.map_append, h1, hp, h2, List.length_append, Nat.add_comm _ 1,
          pidRange_append]
      · rw [hidx, h2, hv, List.length_append]; omega

/-! ### C12 -/

/-- C12: a load by a fresh loader appends processes numbered consecutively from the next-pid
counter of the queue and advances the counter by their number.  Hence, starting from a
freshly constructed ready queue, after any sequence of successful loads the `i`-th process
appended (counted from 1) has pid `i`, the next-pid counter is the number of processes
appended plus 1, and no two processes share a pid. -/
theorem pid_assignment (cfg : Configuration) (schedCode : Int)
    (batches : List (Option (List (List Token)))) (q : ReadyQueue)
    (h : loadBatches cfg batches (ReadyQueue.new schedCode) = .ok q) :
    (∀ (mdf : Option (List (List Token))) (q0 q1 : ReadyQueue),
      loadBatch cfg mdf q0 = .ok q1 →
      ∃ new, q1.processVect_ = q0.processVect_ ++ new ∧
        q1.processArrivalIndx_ = q0.processArrivalIndx_ + new.length ∧
        pids new = pidRange q0.processArrivalIndx_ new.length) ∧
    (∀ (i : Nat) (hi : i < q.processVect_.length),
      (q.processVect_[i]).getProcessNumber = ((i + 1 : Nat) : Int)) ∧
    q.processArrivalIndx_ = q.processVect_.length + 1 ∧
    (pids q.processVect_).Nodup := by
  obtain ⟨hp, hidx⟩ := loadBatches_numbered cfg batches (ReadyQueue.new schedCode) q rfl rfl h
  refine ⟨?_, ?_, hidx, ?_⟩
  · intro mdf q0 q1 hl
    obtain ⟨new, h1, h2, _, h4⟩ := loadBatch_appended cfg mdf q0 q1 hl
    exact ⟨new, h1, h2, h4⟩
  · intro i hi
    have hlen : i < (pids q.processVect_).length := by simpa [pids] using hi
    have h1 : (pids q.processVect_)[i] = (q.processVect_[i]).getProcessNumber := by
      simp [pids]
    rw [← h1]
    have hlen2 : i < (pidRange 1 q.processVect_.length).length := by rw [← hp]; exact hlen
    have h2 : (pids q.processVect_)[i] = (pidRange 1 q.processVect_.length)[i] := by
      congr 1
    rw [h2, pidRange_getElem, Nat.add_comm]
  · rw [hp]; exact pidRange_nodup _ _

/-- Witness of C12: the batches `candidateStream` and `twinStream` loaded into a new queue
give the pids 1, 2, 3, 4. -/
theorem pid_assignment_witness :
    loadBatches strConfig [some [candidateStream], some [twinStream]] (ReadyQueue.new 1) =
      .ok twoBatches ∧
    ((∀ (mdf : Option (List (List Token))) (q0 q1 : ReadyQueue),
      loadBatch strConfig mdf q0 = .ok q1 →
      ∃ new, q1.processVect_ = q0.processVect_ ++ new ∧
        q1.processArrivalIndx_ = q0.processArrivalIndx_ + new.length ∧
        pids new = pidRange q0.processArrivalIndx_ new.length) ∧
    (∀ (i : Nat) (hi : i < twoBatches.processVect_.length),
      (twoBatches.processVect_[i]).getProcessNumber = ((i + 1 : Nat) : Int)) ∧
    twoBatches.processArrivalIndx_ = twoBatches.processVect_.length + 1 ∧
    (pids twoBatches.processVect_).Nodup) :=
  ⟨by rfl, pid_assignment strConfig 1 [some [candidateStream], some [twinStream]] twoBatches
    (by rfl)⟩

theorem cycleTable_eq : cycleTable =
    [("run", "processor"), ("hard drive", "hardDrive"), ("keyboard", "keyboard"),
     ("scanner", "scanner"), ("monitor", "monitor"), ("projector", "projector"),
     ("block", "memory"), ("allocate", "memory")] := by decide

theorem getCycleTime_ok (cfg : Configuration) (key : String) (ct : CycleTime)
    (h : cfg.getCycleTime key = .ok ct) : cfg.timeMap_.lookup key = some ct := by
  unfold Configuration.getCycleTime at h
  cases hl : cfg.timeMap_.lookup key with
  | none => rw [hl] at h; exact absurd h (by simp)
  | some t => rw [hl] at h; rw [Except.ok.inj h]

theorem cycleTimeLoop_one (cfg : Configuration) (key : String) (n t : Int)
    (h : (match cfg.getCycleTime key with
        | .error e => (Except.error e : Except String Int)
        | .ok tempObj => .ok (wrapInt (tempObj.getTime * n))) = .ok t) :
    ∃ ct, cfg.timeMap_.lookup key = some ct ∧ t = wrapInt (n * ct.milliseconds_) := by
  cases hg : cfg.getCycleTime key with
  | error e => rw [hg] at h; exact absurd h (by simp)
  | ok ct =>
    rw [hg] at h
    refine ⟨ct, getCycleTime_ok cfg key ct hg, ?_⟩
    rw [← Except.ok.inj h, CycleTime.getTime, Int.mul_comm]

theorem cycleTimeLoop_spec (cfg : Configuration) (c : Char) (d : String) (n t : Int)
    (h : cycleTimeLoop cfg d n cycleTable 0 = .ok t) :
    StoredCost cfg { code_ := c, descriptor_ := d, cycles_ := n, time_ := t } := by
  rw [cycleTable_eq] at h
  unfold StoredCost kindOf
  simp only []
  by_cases h1 : d = "run"
  · subst h1
    simp only [cycleTimeLoop, if_true, String.reduceEq, if_false] at h ⊢
    exact cycleTimeLoop_one cfg _ n t h
  by_cases h2 : d = "hard drive"
  · subst h2
    simp only [cycleTimeLoop, if_true, String.reduceEq, if_false] at h ⊢
    exact cycleTimeLoop_one cfg _ n t h
  by_cases h3 : d = "keyboard"
  · subst h3
    simp only [cycleTimeLoop, if_true, String.reduceEq, if_false] at h ⊢
    exact cycleTimeLoop_one cfg _ n t h
  by_cases h4 : d = "scanner"
  · subst h4
    simp only [cycleTimeLoop, if_true, String.reduceEq, if_false] at h ⊢
    exact cycleTimeLoop_one cfg _ n t h
  by_cases h5 : d = "monitor"
  · subst h5
    simp only [cycleTimeLoop, if_true, String.reduceEq, if_false] at h ⊢
    exact cycleTimeLoop_one cfg _ n t h
  by_cases h6 : d = "projector"
  · subst h6
    simp only [cycleTimeLoop, if_true, String.reduceEq, if_false] at h ⊢
    exact cycleTimeLoop_one cfg _ n t h
  by_cases h7 : d = "block"
  · subst h7
    simp only [cycleTimeLoop, if_true, String.reduceEq, if_false] at h ⊢
    exact cycleTimeLoop_one cfg _ n t h
  by_cases h8 : d = "allocate"
  · subst h8
    simp only [cycleTimeLoop, if_true, String.reduceEq, if_false] at h ⊢
    exact cycleTimeLoop_one cfg _ n t h
  simp only [cycleTimeLoop, h1, h2, h3, h4, h5, h6, h7, h8, if_false] at h ⊢
  exact (Except.ok.inj h).symm

theorem handler_costInv (cfg : Configuration) (q0 : ReadyQueue) (md : MetaData)
    (q : ReadyQueue) (code d cycles : String) (x : MetaData × ReadyQueue)
    (hI : CostInv cfg q0 md q) (h : md.handler code d cycles q = .ok x) :
    CostInv cfg q0 x.1 x.2 := by
  obtain ⟨hcfg, hops, new, hnew, hcost⟩ := hI
  obtain ⟨c, _, _, _, hcase⟩ := handler_cases _ _ _ _ _ _ h
  rcases hcase with ⟨_, _, _, hx⟩ | ⟨_, _, _, hx⟩ | ⟨_, _, _, t, ht, hx⟩
  · rw [hx]; exact ⟨hcfg, hops, new, hnew, hcost⟩
  · rw [hx]; exact ⟨hcfg, hops, new, hnew, hcost⟩
  · rw [hcfg] at ht
    have hcmd := cycleTimeLoop_spec cfg c d (atoi cycles) t ht
    have hops' : ∀ m ∈ (storeResult md c d (atoi cycles) t q).1.processObj_.metaCmdVect_,
        StoredCost cfg m := by
      rw [storeResult_ops]
      intro m hm
      rcases List.mem_append.mp hm with hm | hm
      · split_ifs at hm with hb
        · simp at hm
        · exact hops m hm
      · simp only [List.mem_singleton] at hm
        rw [hm]; exact hcmd
    rw [hx]
    refine ⟨by rw [storeResult_config, hcfg], hops', ?_⟩
    rw [storeResult_queue]
    split_ifs with hf
    · refine ⟨new ++ [(storeResult md c d (atoi cycles) t q).1.processObj_], ?_, ?_⟩
      · simp only [hnew, List.append_assoc]
      · intro p hp
        rcases List.mem_append.mp hp with hp | hp
        · exact hcost p hp
        · simp only [List.mem_singleton] at hp
          rw [hp]; exact hops'
    · exact ⟨new, hnew, hcost⟩

theorem costRule_of_stored (cfg : Configuration) (m : MetaCommand) (hs : StoredCost cfg m)
    (hr : CostInRange cfg m) : CostRule cfg m := by
  unfold StoredCost at hs
  unfold CostRule
  unfold CostInRange at hr
  cases hk : kindOf m.descriptor_ with
  | none =>
    rw [hk] at hs
    exact hs
  | some key =>
    rw [hk] at hs
    obtain ⟨ct, hl, ht⟩ := hs
    exact ⟨ct, hl, by rw [ht, wrapInt_of_range _ (hr key ct hk hl)]⟩

/-! ### C13 -/

set_option maxRecDepth 20000 in

/-- C13, counterexample: with every cycle time configured (10 ms per processor cycle), the
loader accepts the file `S{begin}0; A{begin}0; P{run}300000000; A{finish}0; S{finish}0;` and
the operation `P{run}` of 300000000 cycles it creates has the time `-1294967296`, not
`300000000 * 10 = 3000000000`: the product is an `int` product, and 3000000000 wraps to
`-1294967296`. -/
theorem operation_cost_overflow :
    ((freshLoader fullConfig).parseMDF (some [overflowStream]) (ReadyQueue.new 0)).toOption.map
        (fun x => x.2.processVect_.map (fun p => p.metaCmdVect_.map
          (fun m => (m.descriptor_, m.cycles_, m.time_)))) =
      some [[("begin", 0, 0), ("run", 300000000, -1294967296), ("finish", 0, 0)]] ∧
    kindOf "run" = some "processor" ∧
    fullConfig.timeMap_.lookup "processor" = some ⟨"Processor", 10⟩ ∧
    (300000000 : Int) * 10 = 3000000000 ∧
    wrapInt 3000000000 = -1294967296 ∧
    ¬ InIntRange 3000000000 := by
  decide

/-- C13, amended: every operation of every process a fresh loader appends to the ready queue
has as `ms` the `int` product `cycles * (configured ms-per-cycle of the kind of its
descriptor)` for the descriptors run (processor), hard drive (hardDrive), keyboard, scanner,
monitor, projector, block (memory) and allocate (memory), the cycle time of that kind being
configured; when that product is within the range of `int` (from `-2 ^ 31` to `2 ^ 31 - 1`)
the operation has `ms = cycles * ms-per-cycle`; and `ms = 0` for the descriptors begin and
finish. -/
theorem operation_cost (cfg : Configuration) (lines : List (List Token)) (q : ReadyQueue)
    (x : MetaData × ReadyQueue) (h : (freshLoader cfg).parseMDF (some lines) q = .ok x) :
    ∃ new, x.2.processVect_ = q.processVect_ ++ new ∧
      ∀ p ∈ new, ∀ m ∈ p.metaCmdVect_,
        StoredCost cfg m ∧ (CostInRange cfg m → CostRule cfg m) ∧
          (m.descriptor_ = "begin" ∨ m.descriptor_ = "finish" → m.time_ = 0) := by
  unfold MetaData.parseMDF at h
  simp only [] at h
  rw [parseLines_eq_flatten] at h
  have hI := parseFullLine_preserves (fun md q' => CostInv cfg q md q')
    (fun md q' code d cycles y hP hh => handler_costInv cfg q md q' code d cycles y hP hh)
    lines.flatten (freshLoader cfg) q x
    ⟨rfl, by simp [freshLoader, MetaData.setConfigurationObject, MetaData.new, Process.new],
      [], by simp, by simp⟩ h
  obtain ⟨_, _, new, hnew, hcost⟩ := hI
  refine ⟨new, hnew, ?_⟩
  intro p hp m hm
  have hc := hcost p hp m hm
  refine ⟨hc, costRule_of_stored cfg m hc, ?_⟩
  intro hd
  unfold StoredCost kindOf at hc
  rcases hd with hd | hd <;> rw [hd] at hc <;> simpa using hc

/-- Witness of the amended C13: the load of `costStream` gives the times 0, 30, 16, 12, 0 for
the cycle counts 0, 3, 2, 4, 0. -/
theorem operation_cost_witness :
    (freshLoader fullConfig).parseMDF (some [costStream]) (ReadyQueue.new 0) = .ok costLoad ∧
    costLoad.2.processVect_.map (fun p => p.metaCmdVect_.map
        (fun m => (m.descriptor_, m.cycles_, m.time_))) =
      [[("begin", 0, 0), ("run", 3, 30), ("hard drive", 2, 16), ("block", 4, 12),
        ("finish", 0, 0)]] ∧
    ∃ new, costLoad.2.processVect_ = (ReadyQueue.new 0).processVect_ ++ new ∧
      ∀ p ∈ new, ∀ m ∈ p.metaCmdVect_,
        StoredCost fullConfig m ∧ (CostInRange fullConfig m → CostRule fullConfig m) ∧
          (m.descriptor_ = "begin" ∨ m.descriptor_ = "finish" → m.time_ = 0) :=
  ⟨by rfl, by decide,
    operation_cost fullConfig [costStream] (ReadyQueue.new 0) costLoad (by rfl)⟩


theorem checkSpecialCommands_first (md : MetaData) (h0 : md.currentOpIndex_ = 0) :
    md.checkSpecialCommands 'S' "begin" = .ok (true, { md with currentOpIndex_ := 1 }) := by
  unfold MetaData.checkSpecialCommands
  rw [if_pos h0, if_neg (by simp), h0]

theorem checkSpecialCommands_finish (md : MetaData) (h2 : 2 ≤ md.currentOpIndex_) :
    md.checkSpecialCommands 'S' "finish" =
      .ok (true, { md with sFinishFound_ := true,
                           currentOpIndex_ := md.currentOpIndex_ + 1 }) := by
  unfold MetaData.checkSpecialCommands
  rw [if_neg (by omega), if_neg (by omega), if_pos ⟨rfl, rfl⟩]

theorem checkSpecialCommands_plain (md : MetaData) (c : Char) (d : String)
    (h1 : 1 ≤ md.currentOpIndex_) (hb : md.currentOpIndex_ = 1 → c = 'A' ∧ d = "begin")
    (hn : ¬ (c = 'S' ∧ d = "finish")) :
    md.checkSpecialCommands c d = .ok (false, md) := by
  unfold MetaData.checkSpecialCommands
  rw [if_neg (by omega), if_neg, if_neg hn]
  rintro ⟨hi, hcd⟩
  obtain ⟨ha, hd⟩ := hb hi
  rcases hcd with hcd | hcd
  · exact hcd ha
  · exact hcd hd

theorem erasePid_fields (md md' : MetaData) (h : md'.erasePid = md.erasePid) :
    md'.configObj_ = md.configObj_ ∧ md'.currentOpIndex_ = md.currentOpIndex_ ∧
    md'.sFinishFound_ = md.sFinishFound_ ∧
    md'.ioOpCountForProcess_ = md.ioOpCountForProcess_ ∧
    md'.processObj_.erasePid = md.processObj_.erasePid := by
  unfold MetaData.erasePid at h
  simp only [MetaData.mk.injEq] at h
  exact ⟨h.2.1, h.2.2.1, h.2.2.2.1, h.2.2.2.2, h.1⟩

theorem storeResult_erase (md md' : MetaData) (c : Char) (d : String) (n t : Int)
    (q q' : ReadyQueue) (h : md'.erasePid = md.erasePid) :
    (storeResult md' c d n t q').1.erasePid = (storeResult md c d n t q).1.erasePid := by
  obtain ⟨h1, h2, h3, h4, h5⟩ := erasePid_fields md md' h
  obtain ⟨⟨ops, nio, pc, st, rem, pid⟩, cfg, idx, sf, io⟩ := md
  obtain ⟨⟨ops', nio', pc', st', rem', pid'⟩, cfg', idx', sf', io'⟩ := md'
  simp only [Process.erasePid, Process.mk.injEq] at h1 h2 h3 h4 h5
  obtain ⟨e1, e2, e3, e4, e5, _⟩ := h5
  subst h1 h2 h3 h4 e1 e2 e3 e4 e5
  simp only [storeResult, MetaData.finishProcess, MetaData.insertOperation,
    MetaData.startProcess, MetaData.erasePid, Process.erasePid, Process.setNumIOops,
    Process.setProcessNumber, Process.insertCommand, Process.addProcessTimeRemain, Process.new]
  split_ifs <;> rfl

theorem handler_sim (md md' : MetaData) (q q' : ReadyQueue) (code d cycles : String)
    (x : MetaData × ReadyQueue) (hs : md'.erasePid = md.erasePid)
    (h : md.handler code d cycles q = .ok x) :
    ∃ x', md'.handler code d cycles q' = .ok x' ∧ x'.1.erasePid = x.1.erasePid ∧
      ((x.2 = q ∧ x'.2 = q') ∨
       (∃ p p', x.2.processVect_ = q.processVect_ ++ [p] ∧
          x'.2.processVect_ = q'.processVect_ ++ [p'] ∧ p'.erasePid = p.erasePid)) := by
  obtain ⟨hcfg, hidx, _, _, _⟩ := erasePid_fields md md' hs
  obtain ⟨c, hc, hn, hcd, hcase⟩ := handler_cases _ _ _ _ _ _ h
  rw [handler_eq md' code d cycles q' c hc, if_neg (by omega), hcd]
  simp only []
  rcases hcase with ⟨h0, hS, hB, hx⟩ | ⟨h2, hS, hF, hx⟩ | ⟨h1, hb, hnf, t, ht, hx⟩
  · subst hS hB
    rw [checkSpecialCommands_first md' (by omega)]
    refine ⟨_, rfl, ?_, Or.inl ⟨by rw [hx], rfl⟩⟩
    rw [hx]
    simp only [MetaData.erasePid, MetaData.mk.injEq] at hs ⊢
    exact ⟨hs.1, hs.2.1, trivial, hs.2.2.2.1, hs.2.2.2.2⟩
  · subst hS hF
    rw [checkSpecialCommands_finish md' (by omega)]
    refine ⟨_, rfl, ?_, Or.inl ⟨by rw [hx], rfl⟩⟩
    rw [hx]
    simp only [MetaData.erasePid, MetaData.mk.injEq] at hs ⊢
    exact ⟨hs.1, hs.2.1, by omega, trivial, hs.2.2.2.2⟩
  · rw [checkSpecialCommands_plain md' c d (by omega) (by rw [hidx]; exact hb) hnf]
    simp only [Bool.false_eq_true, if_false]
    rw [storeCommand_eq, hcfg, ht]
    refine ⟨_, rfl, ?_, ?_⟩
    · rw [hx]; exact storeResult_erase md md' c d _ t q q' hs
    · rw [hx, storeResult_queue, storeResult_queue]
      split_ifs with hf
      · right
        refine ⟨_, _, rfl, rfl, ?_⟩
        have := storeResult_erase md md' c d (atoi cycles) t q q' hs
        simp only [MetaData.erasePid, MetaData.mk.injEq] at this
        exact this.1
      · left; exact ⟨rfl, rfl⟩

theorem parseFullLine_sim :
    ∀ (toks : List Token) (md md' : MetaData) (q q' : ReadyQueue) (x : MetaData × ReadyQueue),
      md'.erasePid = md.erasePid → md.parseFullLine toks q = .ok x →
      ∃ x', md'.parseFullLine toks q' = .ok x' ∧ x'.1.erasePid = x.1.erasePid ∧
        ∃ new new', x.2.processVect_ = q.processVect_ ++ new ∧
          x'.2.processVect_ = q'.processVect_ ++ new' ∧
          new'.map Process.erasePid = new.map Process.erasePid := by
  intro toks
  induction toks with
  | nil =>
    intro md md' q q' x hs h
    simp only [MetaData.parseFullLine] at h ⊢
    rw [← Except.ok.inj h]
    exact ⟨_, rfl, hs, [], [], by simp, by simp, rfl⟩
  | cons t rest ih =>
    intro md md' q q' x hs h
    have hsf : md'.sFinishFound_ = md.sFinishFound_ := (erasePid_fields md md' hs).2.2.1
    simp only [MetaData.parseFullLine] at h ⊢
    rw [hsf]
    split_ifs at h ⊢ with hfin
    · rw [← Except.ok.inj h]
      exact ⟨_, rfl, hs, [], [], by simp, by simp, rfl⟩
    · cases hh : md.handler t.code t.descriptor t.cycles q with
      | error e => rw [hh] at h; exact absurd h (by simp)
      | ok y =>
        rw [hh] at h
        obtain ⟨y', hy', hys, hyq⟩ := handler_sim md md' q q' _ _ _ y hs hh
        rw [hy']
        obtain ⟨x', hx', hxs, new, new', hn, hn', hmap⟩ := ih y.1 y'.1 y.2 y'.2 x hys h
        refine ⟨x', hx', hxs, ?_⟩
        rcases hyq with ⟨e1, e2⟩ | ⟨p, p', e1, e2, e3⟩
        · exact ⟨new, new', by rw [hn, e1], by rw [hn', e2], hmap⟩
        · refine ⟨p :: new, p' :: new', by rw [hn, e1]; simp, by rw [hn', e2]; simp, ?_⟩
          simp only [List.map_cons, hmap, e3]

theorem handler_pcInv (q0 : ReadyQueue) (md : MetaData) (q : ReadyQueue)
    (code d cycles : String) (x : MetaData × ReadyQueue)
    (hI : PcInv q0 md q) (h : md.handler code d cycles q = .ok x) : PcInv q0 x.1 x.2 := by
  obtain ⟨hpc, new, hnew, hall⟩ := hI
  obtain ⟨c, _, _, _, hcase⟩ := handler_cases _ _ _ _ _ _ h
  rcases hcase with ⟨_, _, _, hx⟩ | ⟨_, _, _, hx⟩ | ⟨_, _, _, t, _, hx⟩
  · rw [hx]; exact ⟨hpc, new, hnew, hall⟩
  · rw [hx]; exact ⟨hpc, new, hnew, hall⟩
  · have hpc' : (storeResult md c d (atoi cycles) t q).1.processObj_.operationIndex_ = 0 := by
      rw [storeResult_pc]; split_ifs
      · rfl
      · exact hpc
    rw [hx]
    refine ⟨hpc', ?_⟩
    rw [storeResult_queue]
    split_ifs with hf
    · refine ⟨new ++ [(storeResult md c d (atoi cycles) t q).1.processObj_], ?_, ?_⟩
      · simp only [hnew, List.append_assoc]
      · intro p hp
        rcases List.mem_append.mp hp with hp | hp
        · exact hall p hp
        · simp only [List.mem_singleton] at hp
          rw [hp]; exact hpc'
    · exact ⟨new, hnew, hall⟩

theorem parseMDF_pc (cfg : Configuration) (lines : List (List Token)) (q : ReadyQueue)
    (x : MetaData × ReadyQueue) (h : (freshLoader cfg).parseMDF (some lines) q = .ok x) :
    ∃ new, x.2.processVect_ = q.processVect_ ++ new ∧ ∀ p ∈ new, p.operationIndex_ = 0 := by
  unfold MetaData.parseMDF at h
  simp only [] at h
  rw [parseLines_eq_flatten] at h
  exact (parseFullLine_preserves (fun md q' => PcInv q md q')
    (fun md q' code d cycles y hP hh => handler_pcInv q md q' code d cycles y hP hh)
    lines.flatten (freshLoader cfg) q x ⟨rfl, [], by simp, by simp⟩ h).2

/-! ### C14 -/

/-- C14: when a token stream is loaded twice in succession into the same ready queue, each
time by a fresh loader with the same configuration, and the first load succeeds, then the
second load succeeds too and appends the same sequence of processes as the first: the two
sequences are equal once the pids are disregarded (equal operation lists with their ms
values, equal rem_ms, program counter 0), and the pids of the second load continue the
numbering of the first. -/
theorem batch_reingestion (cfg : Configuration) (lines : List (List Token)) (q : ReadyQueue)
    (x1 : MetaData × ReadyQueue) (h1 : (freshLoader cfg).parseMDF (some lines) q = .ok x1) :
    ∃ (x2 : MetaData × ReadyQueue) (new1 new2 : List Process),
      (freshLoader cfg).parseMDF (some lines) x1.2 = .ok x2 ∧
      x1.2.processVect_ = q.processVect_ ++ new1 ∧
      x2.2.processVect_ = x1.2.processVect_ ++ new2 ∧
      new2.map Process.erasePid = new1.map Process.erasePid ∧
      (∀ p ∈ new1 ++ new2, p.operationIndex_ = 0) ∧
      pids new1 = pidRange q.processArrivalIndx_ new1.length ∧
      pids new2 = pidRange (q.processArrivalIndx_ + new1.length) new2.length := by
  have h1' := h1
  unfold MetaData.parseMDF at h1'
  simp only [] at h1'
  rw [parseLines_eq_flatten] at h1'
  obtain ⟨x2, hx2, _, new, new', hn, hn', hmap⟩ :=
    parseFullLine_sim lines.flatten (freshLoader cfg) (freshLoader cfg) q x1.2 x1 rfl h1'
  have h2 : (freshLoader cfg).parseMDF (some lines) x1.2 = .ok x2 := by
    unfold MetaData.parseMDF
    simp only []
    rw [parseLines_eq_flatten]
    exact hx2
  obtain ⟨a1, ha1, hidx1, _, hp1⟩ := parseMDF_appended cfg (some lines) q x1 h1
  obtain ⟨a2, ha2, _, _, hp2⟩ := parseMDF_appended cfg (some lines) x1.2 x2 h2
  obtain ⟨b1, hb1, hpc1⟩ := parseMDF_pc cfg lines q x1 h1
  obtain ⟨b2, hb2, hpc2⟩ := parseMDF_pc cfg lines x1.2 x2 h2
  have e1 : a1 = new := List.append_cancel_left (ha1.symm.trans hn)
  have e2 : a2 = new' := List.append_cancel_left (ha2.symm.trans hn')
  have e3 : b1 = new := List.append_cancel_left (hb1.symm.trans hn)
  have e4 : b2 = new' := List.append_cancel_left (hb2.symm.trans hn')
  subst e1 e2
  refine ⟨x2, a1, a2, h2, hn, hn', hmap, ?_, hp1, ?_⟩
  · intro p hp
    rcases List.mem_append.mp hp with hp | hp
    · exact hpc1 p (by rw [e3]; exact hp)
    · exact hpc2 p (by rw [e4]; exact hp)
  · rw [hp2, hidx1]

/-- Witness of C14: `twinStream` loaded twice into a new queue. -/
theorem batch_reingestion_witness :
    (freshLoader strConfig).parseMDF (some [twinStream]) (ReadyQueue.new 1) = .ok twinLoad ∧
    ∃ (x2 : MetaData × ReadyQueue) (new1 new2 : List Process),
      (freshLoader strConfig).parseMDF (some [twinStream]) twinLoad.2 = .ok x2 ∧
      twinLoad.2.processVect_ = (ReadyQueue.new 1).processVect_ ++ new1 ∧
      x2.2.processVect_ = twinLoad.2.processVect_ ++ new2 ∧
      new2.map Process.erasePid = new1.map Process.erasePid ∧
      (∀ p ∈ new1 ++ new2, p.operationIndex_ = 0) ∧
      pids new1 = pidRange (ReadyQueue.new 1).processArrivalIndx_ new1.length ∧
      pids new2 = pidRange ((ReadyQueue.new 1).processArrivalIndx_ + new1.length) new2.length :=
  ⟨by rfl, batch_reingestion strConfig [twinStream] (ReadyQueue.new 1) twinLoad (by rfl)⟩

theorem sortReadyQueue_rr (q : ReadyQueue) (h : q.schedCode_ = 0) : q.sortReadyQueue = q := by
  unfold ReadyQueue.sortReadyQueue
  rw [if_pos h]

theorem insertAll_rr :
    ∀ (ps : List Process) (q : ReadyQueue), q.schedCode_ = 0 →
      insertAll q ps = { q with processVect_ := q.processVect_ ++ ps } := by
  intro ps
  induction ps with
  | nil => intro q _; simp [insertAll]
  | cons p ps ih =>
    intro q hq
    have h1 : (q.insertProcess p).schedCode_ = 0 := hq
    rw [insertAll, sortReadyQueue_rr _ h1, ih _ h1]
    simp [ReadyQueue.insertProcess]

theorem popProcesses_all :
    ∀ (ps : List Process) (q : ReadyQueue),
      (popProcesses ps.length { q with processVect_ := ps }).1 = ps := by
  intro ps
  induction ps with
  | nil => intro q; rfl
  | cons p ps ih =>
    intro q
    simp only [List.length_cons, popProcesses, ReadyQueue.removeProcess, List.headD_cons,
      List.tail_cons]
    rw [ih]

/-! ### C15 -/

/-- C15: the ready queue is first-in first-out.  `insertProcess(p)` yields the queue with
`p` appended at the tail; on a non-empty queue `removeProcess()` returns the head and leaves
the remaining processes in their order; under policy RR `sortReadyQueue()` leaves the queue
unchanged, so that processes inserted into an empty RR queue (with any calls of
`sortReadyQueue()` in between) are popped in exactly the order they were inserted. -/
theorem ready_queue_fifo (q : ReadyQueue) (p : Process) :
    q.insertProcess p = { q with processVect_ := q.processVect_ ++ [p] } ∧
    (∀ (h : Process) (t : List Process), q.processVect_ = h :: t →
      q.removeProcess = (h, { q with processVect_ := t })) ∧
    (q.schedCode_ = 0 → q.sortReadyQueue = q) ∧
    (q.schedCode_ = 0 → ∀ ps : List Process,
      (popProcesses ps.length (insertAll { q with processVect_ := [] } ps)).1 = ps) := by
  refine ⟨rfl, ?_, sortReadyQueue_rr q, ?_⟩
  · intro h t hq
    unfold ReadyQueue.removeProcess
    rw [hq]
    rfl
  · intro hq ps
    rw [insertAll_rr ps { q with processVect_ := [] } hq]
    simp only [List.nil_append]
    exact popProcesses_all ps _

theorem eventPairs_push (r : OSprocessRunner) (e : OperationInfo) :
    eventPairs (r.pushOperation e).operationsVect_ =
      eventPairs r.operationsVect_ ++ [(e.actor, e.opDescription)] := by
  simp [eventPairs, OSprocessRunner.pushOperation]

theorem executeApplication_begin (clock : Nat → Int) (r : OSprocessRunner) (pid : Int) :
    eventPairs (r.executeApplication clock "begin" pid).operationsVect_ =
      eventPairs r.operationsVect_ ++
        [("OS", "preparing process " ++ toString pid),
         ("OS", "starting process " ++ toString pid)] := by
  simp [OSprocessRunner.executeApplication, eventPairs, OSprocessRunner.pushOperation,
    OSprocessRunner.tick]

theorem executeApplication_finish (clock : Nat → Int) (r : OSprocessRunner) (pid : Int) :
    eventPairs (r.executeApplication clock "finish" pid).operationsVect_ =
      eventPairs r.operationsVect_ ++ [("OS", "End process " ++ toString pid)] := by
  simp [OSprocessRunner.executeApplication, eventPairs, OSprocessRunner.pushOperation,
    OSprocessRunner.tick]

theorem executeProcessorMemory_run (clock : Nat → Int) (r : OSprocessRunner) (t pid : Int) :
    eventPairs (r.executeProcessorMemory clock "run" t pid).operationsVect_ =
      eventPairs r.operationsVect_ ++
        [("Process " ++ toString pid, "start processing action"),
         ("Process " ++ toString pid, "end processing action")] := by
  simp [OSprocessRunner.executeProcessorMemory, eventPairs, OSprocessRunner.pushOperation,
    OSprocessRunner.tick, OSprocessRunner.countDown]

theorem executeProcessorMemory_block (clock : Nat → Int) (r : OSprocessRunner) (t pid : Int) :
    eventPairs (r.executeProcessorMemory clock "block" t pid).operationsVect_ =
      eventPairs r.operationsVect_ ++
        [("Process " ++ toString pid, "start memory blocking"),
         ("Process " ++ toString pid, "end memory blocking")] := by
  simp [OSprocessRunner.executeProcessorMemory, eventPairs, OSprocessRunner.pushOperation,
    OSprocessRunner.tick, OSprocessRunner.countDown]

theorem executeProcessorMemory_allocate (clock : Nat → Int) (r : OSprocessRunner)
    (t pid : Int) :
    eventPairs (r.executeProcessorMemory clock "allocate" t pid).operationsVect_ =
      eventPairs r.operationsVect_ ++
        [("Process " ++ toString pid, "allocating memory"),
         ("Process " ++ toString pid, "memory allocated at " ++ hexAddress r.memAddress_)] := by
  simp only [OSprocessRunner.executeProcessorMemory, OSprocessRunner.advanceMemAddress,
    String.reduceEq, if_false, if_true]
  split_ifs <;>
  simp [eventPairs, OSprocessRunner.pushOperation,
    OSprocessRunner.tick, OSprocessRunner.countDown]

/-- Witness of C15 on the RR queue holding A, with B inserted, and A, B, C inserted into the
emptied queue and popped. -/
theorem ready_queue_fifo_witness :
    rrQueueA.insertProcess procB =
      { rrQueueA with processVect_ := rrQueueA.processVect_ ++ [procB] } ∧
    rrQueueA.removeProcess = (procA, { rrQueueA with processVect_ := [] }) ∧
    rrQueueA.sortReadyQueue = rrQueueA ∧
    (popProcesses 3 (insertAll { rrQueueA with processVect_ := [] } [procA, procB, procC])).1 =
      [procA, procB, procC] :=
  ⟨(ready_queue_fifo rrQueueA procB).1, (ready_queue_fifo rrQueueA procB).2.1 procA [] rfl,
    (ready_queue_fifo rrQueueA procB).2.2.1 rfl,
    (ready_queue_fifo rrQueueA procB).2.2.2 rfl [procA, procB, procC]⟩

/-! ### C16 -/

/-- C16: for every pid `n`, `executeOperation` appends exactly these (actor, description)
events, in order: for `A{begin}` (OS, "preparing process n") and (OS, "starting process n");
for `A{finish}` (OS, "End process n"); for `P{run}` (Process n, "start processing action")
and (Process n, "end processing action"); for `M{block}` (Process n, "start memory blocking")
and (Process n, "end memory blocking"); for `M{allocate}` (Process n, "allocating memory")
and (Process n, "memory allocated at 0x<address>"), the address being the current memory
address written as the hexadecimal field of width 8. -/
theorem non_io_events (clock : Nat → Int) (r : OSprocessRunner) (cmd : MetaCommand)
    (n : Int) :
    (cmd.code_ = 'A' → cmd.descriptor_ = "begin" →
      ∃ r', r.executeOperation clock cmd n = .ok r' ∧
        eventPairs r'.operationsVect_ = eventPairs r.operationsVect_ ++
          [("OS", "preparing process " ++ toString n),
           ("OS", "starting process " ++ toString n)]) ∧
    (cmd.code_ = 'A' → cmd.descriptor_ = "finish" →
      ∃ r', r.executeOperation clock cmd n = .ok r' ∧
        eventPairs r'.operationsVect_ = eventPairs r.operationsVect_ ++
          [("OS", "End process " ++ toString n)]) ∧
    (cmd.code_ = 'P' → cmd.descriptor_ = "run" →
      ∃ r', r.executeOperation clock cmd n = .ok r' ∧
        eventPairs r'.operationsVect_ = eventPairs r.operationsVect_ ++
          [("Process " ++ toString n, "start processing action"),
           ("Process " ++ toString n, "end processing action")]) ∧
    (cmd.code_ = 'M' → cmd.descriptor_ = "block" →
      ∃ r', r.executeOperation clock cmd n = .ok r' ∧
        eventPairs r'.operationsVect_ = eventPairs r.operationsVect_ ++
          [("Process " ++ toString n, "start memory blocking"),
           ("Process " ++ toString n, "end memory blocking")]) ∧
    (cmd.code_ = 'M' → cmd.descriptor_ = "allocate" →
      ∃ r', r.executeOperation clock cmd n = .ok r' ∧
        eventPairs r'.operationsVect_ = eventPairs r.operationsVect_ ++
          [("Process " ++ toString n, "allocating memory"),
           ("Process " ++ toString n,
             "memory allocated at 0x" ++ String.mk (hexField r.memAddress_))]) := by
  refine ⟨?_, ?_, ?_, ?_, ?_⟩
  · intro hc hd
    refine ⟨_, ?_, executeApplication_begin clock { r with timerComplete_ := false } n⟩
    simp [OSprocessRunner.executeOperation, MetaCommand.getCode, MetaCommand.getDescriptor,
      hc, hd]
  · intro hc hd
    refine ⟨_, ?_, executeApplication_finish clock { r with timerComplete_ := false } n⟩
    simp [OSprocessRunner.executeOperation, MetaCommand.getCode, MetaCommand.getDescriptor,
      hc, hd]
  · intro hc hd
    refine ⟨_, ?_, executeProcessorMemory_run clock { r with timerComplete_ := false }
      cmd.getTime n⟩
    simp [OSprocessRunner.executeOperation, MetaCommand.getCode, MetaCommand.getDescriptor,
      hc, hd]
  · intro hc hd
    refine ⟨_, ?_, executeProcessorMemory_block clock { r with timerComplete_ := false }
      cmd.getTime n⟩
    simp [OSprocessRunner.executeOperation, MetaCommand.getCode, MetaCommand.getDescriptor,
      hc, hd]
  · intro hc hd
    have h := executeProcessorMemory_allocate clock { r with timerComplete_ := false }
      cmd.getTime n
    have hs : "memory allocated at " ++ hexAddress r.memAddress_ =
        "memory allocated at 0x" ++ String.mk (hexField r.memAddress_) := by
      unfold hexAddress
      rw [← String.append_assoc]
      rfl
    rw [← hs]
    refine ⟨_, ?_, h⟩
    simp [OSprocessRunner.executeOperation, MetaCommand.getCode, MetaCommand.getDescriptor,
      hc, hd]

/-- Witness of C16: the allocation of process 1 in scenario S4 at address 400. -/
theorem non_io_events_witness :
    ∃ r', (s4After 1).executeOperation tickClock allocateOp 1 = .ok r' ∧
      eventPairs r'.operationsVect_ = eventPairs (s4After 1).operationsVect_ ++
        [("Process " ++ toString (1 : Int), "allocating memory"),
         ("Process " ++ toString (1 : Int),
           "memory allocated at 0x" ++ String.mk (hexField (s4After 1).memAddress_))] :=
  (non_io_events tickClock (s4After 1) allocateOp 1).2.2.2.2 rfl rfl

theorem acquire_release (s : Resources) (d h : String) (rest : List String) (res : String)
    (hd : d ∈ ioDevices) (hbal : s.Balanced) (hfree : s.dequeOf d = h :: rest) :
    ∃ s1, acquireResource s d res = .ok (s1, h) ∧
      (releaseResource s1 d h).dequeOf d = rest ++ [h] ∧
      (∀ d' ∈ ioDevices, d' ≠ d → (releaseResource s1 d h).dequeOf d' = s.dequeOf d') ∧
      (releaseResource s1 d h).Balanced := by
  have hsem := hbal d hd
  rw [hfree] at hsem
  simp only [List.length_cons] at hsem
  simp only [ioDevices, List.mem_cons, List.mem_singleton, List.not_mem_nil, or_false] at hd
  rcases hd with hd | hd | hd | hd | hd <;> subst hd
  all_goals
    simp only [Resources.dequeOf, Resources.semaphoreOf, String.reduceEq, if_true, if_false]
      at hfree hsem
    simp only [acquireResource, String.reduceEq, if_true, if_false, hfree]
    rw [if_neg (by omega)]
    refine ⟨_, rfl, ?_, ?_, ?_⟩
    · simp [releaseResource, Resources.dequeOf]
    · intro d' hd' hne
      simp only [ioDevices, List.mem_cons, List.mem_singleton, List.not_mem_nil, or_false] at hd'
      rcases hd' with hd' | hd' | hd' | hd' | hd' <;> subst hd' <;>
        first
        | exact absurd rfl hne
        | simp [releaseResource, Resources.dequeOf]
    · intro d' hd'
      have hb := hbal d' hd'
      simp only [ioDevices, List.mem_cons, List.mem_singleton, List.not_mem_nil, or_false] at hd'
      rcases hd' with hd' | hd' | hd' | hd' | hd' <;> subst hd' <;>
        simp only [Resources.dequeOf, Resources.semaphoreOf, String.reduceEq, if_true, if_false,
          releaseResource] at hb ⊢ <;>
        first
        | exact hb
        | simp [hsem]

theorem inputOutput_ok (r : OSprocessRunner) (t : Int) (d h : String) (rest : List String)
    (hd : d ∈ ioDevices) (hbal : r.static_.Balanced) (hfree : r.static_.dequeOf d = h :: rest) :
    ∃ r1, r.inputOutput t d "" = .ok (r1, h) ∧
      r1.operationsVect_ = r.operationsVect_ ∧
      r1.static_.dequeOf d = rest ++ [h] ∧
      (∀ d' ∈ ioDevices, d' ≠ d → r1.static_.dequeOf d' = r.static_.dequeOf d') ∧
      r1.static_.Balanced := by
  obtain ⟨s1, hacq, h1, h2, h3⟩ := acquire_release r.static_ d h rest "" hd hbal hfree
  unfold OSprocessRunner.inputOutput
  simp only [hacq]
  exact ⟨_, rfl, rfl, h1, h2, h3⟩

theorem ioDescriptions (c : Char) (d h : String) (hop : (c, d) ∈ ioOperations) :
    ioStartDescription c d h = "start " ++ d ++ " " ++ direction c ++ " on " ++ h ∧
    ioEndDescription c d = "end " ++ d ++ " " ++ direction c := by
  simp only [ioOperations, List.mem_cons, List.mem_singleton, Prod.mk.injEq, List.not_mem_nil,
    or_false] at hop
  rcases hop with ⟨hc, hd⟩ | ⟨hc, hd⟩ | ⟨hc, hd⟩ | ⟨hc, hd⟩ | ⟨hc, hd⟩ | ⟨hc, hd⟩ <;>
    subst hc <;> subst hd <;>
    simp [ioStartDescription, ioEndDescription, direction]

/-! ### C17 -/

/-- C17: for every I or O operation of the metadata grammar on a device kind whose free list
is non-empty (in an engine whose semaphores hold the lengths of the free lists, as
`fillResourceDeques` leaves them and every operation keeps them), the operation takes the
handle `h` at the head of the free list of that kind, appends exactly two events for the
actor "Process <pid>", first "start <device> <input|output> on h" and then
"end <device> <input|output>", and returns `h` to the tail of the same free list; the free
lists of the other four kinds are unchanged. -/
theorem io_operation (clock : Nat → Int) (r : OSprocessRunner) (cmd : MetaCommand) (pid : Int)
    (h : String) (rest : List String)
    (hop : (cmd.code_, cmd.descriptor_) ∈ ioOperations)
    (hbal : r.static_.Balanced)
    (hfree : r.static_.dequeOf cmd.descriptor_ = h :: rest) :
    ∃ r', r.executeOperation clock cmd pid = .ok r' ∧
      eventPairs r'.operationsVect_ = eventPairs r.operationsVect_ ++
        [("Process " ++ toString pid,
            "start " ++ cmd.descriptor_ ++ " " ++ direction cmd.code_ ++ " on " ++ h),
         ("Process " ++ toString pid,
            "end " ++ cmd.descriptor_ ++ " " ++ direction cmd.code_)] ∧
      r'.static_.dequeOf cmd.descriptor_ = rest ++ [h] ∧
      (∀ d' ∈ ioDevices, d' ≠ cmd.descriptor_ →
        r'.static_.dequeOf d' = r.static_.dequeOf d') ∧
      r'.static_.Balanced := by
  obtain ⟨hs, he⟩ := ioDescriptions cmd.code_ cmd.descriptor_ h hop
  have hdev : cmd.descriptor_ ∈ ioDevices := by
    simp only [ioOperations, List.mem_cons, List.mem_singleton, Prod.mk.injEq,
      List.not_mem_nil, or_false] at hop
    rcases hop with ⟨_, hd⟩ | ⟨_, hd⟩ | ⟨_, hd⟩ | ⟨_, hd⟩ | ⟨_, hd⟩ | ⟨_, hd⟩ <;>
      rw [hd] <;> decide
  have hcode : cmd.code_ ≠ 'A' ∧ ¬ (cmd.code_ = 'P' ∨ cmd.code_ = 'M') ∧
      (cmd.code_ = 'I' ∨ cmd.code_ = 'O') := by
    simp only [ioOperations, List.mem_cons, List.mem_singleton, Prod.mk.injEq,
      List.not_mem_nil, or_false] at hop
    rcases hop with ⟨hc, _⟩ | ⟨hc, _⟩ | ⟨hc, _⟩ | ⟨hc, _⟩ | ⟨hc, _⟩ | ⟨hc, _⟩ <;>
      rw [hc] <;> decide
  obtain ⟨r1, hio, hops, h1, h2, h3⟩ :=
    inputOutput_ok ({ r with timerComplete_ := false } : OSprocessRunner).tick cmd.time_
      cmd.descriptor_ h rest hdev hbal hfree
  unfold OSprocessRunner.executeOperation
  simp only [MetaCommand.getCode, MetaCommand.getDescriptor, MetaCommand.getTime, hcode.1,
    hcode.2.1, hcode.2.2, if_false, if_true]
  unfold OSprocessRunner.executeInputOutput
  simp only [hio]
  refine ⟨_, rfl, ?_, h1, h2, h3⟩
  rw [eventPairs_push, eventPairs_push, hs, he]
  simp only [List.append_assoc, List.singleton_append]
  have : eventPairs r1.tick.operationsVect_ = eventPairs r.operationsVect_ := by
    show eventPairs r1.operationsVect_ = _
    rw [hops]; rfl
  rw [this]

/-- Witness of C17: a keyboard input of process 2 on the engine `strRunner`, whose keyboard
free list holds the handle `KBRD_0`. -/
theorem io_operation_witness :
    (keyboardOp.code_, keyboardOp.descriptor_) ∈ ioOperations ∧
    strRunner.static_.Balanced ∧
    strRunner.static_.dequeOf keyboardOp.descriptor_ = "KBRD_0" :: [] ∧
    ∃ r', strRunner.executeOperation tickClock keyboardOp 2 = .ok r' ∧
      eventPairs r'.operationsVect_ = eventPairs strRunner.operationsVect_ ++
        [("Process " ++ toString (2 : Int),
            "start " ++ keyboardOp.descriptor_ ++ " " ++ direction keyboardOp.code_ ++ " on " ++
              "KBRD_0"),
         ("Process " ++ toString (2 : Int),
            "end " ++ keyboardOp.descriptor_ ++ " " ++ direction keyboardOp.code_)] ∧
      r'.static_.dequeOf keyboardOp.descriptor_ = [] ++ ["KBRD_0"] ∧
      (∀ d' ∈ ioDevices, d' ≠ keyboardOp.descriptor_ →
        r'.static_.dequeOf d' = strRunner.static_.dequeOf d') ∧
      r'.static_.Balanced :=
  ⟨by decide, by decide, by decide,
    io_operation tickClock strRunner keyboardOp 2 "KBRD_0" [] (by decide) (by decide)
      (by decide)⟩

theorem decimalValue_append (xs : List Char) (c : Char) :
    decimalValue (xs ++ [c]) = 10 * decimalValue xs + hexDigitValue c := by
  simp [decimalValue, List.foldl_append]

theorem toDigitsCore_decimal :
    ∀ (fuel n : Nat), n < fuel → decimalValue (Nat.toDigitsCore 10 fuel n []) = n := by
  intro fuel
  induction fuel with
  | zero => intro n hn; omega
  | succ fuel ih =>
    intro n hn
    simp only [Nat.toDigitsCore]
    have hd := (digitChar_hex (n % 10) (by omega)).2
    split_ifs with h0
    · have hmod : n % 10 = n := Nat.mod_eq_of_lt (by omega)
      have : decimalValue [Nat.digitChar (n % 10)] = hexDigitValue (Nat.digitChar (n % 10)) := by
        simp [decimalValue]
      rw [this, hd, hmod]
    · rw [toDigitsCore_append, decimalValue_append, ih (n / 10) (by omega), hd]
      omega

theorem toString_nat_injective (a b : Nat) (h : toString a = toString b) : a = b := by
  have h1 : Nat.toDigits 10 a = Nat.toDigits 10 b := by
    have : (Nat.toDigits 10 a).asString = (Nat.toDigits 10 b).asString := h
    exact congrArg String.data this
  have ha := toDigitsCore_decimal (a + 1) a (by omega)
  have hb := toDigitsCore_decimal (b + 1) b (by omega)
  unfold Nat.toDigits at h1
  rw [h1] at ha
  omega

theorem handleNames_nodup (pre : String) (n : Nat) : (handleNames pre n).Nodup := by
  unfold handleNames
  refine (List.nodup_range n).map ?_
  intro i j hij
  simp only at hij
  have h1 : (pre ++ toString i).data = (pre ++ toString j).data := by rw [hij]
  simp only [String.data_append] at h1
  have h2 := List.append_cancel_left h1
  exact toString_nat_injective i j (String.ext h2)

theorem acquire_release_perm (s s1 : Resources) (d res x : String)
    (h : acquireResource s d res = .ok (s1, x)) (d' : String) :
    ((releaseResource s1 d x).dequeOf d').Perm (s.dequeOf d') := by
  have hcases : d = "hard drive" ∨ d = "keyboard" ∨ d = "scanner" ∨ d = "monitor" ∨
      d = "projector" ∨ (d ≠ "hard drive" ∧ d ≠ "keyboard" ∧ d ≠ "scanner" ∧ d ≠ "monitor" ∧
        d ≠ "projector") := by
    by_cases h1 : d = "hard drive"
    · exact Or.inl h1
    by_cases h2 : d = "keyboard"
    · exact Or.inr (Or.inl h2)
    by_cases h3 : d = "scanner"
    · exact Or.inr (Or.inr (Or.inl h3))
    by_cases h4 : d = "monitor"
    · exact Or.inr (Or.inr (Or.inr (Or.inl h4)))
    by_cases h5 : d = "projector"
    · exact Or.inr (Or.inr (Or.inr (Or.inr (Or.inl h5))))
    exact Or.inr (Or.inr (Or.inr (Or.inr (Or.inr ⟨h1, h2, h3, h4, h5⟩))))
  rcases hcases with hd | hd | hd | hd | hd | ⟨n1, n2, n3, n4, n5⟩
  case inr.inr.inr.inr.inr =>
    simp only [acquireResource, n1, n2, n3, n4, n5, if_false, Except.ok.injEq,
      Prod.mk.injEq] at h
    rw [← h.1]
    simp only [releaseResource, n1, n2, n3, n4, n5, if_false]
    exact List.Perm.refl _
  all_goals
    subst hd
    simp only [acquireResource, String.reduceEq, if_true, if_false] at h
    split_ifs at h
    split at h
    · exact absurd h (by simp)
    · rename_i y rest hdq
      simp only [Except.ok.injEq, Prod.mk.injEq] at h
      obtain ⟨hs1, hx⟩ := h
      subst hs1 hx
      simp only [releaseResource, Resources.dequeOf, String.reduceEq, if_true, if_false]
      split_ifs <;> simp [hdq, List.perm_append_singleton]

theorem static_executeApplication (clock : Nat → Int) (r : OSprocessRunner) (d : String)
    (pid : Int) : (r.executeApplication clock d pid).static_ = r.static_ := by
  unfold OSprocessRunner.executeApplication
  split_ifs <;> rfl

theorem static_executeProcessorMemory (clock : Nat → Int) (r : OSprocessRunner) (d : String)
    (t pid : Int) : (r.executeProcessorMemory clock d t pid).static_ = r.static_ := by
  unfold OSprocessRunner.executeProcessorMemory OSprocessRunner.advanceMemAddress
  simp only []
  split_ifs <;> rfl

theorem executeOperation_deque_perm (clock : Nat → Int) (r r' : OSprocessRunner)
    (cmd : MetaCommand) (pid : Int) (h : r.executeOperation clock cmd pid = .ok r')
    (d' : String) : (r'.static_.dequeOf d').Perm (r.static_.dequeOf d') := by
  unfold OSprocessRunner.executeOperation at h
  simp only [MetaCommand.getCode, MetaCommand.getDescriptor, MetaCommand.getTime] at h
  split_ifs at h with h1 h2 h3
  · rw [← Except.ok.inj h, static_executeApplication]
  · rw [← Except.ok.inj h, static_executeProcessorMemory]
  · unfold OSprocessRunner.executeInputOutput OSprocessRunner.inputOutput at h
    simp only [] at h
    split at h
    · exact absurd h (by simp)
    · rename_i io hio
      split at hio
      · exact absurd hio (by simp)
      · rename_i acquired hacq
        simp only [Except.ok.injEq] at hio
        rw [← Except.ok.inj h, ← hio]
        exact acquire_release_perm _ acquired.1 cmd.descriptor_ "" acquired.2 hacq d'
  · rw [← Except.ok.inj h]

theorem executeOperations_deque_perm (clock : Nat → Int) :
    ∀ (ops : List (MetaCommand × Int)) (r r' : OSprocessRunner),
      r.executeOperations clock ops = .ok r' →
      ∀ d' : String, (r'.static_.dequeOf d').Perm (r.static_.dequeOf d') := by
  intro ops
  induction ops with
  | nil =>
    intro r r' h d'
    simp only [OSprocessRunner.executeOperations] at h
    rw [← Except.ok.inj h]
  | cons o rest ih =>
    intro r r' h d'
    obtain ⟨cmd, pid⟩ := o
    simp only [OSprocessRunner.executeOperations] at h
    split at h
    · exact absurd h (by simp)
    · rename_i r1 h1
      exact (ih r1 r' h d').trans (executeOperation_deque_perm clock r r1 cmd pid h1 d')

theorem fill_deques (rsc0 rsc1 rsc2 rsc3 rsc4 : Int) :
    (fillResourceDeques Resources.initial rsc0 rsc1 rsc2 rsc3 rsc4).hardDriveDeque =
      handleNames "HDD_" rsc0.toNat ∧
    (fillResourceDeques Resources.initial rsc0 rsc1 rsc2 rsc3 rsc4).keyboardDeque =
      handleNames "KBRD_" rsc1.toNat ∧
    (fillResourceDeques Resources.initial rsc0 rsc1 rsc2 rsc3 rsc4).scannerDeque =
      handleNames "SCNR_" rsc2.toNat ∧
    (fillResourceDeques Resources.initial rsc0 rsc1 rsc2 rsc3 rsc4).monitorDeque =
      handleNames "MNTR_" rsc3.toNat ∧
    (fillResourceDeques Resources.initial rsc0 rsc1 rsc2 rsc3 rsc4).projectorDeque =
      handleNames "PROJ_" rsc4.toNat := by
  simp [fillResourceDeques, Resources.initial, pushResourceNames, handleNames]

theorem fill_dequeOf (rsc0 rsc1 rsc2 rsc3 rsc4 : Int) (d : String) (hd : d ∈ ioDevices) :
    (fillResourceDeques Resources.initial rsc0 rsc1 rsc2 rsc3 rsc4).dequeOf d =
      handleNames (handlePrefix d) (capacityOf d rsc0 rsc1 rsc2 rsc3 rsc4).toNat := by
  obtain ⟨h0, h1, h2, h3, h4⟩ := fill_deques rsc0 rsc1 rsc2 rsc3 rsc4
  simp only [ioDevices, List.mem_cons, List.mem_singleton, List.not_mem_nil, or_false] at hd
  rcases hd with hd | hd | hd | hd | hd <;> subst hd <;>
    simp only [Resources.dequeOf, handlePrefix, capacityOf, String.reduceEq, if_true, if_false] <;>
    assumption

theorem fill_semaphoreOf (rsc0 rsc1 rsc2 rsc3 rsc4 : Int) (d : String) (hd : d ∈ ioDevices) :
    (fillResourceDeques Resources.initial rsc0 rsc1 rsc2 rsc3 rsc4).semaphoreOf d =
      capacityOf d rsc0 rsc1 rsc2 rsc3 rsc4 := by
  simp only [ioDevices, List.mem_cons, List.mem_singleton, List.not_mem_nil, or_false] at hd
  rcases hd with hd | hd | hd | hd | hd <;> subst hd <;>
    simp [Resources.semaphoreOf, capacityOf, fillResourceDeques]

theorem handleNames_length (pre : String) (n : Nat) : (handleNames pre n).length = n := by
  simp [handleNames]

theorem executeOperation_io_ok (clock : Nat → Int) (r : OSprocessRunner) (cmd : MetaCommand)
    (pid : Int) (hop : (cmd.code_, cmd.descriptor_) ∈ ioOperations)
    (hbal : r.static_.Balanced) (hfree : r.static_.dequeOf cmd.descriptor_ ≠ []) :
    ∃ r', r.executeOperation clock cmd pid = .ok r' ∧ r'.static_.Balanced := by
  have hdev : cmd.descriptor_ ∈ ioDevices := by
    simp only [ioOperations, List.mem_cons, List.mem_singleton, Prod.mk.injEq,
      List.not_mem_nil, or_false] at hop
    rcases hop with ⟨_, hd⟩ | ⟨_, hd⟩ | ⟨_, hd⟩ | ⟨_, hd⟩ | ⟨_, hd⟩ | ⟨_, hd⟩ <;>
      rw [hd] <;> decide
  have hcode : cmd.code_ ≠ 'A' ∧ ¬ (cmd.code_ = 'P' ∨ cmd.code_ = 'M') ∧
      (cmd.code_ = 'I' ∨ cmd.code_ = 'O') := by
    simp only [ioOperations, List.mem_cons, List.mem_singleton, Prod.mk.injEq,
      List.not_mem_nil, or_false] at hop
    rcases hop with ⟨hc, _⟩ | ⟨hc, _⟩ | ⟨hc, _⟩ | ⟨hc, _⟩ | ⟨hc, _⟩ | ⟨hc, _⟩ <;>
      rw [hc] <;> decide
  obtain ⟨h, rest, hfree'⟩ := List.exists_cons_of_ne_nil hfree
  obtain ⟨r1, hio, _, _, _, h3⟩ :=
    inputOutput_ok ({ r with timerComplete_ := false } : OSprocessRunner).tick cmd.time_
      cmd.descriptor_ h rest hdev hbal hfree'
  unfold OSprocessRunner.executeOperation
  simp only [MetaCommand.getCode, MetaCommand.getDescriptor, MetaCommand.getTime, hcode.1,
    hcode.2.1, hcode.2.2, if_false, if_true]
  unfold OSprocessRunner.executeInputOutput
  simp only [hio]
  exact ⟨_, rfl, h3⟩

theorem executeOperations_io_ok (clock : Nat → Int) :
    ∀ (ops : List (MetaCommand × Int)) (r : OSprocessRunner),
      (∀ o ∈ ops, (o.1.code_, o.1.descriptor_) ∈ ioOperations) →
      r.static_.Balanced → (∀ d ∈ ioDevices, r.static_.dequeOf d ≠ []) →
      ∃ r', r.executeOperations clock ops = .ok r' := by
  intro ops
  induction ops with
  | nil => intro r _ _ _; exact ⟨r, rfl⟩
  | cons o rest ih =>
    intro r hops hbal hne
    obtain ⟨cmd, pid⟩ := o
    have hop : (cmd.code_, cmd.descriptor_) ∈ ioOperations := hops (cmd, pid) (by simp)
    have hdev : cmd.descriptor_ ∈ ioDevices := by
      simp only [ioOperations, List.mem_cons, List.mem_singleton, Prod.mk.injEq,
        List.not_mem_nil, or_false] at hop
      rcases hop with ⟨_, hd⟩ | ⟨_, hd⟩ | ⟨_, hd⟩ | ⟨_, hd⟩ | ⟨_, hd⟩ | ⟨_, hd⟩ <;>
        rw [hd] <;> decide
    obtain ⟨r1, h1, hbal1⟩ := executeOperation_io_ok clock r cmd pid hop hbal (hne _ hdev)
    have hne1 : ∀ d ∈ ioDevices, r1.static_.dequeOf d ≠ [] := by
      intro d hd hnil
      have hp := executeOperation_deque_perm clock r r1 cmd pid h1 d
      rw [hnil] at hp
      exact hne d hd (List.Perm.nil_eq hp).symm
    obtain ⟨r', h'⟩ := ih r1 (fun o ho => hops o (List.mem_cons_of_mem _ ho)) hbal1 hne1
    refine ⟨r', ?_⟩
    simp only [OSprocessRunner.executeOperations, h1]
    exact h'

/-! ### C18 -/

/-- C18: in an engine whose static members are those `fillResourceDeques` leaves, called at
program start with a capacity of at least 1 for each of the five device kinds, the free list
of each kind is the list of the handles `P_0, P_1, ..., P_(N-1)` in that order, for the prefix
`P` and the capacity `N` of the kind; every sequence of I and O operations of the metadata
grammar runs to completion, and after it the free list of each kind is a rearrangement of
those same `N` handles, without a duplicate. -/
theorem resource_pool_invariant (clock : Nat → Int) (rsc0 rsc1 rsc2 rsc3 rsc4 : Int)
    (r : OSprocessRunner) (ops : List (MetaCommand × Int))
    (hfill : r.static_ = fillResourceDeques Resources.initial rsc0 rsc1 rsc2 rsc3 rsc4)
    (hcap : ∀ d ∈ ioDevices, 1 ≤ capacityOf d rsc0 rsc1 rsc2 rsc3 rsc4)
    (hops : ∀ o ∈ ops, (o.1.code_, o.1.descriptor_) ∈ ioOperations) :
    (∀ d ∈ ioDevices, r.static_.dequeOf d =
      handleNames (handlePrefix d) (capacityOf d rsc0 rsc1 rsc2 rsc3 rsc4).toNat) ∧
    ∃ r', r.executeOperations clock ops = .ok r' ∧
      ∀ d ∈ ioDevices,
        (r'.static_.dequeOf d).Perm
          (handleNames (handlePrefix d) (capacityOf d rsc0 rsc1 rsc2 rsc3 rsc4).toNat) ∧
        (r'.static_.dequeOf d).Nodup := by
  have hinit : ∀ d ∈ ioDevices, r.static_.dequeOf d =
      handleNames (handlePrefix d) (capacityOf d rsc0 rsc1 rsc2 rsc3 rsc4).toNat := by
    intro d hd
    rw [hfill]
    exact fill_dequeOf rsc0 rsc1 rsc2 rsc3 rsc4 d hd
  have hbal : r.static_.Balanced := by
    intro d hd
    rw [hinit d hd, handleNames_length, hfill, fill_semaphoreOf _ _ _ _ _ d hd]
    have := hcap d hd
    omega
  have hne : ∀ d ∈ ioDevices, r.static_.dequeOf d ≠ [] := by
    intro d hd hnil
    have hlen := congrArg List.length (hinit d hd)
    rw [hnil, handleNames_length] at hlen
    have := hcap d hd
    simp only [List.length_nil] at hlen
    omega
  refine ⟨hinit, ?_⟩
  obtain ⟨r', hrun⟩ := executeOperations_io_ok clock ops r hops hbal hne
  refine ⟨r', hrun, ?_⟩
  intro d hd
  have hp := executeOperations_deque_perm clock ops r r' hrun d
  rw [hinit d hd] at hp
  exact ⟨hp, hp.nodup_iff.mpr (handleNames_nodup _ _)⟩

/-- Witness of C18: a keyboard input, a monitor output and two more keyboard inputs on the
engine `poolRunner`. -/
theorem resource_pool_invariant_witness :
    poolRunner.static_ = fillResourceDeques Resources.initial 1 3 1 2 1 ∧
    (∀ d ∈ ioDevices, 1 ≤ capacityOf d 1 3 1 2 1) ∧
    (∀ o ∈ [(keyboardOp, (1 : Int)), (monitorOp, 2), (keyboardOp, 1), (keyboardOp, 3)],
      (o.1.code_, o.1.descriptor_) ∈ ioOperations) ∧
    (∀ d ∈ ioDevices, poolRunner.static_.dequeOf d =
      handleNames (handlePrefix d) (capacityOf d 1 3 1 2 1).toNat) ∧
    ∃ r', poolRunner.executeOperations tickClock
        [(keyboardOp, 1), (monitorOp, 2), (keyboardOp, 1), (keyboardOp, 3)] = .ok r' ∧
      ∀ d ∈ ioDevices,
        (r'.static_.dequeOf d).Perm
          (handleNames (handlePrefix d) (capacityOf d 1 3 1 2 1).toNat) ∧
        (r'.static_.dequeOf d).Nodup :=
  ⟨rfl, by decide, by decide,
    resource_pool_invariant tickClock 1 3 1 2 1 poolRunner
      [(keyboardOp, 1), (monitorOp, 2), (keyboardOp, 1), (keyboardOp, 3)] rfl (by decide)
      (by decide)⟩

theorem toString_natCast (n : Nat) : toString ((n : Nat) : Int) = toString n := rfl

theorem startMark_injective (a b : Nat) (h : startMark a = startMark b) : a = b := by
  unfold startMark at h
  have h1 := congrArg String.data h
  simp only [String.data_append, List.append_cancel_left_eq] at h1
  have h2 : toString ((a : Nat) : Int) = toString ((b : Nat) : Int) := String.ext h1
  rw [toString_natCast, toString_natCast] at h2
  exact toString_nat_injective a b h2

theorem endMark_injective (a b : Nat) (h : endMark a = endMark b) : a = b := by
  unfold endMark at h
  have h1 := congrArg String.data h
  simp only [String.data_append, List.append_cancel_left_eq] at h1
  have h2 : toString ((a : Nat) : Int) = toString ((b : Nat) : Int) := String.ext h1
  rw [toString_natCast, toString_natCast] at h2
  exact toString_nat_injective a b h2

theorem take_data_append (a b : String) (k : Nat) (h : k ≤ a.length) :
    (a ++ b).data.take k = a.data.take k := by
  rw [String.data_append]
  exact List.take_append_of_le_length h

theorem unmarked_ne_startMark (d : String) (h : Unmarked d) (pid : Int) : d ≠ startMark pid := by
  intro hd
  apply h.1
  rw [hd]
  unfold startMark
  rw [take_data_append _ _ 6 (by decide)]
  rfl

theorem unmarked_ne_endMark (d : String) (h : Unmarked d) (pid : Int) : d ≠ endMark pid := by
  intro hd
  apply h.2
  rw [hd]
  unfold endMark
  rw [take_data_append _ _ 1 (by decide)]
  rfl

theorem unmarked_append (a b : String) (h6 : 6 ≤ a.length) (h : Unmarked a) :
    Unmarked (a ++ b) := by
  unfold Unmarked
  rw [take_data_append a b 6 h6, take_data_append a b 1 (by omega)]
  exact h

theorem startMark_ne_endMark (a b : Int) : startMark a ≠ endMark b := by
  intro h
  have h1 := congrArg (fun s => s.data.take 1) h
  simp only [startMark, endMark] at h1
  rw [take_data_append _ _ 1 (by decide), take_data_append _ _ 1 (by decide)] at h1
  exact absurd h1 (by decide)

theorem unmarked_preparing (pid : Int) : Unmarked ("preparing process " ++ toString pid) :=
  unmarked_append _ _ (by decide) (by decide)

theorem descriptions_push (r : OSprocessRunner) (e : OperationInfo) :
    descriptions (r.pushOperation e).operationsVect_ =
      descriptions r.operationsVect_ ++ [e.opDescription] := by
  simp [descriptions, OSprocessRunner.pushOperation]

theorem unmarked_ioStart (c : Char) (d res : String) : Unmarked (ioStartDescription c d res) := by
  unfold ioStartDescription
  split_ifs
  all_goals first
    | exact unmarked_append _ _ (by decide) (by decide)
    | decide

theorem unmarked_ioEnd (c : Char) (d : String) : Unmarked (ioEndDescription c d) := by
  unfold ioEndDescription
  split_ifs <;> decide

/-- The events of one operation: `A{begin}` appends the preparing event and the start mark of
the process, `A{finish}` appends its end mark, every other operation appends descriptions
that are no marks; the ready queue is not touched. -/
theorem executeOperation_events (clock : Nat → Int) (r r' : OSprocessRunner)
    (cmd : MetaCommand) (pid : Int) (h : r.executeOperation clock cmd pid = .ok r') :
    r'.readyQ_ = r.readyQ_ ∧
    ∃ evs, descriptions r'.operationsVect_ = descriptions r.operationsVect_ ++ evs ∧
      (cmd.code_ = 'A' ∧ cmd.descriptor_ = "begin" →
        evs = ["preparing process " ++ toString pid, startMark pid]) ∧
      (cmd.code_ = 'A' ∧ cmd.descriptor_ = "finish" → evs = [endMark pid]) ∧
      (¬ (cmd.code_ = 'A' ∧ cmd.descriptor_ = "begin") →
        ¬ (cmd.code_ = 'A' ∧ cmd.descriptor_ = "finish") → ∀ e ∈ evs, Unmarked e) := by
  unfold OSprocessRunner.executeOperation at h
  simp only [MetaCommand.getCode, MetaCommand.getDescriptor, MetaCommand.getTime] at h
  split_ifs at h with h1 h2 h3
  · rw [← Except.ok.inj h]
    unfold OSprocessRunner.executeApplication
    split_ifs with hb hf
    · refine ⟨rfl, ["preparing process " ++ toString pid, startMark pid], ?_, fun _ => rfl, ?_, ?_⟩
      · simp [descriptions, OSprocessRunner.pushOperation, OSprocessRunner.tick, startMark]
      · intro hh; rw [hb] at hh; exact absurd hh.2 (by decide)
      · intro hh; exact absurd ⟨h1, hb⟩ hh
    · refine ⟨rfl, [endMark pid], ?_, ?_, fun _ => rfl, ?_⟩
      · simp [descriptions, OSprocessRunner.pushOperation, OSprocessRunner.tick, endMark]
      · intro hh; exact absurd hh.2 hb
      · intro _ hh; exact absurd ⟨h1, hf⟩ hh
    · refine ⟨rfl, [], by simp, ?_, ?_, ?_⟩
      · intro hh; exact absurd hh.2 hb
      · intro hh; exact absurd hh.2 hf
      · intro _ _ e he; exact absurd he (by simp)
  · rw [← Except.ok.inj h]
    unfold OSprocessRunner.executeProcessorMemory OSprocessRunner.advanceMemAddress
    simp only []
    split_ifs <;>
    · refine ⟨rfl, ?_⟩
      simp only [descriptions_push]
      refine ⟨_, by
        simp only [OSprocessRunner.tick, OSprocessRunner.countDown, descriptions_push,
          List.append_assoc]
        rfl, ?_, ?_, ?_⟩
      · intro hh; exact absurd hh.1 h1
      · intro hh; exact absurd hh.1 h1
      · intro _ _ e he
        simp only [List.singleton_append, List.mem_cons, List.mem_singleton, List.not_mem_nil,
          or_false] at he
        rcases he with he | he <;> rw [he] <;>
          first
          | exact unmarked_append _ _ (by decide) (by decide)
          | decide
  · unfold OSprocessRunner.executeInputOutput OSprocessRunner.inputOutput at h
    simp only [] at h
    split at h
    · exact absurd h (by simp)
    · rename_i io hio
      split at hio
      · exact absurd hio (by simp)
      · rename_i acquired hacq
        simp only [Except.ok.injEq] at hio
        rw [← Except.ok.inj h, ← hio]
        refine ⟨rfl, ?_⟩
        simp only [descriptions_push]
        refine ⟨_, by
          simp only [OSprocessRunner.tick, OSprocessRunner.ioThreadDone, List.append_assoc]
          rfl, ?_, ?_, ?_⟩
        · intro hh; exact absurd hh.1 h1
        · intro hh; exact absurd hh.1 h1
        · intro _ _ e he
          simp only [List.singleton_append, List.mem_cons, List.mem_singleton,
            List.not_mem_nil, or_false] at he
          rcases he with he | he <;> rw [he]
          · exact unmarked_ioStart _ _ _
          · exact unmarked_ioEnd _ _
  · rw [← Except.ok.inj h]
    refine ⟨rfl, [], by simp, ?_, ?_, ?_⟩
    · intro hh; exact absurd hh.1 h1
    · intro hh; exact absurd hh.1 h1
    · intro _ _ e he; exact absurd he (by simp)

theorem precedes_append (a b : String) (D evs : List String) (h : Precedes a b D)
    (hev : b ∈ evs → a ∈ D) : Precedes a b (D ++ evs) := by
  intro pre post hsplit
  rcases List.append_eq_append_iff.mp hsplit with ⟨a', h1, h2⟩ | ⟨c', h1, h2⟩
  · -- pre = D ++ a'
    have hb : b ∈ evs := by rw [h2]; simp
    rw [h1]
    exact List.mem_append_left _ (hev hb)
  · -- D = pre ++ c'
    cases c' with
    | nil =>
      simp only [List.nil_append] at h2
      have hb : b ∈ evs := by rw [← h2]; simp
      simp only [List.append_nil] at h1
      rw [← h1]
      exact hev hb
    | cons x rest =>
      simp only [List.cons_append, List.cons.injEq] at h2
      rw [← h2.1] at h1
      exact h pre rest h1

theorem Tracked.perm (K : Nat) (D : List String) (L L' : List Process) (hp : L.Perm L')
    (h : Tracked K D L) : Tracked K D L' where
  pid := fun p hp' => h.pid p (hp.mem_iff.mpr hp')
  nodup := ((hp.map Process.getProcessNumber).nodup_iff).mp h.nodup
  shape := fun p hp' => h.shape p (hp.mem_iff.mpr hp')
  counts := fun p hp' => h.counts p (hp.mem_iff.mpr hp')
  fresh := h.fresh
  order := h.order

/-- What the events of one operation of the process `k` add to the marks of the pid `n`. -/
theorem marks_of_events (cmd : MetaCommand) (k n : Nat) (evs : List String)
    (hb : cmd.code_ = 'A' ∧ cmd.descriptor_ = "begin" →
      evs = ["preparing process " ++ toString ((k : Nat) : Int), startMark k])
    (hf : cmd.code_ = 'A' ∧ cmd.descriptor_ = "finish" → evs = [endMark k])
    (ho : ¬ (cmd.code_ = 'A' ∧ cmd.descriptor_ = "begin") →
      ¬ (cmd.code_ = 'A' ∧ cmd.descriptor_ = "finish") → ∀ e ∈ evs, Unmarked e) :
    evs.count (startMark n) = (if cmd.isCommand 'A' "begin" = true ∧ k = n then 1 else 0) ∧
    evs.count (endMark n) = (if cmd.isCommand 'A' "finish" = true ∧ k = n then 1 else 0) ∧
    (endMark n ∈ evs → cmd.isCommand 'A' "finish" = true ∧ k = n) := by
  have hprep : ("preparing process " ++ toString ((k : Nat) : Int)) ≠ startMark n :=
    unmarked_ne_startMark _ (unmarked_preparing _) _
  have hprep' : ("preparing process " ++ toString ((k : Nat) : Int)) ≠ endMark n :=
    unmarked_ne_endMark _ (unmarked_preparing _) _
  by_cases hB : cmd.code_ = 'A' ∧ cmd.descriptor_ = "begin"
  · have hcB : cmd.isCommand 'A' "begin" = true := by simp [MetaCommand.isCommand, hB.1, hB.2]
    have hcF : cmd.isCommand 'A' "finish" = false := by
      simp [MetaCommand.isCommand, hB.1, hB.2]
    rw [hb hB]
    refine ⟨?_, ?_, ?_⟩
    · by_cases hkn : k = n
      · subst hkn
        simp [hcB, List.count_cons, hprep]
      · have : startMark k ≠ startMark n := fun h => hkn (startMark_injective k n h)
        simp [hcB, hkn, List.count_cons, hprep, this]
    · simp [hcF, List.count_cons, hprep', startMark_ne_endMark]
    · intro hmem
      simp only [List.mem_cons, List.mem_singleton, List.not_mem_nil, or_false] at hmem
      rcases hmem with hmem | hmem
      · exact absurd hmem.symm hprep'
      · exact absurd hmem.symm (startMark_ne_endMark _ _)
  · by_cases hF : cmd.code_ = 'A' ∧ cmd.descriptor_ = "finish"
    · have hcF : cmd.isCommand 'A' "finish" = true := by
        simp [MetaCommand.isCommand, hF.1, hF.2]
      have hcB : cmd.isCommand 'A' "begin" = false := by
        simp [MetaCommand.isCommand, hF.1, hF.2]
      rw [hf hF]
      refine ⟨?_, ?_, ?_⟩
      · have : endMark k ≠ startMark n := fun h => startMark_ne_endMark _ _ h.symm
        simp [hcB, List.count_cons, this]
      · by_cases hkn : k = n
        · subst hkn
          simp [hcF, List.count_cons]
        · have : endMark k ≠ endMark n := fun h => hkn (endMark_injective k n h)
          simp [hcF, hkn, List.count_cons, this]
      · intro hmem
        simp only [List.mem_singleton] at hmem
        exact ⟨hcF, (endMark_injective n k hmem).symm⟩
    · have hcB : cmd.isCommand 'A' "begin" = false := by
        simp only [MetaCommand.isCommand, Bool.and_eq_false_iff, beq_eq_false_iff_ne]
        by_cases hc : cmd.code_ = 'A'
        · exact Or.inr (fun hd => hB ⟨hc, hd⟩)
        · exact Or.inl hc
      have hcF : cmd.isCommand 'A' "finish" = false := by
        simp only [MetaCommand.isCommand, Bool.and_eq_false_iff, beq_eq_false_iff_ne]
        by_cases hc : cmd.code_ = 'A'
        · exact Or.inr (fun hd => hF ⟨hc, hd⟩)
        · exact Or.inl hc
      have hun := ho hB hF
      refine ⟨?_, ?_, ?_⟩
      · rw [List.count_eq_zero.mpr (fun hm => unmarked_ne_startMark _ (hun _ hm) _ rfl)]
        simp [hcB]
      · rw [List.count_eq_zero.mpr (fun hm => unmarked_ne_endMark _ (hun _ hm) _ rfl)]
        simp [hcF]
      · intro hm
        exact absurd rfl (unmarked_ne_endMark _ (hun _ hm) _)

theorem countP_take_succ (f : MetaCommand → Bool) (l : List MetaCommand) (i : Nat)
    (x : MetaCommand) (h : l[i]? = some x) :
    (l.take (i + 1)).countP f = (l.take i).countP f + (if f x = true then 1 else 0) := by
  rw [List.take_succ, h]
  simp only [Option.toList, List.countP_append, List.countP_cons, List.countP_nil, Nat.zero_add]

theorem mem_pidRange (a n : Nat) (x : Int) (h : x ∈ pidRange a n) :
    ∃ i : Nat, x = (i : Int) ∧ a ≤ i ∧ i < a + n := by
  unfold pidRange at h
  simp only [List.mem_map, List.mem_range'_1] at h
  obtain ⟨i, hi, hx⟩ := h
  exact ⟨i, hx.symm, hi.1, hi.2⟩

theorem Tracked.append_unmarked (K : Nat) (D evs : List String) (L : List Process)
    (h : Tracked K D L) (hun : ∀ e ∈ evs, Unmarked e) : Tracked K (D ++ evs) L := by
  have hs : ∀ pid : Int, evs.count (startMark pid) = 0 := fun pid =>
    List.count_eq_zero.mpr (fun hm => unmarked_ne_startMark _ (hun _ hm) _ rfl)
  have he : ∀ pid : Int, evs.count (endMark pid) = 0 := fun pid =>
    List.count_eq_zero.mpr (fun hm => unmarked_ne_endMark _ (hun _ hm) _ rfl)
  refine ⟨h.pid, h.nodup, h.shape, ?_, ?_, ?_⟩
  · intro p hp
    rw [List.count_append, List.count_append, hs, he]
    exact h.counts p hp
  · intro n hn
    rw [List.count_append, List.count_append, hs, he]
    exact h.fresh n hn
  · intro n
    apply precedes_append _ _ _ _ (h.order n)
    intro hm
    exact absurd rfl (unmarked_ne_endMark _ (hun _ hm) _)

theorem Tracked.load (K : Nat) (D : List String) (L new : List Process) (h : Tracked K D L)
    (hpids : pids new = pidRange K new.length)
    (hshape : ∀ p ∈ new, p.beginsAndFinishes ∧ p.noOtherBegin)
    (hpc : ∀ p ∈ new, p.operationIndex_ = 0) : Tracked (K + new.length) D (L ++ new) := by
  have hnew : ∀ p ∈ new, ∃ i : Nat, p.processNumber_ = (i : Int) ∧ K ≤ i ∧ i < K + new.length := by
    intro p hp
    have : p.getProcessNumber ∈ pids new := List.mem_map_of_mem _ hp
    rw [hpids] at this
    exact mem_pidRange _ _ _ this
  refine ⟨?_, ?_, ?_, ?_, ?_, h.order⟩
  · intro p hp
    rcases List.mem_append.mp hp with hp | hp
    · obtain ⟨n, hn, hlt⟩ := h.pid p hp
      exact ⟨n, hn, by omega⟩
    · obtain ⟨i, hi, _, hlt⟩ := hnew p hp
      exact ⟨i, hi, hlt⟩
  · unfold pids
    rw [List.map_append]
    refine List.Nodup.append h.nodup ?_ ?_
    · have := pidRange_nodup K new.length
      rw [← hpids] at this
      exact this
    · intro x hx hx'
      simp only [List.mem_map] at hx hx'
      obtain ⟨p, hp, hpx⟩ := hx
      obtain ⟨p', hp', hpx'⟩ := hx'
      obtain ⟨n, hn, hlt⟩ := h.pid p hp
      obtain ⟨i, hi, hge, _⟩ := hnew p' hp'
      have h1 : p.processNumber_ = p'.processNumber_ := by
        show p.getProcessNumber = p'.getProcessNumber
        rw [hpx, hpx']
      rw [hn, hi] at h1
      have h2 : n = i := by exact_mod_cast h1
      omega
  · intro p hp
    rcases List.mem_append.mp hp with hp | hp
    · exact h.shape p hp
    · exact ⟨by rw [hpc p hp]; exact Nat.zero_le _, hshape p hp⟩
  · intro p hp
    rcases List.mem_append.mp hp with hp | hp
    · exact h.counts p hp
    · obtain ⟨i, hi, hge, _⟩ := hnew p hp
      rw [hi]
      have := h.fresh i hge
      simp [this.1, this.2, Process.beginsExecuted, Process.finishesExecuted, hpc p hp]
  · intro n hn
    exact h.fresh n (by omega)

theorem begins_pos (cur : Process) (cmd : MetaCommand) (hshape : cur.beginsAndFinishes)
    (hcmd : cur.metaCmdVect_[cur.operationIndex_]? = some cmd)
    (hfin : cmd.isCommand 'A' "finish" = true) : 0 < cur.beginsExecuted := by
  unfold Process.beginsAndFinishes at hshape
  unfold Process.beginsExecuted
  cases hops : cur.metaCmdVect_ with
  | nil => rw [hops] at hcmd; simp at hcmd
  | cons b tail =>
    rw [hops] at hshape hcmd
    have hb : b.isCommand 'A' "begin" = true := by
      have := hshape.1
      simpa using this
    cases hidx : cur.operationIndex_ with
    | zero =>
      rw [hidx] at hcmd
      simp only [List.getElem?_cons_zero, Option.some.injEq] at hcmd
      rw [hcmd] at hb
      simp only [MetaCommand.isCommand, Bool.and_eq_true, beq_iff_eq] at hb hfin
      rw [hb.2] at hfin
      exact absurd hfin.2 (by decide)
    | succ j =>
      simp [List.take_succ_cons, List.countP_cons, hb]

theorem Tracked.exec (K : Nat) (D evs : List String) (cur cur' : Process) (rest : List Process)
    (cmd : MetaCommand) (h : Tracked K D (cur :: rest))
    (hcmd : cur.metaCmdVect_[cur.operationIndex_]? = some cmd)
    (hops : cur'.metaCmdVect_ = cur.metaCmdVect_)
    (hidx : cur'.operationIndex_ = cur.operationIndex_ + 1)
    (hpid : cur'.processNumber_ = cur.processNumber_)
    (hb : cmd.code_ = 'A' ∧ cmd.descriptor_ = "begin" →
      evs = ["preparing process " ++ toString cur.processNumber_, startMark cur.processNumber_])
    (hf : cmd.code_ = 'A' ∧ cmd.descriptor_ = "finish" → evs = [endMark cur.processNumber_])
    (ho : ¬ (cmd.code_ = 'A' ∧ cmd.descriptor_ = "begin") →
      ¬ (cmd.code_ = 'A' ∧ cmd.descriptor_ = "finish") → ∀ e ∈ evs, Unmarked e) :
    Tracked K (D ++ evs) (cur' :: rest) := by
  obtain ⟨k, hk, hkK⟩ := h.pid cur (List.mem_cons_self _ _)
  rw [hk] at hb hf
  have hmarks := fun n : Nat => marks_of_events cmd k n evs hb hf ho
  have hlt : cur.operationIndex_ < cur.metaCmdVect_.length := by
    rcases Nat.lt_or_ge cur.operationIndex_ cur.metaCmdVect_.length with hlt | hge
    · exact hlt
    · rw [List.getElem?_eq_none hge] at hcmd
      exact absurd hcmd (by simp)
  have hcurshape := h.shape cur (List.mem_cons_self _ _)
  have hnd : ∀ p ∈ rest, p.processNumber_ ≠ cur.processNumber_ := by
    intro p hp heq
    have := h.nodup
    simp only [pids, List.map_cons, List.nodup_cons, List.mem_map, not_exists, not_and] at this
    exact this.1 p hp heq
  refine ⟨?_, ?_, ?_, ?_, ?_, ?_⟩
  · intro p hp
    rcases List.mem_cons.mp hp with hp | hp
    · rw [hp, hpid]; exact ⟨k, hk, hkK⟩
    · exact h.pid p (List.mem_cons_of_mem _ hp)
  · have := h.nodup
    simp only [pids, List.map_cons, Process.getProcessNumber] at this ⊢
    rw [hpid]
    exact this
  · intro p hp
    rcases List.mem_cons.mp hp with hp | hp
    · rw [hp]
      refine ⟨by rw [hidx, hops]; exact hlt, ?_, ?_⟩
      · unfold Process.beginsAndFinishes; rw [hops]; exact hcurshape.2.1
      · unfold Process.noOtherBegin; rw [hops]; exact hcurshape.2.2
    · exact h.shape p (List.mem_cons_of_mem _ hp)
  · intro p hp
    rcases List.mem_cons.mp hp with hp | hp
    · rw [hp, hpid, hk, List.count_append, List.count_append, (hmarks k).1, (hmarks k).2.1]
      have hc := h.counts cur (List.mem_cons_self _ _)
      rw [hk] at hc
      rw [hc.1, hc.2]
      unfold Process.beginsExecuted Process.finishesExecuted
      rw [hidx, hops, countP_take_succ _ _ _ cmd hcmd, countP_take_succ _ _ _ cmd hcmd]
      simp
    · obtain ⟨m, hm, _⟩ := h.pid p (List.mem_cons_of_mem _ hp)
      have hne : k ≠ m := by
        intro hkm
        apply hnd p hp
        rw [hm, hk, hkm]
      rw [hm, List.count_append, List.count_append, (hmarks m).1, (hmarks m).2.1]
      have hc := h.counts p (List.mem_cons_of_mem _ hp)
      rw [hm] at hc
      rw [hc.1, hc.2]
      simp [hne]
  · intro n hn
    have hne : k ≠ n := by omega
    rw [List.count_append, List.count_append, (hmarks n).1, (hmarks n).2.1]
    have := h.fresh n hn
    rw [this.1, this.2]
    simp [hne]
  · intro n
    apply precedes_append _ _ _ _ (h.order n)
    intro hm
    obtain ⟨hfin, hkn⟩ := (hmarks n).2.2 hm
    subst hkn
    have hpos := begins_pos cur cmd hcurshape.2.1 hcmd hfin
    have hc := (h.counts cur (List.mem_cons_self _ _)).1
    rw [hk] at hc
    rw [← hc] at hpos
    exact List.count_pos_iff.mp hpos

theorem sortReadyQueue_perm (q : ReadyQueue) :
    q.sortReadyQueue.processVect_.Perm q.processVect_ ∧
    q.sortReadyQueue.processArrivalIndx_ = q.processArrivalIndx_ := by
  unfold ReadyQueue.sortReadyQueue
  split_ifs
  · exact ⟨List.Perm.refl _, rfl⟩
  · exact ⟨sortPasses_perm _ _ _, rfl⟩
  · exact ⟨List.Perm.refl _, rfl⟩

theorem logInterruption_effect (clock : Nat → Int) (r : OSprocessRunner) (pid : Int) :
    (r.logInterruption clock pid).readyQ_ = r.readyQ_ ∧
    ∃ e, Unmarked e ∧ descriptions (r.logInterruption clock pid).operationsVect_ =
      descriptions r.operationsVect_ ++ [e] := by
  unfold OSprocessRunner.logInterruption
  simp only [descriptions_push]
  refine ⟨rfl, _, ?_, rfl⟩
  simp only [OSprocessRunner.tick]
  split_ifs <;> decide

theorem getMetaCommand_ok (cur : Process) (m : MetaCommand)
    (hm : cur.getMetaCommand cur.getOpIndex = .ok m) :
    cur.metaCmdVect_[cur.operationIndex_]? = some m := by
  unfold Process.getMetaCommand Process.getOpIndex at hm
  split at hm
  · rename_i m' hm'
    rw [hm', ← Except.ok.inj hm]
  · exact absurd hm (by simp)

theorem preempt_effect (clock : Nat → Int) (r r1 : OSprocessRunner) (cur : Process)
    (hq : r1.readyQ_.processVect_.Perm (cur :: r.readyQ_.processVect_))
    (hidx : r1.readyQ_.processArrivalIndx_ = r.readyQ_.processArrivalIndx_)
    (hd : r1.operationsVect_ = r.operationsVect_) :
    IterationEffect r cur (r1.logInterruption clock cur.getProcessNumber, cur, true) := by
  obtain ⟨hq1, e, he, hd1⟩ := logInterruption_effect clock r1 cur.getProcessNumber
  refine ⟨by simp only [hq1, hidx], Or.inl ⟨rfl, ?_, e, he, ?_⟩⟩
  · simp only [hq1]; exact hq
  · simp only [hd1, hd]

theorem execute_effect (clock : Nat → Int) (r r1 r2 : OSprocessRunner) (cur cur' : Process)
    (cmd : MetaCommand)
    (hq : r1.readyQ_ = r.readyQ_) (hd : r1.operationsVect_ = r.operationsVect_)
    (hcmd : cur.getMetaCommand cur.getOpIndex = .ok cmd)
    (hex : r1.executeOperation clock cmd cur.getProcessNumber = .ok r2)
    (hops : cur'.metaCmdVect_ = cur.metaCmdVect_)
    (hidx : cur'.operationIndex_ = cur.operationIndex_ + 1)
    (hpid : cur'.processNumber_ = cur.processNumber_) :
    IterationEffect r cur (r2, cur', false) := by
  obtain ⟨hq2, evs, hd2, hb, hf, ho⟩ := executeOperation_events clock r1 r2 cmd _ hex
  exact ⟨by simp only [hq2, hq], Or.inr (Or.inl ⟨rfl, by simp only [hq2, hq], cmd, evs,
    getMetaCommand_ok cur cmd hcmd, hops, hidx, hpid, by simp only [hd2, hd], hb, hf, ho⟩)⟩

theorem innerLoopBody_effect (clock : Nat → Int) (r : OSprocessRunner) (cur : Process)
    (x : OSprocessRunner × Process × Bool) (h : r.innerLoopBody clock cur = .ok x) :
    IterationEffect r cur x := by
  unfold OSprocessRunner.innerLoopBody at h
  by_cases hrr : r.schedCode_ = 0
  · rw [if_pos hrr] at h
    simp only [] at h
    generalize hr1 : (if r.firstOperation_ = true then
      ({ r with firstOperation_ := false } : OSprocessRunner) else r) = r1 at h
    have hq1 : r1.readyQ_ = r.readyQ_ := by rw [← hr1]; split_ifs <;> rfl
    have hd1 : r1.operationsVect_ = r.operationsVect_ := by rw [← hr1]; split_ifs <;> rfl
    split_ifs at h with hflag
    · rw [← Except.ok.inj h]
      refine preempt_effect clock r _ cur ?_ ?_ hd1
      · show (r1.readyQ_.insertProcess cur).processVect_.Perm _
        rw [hq1]
        simp only [ReadyQueue.insertProcess]
        exact List.perm_append_singleton _ _
      · show (r1.readyQ_.insertProcess cur).processArrivalIndx_ = _
        rw [hq1]; rfl
    · split at h
      · exact absurd h (by simp)
      · rename_i cmd hcmd
        split at h
        · exact absurd h (by simp)
        · rename_i r2 hex
          rw [← Except.ok.inj h]
          exact execute_effect clock r ({ r1 with waitForOP_ := false }) r2 cur _ cmd hq1 hd1 hcmd
            hex rfl rfl rfl
  · rw [if_neg hrr] at h
    by_cases hstr : r.schedCode_ = 1
    · rw [if_pos hstr] at h
      split_ifs at h with hflag
      · rw [← Except.ok.inj h]
        obtain ⟨hperm, hidx⟩ := sortReadyQueue_perm (r.readyQ_.insertProcess cur)
        refine preempt_effect clock r _ cur ?_ hidx rfl
        refine hperm.trans ?_
        simp only [ReadyQueue.insertProcess]
        exact List.perm_append_singleton _ _
      · split at h
        · exact absurd h (by simp)
        · rename_i cmd hcmd
          split at h
          · exact absurd h (by simp)
          · rename_i r2 hex
            split at h
            · exact absurd h (by simp)
            · rw [← Except.ok.inj h]
              exact execute_effect clock r r r2 cur _ cmd rfl rfl hcmd hex rfl rfl rfl
    · rw [if_neg hstr] at h
      rw [← Except.ok.inj h]
      exact ⟨rfl, Or.inr (Or.inr rfl)⟩

theorem loadBatch_new (cfg : Configuration) (mdf : Option (List (List Token)))
    (q q1 : ReadyQueue) (h : loadBatch cfg mdf q = .ok q1) :
    ∃ new, q1.processVect_ = q.processVect_ ++ new ∧
      q1.processArrivalIndx_ = q.processArrivalIndx_ + new.length ∧
      pids new = pidRange q.processArrivalIndx_ new.length ∧
      (∀ p ∈ new, p.beginsAndFinishes ∧ p.noOtherBegin) ∧
      (∀ p ∈ new, p.operationIndex_ = 0) := by
  unfold loadBatch at h
  cases hh : (freshLoader cfg).parseMDF mdf q with
  | error e => rw [hh] at h; exact absurd h (by simp)
  | ok x =>
    rw [hh] at h
    have hx : x.2 = q1 := Except.ok.inj h
    cases mdf with
    | none => exact absurd hh (by simp [MetaData.parseMDF])
    | some lines =>
      obtain ⟨new, h1, h2, _, h4⟩ := parseMDF_appended cfg (some lines) q x hh
      obtain ⟨new', h1', hpc⟩ := parseMDF_pc cfg lines q x hh
      have hshape : ∃ new'', x.2.processVect_ = q.processVect_ ++ new'' ∧
          ∀ p ∈ new'', p.beginsAndFinishes ∧ p.noOtherBegin := by
        have hh' := hh
        unfold MetaData.parseMDF at hh'
        simp only [] at hh'
        rw [parseLines_eq_flatten] at hh'
        exact (parseFullLine_shape lines.flatten (freshLoader cfg) q x (Or.inl rfl) hh').2
      obtain ⟨new'', h1'', hsh⟩ := hshape
      have e1 : new' = new := List.append_cancel_left (h1'.symm.trans h1)
      have e2 : new'' = new := List.append_cancel_left (h1''.symm.trans h1)
      subst e1 e2
      rw [← hx]
      exact ⟨new'', h1, h2, h4, hsh, hpc⟩

theorem engineStep_inv (clock : Nat → Int) (s s' : RunState) (hinv : RunInv s)
    (h : s.engineStep clock = .ok s') : RunInv s' := by
  obtain ⟨r, pos, done⟩ := s
  cases pos with
  | returned =>
    simp only [RunState.engineStep] at h
    rw [← Except.ok.inj h]
    exact hinv
  | outerTest =>
    simp only [RunState.engineStep] at h
    split_ifs at h with hpos
    · rw [← Except.ok.inj h]
      have hlen := hinv.count rfl
      simp only [] at hlen
      cases hq : r.readyQ_.processVect_ with
      | nil => rw [hlen, hq] at hpos; exact absurd hpos (by simp)
      | cons p rest =>
        have ht := hinv.tracked
        simp only [RunState.processes, hq, List.nil_append] at ht
        refine ⟨?_, hinv.completed, fun hc => by simp at hc⟩
        simp only [RunState.processes, ReadyQueue.removeProcess, hq, List.headD_cons,
          List.tail_cons, List.singleton_append, List.cons_append]
        exact ht
    · rw [← Except.ok.inj h]
      refine ⟨?_, hinv.completed, fun hc => by simp at hc⟩
      have ht := hinv.tracked
      simp only [RunState.processes] at ht ⊢
      exact ht
  | innerTest cur =>
    simp only [RunState.engineStep] at h
    have ht := hinv.tracked
    simp only [RunState.processes, List.singleton_append, List.cons_append] at ht
    split_ifs at h with hlt
    · split at h
      · exact absurd h (by simp)
      · rename_i x hx
        obtain ⟨hidx, heff⟩ := innerLoopBody_effect clock r cur x hx
        rcases heff with ⟨hbrk, hperm, e, he, hd⟩ | ⟨hbrk, hq, cmd, evs, hcmd, hops, hi, hpid,
            hd, hb, hf, ho⟩ | hsame
        · simp only [hbrk, if_true] at h
          rw [← Except.ok.inj h]
          refine ⟨?_, hinv.completed, fun _ => rfl⟩
          simp only [RunState.processes, List.nil_append, hidx, hd]
          apply Tracked.append_unmarked _ _ _ _ _
            (fun e' he' => by rw [List.mem_singleton.mp he']; exact he)
          refine Tracked.perm _ _ _ _ ?_ ht
          exact ((hperm.append_right done).symm)
        · simp only [hbrk, Bool.false_eq_true, if_false] at h
          rw [← Except.ok.inj h]
          refine ⟨?_, hinv.completed, fun hc => by simp at hc⟩
          simp only [RunState.processes, List.singleton_append, List.cons_append, hidx, hd, hq]
          exact Tracked.exec _ _ _ cur x.2.1 _ cmd ht hcmd hops hi hpid hb hf ho
        · rw [hsame] at h
          simp only [Bool.false_eq_true, if_false] at h
          rw [← Except.ok.inj h]
          exact hinv
    · rw [← Except.ok.inj h]
      have hge : cur.operationIndex_ = cur.metaCmdVect_.length := by
        have h1 := (ht.shape cur (List.mem_cons_self _ _)).1
        have h2 : ¬ cur.operationIndex_ < cur.metaCmdVect_.length := hlt
        omega
      refine ⟨?_, ?_, fun _ => rfl⟩
      · simp only [RunState.processes, List.nil_append]
        refine Tracked.perm _ _ _ _ ?_ ht
        rw [← List.append_assoc]
        exact (List.perm_append_singleton cur (r.readyQ_.processVect_ ++ done)).symm
      · intro p hp
        rcases List.mem_append.mp hp with hp | hp
        · exact hinv.completed p hp
        · rw [List.mem_singleton.mp hp]; exact hge

theorem importMDF_inv (mdf : Option (List (List Token))) (s : RunState) (r' : OSprocessRunner)
    (htr : Tracked s.runner.readyQ_.processArrivalIndx_
      (descriptions s.runner.operationsVect_) s.processes)
    (hcomp : ∀ p ∈ s.completed, p.operationIndex_ = p.metaCmdVect_.length)
    (h : s.runner.importMDF mdf = .ok r') :
    RunInv { s with runner := r' } := by
  rw [importMDF_eq] at h
  cases hl : loadBatch s.runner.configObj_ mdf s.runner.readyQ_ with
  | error e => rw [hl] at h; exact absurd h (by simp)
  | ok q1 =>
    rw [hl] at h
    obtain ⟨new, h1, h2, h3, h4, h5⟩ := loadBatch_new _ _ _ _ hl
    rw [← Except.ok.inj h]
    refine ⟨?_, hcomp, fun _ => rfl⟩
    have ht := Tracked.load _ _ _ new htr h3 h4 h5
    simp only [RunState.processes, h1, h2] at ht ⊢
    refine Tracked.perm _ _ _ _ ?_ ht
    simp only [List.append_assoc]
    exact List.Perm.append_left _ (List.Perm.append_left _ List.perm_append_comm)

theorem step_inv (clock : Nat → Int) (s s' : RunState) (a : Action) (hinv : RunInv s)
    (h : s.step clock a = .ok s') : RunInv s' := by
  cases a with
  | engine => exact engineStep_inv clock s s' hinv h
  | quantumExpired =>
    simp only [RunState.step] at h
    rw [← Except.ok.inj h]
    exact ⟨hinv.tracked, hinv.completed, hinv.count⟩
  | timerArmed =>
    simp only [RunState.step] at h
    rw [← Except.ok.inj h]
    exact ⟨hinv.tracked, hinv.completed, hinv.count⟩
  | mdfLoaded mdf =>
    simp only [RunState.step] at h
    split at h
    · exact absurd h (by simp)
    · rename_i r' hr'
      rw [← Except.ok.inj h]
      exact importMDF_inv mdf s r' hinv.tracked hinv.completed hr'
  | strFlagSet =>
    simp only [RunState.step] at h
    split_ifs at h
    · rw [← Except.ok.inj h]
      exact ⟨hinv.tracked, hinv.completed, hinv.count⟩
    · rw [← Except.ok.inj h]
      exact hinv

theorem run_inv (clock : Nat → Int) :
    ∀ (schedule : List Action) (s s' : RunState), RunInv s →
      RunState.run clock s schedule = .ok s' → RunInv s' := by
  intro schedule
  induction schedule with
  | nil =>
    intro s s' hinv h
    simp only [RunState.run] at h
    rw [← Except.ok.inj h]
    exact hinv
  | cons a rest ih =>
    intro s s' hinv h
    simp only [RunState.run] at h
    split at h
    · exact absurd h (by simp)
    · rename_i s1 h1
      exact ih s1 s' (step_inv clock s s1 a hinv h1) h

theorem tracked_nil (K : Nat) : Tracked K [] [] where
  pid := fun p hp => absurd hp (by simp)
  nodup := by simp [pids]
  shape := fun p hp => absurd hp (by simp)
  counts := fun p hp => absurd hp (by simp)
  fresh := fun n _ => ⟨rfl, rfl⟩
  order := fun n pre post h => absurd h (by simp)

theorem runProcessesStart_inv (mdf : Option (List (List Token))) (r r1 : OSprocessRunner)
    (hq : r.readyQ_.processVect_ = []) (hd : r.operationsVect_ = [])
    (h : r.runProcessesStart mdf = .ok r1) :
    RunInv { runner := r1, position := .outerTest, completed := [] } := by
  unfold OSprocessRunner.runProcessesStart at h
  simp only [] at h
  split at h
  · exact absurd h (by simp)
  · rename_i r2 h2
    have h0 : RunInv ⟨r2, .outerTest, []⟩ := by
      refine importMDF_inv mdf ⟨{ r with memAddress_ := 0 }, .outerTest, []⟩ r2 ?_
        (fun p hp => absurd hp (by simp)) h2
      simp only [RunState.processes, hq, hd, descriptions, List.map_nil, List.append_nil]
      exact tracked_nil _
    split_ifs at h
    · rw [← Except.ok.inj h]
      obtain ⟨hperm, hidx⟩ := sortReadyQueue_perm r2.readyQ_
      refine ⟨?_, fun p hp => absurd hp (by simp), ?_⟩
      · have ht := h0.tracked
        simp only [RunState.processes, List.nil_append, List.append_nil, hidx] at ht ⊢
        exact Tracked.perm _ _ _ _ hperm.symm ht
      · intro _
        have hc := h0.count rfl
        simp only [] at hc ⊢
        rw [hc, hperm.length_eq]
    · rw [← Except.ok.inj h]
      exact h0

/-- A process that has executed all the operations of a well-formed operation list has
executed exactly one `A{begin}` and at least one `A{finish}`: all the `A{finish}` of the
list, which is exactly one when no operation before the last one is `A{finish}`. -/
theorem completed_counts (p : Process) (hidx : p.operationIndex_ = p.metaCmdVect_.length)
    (hshape : p.beginsAndFinishes) (hnob : p.noOtherBegin) :
    p.beginsExecuted = 1 ∧
    p.finishesExecuted = p.metaCmdVect_.countP (fun m => m.isCommand 'A' "finish") ∧
    1 ≤ p.finishesExecuted ∧
    (p.noOtherFinish → p.finishesExecuted = 1) := by
  unfold Process.beginsExecuted Process.finishesExecuted
  rw [hidx, List.take_length]
  unfold Process.beginsAndFinishes at hshape
  unfold Process.noOtherBegin at hnob
  unfold Process.noOtherFinish
  obtain ⟨hhead, hlast⟩ := hshape
  have hne : p.metaCmdVect_ ≠ [] := by
    intro hnil
    rw [hnil] at hhead
    simp at hhead
  have hsplit := List.dropLast_append_getLast hne
  have hlast' : (p.metaCmdVect_.getLast hne).isCommand 'A' "finish" = true := by
    rw [List.getLast?_eq_getLast _ hne] at hlast
    simpa using hlast
  refine ⟨?_, rfl, ?_, ?_⟩
  · cases hops : p.metaCmdVect_ with
    | nil => exact absurd hops hne
    | cons b tail =>
      rw [hops] at hhead hnob
      have hb : b.isCommand 'A' "begin" = true := by simpa using hhead
      simp only [List.tail_cons] at hnob
      rw [List.countP_cons, if_pos hb]
      have : tail.countP (fun m => m.isCommand 'A' "begin") = 0 := by
        rw [List.countP_eq_zero]
        intro m hm
        rw [hnob m hm]
        simp
      rw [this]
  · rw [← hsplit, List.countP_append]
    simp [List.countP_cons, hlast']
  · intro hnof
    rw [← hsplit, List.countP_append]
    have : p.metaCmdVect_.dropLast.countP (fun m => m.isCommand 'A' "finish") = 0 := by
      rw [List.countP_eq_zero]
      intro m hm
      rw [hnof m hm]
      simp
    rw [this]
    simp [List.countP_cons, hlast']

/-! ### C19 -/

set_option maxRecDepth 20000 in

/-- C19, counterexample: the loader accepts the stream
`S{begin}0; A{begin}0; A{finish}0; P{run}5; A{finish}0; S{finish}0;` and produces the
processes 1 and 2; the engine (STR, no flag ever set) runs both to completion and returns,
and the trace holds the event "End process 2" twice: process 2 has the operations
`A{begin}, A{finish}, P{run}, A{finish}` and each `A{finish}` logs the event. -/
theorem end_event_twice :
    (strRunner.runProcesses tickClock (some [candidateStream])
        (List.replicate 11 Action.engine)).toOption.map
      (fun s => (s.position,
        s.completed.map (fun p => (p.getProcessNumber,
          occurrences (startMark p.getProcessNumber) s.runner.operationsVect_,
          occurrences (endMark p.getProcessNumber) s.runner.operationsVect_)),
        descriptions s.runner.operationsVect_)) =
      some (.returned, [(1, 1, 1), (2, 1, 2)],
        ["preparing process 1", "starting process 1", "End process 1",
         "preparing process 2", "starting process 2", "End process 2",
         "start processing action", "end processing action", "End process 2"]) := by
  decide

/-- C19, amended: in every state of a run of `runProcesses()` on a new engine, whatever the
metadata files loaded and whatever the schedule of the engine steps, flag settings and loads,
the processes that ran to completion have distinct pids, and for each of them the trace holds
exactly one event "starting process pid", as many events "End process pid" as the process
has `A{finish}` operations (at least one; exactly one when no operation before its last one
is `A{finish}`), and every event "End process pid" has the event "starting process pid"
before it. -/
theorem process_start_end_events (clock : Nat → Int) (begin : Int)
    (configObj : Configuration) (statics : Resources) (mdf : Option (List (List Token)))
    (schedule : List Action) (s : RunState)
    (h : (OSprocessRunner.new begin configObj statics).runProcesses clock mdf schedule =
      .ok s) :
    (pids s.completed).Nodup ∧
    ∀ p ∈ s.completed,
      p.getOpIndex = p.getNumberOfCommands ∧
      occurrences (startMark p.getProcessNumber) s.runner.operationsVect_ = 1 ∧
      occurrences (endMark p.getProcessNumber) s.runner.operationsVect_ =
        p.metaCmdVect_.countP (fun m => m.isCommand 'A' "finish") ∧
      1 ≤ occurrences (endMark p.getProcessNumber) s.runner.operationsVect_ ∧
      (p.noOtherFinish →
        occurrences (endMark p.getProcessNumber) s.runner.operationsVect_ = 1) ∧
      Precedes (startMark p.getProcessNumber) (endMark p.getProcessNumber)
        (descriptions s.runner.operationsVect_) := by
  unfold OSprocessRunner.runProcesses at h
  split at h
  · exact absurd h (by simp)
  · rename_i r1 h1
    have h0 := runProcessesStart_inv mdf _ r1 rfl rfl h1
    have hinv := run_inv clock schedule _ s h0 h
    have hsub : s.completed.Sublist s.processes := List.sublist_append_right _ _
    refine ⟨(hinv.tracked.nodup).sublist (hsub.map _), ?_⟩
    intro p hp
    have hmem : p ∈ s.processes := hsub.subset hp
    have hidx := hinv.completed p hp
    obtain ⟨_, hshape, hnob⟩ := hinv.tracked.shape p hmem
    obtain ⟨hb, hf, hf1, hf2⟩ := completed_counts p hidx hshape hnob
    obtain ⟨hcs, hce⟩ := hinv.tracked.counts p hmem
    obtain ⟨n, hn, _⟩ := hinv.tracked.pid p hmem
    refine ⟨hidx, ?_, ?_, ?_, ?_, ?_⟩
    · show (descriptions s.runner.operationsVect_).count (startMark p.processNumber_) = 1
      rw [hcs, hb]
    · show (descriptions s.runner.operationsVect_).count (endMark p.processNumber_) = _
      rw [hce, hf]
    · show 1 ≤ (descriptions s.runner.operationsVect_).count (endMark p.processNumber_)
      rw [hce]; exact hf1
    · intro hnof
      show (descriptions s.runner.operationsVect_).count (endMark p.processNumber_) = 1
      rw [hce]; exact hf2 hnof
    · show Precedes (startMark p.processNumber_) (endMark p.processNumber_) _
      rw [hn]
      exact hinv.tracked.order n

set_option maxRecDepth 20000 in

/-- Witness of the amended C19 on the run `preemptedRun`, in which process 1 is preempted
after its first operation and the processes 1, 3 and 2 run to completion in that order. -/
theorem process_start_end_events_witness :
    strRunner.runProcesses tickClock (some [candidateStream]) preemptedSchedule =
      .ok preemptedRun ∧
    preemptedRun.completed.map (fun p => p.getProcessNumber) = [1, 3, 2] ∧
    (pids preemptedRun.completed).Nodup ∧
    ∀ p ∈ preemptedRun.completed,
      p.getOpIndex = p.getNumberOfCommands ∧
      occurrences (startMark p.getProcessNumber) preemptedRun.runner.operationsVect_ = 1 ∧
      occurrences (endMark p.getProcessNumber) preemptedRun.runner.operationsVect_ =
        p.metaCmdVect_.countP (fun m => m.isCommand 'A' "finish") ∧
      1 ≤ occurrences (endMark p.getProcessNumber) preemptedRun.runner.operationsVect_ ∧
      (p.noOtherFinish →
        occurrences (endMark p.getProcessNumber) preemptedRun.runner.operationsVect_ = 1) ∧
      Precedes (startMark p.getProcessNumber) (endMark p.getProcessNumber)
        (descriptions preemptedRun.runner.operationsVect_) :=
  have h : strRunner.runProcesses tickClock (some [candidateStream]) preemptedSchedule =
      .ok preemptedRun := by rfl
  ⟨h, by decide,
    process_start_end_events tickClock 0 strConfig
      (fillResourceDeques Resources.initial 1 1 1 1 1) (some [candidateStream])
      preemptedSchedule preemptedRun h⟩

theorem executeOperation_withShared (clock : Nat → Int) (r : OSprocessRunner)
    (cmd : MetaCommand) (pid : Int) (q : ReadyQueue) (n : Nat) (f w : Bool) :
    (r.withShared q n f w).executeOperation clock cmd pid =
      match r.executeOperation clock cmd pid with
      | .error e => .error e
      | .ok r1 => .ok (r1.withShared q n f w) := by
  unfold OSprocessRunner.executeOperation
  simp only [MetaCommand.getCode, MetaCommand.getDescriptor, MetaCommand.getTime]
  split_ifs with h1 h2 h3
  · unfold OSprocessRunner.executeApplication
    split_ifs <;> rfl
  · unfold OSprocessRunner.executeProcessorMemory OSprocessRunner.advanceMemAddress
    simp only [OSprocessRunner.withShared, OSprocessRunner.tick, OSprocessRunner.countDown,
      OSprocessRunner.pushOperation, OSprocessRunner.timeStamp]
    split_ifs <;> rfl
  · unfold OSprocessRunner.executeInputOutput OSprocessRunner.inputOutput
    simp only [OSprocessRunner.withShared, OSprocessRunner.tick]
    cases acquireResource r.static_ cmd.descriptor_ "" with
    | error e => rfl
    | ok a => rfl
  · rfl

theorem executeOperation_flags (clock : Nat → Int) (r r' : OSprocessRunner)
    (cmd : MetaCommand) (pid : Int) (h : r.executeOperation clock cmd pid = .ok r') :
    r'.rrFlag_ = r.rrFlag_ ∧ r'.strFlag_ = r.strFlag_ ∧ r'.schedCode_ = r.schedCode_ := by
  unfold OSprocessRunner.executeOperation at h
  simp only [MetaCommand.getCode, MetaCommand.getDescriptor, MetaCommand.getTime] at h
  split_ifs at h with h1 h2 h3
  · rw [← Except.ok.inj h]
    unfold OSprocessRunner.executeApplication
    split_ifs <;> exact ⟨rfl, rfl, rfl⟩
  · rw [← Except.ok.inj h]
    unfold OSprocessRunner.executeProcessorMemory OSprocessRunner.advanceMemAddress
    simp only []
    split_ifs <;> exact ⟨rfl, rfl, rfl⟩
  · unfold OSprocessRunner.executeInputOutput OSprocessRunner.inputOutput at h
    simp only [] at h
    split at h
    · exact absurd h (by simp)
    · rename_i io hio
      split at hio
      · exact absurd hio (by simp)
      · simp only [Except.ok.injEq] at hio
        rw [← Except.ok.inj h, ← hio]
        exact ⟨rfl, rfl, rfl⟩
  · rw [← Except.ok.inj h]
    exact ⟨rfl, rfl, rfl⟩

theorem quiet_cons (a : Action) (rest : List Action) (h : Quiet (a :: rest)) :
    (a = Action.engine ∨ a = Action.timerArmed) ∧ Quiet rest :=
  ⟨h a (List.mem_cons_self _ _), fun b hb => h b (List.mem_cons_of_mem _ hb)⟩

theorem run_returned (clock : Nat → Int) :
    ∀ (schedule : List Action) (r : OSprocessRunner) (q : ReadyQueue) (n : Nat) (f w : Bool)
      (done : List Process), Quiet schedule → q.processVect_ = [] →
      ∃ s, RunState.run clock ⟨r.withShared q n f w, .returned, done⟩ schedule = .ok s ∧
        Finished r s := by
  intro schedule
  induction schedule with
  | nil =>
    intro r q n f w done _ hq
    exact ⟨_, rfl, rfl, q, n, f, w, hq, rfl⟩
  | cons a rest ih =>
    intro r q n f w done hquiet hq
    obtain ⟨ha, hrest⟩ := quiet_cons a rest hquiet
    rcases ha with ha | ha
    · subst ha
      simp only [RunState.run, RunState.step, RunState.engineStep]
      exact ih r q n f w done hrest hq
    · subst ha
      simp only [RunState.run, RunState.step]
      exact ih r q n f true done hrest hq

theorem run_outer_empty (clock : Nat → Int) :
    ∀ (schedule : List Action) (r : OSprocessRunner) (q : ReadyQueue) (f w : Bool)
      (done : List Process), Quiet schedule → 1 ≤ schedule.count Action.engine →
      q.processVect_ = [] →
      ∃ s, RunState.run clock ⟨r.withShared q 0 f w, .outerTest, done⟩ schedule = .ok s ∧
        Finished r s := by
  intro schedule
  induction schedule with
  | nil =>
    intro r q f w done _ hcount _
    simp at hcount
  | cons a rest ih =>
    intro r q f w done hquiet hcount hq
    obtain ⟨ha, hrest⟩ := quiet_cons a rest hquiet
    rcases ha with ha | ha
    · subst ha
      have h0 : ¬ (r.withShared q 0 f w).processesInRdyQ_ > 0 := by
        simp [OSprocessRunner.withShared]
      simp only [RunState.run, RunState.step, RunState.engineStep, h0, if_false]
      exact run_returned clock rest r q 0 f w done hrest hq
    · subst ha
      simp only [RunState.run, RunState.step]
      have hc : 1 ≤ rest.count Action.engine := by
        simpa [List.count_cons] using hcount
      exact ih r q f true done hrest hc hq

/-- One iteration of the inner loop when no flag is set: the operation at the operation
index is executed as `executeOperation` does it and the index is advanced. -/
theorem innerLoopBody_quiet (clock : Nat → Int) (r r1 : OSprocessRunner) (cur : Process)
    (cmd : MetaCommand) (q : ReadyQueue) (n : Nat) (f w : Bool)
    (hrr : r.rrFlag_ = false) (hstr : r.strFlag_ = false)
    (hcode : r.schedCode_ = 0 ∨ r.schedCode_ = 1)
    (hcmd : cur.metaCmdVect_[cur.operationIndex_]? = some cmd)
    (hex : r.executeOperation clock cmd cur.getProcessNumber = .ok r1) :
    ∃ (f' w' : Bool) (cur' : Process),
      (r.withShared q n f w).innerLoopBody clock cur = .ok (r1.withShared q n f' w', cur', false) ∧
      cur'.metaCmdVect_ = cur.metaCmdVect_ ∧
      cur'.operationIndex_ = cur.operationIndex_ + 1 ∧
      cur'.processNumber_ = cur.processNumber_ := by
  have hget : cur.getMetaCommand cur.getOpIndex = .ok cmd := by
    unfold Process.getMetaCommand Process.getOpIndex
    rw [hcmd]
  rcases hcode with hcode | hcode
  · refine ⟨false, false, cur.incrementOpIndex, ?_, rfl, rfl, rfl⟩
    have hsc : (r.withShared q n f w).schedCode_ = 0 := hcode
    unfold OSprocessRunner.innerLoopBody
    rw [if_pos hsc]
    simp only []
    have hr1 : ({ (if (r.withShared q n f w).firstOperation_ = true then
          ({ r.withShared q n f w with firstOperation_ := false } : OSprocessRunner)
        else r.withShared q n f w) with waitForOP_ := false } : OSprocessRunner) =
        r.withShared q n false false := by
      cases f <;> rfl
    have hfl : (if (r.withShared q n f w).firstOperation_ = true then
          ({ r.withShared q n f w with firstOperation_ := false } : OSprocessRunner)
        else r.withShared q n f w).rrFlag_ = false := by
      cases f <;> exact hrr
    rw [if_neg (by rw [hfl]; simp), hr1, hget]
    simp only []
    rw [executeOperation_withShared, hex]
  · refine ⟨f, w, (cur.subtractProcessTimeRemain cmd.getTime).incrementOpIndex, ?_, rfl, rfl,
      rfl⟩
    have hsc : (r.withShared q n f w).schedCode_ = 1 := hcode
    have hsc0 : ¬ (r.withShared q n f w).schedCode_ = 0 := by rw [hsc]; decide
    have hfl : ¬ (r.withShared q n f w).strFlag_ = true := by
      show ¬ r.strFlag_ = true
      rw [hstr]; simp
    unfold OSprocessRunner.innerLoopBody
    rw [if_neg hsc0, if_pos hsc, if_neg hfl, hget]
    simp only []
    rw [executeOperation_withShared, hex]

theorem remaining_cons (cur cur' : Process) (cmd : MetaCommand)
    (hcmd : cur.metaCmdVect_[cur.operationIndex_]? = some cmd)
    (hops : cur'.metaCmdVect_ = cur.metaCmdVect_)
    (hidx : cur'.operationIndex_ = cur.operationIndex_ + 1)
    (hpid : cur'.processNumber_ = cur.processNumber_) :
    cur.remaining = (cmd, cur.getProcessNumber) :: cur'.remaining := by
  unfold Process.remaining Process.getOpIndex Process.getProcessNumber
  rw [hops, hidx, hpid]
  obtain ⟨hlt, hget⟩ := List.getElem?_eq_some_iff.mp hcmd
  rw [List.drop_eq_getElem_cons hlt, hget]
  rfl

theorem run_inner (clock : Nat → Int) :
    ∀ (schedule : List Action) (k : Nat) (r r' : OSprocessRunner) (cur : Process)
      (q : ReadyQueue) (n : Nat) (f w : Bool) (done : List Process),
      Quiet schedule → k + 2 ≤ schedule.count Action.engine →
      k = cur.metaCmdVect_.length - cur.operationIndex_ →
      q.processVect_ = [] → r.rrFlag_ = false → r.strFlag_ = false →
      (r.schedCode_ = 0 ∨ r.schedCode_ = 1) →
      r.executeOperations clock cur.remaining = .ok r' →
      ∃ s, RunState.run clock ⟨r.withShared q n f w, .innerTest cur, done⟩ schedule = .ok s ∧
        Finished r' s := by
  intro schedule
  induction schedule with
  | nil =>
    intro k r r' cur q n f w done _ hcount
    simp at hcount
  | cons a rest ih =>
    intro k r r' cur q n f w done hquiet hcount hk hq hrr hstr hcode hops
    obtain ⟨ha, hrest⟩ := quiet_cons a rest hquiet
    rcases ha with ha | ha
    · subst ha
      have hc : k + 1 ≤ rest.count Action.engine := by
        simp only [List.count_cons, beq_self_eq_true, if_true] at hcount
        omega
      cases k with
      | zero =>
        have hnlt : ¬ cur.getOpIndex < cur.getNumberOfCommands := by
          unfold Process.getOpIndex Process.getNumberOfCommands
          omega
        have hrem : cur.remaining = [] := by
          unfold Process.remaining Process.getOpIndex
          rw [List.drop_eq_nil_of_le (by omega)]
          rfl
        rw [hrem] at hops
        simp only [OSprocessRunner.executeOperations] at hops
        rw [← Except.ok.inj hops]
        simp only [RunState.run, RunState.step, RunState.engineStep, hnlt, if_false]
        have hrun : ({ r.withShared q n f w with
            processesInRdyQ_ := (r.withShared q n f w).readyQ_.getNumberOfProcesses } :
            OSprocessRunner) = r.withShared q 0 f w := by
          simp only [OSprocessRunner.withShared, ReadyQueue.getNumberOfProcesses, hq,
            List.length_nil]
        rw [hrun]
        exact run_outer_empty clock rest r q f w _ hrest hc hq
      | succ k =>
        have hlt : cur.operationIndex_ < cur.metaCmdVect_.length := by omega
        have hlt' : cur.getOpIndex < cur.getNumberOfCommands := hlt
        have hcmd : cur.metaCmdVect_[cur.operationIndex_]? =
            some (cur.metaCmdVect_.get ⟨cur.operationIndex_, hlt⟩) :=
          List.getElem?_eq_getElem hlt
        cases hex : r.executeOperation clock (cur.metaCmdVect_.get ⟨cur.operationIndex_, hlt⟩)
            cur.getProcessNumber with
        | error e =>
          rw [remaining_cons cur cur.incrementOpIndex _ hcmd rfl rfl rfl] at hops
          simp only [OSprocessRunner.executeOperations, hex] at hops
          exact absurd hops (by simp)
        | ok r1 =>
          obtain ⟨f', w', cur', hbody, h1, h2, h3⟩ :=
            innerLoopBody_quiet clock r r1 cur _ q n f w hrr hstr hcode hcmd hex
          rw [remaining_cons cur cur' _ hcmd h1 h2 h3] at hops
          simp only [OSprocessRunner.executeOperations, hex] at hops
          obtain ⟨e1, e2, e3⟩ := executeOperation_flags clock r r1 _ _ hex
          simp only [RunState.run, RunState.step, RunState.engineStep, hlt', if_true, hbody,
            Bool.false_eq_true, if_false]
          refine ih k r1 r' cur' q n f' w' done hrest hc ?_ hq (by rw [e1, hrr])
            (by rw [e2, hstr]) (by rw [e3]; exact hcode) hops
          rw [h1, h2]
          omega
    · subst ha
      simp only [RunState.run, RunState.step]
      have hc : k + 2 ≤ rest.count Action.engine := by
        simpa [List.count_cons] using hcount
      exact ih k r r' cur q n f true done hrest hc hk hq hrr hstr hcode hops

theorem executeOperation_appends (clock : Nat → Int) (r r' : OSprocessRunner)
    (cmd : MetaCommand) (pid : Int) (h : r.executeOperation clock cmd pid = .ok r') :
    ∃ evs, r'.operationsVect_ = r.operationsVect_ ++ evs := by
  unfold OSprocessRunner.executeOperation at h
  simp only [MetaCommand.getCode, MetaCommand.getDescriptor, MetaCommand.getTime] at h
  split_ifs at h with h1 h2 h3
  · rw [← Except.ok.inj h]
    unfold OSprocessRunner.executeApplication
    split_ifs
    · exact ⟨_, by
        simp only [OSprocessRunner.pushOperation, OSprocessRunner.tick, List.append_assoc]
        rfl⟩
    · exact ⟨_, by simp only [OSprocessRunner.pushOperation, OSprocessRunner.tick]; rfl⟩
    · exact ⟨[], by simp⟩
  · rw [← Except.ok.inj h]
    unfold OSprocessRunner.executeProcessorMemory OSprocessRunner.advanceMemAddress
    simp only []
    split_ifs <;>
    · exact ⟨_, by
        simp only [OSprocessRunner.pushOperation, OSprocessRunner.tick,
          OSprocessRunner.countDown, List.append_assoc]
        rfl⟩
  · unfold OSprocessRunner.executeInputOutput OSprocessRunner.inputOutput at h
    simp only [] at h
    split at h
    · exact absurd h (by simp)
    · rename_i io hio
      split at hio
      · exact absurd hio (by simp)
      · simp only [Except.ok.injEq] at hio
        rw [← Except.ok.inj h, ← hio]
        exact ⟨_, by
          simp only [OSprocessRunner.pushOperation, OSprocessRunner.tick,
            OSprocessRunner.ioThreadDone, List.append_assoc]
          rfl⟩
  · rw [← Except.ok.inj h]
    exact ⟨[], by simp⟩

theorem executeOperations_appends (clock : Nat → Int) :
    ∀ (ops : List (MetaCommand × Int)) (r r' : OSprocessRunner),
      r.executeOperations clock ops = .ok r' →
      ∃ evs, r'.operationsVect_ = r.operationsVect_ ++ evs := by
  intro ops
  induction ops with
  | nil =>
    intro r r' h
    simp only [OSprocessRunner.executeOperations] at h
    rw [← Except.ok.inj h]
    exact ⟨[], by simp⟩
  | cons o rest ih =>
    intro r r' h
    obtain ⟨cmd, pid⟩ := o
    simp only [OSprocessRunner.executeOperations] at h
    split at h
    · exact absurd h (by simp)
    · rename_i r1 h1
      obtain ⟨e1, he1⟩ := executeOperation_appends clock r r1 cmd pid h1
      obtain ⟨e2, he2⟩ := ih r1 r' h
      exact ⟨e1 ++ e2, by rw [he2, he1, List.append_assoc]⟩

theorem run_outer_one (clock : Nat → Int) :
    ∀ (schedule : List Action) (r r' : OSprocessRunner) (p : Process) (q : ReadyQueue)
      (n : Nat) (f w : Bool) (done : List Process),
      Quiet schedule →
      (p.metaCmdVect_.length - p.operationIndex_) + 3 ≤ schedule.count Action.engine →
      q.processVect_ = [p] → 0 < n → r.rrFlag_ = false → r.strFlag_ = false →
      (r.schedCode_ = 0 ∨ r.schedCode_ = 1) →
      r.executeOperations clock p.remaining = .ok r' →
      ∃ s, RunState.run clock ⟨r.withShared q n f w, .outerTest, done⟩ schedule = .ok s ∧
        Finished r' s := by
  intro schedule
  induction schedule with
  | nil =>
    intro r r' p q n f w done _ hcount
    simp at hcount
  | cons a rest ih =>
    intro r r' p q n f w done hquiet hcount hq hn hrr hstr hcode hops
    obtain ⟨ha, hrest⟩ := quiet_cons a rest hquiet
    rcases ha with ha | ha
    · subst ha
      have hc : (p.metaCmdVect_.length - p.operationIndex_) + 2 ≤ rest.count Action.engine := by
        simp only [List.count_cons, beq_self_eq_true, if_true] at hcount
        omega
      have hpos : (r.withShared q n f w).processesInRdyQ_ > 0 := hn
      simp only [RunState.run, RunState.step, RunState.engineStep, hpos, if_true]
      have hrun : ({ r.withShared q n f w with
          readyQ_ := (r.withShared q n f w).readyQ_.removeProcess.2,
          processesInRdyQ_ :=
            (r.withShared q n f w).readyQ_.removeProcess.2.getNumberOfProcesses } :
          OSprocessRunner) = r.withShared { q with processVect_ := [] } 0 f w := by
        simp only [OSprocessRunner.withShared, ReadyQueue.removeProcess,
          ReadyQueue.getNumberOfProcesses, hq, List.tail_cons, List.length_nil]
      have hhead : (r.withShared q n f w).readyQ_.removeProcess.1 = p := by
        simp only [OSprocessRunner.withShared, ReadyQueue.removeProcess, hq, List.headD_cons]
      rw [hrun, hhead]
      exact run_inner clock rest _ r r' p { q with processVect_ := [] } 0 f w done hrest hc rfl
        rfl hrr hstr hcode hops
    · subst ha
      simp only [RunState.run, RunState.step]
      have hc : (p.metaCmdVect_.length - p.operationIndex_) + 3 ≤
          rest.count Action.engine := by
        simpa [List.count_cons] using hcount
      exact ih r r' p q n f true done hrest hc hq hn hrr hstr hcode hops

/-! ### C20 -/

/-- C20: when the ready queue holds one process `p`, no preemption flag is set, and the
schedule sets no flag and loads no file (it holds engine steps and armings of the quantum
timer only, at least three engine steps more than `p` has operations left), then, under RR
as under STR, the run of the loops of `runProcesses()` returns; the trace it leaves is the
trace `executeOperation` leaves when it is applied to the operations of `p`, from the
operation index on, one after the other: the trace before the run followed by the events of
each operation, in operation order, and nothing else; and the ready queue is empty. -/
theorem single_process_run (clock : Nat → Int) (r r' : OSprocessRunner) (p : Process)
    (done : List Process) (schedule : List Action)
    (hq : r.readyQ_.processVect_ = [p]) (hn : 0 < r.processesInRdyQ_)
    (hrr : r.rrFlag_ = false) (hstr : r.strFlag_ = false)
    (hcode : r.schedCode_ = 0 ∨ r.schedCode_ = 1)
    (hquiet : Quiet schedule)
    (hsteps : (p.getNumberOfCommands - p.getOpIndex) + 3 ≤ schedule.count Action.engine)
    (hops : r.executeOperations clock p.remaining = .ok r') :
    ∃ s, RunState.run clock ⟨r, .outerTest, done⟩ schedule = .ok s ∧
      s.position = .returned ∧
      s.runner.operationsVect_ = r'.operationsVect_ ∧
      (∃ evs, s.runner.operationsVect_ = r.operationsVect_ ++ evs) ∧
      s.runner.readyQ_.processVect_ = [] := by
  obtain ⟨s, hrun, hpos, q, n, f, w, hqe, hs⟩ :=
    run_outer_one clock schedule r r' p r.readyQ_ r.processesInRdyQ_ r.firstOperation_
      r.waitForOP_ done hquiet hsteps hq hn hrr hstr hcode hops
  have htrace : s.runner.operationsVect_ = r'.operationsVect_ := by rw [hs]; rfl
  refine ⟨s, hrun, hpos, htrace, ?_, ?_⟩
  · rw [htrace]
    exact executeOperations_appends clock _ r r' hops
  · rw [hs]; exact hqe

set_option maxRecDepth 20000 in

/-- Witness of C20, scenario S1: under RR with a quantum of 50 ms and a processor cycle of
10 ms, the metadata `S{begin}0; A{begin}0; P{run}3; A{finish}0; S{finish}0;` is loaded as one
process, and the run leaves the event descriptions "preparing process 1",
"starting process 1", "start processing action", "end processing action", "End process 1",
in that order, with no interruption event, and an empty ready queue. -/
theorem single_process_run_witness :
    s1Runner.runProcessesStart (some [s1Stream]) = .ok s1Start ∧
    s1Start.readyQ_.processVect_ = [s1Process] ∧ 0 < s1Start.processesInRdyQ_ ∧
    s1Start.rrFlag_ = false ∧ s1Start.strFlag_ = false ∧
    (s1Start.schedCode_ = 0 ∨ s1Start.schedCode_ = 1) ∧
    Quiet s1Schedule ∧
    (s1Process.getNumberOfCommands - s1Process.getOpIndex) + 3 ≤
      s1Schedule.count Action.engine ∧
    s1Start.executeOperations tickClock s1Process.remaining = .ok s1After ∧
    descriptions s1After.operationsVect_ =
      ["preparing process 1", "starting process 1", "start processing action",
       "end processing action", "End process 1"] ∧
    ∃ s, RunState.run tickClock ⟨s1Start, .outerTest, []⟩ s1Schedule = .ok s ∧
      s.position = .returned ∧
      s.runner.operationsVect_ = s1After.operationsVect_ ∧
      (∃ evs, s.runner.operationsVect_ = s1Start.operationsVect_ ++ evs) ∧
      s.runner.readyQ_.processVect_ = [] :=
  ⟨by rfl, by decide, by decide, by decide, by decide, by decide, by decide, by decide, by rfl,
    by decide,
    single_process_run tickClock s1Start s1After s1Process [] s1Schedule (by decide)
      (by decide) (by decide) (by decide) (by decide) (by decide) (by decide) (by rfl)⟩

theorem digitChar_isDigit (d : Nat) (hd : d < 10) :
    (Nat.digitChar d).isDigit = true ∧ isspace (Nat.digitChar d) = false ∧
    Nat.digitChar d ≠ '-' ∧ Nat.digitChar d ≠ '+' := by
  interval_cases d <;> decide

theorem toDigitsCore_digits :
    ∀ (fuel n : Nat), ∀ c ∈ Nat.toDigitsCore 10 fuel n [], c.isDigit = true := by
  intro fuel
  induction fuel with
  | zero => intro n c hc; simp [Nat.toDigitsCore] at hc
  | succ fuel ih =>
    intro n c hc
    simp only [Nat.toDigitsCore] at hc
    have hd := (digitChar_isDigit (n % 10) (by omega)).1
    split_ifs at hc with h0
    · rw [List.mem_singleton.mp hc]; exact hd
    · rw [toDigitsCore_append] at hc
      rcases List.mem_append.mp hc with hc | hc
      · exact ih _ c hc
      · rw [List.mem_singleton.mp hc]; exact hd

theorem toDigitsCore_ne_nil (fuel n : Nat) : Nat.toDigitsCore 10 (fuel + 1) n [] ≠ [] := by
  simp only [Nat.toDigitsCore]
  split_ifs
  · simp
  · rw [toDigitsCore_append]; simp

theorem digitsValue_eq_decimalValue (cs : List Char) (h : ∀ c ∈ cs, c.isDigit = true) :
    digitsValue cs = decimalValue cs := by
  unfold digitsValue decimalValue
  generalize (0 : Nat) = acc
  induction cs generalizing acc with
  | nil => rfl
  | cons c rest ih =>
    simp only [List.foldl_cons]
    have hc : hexDigitValue c = c.toNat - '0'.toNat := by
      simp [hexDigitValue, h c (List.mem_cons_self _ _)]
    rw [hc]
    exact ih (fun c' hc' => h c' (List.mem_cons_of_mem _ hc')) _

/-- The function `strtol` reads a non-empty run of decimal digits as the number it writes. -/
theorem decimalRead_digits (cs : List Char) (hne : cs ≠ []) (h : ∀ c ∈ cs, c.isDigit = true) :
    decimalRead (String.mk cs) = (decimalValue cs : Int) := by
  cases cs with
  | nil => exact absurd rfl hne
  | cons c rest =>
    have hc := h c (List.mem_cons_self _ _)
    have hsp : isspace c = false := by
      simp only [Char.isDigit, Bool.and_eq_true, decide_eq_true_eq] at hc
      simp only [isspace, Bool.or_eq_false_iff, beq_eq_false_iff_ne]
      refine ⟨⟨⟨⟨⟨?_, ?_⟩, ?_⟩, ?_⟩, ?_⟩, ?_⟩ <;>
        (intro heq; rw [heq] at hc; exact absurd hc (by decide))
    have hminus : c ≠ '-' := by
      intro heq; rw [heq] at hc; exact absurd hc (by decide)
    have hplus : c ≠ '+' := by
      intro heq; rw [heq] at hc; exact absurd hc (by decide)
    have htake : (c :: rest).takeWhile Char.isDigit = c :: rest := by
      rw [List.takeWhile_eq_self_iff]
      exact h
    unfold decimalRead
    simp only [List.dropWhile_cons, hsp, Bool.false_eq_true, if_false]
    split
    · rename_i heq; exact absurd (List.cons.inj heq).1 hminus
    · rename_i heq; exact absurd (List.cons.inj heq).1 hplus
    · rw [htake, digitsValue_eq_decimalValue _ h]

/-- The function `atoi` reads a non-empty run of decimal digits that writes a number below
`2 ^ 31` as that number. -/
theorem atoi_digits (cs : List Char) (hne : cs ≠ []) (h : ∀ c ∈ cs, c.isDigit = true)
    (hr : decimalValue cs < 2147483648) :
    atoi (String.mk cs) = (decimalValue cs : Int) := by
  have hin : InIntRange (decimalValue cs : Int) := by
    unfold InIntRange
    omega
  unfold atoi
  rw [decimalRead_digits cs hne h, clampLong_of_range _ hin, wrapInt_of_range _ hin]

/-- The function `strtol` reads the decimal representation of a natural number as that
number. -/
theorem decimalRead_toString (n : Nat) : decimalRead (toString n) = (n : Int) := by
  have hs : toString n = String.mk (Nat.toDigitsCore 10 (n + 1) n []) := rfl
  rw [hs, decimalRead_digits _ (toDigitsCore_ne_nil n n) (toDigitsCore_digits (n + 1) n),
    toDigitsCore_decimal (n + 1) n (by omega)]

/-- The function `atoi` reads the decimal representation of a natural number below `2 ^ 31`
as that number. -/
theorem atoi_toString (n : Nat) (hn : n < 2147483648) : atoi (toString n) = (n : Int) := by
  have hin : InIntRange (n : Int) := by
    unfold InIntRange
    omega
  unfold atoi
  rw [decimalRead_toString, clampLong_of_range _ hin, wrapInt_of_range _ hin]

/-- The function `atoi` wraps the decimal representation of a natural number from `2 ^ 31`
up to the range of `long`: it reads that of `2 ^ 31 + k` as `k - 2 ^ 31` for
`k < 2 ^ 31`. -/
theorem atoi_toString_wrap (k : Nat) (hk : k < 2147483648) :
    atoi (toString (2147483648 + k)) = (k : Int) - 2147483648 := by
  unfold atoi
  rw [decimalRead_toString]
  unfold clampLong wrapInt
  rw [if_neg (by omega), if_neg (by omega)]
  omega

theorem parseCommandString_blockSize (c : Configuration) (negativeVersion : String → Bool)
    (value : String) :
    c.parseCommandString negativeVersion (.command "Memory block size {kbytes}" value) =
      c.handleBlockSize value 0 ∧
    c.parseCommandString negativeVersion (.command "Memory block size {Mbytes}" value) =
      c.handleBlockSize value 0 ∧
    c.parseCommandString negativeVersion (.command "Memory block size {Gbytes}" value) =
      c.handleBlockSize value 0 := by
  refine ⟨?_, ?_, ?_⟩ <;>
    simp [Configuration.parseCommandString, ClassifyCmd]

/-- Whatever the unit of its key, a block-size line stores the number of its value: the
unit reaches `handleBlockSize` as 0. -/
theorem blockSize_unit_ignored (c : Configuration) (negativeVersion : String → Bool) (v : Nat)
    (hv : v < 2147483648) :
    c.parseCommandString negativeVersion
        (.command "Memory block size {kbytes}" (toString v)) =
      .ok { c with blockSize_ := some (v : Int) } ∧
    c.parseCommandString negativeVersion
        (.command "Memory block size {Mbytes}" (toString v)) =
      .ok { c with blockSize_ := some (v : Int) } ∧
    c.parseCommandString negativeVersion
        (.command "Memory block size {Gbytes}" (toString v)) =
      .ok { c with blockSize_ := some (v : Int) } := by
  obtain ⟨h1, h2, h3⟩ := parseCommandString_blockSize c negativeVersion (toString v)
  have hb : c.handleBlockSize (toString v) 0 = .ok { c with blockSize_ := some (v : Int) } := by
    unfold Configuration.handleBlockSize
    simp only [atoi_toString v hv]
    have : ¬ ((v : Int) < 0) := by omega
    simp [this]
  rw [h1, h2, h3, hb]
  exact ⟨rfl, rfl, rfl⟩

/-! ### C21 -/

/-- C21: the claim fails on the code.  The configuration lines
"Memory block size {Mbytes}: 5" and "Memory block size {Gbytes}: 5" both store a block size
of 5, where the normalisation of the claim gives 5000 and 5000000 (the line
"System memory {Mbytes}: 5" stores 5000): `ClassifyCmd` assigns the unit of a block-size key
to `bytesSysMem`, and `handleBlockSize` receives `bytesBlockSize`, which is 0. -/
theorem block_size_not_normalised :
    (Configuration.new.parseConfigFile (fun _ => false)
        (some [.command "Memory block size {Mbytes}" "5"])).toOption.map
      Configuration.getBlockSize = some 5 ∧
    (Configuration.new.parseConfigFile (fun _ => false)
        (some [.command "Memory block size {Gbytes}" "5"])).toOption.map
      Configuration.getBlockSize = some 5 ∧
    (Configuration.new.parseConfigFile (fun _ => false)
        (some [.command "System memory {Mbytes}" "5"])).toOption.map
      Configuration.getSystemMemory = some 5000 ∧
    (ClassifyCmd "Memory block size {Mbytes}" none 0 (-1)).2 = (some 2, 0, -1) := by
  decide

/-! ### C22 -/

/-- C22: for every natural number `v` with `v * 1000000 < 2 ^ 31`, a configuration line with
the key "System memory {kbytes}", "System memory {Mbytes}" or "System memory {Gbytes}" and
the decimal representation of `v` as its value is accepted and stores the system memory `v`,
`v * 1000` and `v * 1000000` respectively (every other member is left as it was); the
stored number is within the range of `int`. -/
theorem system_memory_normalisation (c : Configuration) (negativeVersion : String → Bool)
    (v : Nat) (hv : v * 1000000 < 2 ^ 31) :
    c.parseCommandString negativeVersion (.command "System memory {kbytes}" (toString v)) =
      .ok { c with systemMemory_ := some (v : Int) } ∧
    c.parseCommandString negativeVersion (.command "System memory {Mbytes}" (toString v)) =
      .ok { c with systemMemory_ := some ((v : Int) * 1000) } ∧
    c.parseCommandString negativeVersion (.command "System memory {Gbytes}" (toString v)) =
      .ok { c with systemMemory_ := some ((v : Int) * 1000000) } ∧
    (v : Int) * 1000000 < 2 ^ 31 := by
  have hneg : ¬ ((v : Int) < 0) := by omega
  have hv0 : v * 1000000 < 2147483648 := by norm_num at hv; exact hv
  have h1 : wrapInt ((v : Int) * 1000) = (v : Int) * 1000 :=
    wrapInt_of_range _ (by unfold InIntRange; omega)
  have h2 : wrapInt ((v : Int) * 1000000) = (v : Int) * 1000000 :=
    wrapInt_of_range _ (by unfold InIntRange; omega)
  refine ⟨?_, ?_, ?_, by exact_mod_cast hv⟩ <;>
    simp [Configuration.parseCommandString, ClassifyCmd, Configuration.handleSystemMemory,
      atoi_toString v (by omega), hneg, h1, h2]

/-- Witness of C22 for `v = 2`, on a new configuration. -/
theorem system_memory_normalisation_witness :
    2 * 1000000 < 2 ^ 31 ∧
    (Configuration.new.parseCommandString (fun _ => false)
        (.command "System memory {kbytes}" (toString 2)) =
      .ok { Configuration.new with systemMemory_ := some ((2 : Nat) : Int) } ∧
    Configuration.new.parseCommandString (fun _ => false)
        (.command "System memory {Mbytes}" (toString 2)) =
      .ok { Configuration.new with systemMemory_ := some (((2 : Nat) : Int) * 1000) } ∧
    Configuration.new.parseCommandString (fun _ => false)
        (.command "System memory {Gbytes}" (toString 2)) =
      .ok { Configuration.new with systemMemory_ := some (((2 : Nat) : Int) * 1000000) } ∧
    ((2 : Nat) : Int) * 1000000 < 2 ^ 31) :=
  ⟨by decide, system_memory_normalisation Configuration.new (fun _ => false) 2 (by decide)⟩

theorem ClassifyCmd_unknown (key : String) (hk : key ∉ knownKeys) (a : Option Int) (b r : Int) :
    ClassifyCmd key a b r = (.UNKNOWN, a, b, r) := by
  simp only [knownKeys, List.mem_cons, List.mem_singleton, List.not_mem_nil, or_false,
    not_or] at hk
  obtain ⟨h1, h2, h3, h4, h5, h6, h7, h8, h9, h10, h11, h12, h13, h14, h15, h16, h17, h18, h19,
    h20, h21, h22, h23, h24⟩ := hk
  unfold ClassifyCmd
  rw [if_neg h1, if_neg h2, if_neg h3, if_neg h4, if_neg h5, if_neg h6, if_neg h7, if_neg h8,
    if_neg h9, if_neg h10, if_neg h11, if_neg h12, if_neg h13, if_neg h14, if_neg h15,
    if_neg h16, if_neg h17, if_neg h18, if_neg h19, if_neg h20, if_neg h21, if_neg h22,
    if_neg h23, if_neg h24]

theorem parseCommandString_unknown (c : Configuration) (negativeVersion : String → Bool)
    (key value : String) (hk : key ∉ knownKeys) :
    c.parseCommandString negativeVersion (.command key value) =
      .error "Configuration Class: Invalid Command In Configuration File" := by
  unfold Configuration.parseCommandString
  simp only []
  rw [ClassifyCmd_unknown key hk]

/-- The handler that `parseCommandString` calls for each key that `ClassifyCmd` recognises,
with the unit or the index that reaches the handler. -/
theorem parseCommandString_keys (c : Configuration) (negativeVersion : String → Bool)
    (value : String) :
    (c.parseCommandString negativeVersion (.command "Version/Phase" value) =
        c.handleVersion negativeVersion value ∧
      c.parseCommandString negativeVersion (.command "File Path" value) =
        .ok (c.handleMdf value) ∧
      c.parseCommandString negativeVersion (.command "Quantum Number {msec}" value) =
        c.handlePQN value ∧
      c.parseCommandString negativeVersion (.command "CPU Scheduling Code" value) =
        c.handleSchedCode value ∧
      c.parseCommandString negativeVersion (.command "Log" value) = c.handleLog value ∧
      c.parseCommandString negativeVersion (.command "Log File Path" value) =
        .ok (c.handleLogFile value)) ∧
    (c.parseCommandString negativeVersion (.command "Projector cycle time {msec}" value) =
        c.handleTime value .PROJECTOR ∧
      c.parseCommandString negativeVersion (.command "Processor cycle time {msec}" value) =
        c.handleTime value .PROCESSOR ∧
      c.parseCommandString negativeVersion (.command "Keyboard cycle time {msec}" value) =
        c.handleTime value .KEYBOARD ∧
      c.parseCommandString negativeVersion (.command "Monitor display time {msec}" value) =
        c.handleTime value .MONITOR ∧
      c.parseCommandString negativeVersion (.command "Scanner cycle time {msec}" value) =
        c.handleTime value .SCANNER ∧
      c.parseCommandString negativeVersion (.command "Hard drive cycle time {msec}" value) =
        c.handleTime value .HARD_DRIVE ∧
      c.parseCommandString negativeVersion (.command "Memory cycle time {msec}" value) =
        c.handleTime value .MEMORY) ∧
    (c.parseCommandString negativeVersion (.command "System memory {kbytes}" value) =
        c.handleSystemMemory value 1 ∧
      c.parseCommandString negativeVersion (.command "System memory {Mbytes}" value) =
        c.handleSystemMemory value 2 ∧
      c.parseCommandString negativeVersion (.command "System memory {Gbytes}" value) =
        c.handleSystemMemory value 3 ∧
      c.parseCommandString negativeVersion (.command "Memory block size {kbytes}" value) =
        c.handleBlockSize value 0 ∧
      c.parseCommandString negativeVersion (.command "Memory block size {Mbytes}" value) =
        c.handleBlockSize value 0 ∧
      c.parseCommandString negativeVersion (.command "Memory block size {Gbytes}" value) =
        c.handleBlockSize value 0) ∧
    (c.parseCommandString negativeVersion (.command "Hard drive quantity" value) =
        c.handleResource value 0 ∧
      c.parseCommandString negativeVersion (.command "Keyboard quantity" value) =
        c.handleResource value 1 ∧
      c.parseCommandString negativeVersion (.command "Scanner quantity" value) =
        c.handleResource value 2 ∧
      c.parseCommandString negativeVersion (.command "Monitor quantity" value) =
        c.handleResource value 3 ∧
      c.parseCommandString negativeVersion (.command "Projector quantity" value) =
        c.handleResource value 4) :=
  ⟨⟨rfl, rfl, rfl, rfl, rfl, rfl⟩, ⟨rfl, rfl, rfl, rfl, rfl, rfl, rfl⟩,
    ⟨rfl, rfl, rfl, rfl, rfl, rfl⟩, ⟨rfl, rfl, rfl, rfl, rfl⟩⟩

theorem kept_refl (c : Configuration) : Kept c c true true true true :=
  ⟨fun _ => rfl, fun _ => rfl, fun _ => rfl, fun _ => rfl⟩

theorem handleVersion_kept (c c' : Configuration) (negativeVersion : String → Bool)
    (value : String) (h : c.handleVersion negativeVersion value = .ok c') :
    Kept c c' true true true true := by
  unfold Configuration.handleVersion at h
  split_ifs at h
  rw [← Except.ok.inj h]
  exact kept_refl c

theorem handlePQN_kept (c c' : Configuration) (value : String)
    (h : c.handlePQN value = .ok c') : Kept c c' true false true true := by
  unfold Configuration.handlePQN at h
  simp only [] at h
  split_ifs at h
  rw [← Except.ok.inj h]
  exact ⟨fun _ => rfl, fun hh => absurd hh (by decide), fun _ => rfl, fun _ => rfl⟩

theorem handleSchedCode_kept (c c' : Configuration) (value : String)
    (h : c.handleSchedCode value = .ok c') : Kept c c' false true true true := by
  unfold Configuration.handleSchedCode at h
  split_ifs at h <;> rw [← Except.ok.inj h] <;>
    exact ⟨fun hh => absurd hh (by decide), fun _ => rfl, fun _ => rfl, fun _ => rfl⟩

theorem handleLog_kept (c c' : Configuration) (value : String)
    (h : c.handleLog value = .ok c') : Kept c c' true true false true := by
  unfold Configuration.handleLog at h
  split_ifs at h <;> rw [← Except.ok.inj h] <;>
    exact ⟨fun _ => rfl, fun _ => rfl, fun hh => absurd hh (by decide), fun _ => rfl⟩

theorem handleTime_kept (c c' : Configuration) (value : String) (cmd : Command)
    (h : c.handleTime value cmd = .ok c') : Kept c c' true true true true := by
  have hins : ∀ k t, Kept c (c.insertTime k t) true true true true := by
    intro k t
    unfold Configuration.insertTime
    split <;> exact kept_refl c
  unfold Configuration.handleTime at h
  simp only [] at h
  split_ifs at h
  cases cmd <;> simp only [Except.ok.injEq] at h <;> rw [← h] <;>
    first
    | exact hins _ _
    | exact kept_refl c

theorem handleSystemMemory_kept (c c' : Configuration) (value : String) (unit : Int)
    (h : c.handleSystemMemory value unit = .ok c') : Kept c c' true true true true := by
  unfold Configuration.handleSystemMemory at h
  simp only [] at h
  split_ifs at h <;> rw [← Except.ok.inj h] <;>
    exact ⟨fun _ => rfl, fun _ => rfl, fun _ => rfl, fun _ => rfl⟩

theorem handleBlockSize_kept (c c' : Configuration) (value : String) (unit : Int)
    (h : c.handleBlockSize value unit = .ok c') : Kept c c' true true true true := by
  unfold Configuration.handleBlockSize at h
  simp only [] at h
  split_ifs at h <;> rw [← Except.ok.inj h] <;>
    exact ⟨fun _ => rfl, fun _ => rfl, fun _ => rfl, fun _ => rfl⟩

theorem handleResource_ok (c c' : Configuration) (value : String) (index : Int)
    (h : c.handleResource value index = .ok c') :
    1 ≤ atoi value ∧ c' = { c with ioResources_ := c.ioResources_.set index.toNat (atoi value) } := by
  unfold Configuration.handleResource at h
  simp only [] at h
  split_ifs at h with hlt
  exact ⟨by omega, (Except.ok.inj h).symm⟩

theorem handleResource_kept (c c' : Configuration) (value : String) (index : Int)
    (h : c.handleResource value index = .ok c') : Kept c c' true true true false := by
  rw [(handleResource_ok c c' value index h).2]
  exact ⟨fun _ => rfl, fun _ => rfl, fun _ => rfl, fun hh => absurd hh (by decide)⟩

/-- The members that a line leaves as they were, by the key of the line. -/
theorem parseCommandString_frame (c c' : Configuration) (negativeVersion : String → Bool)
    (line : ConfigLine) (h : c.parseCommandString negativeVersion line = .ok c') :
    (¬ line.hasKey "CPU Scheduling Code" → c'.schedCode_ = c.schedCode_) ∧
    (¬ line.hasKey "Quantum Number {msec}" → c'.pqn_ = c.pqn_) ∧
    (¬ line.hasKey "Log" → c'.logFileMethod_ = c.logFileMethod_) ∧
    ((∀ kq ∈ quantityKeys, ¬ line.hasKey kq.1) → c'.ioResources_ = c.ioResources_) := by
  cases line with
  | delimiter =>
    simp only [Configuration.parseCommandString] at h
    rw [← Except.ok.inj h]
    exact ⟨fun _ => rfl, fun _ => rfl, fun _ => rfl, fun _ => rfl⟩
  | command key value =>
    obtain ⟨⟨k1, k2, k3, k4, k5, k6⟩, ⟨t1, t2, t3, t4, t5, t6, t7⟩, ⟨m1, m2, m3, m4, m5, m6⟩,
      ⟨q1, q2, q3, q4, q5⟩⟩ := parseCommandString_keys c negativeVersion value
    by_cases hk : key ∈ knownKeys
    · simp only [knownKeys, List.mem_cons, List.mem_singleton, List.not_mem_nil, or_false] at hk
      have hkept : ∃ s p l r, Kept c c' s p l r ∧
          (s = false → key = "CPU Scheduling Code") ∧
          (p = false → key = "Quantum Number {msec}") ∧ (l = false → key = "Log") ∧
          (r = false → ∃ kq ∈ quantityKeys, key = kq.1) := by
        rcases hk with hk | hk | hk | hk | hk | hk | hk | hk | hk | hk | hk | hk | hk | hk |
          hk | hk | hk | hk | hk | hk | hk | hk | hk | hk <;> subst hk
        · rw [k1] at h
          exact ⟨_, _, _, _, handleVersion_kept c c' _ _ h, by simp, by simp, by simp, by simp⟩
        · rw [k2] at h
          rw [← Except.ok.inj h]
          exact ⟨true, true, true, true,
            ⟨fun _ => rfl, fun _ => rfl, fun _ => rfl, fun _ => rfl⟩,
            by simp, by simp, by simp, by simp⟩
        · rw [k3] at h
          exact ⟨_, _, _, _, handlePQN_kept c c' _ h, by simp, by simp, by simp, by simp⟩
        · rw [k4] at h
          exact ⟨_, _, _, _, handleSchedCode_kept c c' _ h, by simp, by simp, by simp, by simp⟩
        · rw [t1] at h
          exact ⟨_, _, _, _, handleTime_kept c c' _ _ h, by simp, by simp, by simp, by simp⟩
        · rw [t2] at h
          exact ⟨_, _, _, _, handleTime_kept c c' _ _ h, by simp, by simp, by simp, by simp⟩
        · rw [t3] at h
          exact ⟨_, _, _, _, handleTime_kept c c' _ _ h, by simp, by simp, by simp, by simp⟩
        · rw [t4] at h
          exact ⟨_, _, _, _, handleTime_kept c c' _ _ h, by simp, by simp, by simp, by simp⟩
        · rw [t5] at h
          exact ⟨_, _, _, _, handleTime_kept c c' _ _ h, by simp, by simp, by simp, by simp⟩
        · rw [t6] at h
          exact ⟨_, _, _, _, handleTime_kept c c' _ _ h, by simp, by simp, by simp, by simp⟩
        · rw [t7] at h
          exact ⟨_, _, _, _, handleTime_kept c c' _ _ h, by simp, by simp, by simp, by simp⟩
        · rw [k5] at h
          exact ⟨_, _, _, _, handleLog_kept c c' _ h, by simp, by simp, by simp, by simp⟩
        · rw [k6] at h
          rw [← Except.ok.inj h]
          exact ⟨true, true, true, true,
            ⟨fun _ => rfl, fun _ => rfl, fun _ => rfl, fun _ => rfl⟩,
            by simp, by simp, by simp, by simp⟩
        · rw [m1] at h
          exact ⟨_, _, _, _, handleSystemMemory_kept c c' _ _ h, by simp, by simp, by simp,
            by simp⟩
        · rw [m2] at h
          exact ⟨_, _, _, _, handleSystemMemory_kept c c' _ _ h, by simp, by simp, by simp,
            by simp⟩
        · rw [m3] at h
          exact ⟨_, _, _, _, handleSystemMemory_kept c c' _ _ h, by simp, by simp, by simp,
            by simp⟩
        · rw [m4] at h
          exact ⟨_, _, _, _, handleBlockSize_kept c c' _ _ h, by simp, by simp, by simp,
            by simp⟩
        · rw [m5] at h
          exact ⟨_, _, _, _, handleBlockSize_kept c c' _ _ h, by simp, by simp, by simp,
            by simp⟩
        · rw [m6] at h
          exact ⟨_, _, _, _, handleBlockSize_kept c c' _ _ h, by simp, by simp, by simp,
            by simp⟩
        · rw [q1] at h
          exact ⟨_, _, _, _, handleResource_kept c c' _ _ h, by simp, by simp, by simp,
            fun _ => ⟨("Hard drive quantity", 0), by decide, rfl⟩⟩
        · rw [q2] at h
          exact ⟨_, _, _, _, handleResource_kept c c' _ _ h, by simp, by simp, by simp,
            fun _ => ⟨("Keyboard quantity", 1), by decide, rfl⟩⟩
        · rw [q3] at h
          exact ⟨_, _, _, _, handleResource_kept c c' _ _ h, by simp, by simp, by simp,
            fun _ => ⟨("Scanner quantity", 2), by decide, rfl⟩⟩
        · rw [q4] at h
          exact ⟨_, _, _, _, handleResource_kept c c' _ _ h, by simp, by simp, by simp,
            fun _ => ⟨("Monitor quantity", 3), by decide, rfl⟩⟩
        · rw [q5] at h
          exact ⟨_, _, _, _, handleResource_kept c c' _ _ h, by simp, by simp, by simp,
            fun _ => ⟨("Projector quantity", 4), by decide, rfl⟩⟩
      obtain ⟨s, p, l, r, ⟨e1, e2, e3, e4⟩, hs, hp, hl, hr⟩ := hkept
      refine ⟨?_, ?_, ?_, ?_⟩
      · intro hn
        cases s with
        | true => exact e1 rfl
        | false => exact absurd (hs rfl) hn
      · intro hn
        cases p with
        | true => exact e2 rfl
        | false => exact absurd (hp rfl) hn
      · intro hn
        cases l with
        | true => exact e3 rfl
        | false => exact absurd (hl rfl) hn
      · intro hn
        cases r with
        | true => exact e4 rfl
        | false =>
          obtain ⟨kq, hkq, hkey⟩ := hr rfl
          exact absurd hkey (hn kq hkq)
    · rw [parseCommandString_unknown c negativeVersion key value hk] at h
      exact absurd h (by simp)

theorem lookup_append_new (l : List (String × CycleTime)) (k : String) (t : CycleTime)
    (h : l.lookup k = none) : (l ++ [(k, t)]).lookup k = some t := by
  induction l with
  | nil => simp [List.lookup]
  | cons x rest ih =>
    obtain ⟨k', t'⟩ := x
    rw [List.cons_append]
    cases hk : k == k' with
    | true => simp [List.lookup, hk] at h
    | false =>
      simp only [List.lookup, hk] at h ⊢
      exact ih h

theorem handleTime_nonneg (c : Configuration) (value : String) (cmd : Command)
    (h : 0 ≤ atoi value) :
    c.handleTime value cmd =
      match cmd with
      | .PROJECTOR => .ok (c.insertTime "projector" ⟨"Projector", atoi value⟩)
      | .PROCESSOR => .ok (c.insertTime "processor" ⟨"Processor", atoi value⟩)
      | .KEYBOARD => .ok (c.insertTime "keyboard" ⟨"Keyboard", atoi value⟩)
      | .MONITOR => .ok (c.insertTime "monitor" ⟨"Monitor", atoi value⟩)
      | .SCANNER => .ok (c.insertTime "scanner" ⟨"Scanner", atoi value⟩)
      | .HARD_DRIVE => .ok (c.insertTime "hardDrive" ⟨"Hard Drive", atoi value⟩)
      | .MEMORY => .ok (c.insertTime "memory" ⟨"Memory", atoi value⟩)
      | _ => .ok c := by
  unfold Configuration.handleTime
  have : ¬ atoi value < 0 := by omega
  cases cmd <;> simp only [this, if_false]

/-! ### C23 -/

/-- C23, counterexample: the key "Monitor cycle time {msec}" is not recognised (`ClassifyCmd`
returns `UNKNOWN`, and a line with it makes the parse fail); the key of the monitor is
"Monitor display time {msec}".  And a second line for a device does not store its value: after
"Processor cycle time {msec}: 10" and "Processor cycle time {msec}: 20" the table holds 10
for the processor.  And a value from `2 ^ 31` on is not stored as it is: `atoi` gives the `int`
`-2147483648` for "2147483648", and the line "Processor cycle time {msec}: 2147483648" makes
the parse fail. -/
theorem monitor_cycle_time_key_unknown :
    (ClassifyCmd "Monitor cycle time {msec}" none 0 (-1)).1 = Command.UNKNOWN ∧
    (Configuration.new.parseConfigFile (fun _ => false)
        (some [.command "Monitor cycle time {msec}" "20"])).toOption = none ∧
    (ClassifyCmd "Monitor display time {msec}" none 0 (-1)).1 = Command.MONITOR ∧
    (Configuration.new.parseConfigFile (fun _ => false)
        (some [.command "Processor cycle time {msec}" "10",
               .command "Processor cycle time {msec}" "20"])).toOption.map
      (fun c => c.timeMap_) = some [("processor", ⟨"Processor", 10⟩)] ∧
    atoi "2147483648" = -2147483648 ∧
    (Configuration.new.parseConfigFile (fun _ => false)
        (some [.command "Processor cycle time {msec}" "2147483648"])).toOption = none := by
  decide

/-- C23, amended: each of the keys "Processor cycle time {msec}", "Memory cycle time {msec}",
"Projector cycle time {msec}", "Keyboard cycle time {msec}", "Monitor display time {msec}",
"Scanner cycle time {msec}" and "Hard drive cycle time {msec}" is recognised by `ClassifyCmd`,
and a line with that key and the decimal representation of a natural number `t` below
`2 ^ 31` (a non-negative `int`) is accepted: when the cycle-time table holds no entry for the kind of the device, the line adds the entry
with the description of the device and `t` ms per cycle, which `getCycleTime` then returns
for the kind; when the table holds an entry for the kind already, the line leaves the
configuration as it is. -/
theorem cycle_time_keys (entry : String × String × String) (hentry : entry ∈ cycleTimeKeys)
    (c : Configuration) (negativeVersion : String → Bool) (t : Nat) (ht : t < 2 ^ 31) :
    (ClassifyCmd entry.1 none 0 (-1)).1 ≠ Command.UNKNOWN ∧
    c.parseCommandString negativeVersion (.command entry.1 (toString t)) =
      .ok (c.insertTime entry.2.1 ⟨entry.2.2, (t : Int)⟩) ∧
    (c.timeMap_.lookup entry.2.1 = none →
      (c.insertTime entry.2.1 ⟨entry.2.2, (t : Int)⟩).timeMap_ =
        c.timeMap_ ++ [(entry.2.1, ⟨entry.2.2, (t : Int)⟩)] ∧
      (c.insertTime entry.2.1 ⟨entry.2.2, (t : Int)⟩).getCycleTime entry.2.1 =
        .ok ⟨entry.2.2, (t : Int)⟩) ∧
    (∀ old, c.timeMap_.lookup entry.2.1 = some old →
      c.insertTime entry.2.1 ⟨entry.2.2, (t : Int)⟩ = c) := by
  have ht0 : t < 2147483648 := by norm_num at ht; exact ht
  have hat := atoi_toString t ht0
  have hnn : (0 : Int) ≤ atoi (toString t) := by rw [hat]; omega
  obtain ⟨_, ⟨t1, t2, t3, t4, t5, t6, t7⟩, _, _⟩ :=
    parseCommandString_keys c negativeVersion (toString t)
  refine ⟨?_, ?_, ?_, ?_⟩
  · simp only [cycleTimeKeys, List.mem_cons, List.mem_singleton, List.not_mem_nil,
      or_false] at hentry
    rcases hentry with h | h | h | h | h | h | h <;> subst h <;> decide
  · simp only [cycleTimeKeys, List.mem_cons, List.mem_singleton, List.not_mem_nil,
      or_false] at hentry
    rcases hentry with h | h | h | h | h | h | h <;> subst h
    · rw [t2, handleTime_nonneg c _ _ hnn, hat]
    · rw [t7, handleTime_nonneg c _ _ hnn, hat]
    · rw [t1, handleTime_nonneg c _ _ hnn, hat]
    · rw [t3, handleTime_nonneg c _ _ hnn, hat]
    · rw [t4, handleTime_nonneg c _ _ hnn, hat]
    · rw [t5, handleTime_nonneg c _ _ hnn, hat]
    · rw [t6, handleTime_nonneg c _ _ hnn, hat]
  · intro hnone
    have hins : (c.insertTime entry.2.1 ⟨entry.2.2, (t : Int)⟩).timeMap_ =
        c.timeMap_ ++ [(entry.2.1, ⟨entry.2.2, (t : Int)⟩)] := by
      unfold Configuration.insertTime
      rw [hnone]
    refine ⟨hins, ?_⟩
    unfold Configuration.getCycleTime
    rw [hins, lookup_append_new _ _ _ hnone]
  · intro old hold
    unfold Configuration.insertTime
    rw [hold]

/-- Witness of the amended C23: the key of the monitor with the value 20 on a new
configuration. -/
theorem cycle_time_keys_witness :
    ("Monitor display time {msec}", "monitor", "Monitor") ∈ cycleTimeKeys ∧
    20 < 2 ^ 31 ∧
    (ClassifyCmd "Monitor display time {msec}" none 0 (-1)).1 ≠ Command.UNKNOWN ∧
    Configuration.new.parseCommandString (fun _ => false)
        (.command "Monitor display time {msec}" (toString 20)) =
      .ok (Configuration.new.insertTime "monitor" ⟨"Monitor", ((20 : Nat) : Int)⟩) ∧
    (Configuration.new.timeMap_.lookup "monitor" = none →
      (Configuration.new.insertTime "monitor" ⟨"Monitor", ((20 : Nat) : Int)⟩).timeMap_ =
        Configuration.new.timeMap_ ++ [("monitor", ⟨"Monitor", ((20 : Nat) : Int)⟩)] ∧
      (Configuration.new.insertTime "monitor" ⟨"Monitor", ((20 : Nat) : Int)⟩).getCycleTime
          "monitor" = .ok ⟨"Monitor", ((20 : Nat) : Int)⟩) ∧
    (∀ old, Configuration.new.timeMap_.lookup "monitor" = some old →
      Configuration.new.insertTime "monitor" ⟨"Monitor", ((20 : Nat) : Int)⟩ =
        Configuration.new) :=
  ⟨by decide, by decide,
    cycle_time_keys ("Monitor display time {msec}", "monitor", "Monitor") (by decide)
      Configuration.new (fun _ => false) 20 (by decide)⟩

theorem handleResource_error_iff (c : Configuration) (value : String) (index : Int) :
    (∃ e, c.handleResource value index = .error e) ↔ atoi value < 1 := by
  unfold Configuration.handleResource
  simp only []
  split_ifs with h
  · simp [h]
  · simp [h]

theorem handleResource_store (c : Configuration) (value : String) (index : Nat)
    (hlen : index < c.ioResources_.length) (h : 1 ≤ atoi value) :
    ∃ c', c.handleResource value (index : Int) = .ok c' ∧
      c'.getResourceSize index = atoi value ∧
      (∀ j, j ≠ index → c'.getResourceSize j = c.getResourceSize j) ∧
      c'.ioResources_.length = c.ioResources_.length := by
  refine ⟨{ c with ioResources_ := c.ioResources_.set index (atoi value) }, ?_, ?_, ?_, ?_⟩
  · unfold Configuration.handleResource
    have : ¬ atoi value < 1 := by omega
    simp only [this, if_false, Int.toNat_ofNat]
  · simp [Configuration.getResourceSize, List.getElem?_set_self hlen]
  · intro j hj
    simp [Configuration.getResourceSize, List.getElem?_set_ne (Ne.symm hj)]
  · simp

theorem quantityKeys_index (kq : String × Nat) (h : kq ∈ quantityKeys) :
    kq.2 < NUM_IO_RESOURCES := by
  simp only [quantityKeys, List.mem_cons, List.mem_singleton, List.not_mem_nil, or_false] at h
  rcases h with h | h | h | h | h <;> subst h <;> decide

theorem quantityKeys_injective (a b : String × Nat) (ha : a ∈ quantityKeys)
    (hb : b ∈ quantityKeys) (h : a.2 = b.2) : a.1 = b.1 := by
  simp only [quantityKeys, List.mem_cons, List.mem_singleton, List.not_mem_nil,
    or_false] at ha hb
  rcases ha with ha | ha | ha | ha | ha <;> rcases hb with hb | hb | hb | hb | hb <;>
    subst ha <;> subst hb <;> first | rfl | (exact absurd h (by decide))

theorem parseCommandString_quantity (c : Configuration) (negativeVersion : String → Bool)
    (value : String) (kq : String × Nat) (h : kq ∈ quantityKeys) :
    c.parseCommandString negativeVersion (.command kq.1 value) =
      c.handleResource value (kq.2 : Int) := by
  obtain ⟨_, _, _, ⟨q1, q2, q3, q4, q5⟩⟩ := parseCommandString_keys c negativeVersion value
  simp only [quantityKeys, List.mem_cons, List.mem_singleton, List.not_mem_nil, or_false] at h
  rcases h with h | h | h | h | h <;> subst h
  · exact q1
  · exact q2
  · exact q3
  · exact q4
  · exact q5

/-- What a line does to the quantities: nothing, or a quantity line stores its value, which
is at least 1, at the index of its device. -/
theorem parseCommandString_resources (c c' : Configuration) (negativeVersion : String → Bool)
    (line : ConfigLine) (h : c.parseCommandString negativeVersion line = .ok c') :
    c'.ioResources_ = c.ioResources_ ∨
    ∃ kq ∈ quantityKeys, ∃ v, line = .command kq.1 v ∧ 1 ≤ atoi v ∧
      c'.ioResources_ = c.ioResources_.set kq.2 (atoi v) := by
  by_cases hq : ∀ kq ∈ quantityKeys, ¬ line.hasKey kq.1
  · exact Or.inl ((parseCommandString_frame c c' negativeVersion line h).2.2.2 hq)
  · push_neg at hq
    obtain ⟨kq, hkq, hkey⟩ := hq
    cases line with
    | delimiter => exact absurd hkey (by simp [ConfigLine.hasKey])
    | command key value =>
      have hk : key = kq.1 := hkey
      subst hk
      rw [parseCommandString_quantity c negativeVersion value kq hkq] at h
      obtain ⟨h1, h2⟩ := handleResource_ok c c' value _ h
      refine Or.inr ⟨kq, hkq, value, rfl, h1, ?_⟩
      rw [h2]
      simp

theorem parseCommandStrings_quantities (negativeVersion : String → Bool) :
    ∀ (lines : List ConfigLine) (c c' : Configuration),
      Configuration.parseCommandStrings negativeVersion c lines = .ok c' →
      (c.QuantitiesValid → c'.QuantitiesValid) ∧
      ∀ kq ∈ quantityKeys, (∀ line ∈ lines, ¬ line.hasKey kq.1) →
        c'.getResourceSize kq.2 = c.getResourceSize kq.2 := by
  intro lines
  induction lines with
  | nil =>
    intro c c' h
    simp only [Configuration.parseCommandStrings] at h
    rw [← Except.ok.inj h]
    exact ⟨fun hv => hv, fun _ _ _ => rfl⟩
  | cons line rest ih =>
    intro c c' h
    simp only [Configuration.parseCommandStrings] at h
    split at h
    · exact absurd h (by simp)
    · rename_i c1 h1
      obtain ⟨ihv, ihk⟩ := ih c1 c' h
      have hres := parseCommandString_resources c c1 negativeVersion line h1
      refine ⟨?_, ?_⟩
      · intro hv
        apply ihv
        rcases hres with hres | ⟨kq, _, v, _, hv1, hres⟩
        · unfold Configuration.QuantitiesValid
          rw [hres]; exact hv
        · unfold Configuration.QuantitiesValid
          rw [hres]
          refine ⟨by rw [List.length_set]; exact hv.1, ?_⟩
          intro x hx
          rcases List.mem_or_eq_of_mem_set hx with hx | hx
          · exact hv.2 x hx
          · rw [hx]; exact hv1
      · intro kq hkq hno
        rw [ihk kq hkq (fun l hl => hno l (List.mem_cons_of_mem _ hl))]
        have hline := hno line (List.mem_cons_self _ _)
        rcases hres with hres | ⟨kq', hkq', v, hl, _, hres⟩
        · simp only [Configuration.getResourceSize, hres]
        · have hne : kq'.2 ≠ kq.2 := by
            intro heq
            apply hline
            rw [hl]
            exact quantityKeys_injective kq' kq hkq' hkq heq
          simp [Configuration.getResourceSize, hres, List.getElem?_set_ne hne]

/-! ### C24 -/

/-- C24: for each of the five quantity keys, `handleResource` raises an error exactly when
the integer read from the value is less than 1, and otherwise stores that integer at the
index of the device and leaves the other quantities as they were; after a successful
`parseConfigFile`, a device whose quantity key is on no line has the quantity 1, and every
quantity returned by `getResourceSize` for the five devices is at least 1. -/
theorem device_quantities (c c' : Configuration) (negativeVersion : String → Bool)
    (lines : List ConfigLine)
    (h : c.parseConfigFile negativeVersion (some lines) = .ok c') :
    (∀ (cfg : Configuration) (value : String), ∀ kq ∈ quantityKeys,
      cfg.ioResources_.length = NUM_IO_RESOURCES →
      cfg.parseCommandString negativeVersion (.command kq.1 value) =
        cfg.handleResource value (kq.2 : Int) ∧
      ((∃ e, cfg.handleResource value (kq.2 : Int) = .error e) ↔ atoi value < 1) ∧
      (1 ≤ atoi value →
        ∃ cfg', cfg.handleResource value (kq.2 : Int) = .ok cfg' ∧
          cfg'.getResourceSize kq.2 = atoi value ∧
          ∀ j, j ≠ kq.2 → cfg'.getResourceSize j = cfg.getResourceSize j)) ∧
    (∀ kq ∈ quantityKeys, (∀ line ∈ lines, ¬ line.hasKey kq.1) →
      c'.getResourceSize kq.2 = 1) ∧
    (∀ i, i < NUM_IO_RESOURCES → 1 ≤ c'.getResourceSize i) := by
  unfold Configuration.parseConfigFile at h
  simp only [] at h
  obtain ⟨hvalid, hkeep⟩ := parseCommandStrings_quantities negativeVersion lines _ c' h
  have hv0 : ({ c with ioResources_ := List.replicate NUM_IO_RESOURCES 1 } :
      Configuration).QuantitiesValid := by
    refine ⟨by simp, ?_⟩
    intro x hx
    rw [List.eq_of_mem_replicate hx]
  have hv := hvalid hv0
  refine ⟨?_, ?_, ?_⟩
  · intro cfg value kq hkq hlen
    refine ⟨parseCommandString_quantity cfg negativeVersion value kq hkq,
      handleResource_error_iff cfg value _, ?_⟩
    intro h1
    obtain ⟨cfg', e1, e2, e3, _⟩ := handleResource_store cfg value kq.2
      (by rw [hlen]; exact quantityKeys_index kq hkq) h1
    exact ⟨cfg', e1, e2, e3⟩
  · intro kq hkq hno
    rw [hkeep kq hkq hno]
    have hi := quantityKeys_index kq hkq
    simp only [Configuration.getResourceSize, List.getD_eq_getElem?_getD]
    rw [List.getElem?_replicate]
    simp [hi]
  · intro i hi
    have hlt : i < c'.ioResources_.length := by rw [hv.1]; exact hi
    have hmem : c'.ioResources_[i] ∈ c'.ioResources_ := List.getElem_mem _
    have := hv.2 _ hmem
    simp only [Configuration.getResourceSize, List.getD_eq_getElem?_getD,
      List.getElem?_eq_getElem hlt, Option.getD_some]
    exact this

/-- Witness of C24 on the file `quantityLines`: the quantities are 1, 3, 1, 1, 2. -/
theorem device_quantities_witness :
    Configuration.new.parseConfigFile (fun _ => false) (some quantityLines) =
      .ok quantityConfig ∧
    quantityConfig.ioResources_ = [1, 3, 1, 1, 2] ∧
    ((∀ (cfg : Configuration) (value : String), ∀ kq ∈ quantityKeys,
      cfg.ioResources_.length = NUM_IO_RESOURCES →
      cfg.parseCommandString (fun _ => false) (.command kq.1 value) =
        cfg.handleResource value (kq.2 : Int) ∧
      ((∃ e, cfg.handleResource value (kq.2 : Int) = .error e) ↔ atoi value < 1) ∧
      (1 ≤ atoi value →
        ∃ cfg', cfg.handleResource value (kq.2 : Int) = .ok cfg' ∧
          cfg'.getResourceSize kq.2 = atoi value ∧
          ∀ j, j ≠ kq.2 → cfg'.getResourceSize j = cfg.getResourceSize j)) ∧
    (∀ kq ∈ quantityKeys, (∀ line ∈ quantityLines, ¬ line.hasKey kq.1) →
      quantityConfig.getResourceSize kq.2 = 1) ∧
    (∀ i, i < NUM_IO_RESOURCES → 1 ≤ quantityConfig.getResourceSize i)) :=
  have h : Configuration.new.parseConfigFile (fun _ => false) (some quantityLines) =
      .ok quantityConfig := by rfl
  ⟨h, by decide,
    device_quantities Configuration.new quantityConfig (fun _ => false) quantityLines h⟩

theorem atoi_no_digits (s : String) (h : atoiDigits s = []) : atoi s = 0 := by
  unfold atoiDigits at h
  unfold atoi decimalRead
  generalize s.data.dropWhile isspace = cs at h ⊢
  split at h
  · simp only [h, digitsValue, List.foldl_nil]; rfl
  · simp only [h, digitsValue, List.foldl_nil]; rfl
  · simp only [h, digitsValue, List.foldl_nil]; rfl

theorem handlePQN_spec (c : Configuration) (value : String) :
    ((∃ e, c.handlePQN value = .error e) ↔ atoi value < 0) ∧
    (0 ≤ atoi value → c.handlePQN value = .ok { c with pqn_ := some (atoi value) }) := by
  unfold Configuration.handlePQN
  simp only []
  split_ifs with h
  · exact ⟨by simp [h], fun h0 => absurd h (by omega)⟩
  · exact ⟨by simp [h], fun _ => rfl⟩

theorem handleTime_error_iff (c : Configuration) (value : String) (cmd : Command) :
    (∃ e, c.handleTime value cmd = .error e) ↔ atoi value < 0 := by
  by_cases h : atoi value < 0
  · unfold Configuration.handleTime
    simp [h]
  · rw [handleTime_nonneg c value cmd (by omega)]
    cases cmd <;> simp [h]

theorem handleSystemMemory_spec (c : Configuration) (value : String) (unit : Int) :
    ((∃ e, c.handleSystemMemory value unit = .error e) ↔ atoi value < 0) ∧
    (0 ≤ atoi value → ∃ m, c.handleSystemMemory value unit =
        .ok { c with systemMemory_ := some m } ∧
      (unit ≠ 2 → unit ≠ 3 → m = atoi value) ∧ (atoi value = 0 → m = 0)) := by
  unfold Configuration.handleSystemMemory
  simp only []
  by_cases h : atoi value < 0
  · simp only [h, if_true]
    exact ⟨by simp, fun h0 => absurd h (by omega)⟩
  · simp only [h, if_false]
    refine ⟨by simp [h], fun _ => ⟨_, rfl, ?_, ?_⟩⟩
    · intro h2 h3
      simp [h2, h3]
    · intro hz
      simp [hz, wrapInt_zero]

theorem handleBlockSize_spec (c : Configuration) (value : String) (unit : Int) :
    ((∃ e, c.handleBlockSize value unit = .error e) ↔ atoi value < 0) ∧
    (0 ≤ atoi value → ∃ m, c.handleBlockSize value unit =
        .ok { c with blockSize_ := some m } ∧
      (unit ≠ 2 → unit ≠ 3 → m = atoi value) ∧ (atoi value = 0 → m = 0)) := by
  unfold Configuration.handleBlockSize
  simp only []
  by_cases h : atoi value < 0
  · simp only [h, if_true]
    exact ⟨by simp, fun h0 => absurd h (by omega)⟩
  · simp only [h, if_false]
    refine ⟨by simp [h], fun _ => ⟨_, rfl, ?_, ?_⟩⟩
    · intro h2 h3
      simp [h2, h3]
    · intro hz
      simp [hz, wrapInt_zero]

/-! ### C25 -/

/-- C25, counterexample: the value "abc" raises no error in the handlers of the quantum
number, of a cycle time, of the system memory and of the block size; each stores 0, and a
configuration file with such lines is parsed with success. -/
theorem malformed_value_accepted :
    atoi "abc" = 0 ∧
    (Configuration.new.handlePQN "abc").toOption.map (fun c => c.pqn_) = some (some 0) ∧
    (Configuration.new.handleTime "abc" Command.PROCESSOR).toOption.map (fun c => c.timeMap_) =
      some [("processor", ⟨"Processor", 0⟩)] ∧
    (Configuration.new.handleSystemMemory "abc" 2).toOption.map (fun c => c.systemMemory_) =
      some (some 0) ∧
    (Configuration.new.handleBlockSize "abc" 0).toOption.map (fun c => c.blockSize_) =
      some (some 0) ∧
    (Configuration.new.parseConfigFile (fun _ => false)
        (some [.command "Quantum Number {msec}" "abc",
               .command "Processor cycle time {msec}" "abc",
               .command "System memory {Mbytes}" "abc",
               .command "Memory block size {kbytes}" "abc"])).toOption.map
      (fun c => (c.pqn_, c.timeMap_, c.systemMemory_, c.blockSize_)) =
      some (some 0, [("processor", ⟨"Processor", 0⟩)], some 0, some 0) := by
  decide

/-- C25, amended: a value string from which `atoi` reads no digits (after leading white
space and an optional sign; for example "abc") is read as 0, and the handlers of the quantum
number, of the cycle times, of the system memory and of the block size raise no error for it:
they store 0.  In general each of these handlers raises an error exactly when the integer
that `atoi` reads from the value is negative. -/
theorem malformed_value_stored_as_zero (c : Configuration) (value : String)
    (hdigits : atoiDigits value = []) :
    atoi value = 0 ∧
    c.handlePQN value = .ok { c with pqn_ := some 0 } ∧
    (∀ cmd, ∃ c', c.handleTime value cmd = .ok c') ∧
    c.handleTime value Command.PROCESSOR = .ok (c.insertTime "processor" ⟨"Processor", 0⟩) ∧
    (∀ unit, c.handleSystemMemory value unit = .ok { c with systemMemory_ := some 0 }) ∧
    (∀ unit, c.handleBlockSize value unit = .ok { c with blockSize_ := some 0 }) ∧
    (∀ (cfg : Configuration) (v : String) (cmd : Command) (unit : Int),
      ((∃ e, cfg.handlePQN v = .error e) ↔ atoi v < 0) ∧
      ((∃ e, cfg.handleTime v cmd = .error e) ↔ atoi v < 0) ∧
      ((∃ e, cfg.handleSystemMemory v unit = .error e) ↔ atoi v < 0) ∧
      ((∃ e, cfg.handleBlockSize v unit = .error e) ↔ atoi v < 0)) := by
  have hz := atoi_no_digits value hdigits
  have h0 : (0 : Int) ≤ atoi value := by omega
  refine ⟨hz, ?_, ?_, ?_, ?_, ?_, ?_⟩
  · rw [(handlePQN_spec c value).2 h0, hz]
  · intro cmd
    rw [handleTime_nonneg c value cmd h0]
    cases cmd <;> exact ⟨_, rfl⟩
  · rw [handleTime_nonneg c value _ h0, hz]
  · intro unit
    obtain ⟨m, hm, _, hm0⟩ := (handleSystemMemory_spec c value unit).2 h0
    rw [hm, hm0 hz]
  · intro unit
    obtain ⟨m, hm, _, hm0⟩ := (handleBlockSize_spec c value unit).2 h0
    rw [hm, hm0 hz]
  · intro cfg v cmd unit
    exact ⟨(handlePQN_spec cfg v).1, handleTime_error_iff cfg v cmd,
      (handleSystemMemory_spec cfg v unit).1, (handleBlockSize_spec cfg v unit).1⟩

/-- Witness of the amended C25 for the value "abc" on a new configuration. -/
theorem malformed_value_stored_as_zero_witness :
    atoiDigits "abc" = [] ∧
    (atoi "abc" = 0 ∧
    Configuration.new.handlePQN "abc" = .ok { Configuration.new with pqn_ := some 0 } ∧
    (∀ cmd, ∃ c', Configuration.new.handleTime "abc" cmd = .ok c') ∧
    Configuration.new.handleTime "abc" Command.PROCESSOR =
      .ok (Configuration.new.insertTime "processor" ⟨"Processor", 0⟩) ∧
    (∀ unit, Configuration.new.handleSystemMemory "abc" unit =
      .ok { Configuration.new with systemMemory_ := some 0 }) ∧
    (∀ unit, Configuration.new.handleBlockSize "abc" unit =
      .ok { Configuration.new with blockSize_ := some 0 }) ∧
    (∀ (cfg : Configuration) (v : String) (cmd : Command) (unit : Int),
      ((∃ e, cfg.handlePQN v = .error e) ↔ atoi v < 0) ∧
      ((∃ e, cfg.handleTime v cmd = .error e) ↔ atoi v < 0) ∧
      ((∃ e, cfg.handleSystemMemory v unit = .error e) ↔ atoi v < 0) ∧
      ((∃ e, cfg.handleBlockSize v unit = .error e) ↔ atoi v < 0))) :=
  ⟨by decide, malformed_value_stored_as_zero Configuration.new "abc" (by decide)⟩

theorem handlers_accept_congr (c d : Configuration) (negativeVersion : String → Bool)
    (value : String) :
    ((c.handleVersion negativeVersion value).toOption.isSome =
        (d.handleVersion negativeVersion value).toOption.isSome ∧
      (c.handlePQN value).toOption.isSome = (d.handlePQN value).toOption.isSome ∧
      (c.handleSchedCode value).toOption.isSome = (d.handleSchedCode value).toOption.isSome ∧
      (c.handleLog value).toOption.isSome = (d.handleLog value).toOption.isSome) ∧
    (∀ cmd, (c.handleTime value cmd).toOption.isSome =
      (d.handleTime value cmd).toOption.isSome) ∧
    (∀ unit, (c.handleSystemMemory value unit).toOption.isSome =
      (d.handleSystemMemory value unit).toOption.isSome) ∧
    (∀ unit, (c.handleBlockSize value unit).toOption.isSome =
      (d.handleBlockSize value unit).toOption.isSome) ∧
    (∀ index, (c.handleResource value index).toOption.isSome =
      (d.handleResource value index).toOption.isSome) := by
  refine ⟨⟨?_, ?_, ?_, ?_⟩, ?_, ?_, ?_, ?_⟩
  · unfold Configuration.handleVersion
    split_ifs <;> rfl
  · unfold Configuration.handlePQN
    simp only []
    split_ifs <;> rfl
  · unfold Configuration.handleSchedCode
    split_ifs <;> rfl
  · unfold Configuration.handleLog
    split_ifs <;> rfl
  · intro cmd
    unfold Configuration.handleTime
    simp only []
    split_ifs
    · rfl
    · cases cmd <;> rfl
  · intro unit
    unfold Configuration.handleSystemMemory
    simp only []
    split_ifs <;> rfl
  · intro unit
    unfold Configuration.handleBlockSize
    simp only []
    split_ifs <;> rfl
  · intro index
    unfold Configuration.handleResource
    simp only []
    split_ifs <;> rfl

/-- Whether a line is accepted does not depend on the configuration it is applied to. -/
theorem parseCommandString_accept_congr (c d : Configuration)
    (negativeVersion : String → Bool) (line : ConfigLine) :
    (c.parseCommandString negativeVersion line).toOption.isSome =
      (d.parseCommandString negativeVersion line).toOption.isSome := by
  cases line with
  | delimiter => rfl
  | command key value =>
    obtain ⟨⟨k1, k2, k3, k4, k5, k6⟩, ⟨t1, t2, t3, t4, t5, t6, t7⟩, ⟨m1, m2, m3, m4, m5, m6⟩,
      ⟨q1, q2, q3, q4, q5⟩⟩ := parseCommandString_keys c negativeVersion value
    obtain ⟨⟨k1', k2', k3', k4', k5', k6'⟩, ⟨t1', t2', t3', t4', t5', t6', t7'⟩,
      ⟨m1', m2', m3', m4', m5', m6'⟩, ⟨q1', q2', q3', q4', q5'⟩⟩ :=
      parseCommandString_keys d negativeVersion value
    obtain ⟨⟨a1, a2, a3, a4⟩, at_, am, ab, ar⟩ := handlers_accept_congr c d negativeVersion value
    by_cases hk : key ∈ knownKeys
    · simp only [knownKeys, List.mem_cons, List.mem_singleton, List.not_mem_nil, or_false] at hk
      rcases hk with hk | hk | hk | hk | hk | hk | hk | hk | hk | hk | hk | hk | hk | hk |
        hk | hk | hk | hk | hk | hk | hk | hk | hk | hk <;> subst hk
      · rw [k1, k1']; exact a1
      · rw [k2, k2']; rfl
      · rw [k3, k3']; exact a2
      · rw [k4, k4']; exact a3
      · rw [t1, t1']; exact at_ _
      · rw [t2, t2']; exact at_ _
      · rw [t3, t3']; exact at_ _
      · rw [t4, t4']; exact at_ _
      · rw [t5, t5']; exact at_ _
      · rw [t6, t6']; exact at_ _
      · rw [t7, t7']; exact at_ _
      · rw [k5, k5']; exact a4
      · rw [k6, k6']; rfl
      · rw [m1, m1']; exact am _
      · rw [m2, m2']; exact am _
      · rw [m3, m3']; exact am _
      · rw [m4, m4']; exact ab _
      · rw [m5, m5']; exact ab _
      · rw [m6, m6']; exact ab _
      · rw [q1, q1']; exact ar _
      · rw [q2, q2']; exact ar _
      · rw [q3, q3']; exact ar _
      · rw [q4, q4']; exact ar _
      · rw [q5, q5']; exact ar _
    · rw [parseCommandString_unknown c negativeVersion key value hk,
        parseCommandString_unknown d negativeVersion key value hk]

theorem parseCommandString_ok_iff (c : Configuration) (negativeVersion : String → Bool)
    (line : ConfigLine) :
    (∃ c', c.parseCommandString negativeVersion line = .ok c') ↔
      line.accepted negativeVersion = true := by
  unfold ConfigLine.accepted
  rw [← parseCommandString_accept_congr c Configuration.new negativeVersion line]
  cases c.parseCommandString negativeVersion line with
  | error e => simp [Except.toOption]
  | ok c' => simp [Except.toOption]

theorem parseCommandStrings_ok_iff (negativeVersion : String → Bool) :
    ∀ (lines : List ConfigLine) (c : Configuration),
      (∃ c', Configuration.parseCommandStrings negativeVersion c lines = .ok c') ↔
        ∀ line ∈ lines, line.accepted negativeVersion = true := by
  intro lines
  induction lines with
  | nil => intro c; simp [Configuration.parseCommandStrings]
  | cons line rest ih =>
    intro c
    simp only [Configuration.parseCommandStrings, List.mem_cons, forall_eq_or_imp]
    rw [← parseCommandString_ok_iff c negativeVersion line]
    cases h1 : c.parseCommandString negativeVersion line with
    | error e => simp
    | ok c1 =>
      simp only [Except.ok.injEq, exists_eq', true_and]
      exact ih c1

theorem parseCommandStrings_frame (negativeVersion : String → Bool) :
    ∀ (lines : List ConfigLine) (c c' : Configuration),
      Configuration.parseCommandStrings negativeVersion c lines = .ok c' →
      ((∀ line ∈ lines, ¬ line.hasKey "CPU Scheduling Code") → c'.schedCode_ = c.schedCode_) ∧
      ((∀ line ∈ lines, ¬ line.hasKey "Quantum Number {msec}") → c'.pqn_ = c.pqn_) ∧
      ((∀ line ∈ lines, ¬ line.hasKey "Log") → c'.logFileMethod_ = c.logFileMethod_) := by
  intro lines
  induction lines with
  | nil =>
    intro c c' h
    simp only [Configuration.parseCommandStrings] at h
    rw [← Except.ok.inj h]
    exact ⟨fun _ => rfl, fun _ => rfl, fun _ => rfl⟩
  | cons line rest ih =>
    intro c c' h
    simp only [Configuration.parseCommandStrings] at h
    split at h
    · exact absurd h (by simp)
    · rename_i c1 h1
      obtain ⟨i1, i2, i3⟩ := ih c1 c' h
      obtain ⟨f1, f2, f3, _⟩ := parseCommandString_frame c c1 negativeVersion line h1
      refine ⟨?_, ?_, ?_⟩
      · intro hno
        rw [i1 (fun l hl => hno l (List.mem_cons_of_mem _ hl)),
          f1 (hno line (List.mem_cons_self _ _))]
      · intro hno
        rw [i2 (fun l hl => hno l (List.mem_cons_of_mem _ hl)),
          f2 (hno line (List.mem_cons_self _ _))]
      · intro hno
        rw [i3 (fun l hl => hno l (List.mem_cons_of_mem _ hl)),
          f3 (hno line (List.mem_cons_self _ _))]

/-! ### C26 -/

/-- C26, counterexample: a configuration file without a "CPU Scheduling Code" line and
without a "Quantum Number {msec}" line is parsed with success; the scheduling code and the
quantum number are left unassigned. -/
theorem required_keys_not_checked :
    (∀ line ∈ partialLines, ¬ line.hasKey "CPU Scheduling Code" ∧
      ¬ line.hasKey "Quantum Number {msec}") ∧
    (Configuration.new.parseConfigFile (fun _ => false) (some partialLines)).toOption.map
      (fun c => (c.schedCode_, c.pqn_, c.systemMemory_, c.logFileMethod_)) =
      some (none, none, some 2048, some 2) := by
  decide

/-- C26, amended: `parseConfigFile` does not check that a key is present.  The parse of a
file succeeds exactly when each of its lines is accepted (a recognised key with a value its
handler accepts), so every file made of some of the lines of a file that is parsed with
success is parsed with success too; and after a successful parse the scheduling code, the
quantum number and the log method are what they were before the parse (unassigned, for a
new configuration) when no line has the key "CPU Scheduling Code", "Quantum Number {msec}"
or "Log" respectively. -/
theorem omitted_keys_left_unassigned (c c' : Configuration) (negativeVersion : String → Bool)
    (lines : List ConfigLine)
    (h : c.parseConfigFile negativeVersion (some lines) = .ok c') :
    (∀ (cfg : Configuration) (file : List ConfigLine),
      (∃ cfg', cfg.parseConfigFile negativeVersion (some file) = .ok cfg') ↔
        ∀ line ∈ file, line.accepted negativeVersion = true) ∧
    (∀ kept : List ConfigLine, kept.Sublist lines →
      ∃ c'', c.parseConfigFile negativeVersion (some kept) = .ok c'') ∧
    ((∀ line ∈ lines, ¬ line.hasKey "CPU Scheduling Code") → c'.schedCode_ = c.schedCode_) ∧
    ((∀ line ∈ lines, ¬ line.hasKey "Quantum Number {msec}") → c'.pqn_ = c.pqn_) ∧
    ((∀ line ∈ lines, ¬ line.hasKey "Log") → c'.logFileMethod_ = c.logFileMethod_) := by
  have hiff : ∀ (cfg : Configuration) (file : List ConfigLine),
      (∃ cfg', cfg.parseConfigFile negativeVersion (some file) = .ok cfg') ↔
        ∀ line ∈ file, line.accepted negativeVersion = true := by
    intro cfg file
    unfold Configuration.parseConfigFile
    simp only []
    exact parseCommandStrings_ok_iff negativeVersion file _
  have hall := (hiff c lines).mp ⟨c', h⟩
  unfold Configuration.parseConfigFile at h
  simp only [] at h
  obtain ⟨f1, f2, f3⟩ := parseCommandStrings_frame negativeVersion lines _ c' h
  refine ⟨hiff, ?_, f1, f2, f3⟩
  intro kept hkept
  exact (hiff c kept).mpr (fun line hl => hall line (hkept.subset hl))

/-- Witness of the amended C26 on the file `partialLines`. -/
theorem omitted_keys_left_unassigned_witness :
    Configuration.new.parseConfigFile (fun _ => false) (some partialLines) =
      .ok partialConfig ∧
    (partialConfig.schedCode_, partialConfig.pqn_) = (none, none) ∧
    ((∀ (cfg : Configuration) (file : List ConfigLine),
      (∃ cfg', cfg.parseConfigFile (fun _ => false) (some file) = .ok cfg') ↔
        ∀ line ∈ file, line.accepted (fun _ => false) = true) ∧
    (∀ kept : List ConfigLine, kept.Sublist partialLines →
      ∃ c'', Configuration.new.parseConfigFile (fun _ => false) (some kept) = .ok c'') ∧
    ((∀ line ∈ partialLines, ¬ line.hasKey "CPU Scheduling Code") →
      partialConfig.schedCode_ = Configuration.new.schedCode_) ∧
    ((∀ line ∈ partialLines, ¬ line.hasKey "Quantum Number {msec}") →
      partialConfig.pqn_ = Configuration.new.pqn_) ∧
    ((∀ line ∈ partialLines, ¬ line.hasKey "Log") →
      partialConfig.logFileMethod_ = Configuration.new.logFileMethod_)) :=
  have h : Configuration.new.parseConfigFile (fun _ => false) (some partialLines) =
      .ok partialConfig := by rfl
  ⟨h, by decide,
    omitted_keys_left_unassigned Configuration.new partialConfig (fun _ => false)
      partialLines h⟩

theorem continues_refl (clock : Nat → Int) (r : OSprocessRunner) : Continues clock r r :=
  ⟨rfl, Nat.le_refl _, [], [], by simp, rfl, List.Pairwise.nil, fun k hk => absurd hk (by simp)⟩

theorem continues_of_eq (clock : Nat → Int) (r r' : OSprocessRunner)
    (hb : r'.begin_ = r.begin_) (hc : r'.clockReads_ = r.clockReads_)
    (ho : r'.operationsVect_ = r.operationsVect_) : Continues clock r r' :=
  ⟨hb, by rw [hc], [], [], by simp [ho], rfl, List.Pairwise.nil,
    fun k hk => absurd hk (by simp)⟩

theorem continues_trans (clock : Nat → Int) (r1 r2 r3 : OSprocessRunner)
    (h12 : Continues clock r1 r2) (h23 : Continues clock r2 r3) : Continues clock r1 r3 := by
  obtain ⟨b1, c1, e1, k1, o1, t1, p1, m1⟩ := h12
  obtain ⟨b2, c2, e2, k2, o2, t2, p2, m2⟩ := h23
  refine ⟨by rw [b2, b1], by omega, e1 ++ e2, k1 ++ k2, ?_, ?_, ?_, ?_⟩
  · rw [o2, o1, List.append_assoc]
  · rw [List.map_append, List.map_append, t1, t2, b1]
  · rw [List.pairwise_append]
    refine ⟨p1, p2, ?_⟩
    intro a ha b hb
    have := m1 a ha
    have := m2 b hb
    omega
  · intro k hk
    rcases List.mem_append.mp hk with hk | hk
    · have := m1 k hk
      omega
    · have := m2 k hk
      omega

/-- The relation `Continues` from the time stamps of the events beyond the old trace. -/
theorem continues_of_stamps (clock : Nat → Int) (r r' : OSprocessRunner) (ks : List Nat)
    (hb : r'.begin_ = r.begin_) (hc : r.clockReads_ ≤ r'.clockReads_)
    (hpre : r'.operationsVect_.take r.operationsVect_.length = r.operationsVect_)
    (hst : (r'.operationsVect_.drop r.operationsVect_.length).map (fun e => e.timeStamp) =
      ks.map (fun k => clock k - r.begin_))
    (hp : ks.Pairwise (fun a b => a < b))
    (hm : ∀ k ∈ ks, r.clockReads_ ≤ k ∧ k < r'.clockReads_) : Continues clock r r' := by
  refine ⟨hb, hc, r'.operationsVect_.drop r.operationsVect_.length, ks, ?_, hst, hp, hm⟩
  conv_lhs => rw [← List.take_append_drop r.operationsVect_.length r'.operationsVect_]
  rw [hpre]

theorem executeOperation_continues (clock : Nat → Int) (r r' : OSprocessRunner)
    (cmd : MetaCommand) (pid : Int) (h : r.executeOperation clock cmd pid = .ok r') :
    Continues clock r r' := by
  unfold OSprocessRunner.executeOperation at h
  simp only [MetaCommand.getCode, MetaCommand.getDescriptor, MetaCommand.getTime] at h
  split_ifs at h with h1 h2 h3
  · rw [← Except.ok.inj h]
    unfold OSprocessRunner.executeApplication
    split_ifs
    · refine continues_of_stamps clock r _ [r.clockReads_, r.clockReads_ + 1] rfl ?_ ?_ ?_ ?_ ?_
      · simp only [OSprocessRunner.pushOperation, OSprocessRunner.tick]
        omega
      · simp [OSprocessRunner.pushOperation, OSprocessRunner.tick]
      · simp [OSprocessRunner.pushOperation, OSprocessRunner.tick, OSprocessRunner.timeStamp]
      · simp
      · intro k hk
        simp only [List.mem_cons, List.mem_singleton, List.not_mem_nil, or_false] at hk
        simp only [OSprocessRunner.pushOperation, OSprocessRunner.tick]
        omega
    · refine continues_of_stamps clock r _ [r.clockReads_] rfl ?_ ?_ ?_ ?_ ?_
      · simp only [OSprocessRunner.pushOperation, OSprocessRunner.tick]
        omega
      · simp [OSprocessRunner.pushOperation, OSprocessRunner.tick]
      · simp [OSprocessRunner.pushOperation, OSprocessRunner.tick, OSprocessRunner.timeStamp]
      · simp
      · intro k hk
        simp only [List.mem_singleton] at hk
        simp only [OSprocessRunner.pushOperation, OSprocessRunner.tick]
        omega
    · exact continues_of_eq clock r _ rfl rfl rfl
  · rw [← Except.ok.inj h]
    unfold OSprocessRunner.executeProcessorMemory OSprocessRunner.advanceMemAddress
    simp only []
    split_ifs <;>
    · refine continues_of_stamps clock r _ [r.clockReads_, r.clockReads_ + 1] rfl ?_ ?_ ?_ ?_ ?_
      · simp only [OSprocessRunner.pushOperation, OSprocessRunner.tick, OSprocessRunner.countDown]
        omega
      · simp [OSprocessRunner.pushOperation, OSprocessRunner.tick, OSprocessRunner.countDown]
      · simp [OSprocessRunner.pushOperation, OSprocessRunner.tick, OSprocessRunner.countDown,
          OSprocessRunner.timeStamp]
      · simp
      · intro k hk
        simp only [List.mem_cons, List.mem_singleton, List.not_mem_nil, or_false] at hk
        simp only [OSprocessRunner.pushOperation, OSprocessRunner.tick,
          OSprocessRunner.countDown]
        omega
  · unfold OSprocessRunner.executeInputOutput OSprocessRunner.inputOutput at h
    simp only [] at h
    split at h
    · exact absurd h (by simp)
    · rename_i io hio
      split at hio
      · exact absurd hio (by simp)
      · simp only [Except.ok.injEq] at hio
        rw [← Except.ok.inj h, ← hio]
        refine continues_of_stamps clock r _ [r.clockReads_, r.clockReads_ + 1] rfl
          ?_ ?_ ?_ ?_ ?_
        · simp only [OSprocessRunner.pushOperation, OSprocessRunner.tick,
            OSprocessRunner.ioThreadDone]
          omega
        · simp [OSprocessRunner.pushOperation, OSprocessRunner.tick,
            OSprocessRunner.ioThreadDone]
        · simp [OSprocessRunner.pushOperation, OSprocessRunner.tick,
            OSprocessRunner.ioThreadDone, OSprocessRunner.timeStamp]
        · simp
        · intro k hk
          simp only [List.mem_cons, List.mem_singleton, List.not_mem_nil, or_false] at hk
          simp only [OSprocessRunner.pushOperation, OSprocessRunner.tick,
            OSprocessRunner.ioThreadDone]
          omega
  · rw [← Except.ok.inj h]
    exact continues_of_eq clock r _ rfl rfl rfl

theorem logInterruption_continues (clock : Nat → Int) (r : OSprocessRunner) (pid : Int) :
    Continues clock r (r.logInterruption clock pid) := by
  unfold OSprocessRunner.logInterruption
  refine continues_of_stamps clock r _ [r.clockReads_] rfl ?_ ?_ ?_ ?_ ?_
  · simp only [OSprocessRunner.pushOperation, OSprocessRunner.tick]
    omega
  · simp [OSprocessRunner.pushOperation, OSprocessRunner.tick]
  · simp [OSprocessRunner.pushOperation, OSprocessRunner.tick, OSprocessRunner.timeStamp]
  · simp
  · intro k hk
    simp only [List.mem_singleton] at hk
    simp only [OSprocessRunner.pushOperation, OSprocessRunner.tick]
    omega

theorem importMDF_continues (clock : Nat → Int) (mdf : Option (List (List Token)))
    (r r' : OSprocessRunner) (h : r.importMDF mdf = .ok r') : Continues clock r r' := by
  unfold OSprocessRunner.importMDF at h
  simp only [] at h
  split at h
  · exact absurd h (by simp)
  · rw [← Except.ok.inj h]
    exact continues_of_eq clock r _ rfl rfl rfl

theorem runProcessesStart_continues (clock : Nat → Int) (mdf : Option (List (List Token)))
    (r r' : OSprocessRunner) (h : r.runProcessesStart mdf = .ok r') : Continues clock r r' := by
  unfold OSprocessRunner.runProcessesStart at h
  simp only [] at h
  split at h
  · exact absurd h (by simp)
  · rename_i r2 h2
    have h0 := importMDF_continues clock mdf _ r2 h2
    have h1 : Continues clock r r2 :=
      continues_trans clock r _ r2 (continues_of_eq clock r _ rfl rfl rfl) h0
    split_ifs at h
    · rw [← Except.ok.inj h]
      exact continues_trans clock r r2 _ h1 (continues_of_eq clock r2 _ rfl rfl rfl)
    · rw [← Except.ok.inj h]
      exact h1

theorem innerLoopBody_continues (clock : Nat → Int) (r : OSprocessRunner) (cur : Process)
    (x : OSprocessRunner × Process × Bool) (h : r.innerLoopBody clock cur = .ok x) :
    Continues clock r x.1 := by
  unfold OSprocessRunner.innerLoopBody at h
  by_cases hrr : r.schedCode_ = 0
  · rw [if_pos hrr] at h
    simp only [] at h
    generalize hr1 : (if r.firstOperation_ = true then
      ({ r with firstOperation_ := false } : OSprocessRunner) else r) = r1 at h
    have h1 : Continues clock r r1 := by
      rw [← hr1]
      split_ifs
      · exact continues_of_eq clock r _ rfl rfl rfl
      · exact continues_refl clock r
    split_ifs at h with hflag
    · rw [← Except.ok.inj h]
      exact continues_trans clock r _ _
        (continues_trans clock r r1 _ h1 (continues_of_eq clock r1 _ rfl rfl rfl))
        (logInterruption_continues clock _ _)
    · split at h
      · exact absurd h (by simp)
      · split at h
        · exact absurd h (by simp)
        · rename_i r2 hex
          rw [← Except.ok.inj h]
          exact continues_trans clock r ({ r1 with waitForOP_ := false }) _
            (continues_trans clock r r1 _ h1 (continues_of_eq clock r1 _ rfl rfl rfl))
            (executeOperation_continues clock _ r2 _ _ hex)
  · rw [if_neg hrr] at h
    by_cases hstr : r.schedCode_ = 1
    · rw [if_pos hstr] at h
      split_ifs at h with hflag
      · rw [← Except.ok.inj h]
        exact continues_trans clock r _ _ (continues_of_eq clock r _ rfl rfl rfl)
          (logInterruption_continues clock _ _)
      · split at h
        · exact absurd h (by simp)
        · split at h
          · exact absurd h (by simp)
          · rename_i r2 hex
            split at h
            · exact absurd h (by simp)
            · rw [← Except.ok.inj h]
              exact executeOperation_continues clock r r2 _ _ hex
    · rw [if_neg hstr] at h
      rw [← Except.ok.inj h]
      exact continues_refl clock r

theorem engineStep_continues (clock : Nat → Int) (s s' : RunState)
    (h : s.engineStep clock = .ok s') : Continues clock s.runner s'.runner := by
  obtain ⟨r, pos, done⟩ := s
  cases pos with
  | returned =>
    simp only [RunState.engineStep] at h
    rw [← Except.ok.inj h]
    exact continues_refl clock r
  | outerTest =>
    simp only [RunState.engineStep] at h
    split_ifs at h
    · rw [← Except.ok.inj h]
      exact continues_of_eq clock r _ rfl rfl rfl
    · rw [← Except.ok.inj h]
      exact continues_refl clock r
  | innerTest cur =>
    simp only [RunState.engineStep] at h
    split_ifs at h with hlt
    · split at h
      · exact absurd h (by simp)
      · rename_i x hx
        have hc := innerLoopBody_continues clock r cur x hx
        split_ifs at h
        · rw [← Except.ok.inj h]
          exact continues_trans clock r x.1 _ hc (continues_of_eq clock x.1 _ rfl rfl rfl)
        · rw [← Except.ok.inj h]
          exact hc
    · rw [← Except.ok.inj h]
      exact continues_of_eq clock r _ rfl rfl rfl

theorem step_continues (clock : Nat → Int) (s s' : RunState) (a : Action)
    (h : s.step clock a = .ok s') : Continues clock s.runner s'.runner := by
  cases a with
  | engine => exact engineStep_continues clock s s' h
  | quantumExpired =>
    simp only [RunState.step] at h
    rw [← Except.ok.inj h]
    exact continues_of_eq clock _ _ rfl rfl rfl
  | timerArmed =>
    simp only [RunState.step] at h
    rw [← Except.ok.inj h]
    exact continues_of_eq clock _ _ rfl rfl rfl
  | mdfLoaded mdf =>
    simp only [RunState.step] at h
    split at h
    · exact absurd h (by simp)
    · rename_i r' hr'
      rw [← Except.ok.inj h]
      exact importMDF_continues clock mdf _ r' hr'
  | strFlagSet =>
    simp only [RunState.step] at h
    split_ifs at h
    · rw [← Except.ok.inj h]
      exact continues_of_eq clock _ _ rfl rfl rfl
    · rw [← Except.ok.inj h]
      exact continues_refl clock _

theorem run_continues (clock : Nat → Int) :
    ∀ (schedule : List Action) (s s' : RunState),
      RunState.run clock s schedule = .ok s' → Continues clock s.runner s'.runner := by
  intro schedule
  induction schedule with
  | nil =>
    intro s s' h
    simp only [RunState.run] at h
    rw [← Except.ok.inj h]
    exact continues_refl clock _
  | cons a rest ih =>
    intro s s' h
    simp only [RunState.run] at h
    split at h
    · exact absurd h (by simp)
    · rename_i s1 h1
      exact continues_trans clock _ _ _ (step_continues clock s s1 a h1) (ih s1 s' h)

theorem runProcesses_continues (clock : Nat → Int) (mdf : Option (List (List Token)))
    (r : OSprocessRunner) (schedule : List Action) (s : RunState)
    (h : r.runProcesses clock mdf schedule = .ok s) : Continues clock r s.runner := by
  unfold OSprocessRunner.runProcesses at h
  split at h
  · exact absurd h (by simp)
  · rename_i r1 h1
    exact continues_trans clock r r1 _ (runProcessesStart_continues clock mdf r r1 h1)
      (run_continues clock schedule _ s h)

theorem stamps_sorted (clock : Nat → Int) (hmono : ∀ a b, a ≤ b → clock a ≤ clock b)
    (b : Int) (ks : List Nat) (hp : ks.Pairwise (fun a b => a < b)) :
    (ks.map (fun k => clock k - b)).Pairwise (fun x y => x ≤ y) := by
  rw [List.pairwise_map]
  refine hp.imp ?_
  intro a c hac
  have := hmono a c (Nat.le_of_lt hac)
  omega

theorem executeOperation_io_stamps (clock : Nat → Int) (r r' : OSprocessRunner)
    (cmd : MetaCommand) (pid : Int) (hio : cmd.getCode = 'I' ∨ cmd.getCode = 'O')
    (h : r.executeOperation clock cmd pid = .ok r') :
    ∃ e1 e2, r'.operationsVect_ = r.operationsVect_ ++ [e1, e2] ∧
      e1.timeStamp = clock r.clockReads_ - r.begin_ ∧
      e2.timeStamp = clock (r.clockReads_ + 1) - r.begin_ ∧
      r'.clockReads_ = r.clockReads_ + 2 := by
  unfold OSprocessRunner.executeOperation at h
  simp only [MetaCommand.getCode, MetaCommand.getDescriptor, MetaCommand.getTime] at h hio
  have h1 : ¬ cmd.code_ = 'A' := by rcases hio with h | h <;> rw [h] <;> decide
  have h2 : ¬ (cmd.code_ = 'P' ∨ cmd.code_ = 'M') := by
    rcases hio with h | h <;> rw [h] <;> decide
  rw [if_neg h1, if_neg h2, if_pos hio] at h
  unfold OSprocessRunner.executeInputOutput OSprocessRunner.inputOutput at h
  simp only [] at h
  split at h
  · exact absurd h (by simp)
  · rename_i io hio2
    split at hio2
    · exact absurd hio2 (by simp)
    · simp only [Except.ok.injEq] at hio2
      rw [← Except.ok.inj h, ← hio2]
      simp only [OSprocessRunner.pushOperation, OSprocessRunner.tick,
        OSprocessRunner.ioThreadDone, OSprocessRunner.timeStamp]
      exact ⟨_, _, List.append_assoc _ _ _, rfl, rfl, trivial⟩

/-! ### C27 -/

/-- C27: in every run of `runProcesses()` of a newly constructed engine, under any schedule of
the other threads, the trace only grows at its end (the trace of an earlier state of the run
is a prefix of the trace of a later one), and the time stamps of its events, in append order,
are readings of the clock taken in that order (reading numbers strictly increasing) minus the
start time.  When successive readings of the clock are non-decreasing, the time stamps of the
trace, in append order, are non-decreasing.  An I/O operation appends its start event and its
end event together, stamped with two successive readings of the clock, both taken before the
first of the two is appended. -/
theorem trace_order (clock : Nat → Int) (begin : Int) (cfg : Configuration)
    (statics : Resources) (mdf : Option (List (List Token))) (schedule more : List Action)
    (s s' : RunState)
    (hmono : ∀ a b, a ≤ b → clock a ≤ clock b)
    (h : (OSprocessRunner.new begin cfg statics).runProcesses clock mdf schedule = .ok s)
    (h' : RunState.run clock s more = .ok s') :
    (∃ evs, s'.runner.operationsVect_ = s.runner.operationsVect_ ++ evs) ∧
    (∃ ks : List Nat, ks.Pairwise (fun a b => a < b) ∧
      s'.runner.operationsVect_.map (fun e => e.timeStamp) =
        ks.map (fun k => clock k - begin)) ∧
    (s'.runner.operationsVect_.map (fun e => e.timeStamp)).Pairwise (fun x y => x ≤ y) ∧
    ∀ (r r' : OSprocessRunner) (cmd : MetaCommand) (pid : Int),
      cmd.getCode = 'I' ∨ cmd.getCode = 'O' → r.executeOperation clock cmd pid = .ok r' →
      ∃ e1 e2, r'.operationsVect_ = r.operationsVect_ ++ [e1, e2] ∧
        e1.timeStamp = clock r.clockReads_ - r.begin_ ∧
        e2.timeStamp = clock (r.clockReads_ + 1) - r.begin_ ∧
        r'.clockReads_ = r.clockReads_ + 2 := by
  have h1 := runProcesses_continues clock mdf _ schedule s h
  have h2 := run_continues clock more s s' h'
  obtain ⟨_, _, evs, _, hevs, _⟩ := h2
  obtain ⟨_, _, all, ks, hall, hst, hp, _⟩ :=
    continues_trans clock _ _ _ h1 (run_continues clock more s s' h')
  have hst' : s'.runner.operationsVect_.map (fun e => e.timeStamp) =
      ks.map (fun k => clock k - begin) := by
    rw [hall]
    simpa [OSprocessRunner.new] using hst
  refine ⟨⟨evs, hevs⟩, ⟨ks, hp, hst'⟩, ?_, ?_⟩
  · rw [hst']
    exact stamps_sorted clock hmono begin ks hp
  · intro r r' cmd pid hio hex
    exact executeOperation_io_stamps clock r r' cmd pid hio hex

set_option maxRecDepth 20000 in

/-- Witness of C27: the engine of scenario S1 runs the metadata file `S{begin}0; A{begin}0;
P{run}3; I{hard drive}2; M{block}4; A{finish}0; S{finish}0;` with a clock whose `k`-th reading
is `k`; the process is preempted after `P{run}` and dispatched again.  The ten events of the
trace carry the time stamps 0, 1, ..., 9. -/
theorem trace_order_witness :
    (∀ a b, a ≤ b → tickClock a ≤ tickClock b) ∧
    s1Runner.runProcesses tickClock (some [costStream]) tracedSchedule = .ok tracedRun ∧
    RunState.run tickClock tracedRun tracedMore = .ok tracedEnd ∧
    tracedRun.runner.operationsVect_.map (fun e => e.timeStamp) = [0, 1, 2, 3, 4] ∧
    tracedEnd.runner.operationsVect_.map (fun e => e.timeStamp) =
      [0, 1, 2, 3, 4, 5, 6, 7, 8, 9] ∧
    tracedEnd.position = .returned ∧
    (∃ evs, tracedEnd.runner.operationsVect_ = tracedRun.runner.operationsVect_ ++ evs) ∧
    (∃ ks : List Nat, ks.Pairwise (fun a b => a < b) ∧
      tracedEnd.runner.operationsVect_.map (fun e => e.timeStamp) =
        ks.map (fun k => tickClock k - 0)) ∧
    (tracedEnd.runner.operationsVect_.map (fun e => e.timeStamp)).Pairwise
      (fun x y => x ≤ y) ∧
    ∀ (r r' : OSprocessRunner) (cmd : MetaCommand) (pid : Int),
      cmd.getCode = 'I' ∨ cmd.getCode = 'O' →
      r.executeOperation tickClock cmd pid = .ok r' →
      ∃ e1 e2, r'.operationsVect_ = r.operationsVect_ ++ [e1, e2] ∧
        e1.timeStamp = tickClock r.clockReads_ - r.begin_ ∧
        e2.timeStamp = tickClock (r.clockReads_ + 1) - r.begin_ ∧
        r'.clockReads_ = r.clockReads_ + 2 :=
  have hm : ∀ a b, a ≤ b → tickClock a ≤ tickClock b := fun a b hab => by
    simp only [tickClock]; exact Int.ofNat_le.mpr hab
  have h : s1Runner.runProcesses tickClock (some [costStream]) tracedSchedule =
      .ok tracedRun := by rfl
  have h' : RunState.run tickClock tracedRun tracedMore = .ok tracedEnd := by rfl
  ⟨hm, h, h', by decide, by decide, by decide,
    trace_order tickClock 0 fullConfig (fillResourceDeques Resources.initial 1 1 1 1 1)
      (some [costStream]) tracedSchedule tracedMore tracedRun tracedEnd hm h h'⟩

/-! ### C28 -/

/-- C28: under RR (`schedCode_ = 0`), an iteration of the inner loop entered with `rrFlag_` set
for the running process `cur` leaves the loop by `break` with `cur` as it was (operation index,
operations, pid and time remaining unchanged), and the engine it leaves has `rrFlag_` cleared,
the ready queue it had with `cur` appended at the tail (the processes queued before it are
unchanged and in the same order), the trace it had followed by exactly one event with actor
"Process <pid>", description "Process interrupted by round robin scheduling algorithm." and
the next reading of the clock as time stamp, and the memory address, the resources, the
counter of processor cycles and the arrival index unchanged: no operation is executed.  The
step of the engine at the test of the inner loop is this iteration followed by the update of
the count of ready processes, and it leads to the test of the outer loop. -/
theorem rr_preempt_step (clock : Nat → Int) (r : OSprocessRunner) (cur : Process)
    (hs : r.schedCode_ = 0) (hf : r.rrFlag_ = true) :
    ∃ r', r.innerLoopBody clock cur = .ok (r', cur, true) ∧
      r'.rrFlag_ = false ∧
      r'.readyQ_.processVect_ = r.readyQ_.processVect_ ++ [cur] ∧
      r'.readyQ_.processArrivalIndx_ = r.readyQ_.processArrivalIndx_ ∧
      r'.operationsVect_ = r.operationsVect_ ++
        [{ timeStamp := clock r.clockReads_ - r.begin_,
           actor := "Process " ++ toString cur.getProcessNumber,
           opDescription := "Process interrupted by round robin scheduling algorithm." }] ∧
      r'.memAddress_ = r.memAddress_ ∧ r'.static_ = r.static_ ∧
      r'.processCyclesExecuted_ = r.processCyclesExecuted_ ∧
      r'.schedCode_ = 0 ∧
      ∀ done : List Process, cur.getOpIndex < cur.getNumberOfCommands →
        RunState.engineStep clock ⟨r, .innerTest cur, done⟩ =
          .ok ⟨{ r' with processesInRdyQ_ := r'.readyQ_.getNumberOfProcesses },
            .outerTest, done⟩ := by
  have hbody : r.innerLoopBody clock cur = .ok (OSprocessRunner.logInterruption clock
      { (if r.firstOperation_ = true then
          ({ r with firstOperation_ := false } : OSprocessRunner) else r) with
        rrFlag_ := false,
        readyQ_ := (if r.firstOperation_ = true then
          ({ r with firstOperation_ := false } : OSprocessRunner) else r).readyQ_.insertProcess
            cur }
      cur.getProcessNumber, cur, true) := by
    unfold OSprocessRunner.innerLoopBody
    rw [if_pos hs]
    simp only []
    have hf' : (if r.firstOperation_ = true then
        ({ r with firstOperation_ := false } : OSprocessRunner) else r).rrFlag_ = true := by
      split_ifs <;> exact hf
    rw [if_pos hf']
  refine ⟨_, hbody, ?_, ?_, ?_, ?_, ?_, ?_, ?_, ?_, ?_⟩
  · simp only [OSprocessRunner.logInterruption, OSprocessRunner.pushOperation,
      OSprocessRunner.tick]
  · simp only [OSprocessRunner.logInterruption, OSprocessRunner.pushOperation,
      OSprocessRunner.tick, ReadyQueue.insertProcess]
    split_ifs <;> rfl
  · simp only [OSprocessRunner.logInterruption, OSprocessRunner.pushOperation,
      OSprocessRunner.tick, ReadyQueue.insertProcess]
    split_ifs <;> rfl
  · simp only [OSprocessRunner.logInterruption, OSprocessRunner.pushOperation,
      OSprocessRunner.tick, OSprocessRunner.timeStamp]
    split_ifs <;> simp_all
  · simp only [OSprocessRunner.logInterruption, OSprocessRunner.pushOperation,
      OSprocessRunner.tick]
    split_ifs <;> rfl
  · simp only [OSprocessRunner.logInterruption, OSprocessRunner.pushOperation,
      OSprocessRunner.tick]
    split_ifs <;> rfl
  · simp only [OSprocessRunner.logInterruption, OSprocessRunner.pushOperation,
      OSprocessRunner.tick]
    split_ifs <;> rfl
  · simp only [OSprocessRunner.logInterruption, OSprocessRunner.pushOperation,
      OSprocessRunner.tick]
    split_ifs <;> exact hs
  · intro done hlt
    simp only [RunState.engineStep, hlt, if_true, hbody]

set_option maxRecDepth 20000 in

/-- Witness of C28: the engine of scenario S1 loads two processes, dispatches process 1 and
executes its `A{begin}`; the quantum timer then sets `rrFlag_`.  Process 2 is queued, process
1 is running with operation index 1. -/
theorem rr_preempt_step_witness :
    s1Runner.runProcesses tickClock (some [twinStream]) [.engine, .engine, .quantumExpired] =
      .ok rrPreemptState ∧
    rrPreemptState.position = .innerTest rrPreemptProcess ∧
    (rrPreemptProcess.getProcessNumber, rrPreemptProcess.getOpIndex) = (1, 1) ∧
    rrPreemptState.runner.readyQ_.processVect_.map (fun p => p.getProcessNumber) = [2] ∧
    rrPreemptState.runner.schedCode_ = 0 ∧ rrPreemptState.runner.rrFlag_ = true ∧
    ∃ r', rrPreemptState.runner.innerLoopBody tickClock rrPreemptProcess =
        .ok (r', rrPreemptProcess, true) ∧
      r'.rrFlag_ = false ∧
      r'.readyQ_.processVect_ =
        rrPreemptState.runner.readyQ_.processVect_ ++ [rrPreemptProcess] ∧
      r'.readyQ_.processArrivalIndx_ = rrPreemptState.runner.readyQ_.processArrivalIndx_ ∧
      r'.operationsVect_ = rrPreemptState.runner.operationsVect_ ++
        [{ timeStamp := tickClock rrPreemptState.runner.clockReads_ -
             rrPreemptState.runner.begin_,
           actor := "Process " ++ toString rrPreemptProcess.getProcessNumber,
           opDescription := "Process interrupted by round robin scheduling algorithm." }] ∧
      r'.memAddress_ = rrPreemptState.runner.memAddress_ ∧
      r'.static_ = rrPreemptState.runner.static_ ∧
      r'.processCyclesExecuted_ = rrPreemptState.runner.processCyclesExecuted_ ∧
      r'.schedCode_ = 0 ∧
      ∀ done : List Process,
        rrPreemptProcess.getOpIndex < rrPreemptProcess.getNumberOfCommands →
        RunState.engineStep tickClock
            ⟨rrPreemptState.runner, .innerTest rrPreemptProcess, done⟩ =
          .ok ⟨{ r' with processesInRdyQ_ := r'.readyQ_.getNumberOfProcesses },
            .outerTest, done⟩ :=
  ⟨by rfl, by decide, by decide, by decide, by decide, by decide,
    rr_preempt_step tickClock rrPreemptState.runner rrPreemptProcess (by decide) (by decide)⟩

theorem lookup_mem {α : Type} (l : List (String × α)) (k : String) (v : α)
    (h : l.lookup k = some v) : ∃ k', (k', v) ∈ l := by
  induction l with
  | nil => simp [List.lookup] at h
  | cons a rest ih =>
    obtain ⟨k', v'⟩ := a
    cases hk : k == k' with
    | true =>
      simp only [List.lookup, hk] at h
      exact ⟨k', by rw [← Option.some.inj h]; exact List.mem_cons_self _ _⟩
    | false =>
      simp only [List.lookup, hk] at h
      obtain ⟨k'', hm⟩ := ih h
      exact ⟨k'', List.mem_cons_of_mem _ hm⟩

theorem remInv_new : Process.new.RemInv := by
  unfold Process.RemInv
  decide

theorem handler_remLoad (q0 : ReadyQueue)
    (md : MetaData) (q : ReadyQueue) (code d cycles : String) (x : MetaData × ReadyQueue)
    (hI : RemLoad q0 md q) (h : md.handler code d cycles q = .ok x) :
    RemLoad q0 x.1 x.2 := by
  obtain ⟨hpc, hrem, new, hnew, hall⟩ := hI
  obtain ⟨c, _, hn, _, hcase⟩ := handler_cases _ _ _ _ _ _ h
  rcases hcase with ⟨_, _, _, hx⟩ | ⟨_, _, _, hx⟩ | ⟨_, _, _, t, ht, hx⟩
  · rw [hx]; exact ⟨hpc, hrem, new, hnew, hall⟩
  · rw [hx]; exact ⟨hpc, hrem, new, hnew, hall⟩
  · have hpc' : (storeResult md c d (atoi cycles) t q).1.processObj_.operationIndex_ = 0 := by
      rw [storeResult_pc]; split_ifs
      · rfl
      · exact hpc
    have hrem' : (storeResult md c d (atoi cycles) t q).1.processObj_.RemInv := by
      unfold Process.RemInv at hrem ⊢
      unfold Process.timeOfRemaining Process.getProcessTimeRemain Process.getOpIndex at hrem ⊢
      rw [hpc', storeResult_ops, storeResult_rem]
      rw [hpc] at hrem
      simp only [List.drop_zero] at hrem ⊢
      split_ifs
      · congr 1
        simp [MetaCommand.getTime]
      · rw [hrem, wrapInt_wrapInt_add]
        congr 1
        simp [MetaCommand.getTime]
    rw [hx]
    refine ⟨hpc', hrem', ?_⟩
    rw [storeResult_queue]
    split_ifs with hf
    · refine ⟨new ++ [(storeResult md c d (atoi cycles) t q).1.processObj_], ?_, ?_⟩
      · simp only [hnew, List.append_assoc]
      · intro p hp
        rcases List.mem_append.mp hp with hp | hp
        · exact hall p hp
        · simp only [List.mem_singleton] at hp
          rw [hp]; exact ⟨hpc', hrem'⟩
    · exact ⟨new, hnew, hall⟩

theorem parseMDF_rem (cfg : Configuration)
    (mdf : Option (List (List Token))) (q : ReadyQueue)
    (x : MetaData × ReadyQueue) (h : (freshLoader cfg).parseMDF mdf q = .ok x) :
    ∃ new, x.2.processVect_ = q.processVect_ ++ new ∧
      ∀ p ∈ new, p.operationIndex_ = 0 ∧ p.RemInv := by
  cases mdf with
  | none => exact absurd h (by simp [MetaData.parseMDF])
  | some lines =>
    unfold MetaData.parseMDF at h
    simp only [] at h
    rw [parseLines_eq_flatten] at h
    exact (parseFullLine_preserves (fun md q' => RemLoad q md q')
      (fun md q' code d cycles y hP hh =>
        handler_remLoad q md q' code d cycles y hP hh)
      lines.flatten (freshLoader cfg) q x
      ⟨rfl, remInv_new, [], by simp, by simp⟩ h).2.2

theorem importMDF_rem (cfg : Configuration)
    (mdf : Option (List (List Token))) (r r' : OSprocessRunner) (hc : r.configObj_ = cfg)
    (h : r.importMDF mdf = .ok r') :
    r'.schedCode_ = r.schedCode_ ∧ r'.configObj_ = r.configObj_ ∧
    ∃ new, r'.readyQ_.processVect_ = r.readyQ_.processVect_ ++ new ∧
      ∀ p ∈ new, p.RemInv := by
  rw [importMDF_eq] at h
  cases hl : loadBatch r.configObj_ mdf r.readyQ_ with
  | error e => rw [hl] at h; exact absurd h (by simp)
  | ok q1 =>
    rw [hl] at h
    rw [← Except.ok.inj h]
    refine ⟨rfl, rfl, ?_⟩
    unfold loadBatch at hl
    split at hl
    · exact absurd hl (by simp)
    · rename_i x hx
      rw [hc] at hx
      obtain ⟨new, hnew, hall⟩ := parseMDF_rem cfg mdf r.readyQ_ x hx
      rw [← Except.ok.inj hl]
      exact ⟨new, hnew, fun p hp => (hall p hp).2⟩


theorem executeOperation_config (clock : Nat → Int) (r r' : OSprocessRunner)
    (cmd : MetaCommand) (pid : Int) (h : r.executeOperation clock cmd pid = .ok r') :
    r'.configObj_ = r.configObj_ := by
  unfold OSprocessRunner.executeOperation at h
  simp only [MetaCommand.getCode, MetaCommand.getDescriptor, MetaCommand.getTime] at h
  split_ifs at h with h1 h2 h3
  · rw [← Except.ok.inj h]
    unfold OSprocessRunner.executeApplication
    split_ifs <;> rfl
  · rw [← Except.ok.inj h]
    unfold OSprocessRunner.executeProcessorMemory OSprocessRunner.advanceMemAddress
    simp only []
    split_ifs <;> rfl
  · unfold OSprocessRunner.executeInputOutput OSprocessRunner.inputOutput at h
    simp only [] at h
    split at h
    · exact absurd h (by simp)
    · rename_i io hio
      split at hio
      · exact absurd hio (by simp)
      · simp only [Except.ok.injEq] at hio
        rw [← Except.ok.inj h, ← hio]
        rfl
  · rw [← Except.ok.inj h]

theorem innerLoopBody_str_cases (clock : Nat → Int) (r : OSprocessRunner) (cur : Process)
    (x : OSprocessRunner × Process × Bool) (hs : r.schedCode_ = 1)
    (h : r.innerLoopBody clock cur = .ok x) :
    (r.strFlag_ = true ∧
      x = (OSprocessRunner.logInterruption clock
        { r with strFlag_ := false,
                 readyQ_ := (r.readyQ_.insertProcess cur).sortReadyQueue }
        cur.getProcessNumber, cur, true)) ∨
    (r.strFlag_ = false ∧ ∃ cmd r2, cur.getMetaCommand cur.getOpIndex = .ok cmd ∧
      r.executeOperation clock cmd cur.getProcessNumber = .ok r2 ∧
      x = (r2, (cur.subtractProcessTimeRemain cmd.getTime).incrementOpIndex, false)) := by
  unfold OSprocessRunner.innerLoopBody at h
  rw [if_neg (by rw [hs]; decide), if_pos hs] at h
  split_ifs at h with hflag
  · left
    exact ⟨hflag, (Except.ok.inj h).symm⟩
  · right
    refine ⟨by simpa using hflag, ?_⟩
    split at h
    · exact absurd h (by simp)
    · rename_i cmd hcmd
      split at h
      · exact absurd h (by simp)
      · rename_i r2 hex
        split at h
        · exact absurd h (by simp)
        · rename_i cmd2 hcmd2
          have hcc : cmd2 = cmd := (Except.ok.inj hcmd2).symm
          subst hcc
          exact ⟨cmd2, r2, hcmd, hex, (Except.ok.inj h).symm⟩

theorem remInv_advance (cur : Process) (cmd : MetaCommand) (hinv : cur.RemInv)
    (hcmd : cur.getMetaCommand cur.getOpIndex = .ok cmd) :
    ((cur.subtractProcessTimeRemain cmd.getTime).incrementOpIndex).RemInv := by
  have hget := getMetaCommand_ok cur cmd hcmd
  unfold Process.RemInv at hinv ⊢
  unfold Process.timeOfRemaining Process.getProcessTimeRemain Process.getOpIndex at hinv ⊢
  simp only [Process.subtractProcessTimeRemain, Process.incrementOpIndex]
  have hlt : cur.operationIndex_ < cur.metaCmdVect_.length := by
    by_contra hge
    rw [List.getElem?_eq_none (by omega)] at hget
    exact absurd hget (by simp)
  have hd : cur.metaCmdVect_.drop cur.operationIndex_ =
      cmd :: cur.metaCmdVect_.drop (cur.operationIndex_ + 1) := by
    rw [List.drop_eq_getElem_cons hlt]
    congr 1
    rw [List.getElem?_eq_getElem hlt] at hget
    exact Option.some.inj hget
  rw [hinv, hd, wrapInt_wrapInt_sub]
  congr 1
  simp


theorem logInterruption_frame (clock : Nat → Int) (r : OSprocessRunner) (pid : Int) :
    (r.logInterruption clock pid).schedCode_ = r.schedCode_ ∧
    (r.logInterruption clock pid).configObj_ = r.configObj_ ∧
    (r.logInterruption clock pid).readyQ_ = r.readyQ_ := by
  unfold OSprocessRunner.logInterruption
  exact ⟨rfl, rfl, rfl⟩

theorem engineStep_strInv (clock : Nat → Int) (cfg : Configuration) (s s' : RunState)
    (hinv : StrInv cfg s) (h : s.engineStep clock = .ok s') : StrInv cfg s' := by
  obtain ⟨r, pos, done⟩ := s
  obtain ⟨hs, hc, hrem⟩ := hinv
  simp only [] at hs hc
  cases pos with
  | returned =>
    simp only [RunState.engineStep] at h
    rw [← Except.ok.inj h]
    exact ⟨hs, hc, hrem⟩
  | outerTest =>
    simp only [RunState.engineStep] at h
    simp only [RunState.processes, List.nil_append] at hrem
    split_ifs at h with hpos
    · rw [← Except.ok.inj h]
      refine ⟨hs, hc, ?_⟩
      intro p hp
      simp only [RunState.processes, ReadyQueue.removeProcess, List.singleton_append,
        List.cons_append, List.nil_append, List.mem_cons, List.mem_append] at hp
      rcases hp with hp | hp | hp
      · cases hq : r.readyQ_.processVect_ with
        | nil =>
          rw [hq] at hp
          rw [hp]
          exact remInv_new
        | cons a rest =>
          rw [hq] at hp
          rw [hp]
          exact hrem a (List.mem_append_left _ (by rw [hq]; exact List.mem_cons_self _ _))
      · exact hrem p (List.mem_append_left _ (List.mem_of_mem_tail hp))
      · exact hrem p (List.mem_append_right _ hp)
    · rw [← Except.ok.inj h]
      exact ⟨hs, hc, hrem⟩
  | innerTest cur =>
    simp only [RunState.engineStep] at h
    simp only [RunState.processes, List.singleton_append, List.cons_append] at hrem
    have hcur : cur.RemInv := hrem cur (List.mem_cons_self _ _)
    have hq : ∀ p ∈ r.readyQ_.processVect_, p.RemInv := fun p hp =>
      hrem p (List.mem_cons_of_mem _ (List.mem_append_left _ hp))
    have hd : ∀ p ∈ done, p.RemInv := fun p hp =>
      hrem p (List.mem_cons_of_mem _ (List.mem_append_right _ hp))
    split_ifs at h with hlt
    · split at h
      · exact absurd h (by simp)
      · rename_i x hx
        rcases innerLoopBody_str_cases clock r cur x hs hx with
          ⟨_, hxe⟩ | ⟨_, cmd, r2, hcmd, hex, hxe⟩
        · rw [hxe] at h
          simp only [if_true] at h
          rw [← Except.ok.inj h]
          obtain ⟨f1, f2, f3⟩ := logInterruption_frame clock
            { r with strFlag_ := false,
                     readyQ_ := (r.readyQ_.insertProcess cur).sortReadyQueue }
            cur.getProcessNumber
          refine ⟨by simp only [f1]; exact hs, by simp only [f2]; exact hc, ?_⟩
          intro p hp
          simp only [RunState.processes, List.nil_append, List.mem_append, f3] at hp
          rcases hp with hp | hp
          · have hp' := (sortReadyQueue_perm (r.readyQ_.insertProcess cur)).1.mem_iff.mp hp
            simp only [ReadyQueue.insertProcess, List.mem_append, List.mem_singleton] at hp'
            rcases hp' with hp' | hp'
            · exact hq p hp'
            · rw [hp']; exact hcur
          · exact hd p hp
        · rw [hxe] at h
          simp only [Bool.false_eq_true, if_false] at h
          rw [← Except.ok.inj h]
          have e1 := (executeOperation_events clock r r2 cmd _ hex).1
          have e2 := (executeOperation_flags clock r r2 cmd _ hex).2.2
          have e3 := executeOperation_config clock r r2 cmd _ hex
          refine ⟨by simp only [e2]; exact hs, by simp only [e3]; exact hc, ?_⟩
          intro p hp
          simp only [RunState.processes, List.singleton_append, List.cons_append,
            List.nil_append, List.mem_cons, List.mem_append, e1] at hp
          rcases hp with hp | hp | hp
          · rw [hp]; exact remInv_advance cur cmd hcur hcmd
          · exact hq p hp
          · exact hd p hp
    · rw [← Except.ok.inj h]
      refine ⟨hs, hc, ?_⟩
      intro p hp
      simp only [RunState.processes, List.nil_append, List.mem_append,
        List.mem_singleton] at hp
      rcases hp with hp | hp | hp
      · exact hq p hp
      · exact hd p hp
      · rw [hp]; exact hcur

theorem step_strInv (clock : Nat → Int) (cfg : Configuration)
    (s s' : RunState) (a : Action) (hinv : StrInv cfg s)
    (h : s.step clock a = .ok s') : StrInv cfg s' := by
  cases a with
  | engine => exact engineStep_strInv clock cfg s s' hinv h
  | quantumExpired =>
    simp only [RunState.step] at h
    rw [← Except.ok.inj h]
    exact ⟨hinv.sched, hinv.config, hinv.rem⟩
  | timerArmed =>
    simp only [RunState.step] at h
    rw [← Except.ok.inj h]
    exact ⟨hinv.sched, hinv.config, hinv.rem⟩
  | mdfLoaded mdf =>
    simp only [RunState.step] at h
    split at h
    · exact absurd h (by simp)
    · rename_i r' hr'
      rw [← Except.ok.inj h]
      obtain ⟨f1, f2, new, hnew, hall⟩ :=
        importMDF_rem cfg mdf s.runner r' hinv.config hr'
      refine ⟨by simp only [f1]; exact hinv.sched, by simp only [f2]; exact hinv.config, ?_⟩
      intro p hp
      have hrem := hinv.rem
      simp only [RunState.processes, hnew, List.mem_append] at hp hrem
      rcases hp with (hp | hp | hp) | hp
      · exact hrem p (Or.inl (Or.inl hp))
      · exact hrem p (Or.inl (Or.inr hp))
      · exact hall p hp
      · exact hrem p (Or.inr hp)
  | strFlagSet =>
    simp only [RunState.step] at h
    split_ifs at h
    · rw [← Except.ok.inj h]
      exact ⟨hinv.sched, hinv.config, hinv.rem⟩
    · rw [← Except.ok.inj h]
      exact hinv

theorem run_strInv (clock : Nat → Int) (cfg : Configuration) :
    ∀ (schedule : List Action) (s s' : RunState), StrInv cfg s →
      RunState.run clock s schedule = .ok s' → StrInv cfg s' := by
  intro schedule
  induction schedule with
  | nil =>
    intro s s' hinv h
    simp only [RunState.run] at h
    rw [← Except.ok.inj h]
    exact hinv
  | cons a rest ih =>
    intro s s' hinv h
    simp only [RunState.run] at h
    split at h
    · exact absurd h (by simp)
    · rename_i s1 h1
      exact ih s1 s' (step_strInv clock cfg s s1 a hinv h1) h

theorem runProcessesStart_strInv (cfg : Configuration)
    (mdf : Option (List (List Token))) (r r1 : OSprocessRunner)
    (hs : r.schedCode_ = 1) (hc : r.configObj_ = cfg)
    (hq : r.readyQ_.processVect_ = []) (h : r.runProcessesStart mdf = .ok r1) :
    StrInv cfg { runner := r1, position := .outerTest, completed := [] } := by
  unfold OSprocessRunner.runProcessesStart at h
  simp only [] at h
  split at h
  · exact absurd h (by simp)
  · rename_i r2 h2
    obtain ⟨f1, f2, new, hnew, hall⟩ :=
      importMDF_rem cfg mdf { r with memAddress_ := 0 } r2 hc h2
    simp only [hq, List.nil_append] at hnew
    have hs2 : r2.schedCode_ = 1 := by rw [f1]; exact hs
    rw [if_pos hs2] at h
    rw [← Except.ok.inj h]
    refine ⟨hs2, by rw [f2]; exact hc, ?_⟩
    intro p hp
    simp only [RunState.processes, List.nil_append, List.append_nil] at hp
    have hp' := (sortReadyQueue_perm r2.readyQ_).1.mem_iff.mp hp
    rw [hnew] at hp'
    exact hall p hp'

theorem insertTime_timesNonneg (c : Configuration) (key : String) (ct : CycleTime)
    (h : c.TimesNonneg) (hct : 0 ≤ ct.getTime) : (c.insertTime key ct).TimesNonneg := by
  unfold Configuration.insertTime
  split
  · exact h
  · intro kv hkv
    simp only [List.mem_append, List.mem_singleton] at hkv
    rcases hkv with hkv | hkv
    · exact h kv hkv
    · rw [hkv]; exact hct

theorem handleTime_timesNonneg (c c' : Configuration) (value : String) (cmd : Command)
    (hc : c.TimesNonneg) (h : c.handleTime value cmd = .ok c') : c'.TimesNonneg := by
  by_cases hneg : atoi value < 0
  · unfold Configuration.handleTime at h
    simp only [hneg, if_true] at h
    exact absurd h (by simp)
  · have hnn : 0 ≤ atoi value := by omega
    rw [handleTime_nonneg c value cmd hnn] at h
    cases cmd <;> simp only [Except.ok.injEq] at h <;> rw [← h] <;>
      first
      | exact hc
      | exact insertTime_timesNonneg c _ _ hc hnn

theorem handlers_timeMap (c c' : Configuration) (negativeVersion : String → Bool)
    (value : String) (n : Int) :
    (c.handleVersion negativeVersion value = .ok c' → c'.timeMap_ = c.timeMap_) ∧
    (c.handlePQN value = .ok c' → c'.timeMap_ = c.timeMap_) ∧
    (c.handleSchedCode value = .ok c' → c'.timeMap_ = c.timeMap_) ∧
    (c.handleLog value = .ok c' → c'.timeMap_ = c.timeMap_) ∧
    (c.handleSystemMemory value n = .ok c' → c'.timeMap_ = c.timeMap_) ∧
    (c.handleBlockSize value n = .ok c' → c'.timeMap_ = c.timeMap_) ∧
    (c.handleResource value n = .ok c' → c'.timeMap_ = c.timeMap_) := by
  refine ⟨?_, ?_, ?_, ?_, ?_, ?_, ?_⟩
  · intro h
    unfold Configuration.handleVersion at h
    split_ifs at h
    rw [← Except.ok.inj h]
  · intro h
    unfold Configuration.handlePQN at h
    simp only [] at h
    split_ifs at h
    rw [← Except.ok.inj h]
  · intro h
    unfold Configuration.handleSchedCode at h
    split_ifs at h <;> rw [← Except.ok.inj h]
  · intro h
    unfold Configuration.handleLog at h
    split_ifs at h <;> rw [← Except.ok.inj h]
  · intro h
    unfold Configuration.handleSystemMemory at h
    simp only [] at h
    split_ifs at h <;> rw [← Except.ok.inj h]
  · intro h
    unfold Configuration.handleBlockSize at h
    simp only [] at h
    split_ifs at h <;> rw [← Except.ok.inj h]
  · intro h
    unfold Configuration.handleResource at h
    simp only [] at h
    split_ifs at h
    rw [← Except.ok.inj h]

theorem parseCommandString_timesNonneg (c c' : Configuration)
    (negativeVersion : String → Bool) (line : ConfigLine) (hc : c.TimesNonneg)
    (h : c.parseCommandString negativeVersion line = .ok c') : c'.TimesNonneg := by
  cases line with
  | delimiter =>
    simp only [Configuration.parseCommandString] at h
    rw [← Except.ok.inj h]
    exact hc
  | command key value =>
    obtain ⟨⟨k1, k2, k3, k4, k5, k6⟩, ⟨t1, t2, t3, t4, t5, t6, t7⟩, ⟨m1, m2, m3, m4, m5, m6⟩,
      ⟨q1, q2, q3, q4, q5⟩⟩ := parseCommandString_keys c negativeVersion value
    have keep : c'.timeMap_ = c.timeMap_ → c'.TimesNonneg := fun he => by
      unfold Configuration.TimesNonneg
      rw [he]
      exact hc
    by_cases hk : key ∈ knownKeys
    · simp only [knownKeys, List.mem_cons, List.mem_singleton, List.not_mem_nil, or_false] at hk
      rcases hk with hk | hk | hk | hk | hk | hk | hk | hk | hk | hk | hk | hk | hk | hk |
        hk | hk | hk | hk | hk | hk | hk | hk | hk | hk <;> subst hk
      · rw [k1] at h
        exact keep ((handlers_timeMap c c' negativeVersion value 0).1 h)
      · rw [k2] at h
        rw [← Except.ok.inj h]
        exact hc
      · rw [k3] at h
        exact keep ((handlers_timeMap c c' negativeVersion value 0).2.1 h)
      · rw [k4] at h
        exact keep ((handlers_timeMap c c' negativeVersion value 0).2.2.1 h)
      · rw [t1] at h
        exact handleTime_timesNonneg c c' _ _ hc h
      · rw [t2] at h
        exact handleTime_timesNonneg c c' _ _ hc h
      · rw [t3] at h
        exact handleTime_timesNonneg c c' _ _ hc h
      · rw [t4] at h
        exact handleTime_timesNonneg c c' _ _ hc h
      · rw [t5] at h
        exact handleTime_timesNonneg c c' _ _ hc h
      · rw [t6] at h
        exact handleTime_timesNonneg c c' _ _ hc h
      · rw [t7] at h
        exact handleTime_timesNonneg c c' _ _ hc h
      · rw [k5] at h
        exact keep ((handlers_timeMap c c' negativeVersion value 0).2.2.2.1 h)
      · rw [k6] at h
        rw [← Except.ok.inj h]
        exact hc
      · rw [m1] at h
        exact keep ((handlers_timeMap c c' negativeVersion value _).2.2.2.2.1 h)
      · rw [m2] at h
        exact keep ((handlers_timeMap c c' negativeVersion value _).2.2.2.2.1 h)
      · rw [m3] at h
        exact keep ((handlers_timeMap c c' negativeVersion value _).2.2.2.2.1 h)
      · rw [m4] at h
        exact keep ((handlers_timeMap c c' negativeVersion value _).2.2.2.2.2.1 h)
      · rw [m5] at h
        exact keep ((handlers_timeMap c c' negativeVersion value _).2.2.2.2.2.1 h)
      · rw [m6] at h
        exact keep ((handlers_timeMap c c' negativeVersion value _).2.2.2.2.2.1 h)
      · rw [q1] at h
        exact keep ((handlers_timeMap c c' negativeVersion value _).2.2.2.2.2.2 h)
      · rw [q2] at h
        exact keep ((handlers_timeMap c c' negativeVersion value _).2.2.2.2.2.2 h)
      · rw [q3] at h
        exact keep ((handlers_timeMap c c' negativeVersion value _).2.2.2.2.2.2 h)
      · rw [q4] at h
        exact keep ((handlers_timeMap c c' negativeVersion value _).2.2.2.2.2.2 h)
      · rw [q5] at h
        exact keep ((handlers_timeMap c c' negativeVersion value _).2.2.2.2.2.2 h)
    · rw [parseCommandString_unknown c negativeVersion key value hk] at h
      exact absurd h (by simp)

theorem parseCommandStrings_timesNonneg (negativeVersion : String → Bool) :
    ∀ (lines : List ConfigLine) (c c' : Configuration), c.TimesNonneg →
      Configuration.parseCommandStrings negativeVersion c lines = .ok c' →
      c'.TimesNonneg := by
  intro lines
  induction lines with
  | nil =>
    intro c c' hc h
    simp only [Configuration.parseCommandStrings] at h
    rw [← Except.ok.inj h]
    exact hc
  | cons line rest ih =>
    intro c c' hc h
    simp only [Configuration.parseCommandStrings] at h
    split at h
    · exact absurd h (by simp)
    · rename_i c1 h1
      exact ih c1 c' (parseCommandString_timesNonneg c c1 negativeVersion line hc h1) h

theorem parseConfigFile_timesNonneg (negativeVersion : String → Bool)
    (configFile : Option (List ConfigLine)) (c : Configuration)
    (h : Configuration.new.parseConfigFile negativeVersion configFile = .ok c) :
    c.TimesNonneg := by
  unfold Configuration.parseConfigFile at h
  split at h
  · exact absurd h (by simp)
  · rename_i lines
    exact parseCommandStrings_timesNonneg negativeVersion lines _ c
      (fun kv hkv => absurd hkv (by simp [Configuration.new])) h

theorem sum_drop_range (l : List MetaCommand) (k : Nat)
    (h : ∀ m ∈ l, 0 ≤ m.getTime) :
    0 ≤ ((l.drop k).map MetaCommand.getTime).sum ∧
    ((l.drop k).map MetaCommand.getTime).sum ≤ (l.map MetaCommand.getTime).sum := by
  have hd : 0 ≤ ((l.drop k).map MetaCommand.getTime).sum := by
    apply List.sum_nonneg
    intro t ht
    obtain ⟨m, hm, hmt⟩ := List.mem_map.mp ht
    rw [← hmt]
    exact h m (List.mem_of_mem_drop hm)
  have ht : 0 ≤ ((l.take k).map MetaCommand.getTime).sum := by
    apply List.sum_nonneg
    intro t ht
    obtain ⟨m, hm, hmt⟩ := List.mem_map.mp ht
    rw [← hmt]
    exact h m (List.mem_of_mem_take hm)
  have hs : (l.map MetaCommand.getTime).sum =
      ((l.take k).map MetaCommand.getTime).sum + ((l.drop k).map MetaCommand.getTime).sum := by
    rw [← List.sum_append, ← List.map_append, List.take_append_drop]
  exact ⟨hd, by omega⟩

theorem timeOfRemaining_inRange (p : Process) (h : p.TimesInRange) :
    InIntRange p.timeOfRemaining ∧ 0 ≤ p.timeOfRemaining := by
  obtain ⟨h1, h2⟩ := h
  obtain ⟨h3, h4⟩ := sum_drop_range p.metaCmdVect_ p.getOpIndex h1
  unfold Process.timeOfRemaining InIntRange
  exact ⟨⟨by omega, by omega⟩, h3⟩

/-! ### C29 -/

set_option maxRecDepth 20000 in

/-- C29, counterexample: under the STR configuration `strConfig` (10 ms per processor cycle)
the loader accepts the file `S{begin}0; A{begin}0; P{run}200000000; P{run}200000000;
A{finish}0; S{finish}0;`; the process it inserts has operations of 0, 2000000000, 2000000000
and 0 ms, which sum to 4000000000 ms, and the time remaining `-294967296`: the accumulator is
an `int` and 4000000000 wraps.  After the dispatch and the execution of `A{begin}` by the
engine the running process has operation index 1, its operations from that position on sum
to 4000000000 ms and its time remaining is `-294967296`, which is negative.  And the process
of the file `S{begin}0; A{begin}0; P{run}300000000; A{finish}0; S{finish}0;` has an operation
of `-1294967296` ms (the `int` product of 300000000 cycles and 10 ms) and the time remaining
`-1294967296`. -/
theorem rem_ms_overflow :
    ((freshLoader strConfig).parseMDF (some [remOverflowStream]) (ReadyQueue.new 1)).toOption.map
        (fun x => x.2.processVect_.map (fun p =>
          (p.metaCmdVect_.map MetaCommand.getTime, p.getOpIndex, p.getProcessTimeRemain))) =
      some [([0, 2000000000, 2000000000, 0], 0, -294967296)] ∧
    (strRunner.runProcesses tickClock (some [remOverflowStream])
        [.engine, .engine]).toOption.map
        (fun s => s.processes.map (fun p =>
          (((p.metaCmdVect_.drop p.getOpIndex).map MetaCommand.getTime).sum, p.getOpIndex,
            p.getProcessTimeRemain))) =
      some [(4000000000, 1, -294967296)] ∧
    wrapInt 4000000000 = -294967296 ∧
    ((freshLoader strConfig).parseMDF (some [overflowStream]) (ReadyQueue.new 1)).toOption.map
        (fun x => x.2.processVect_.map (fun p =>
          (p.metaCmdVect_.map MetaCommand.getTime, p.getOpIndex, p.getProcessTimeRemain))) =
      some [([0, -1294967296, 0], 0, -1294967296)] := by
  decide

/-- C29, amended: every process a fresh loader appends to the ready queue, under any
configuration, has operation index 0 and as time remaining the `int` the sum of the times of
all its operations wraps to; when no operation of the process has a negative time and the
times of its operations sum to less than `2 ^ 31`, the time remaining equals that sum.  And in
every state of a run of `runProcesses()` under STR, under any schedule of the other threads
(so after every step of the engine, an operation executed or a preemption), every process the
engine holds (running, ready or completed) has as time remaining the `int` the sum of the
times of its operations at the positions from its operation index on wraps to, which is 0
when the operation index is the number of operations; when no operation of the process has a
negative time and the times of its operations sum to less than `2 ^ 31`, the time remaining
equals that sum and is not negative. -/
theorem rem_ms_invariant (clock : Nat → Int) (cfg : Configuration) (begin : Int)
    (statics : Resources) (mdf : Option (List (List Token))) (schedule : List Action)
    (s : RunState)
    (hstr : cfg.getSchedCode = 1)
    (h : (OSprocessRunner.new begin cfg statics).runProcesses clock mdf schedule = .ok s) :
    (∀ (cfg' : Configuration) (lines : List (List Token)) (q : ReadyQueue)
        (x : MetaData × ReadyQueue),
      (freshLoader cfg').parseMDF (some lines) q = .ok x →
      ∃ new, x.2.processVect_ = q.processVect_ ++ new ∧
        ∀ p ∈ new, p.getOpIndex = 0 ∧
          p.getProcessTimeRemain = wrapInt (p.metaCmdVect_.map MetaCommand.getTime).sum ∧
          (p.TimesInRange →
            p.getProcessTimeRemain = (p.metaCmdVect_.map MetaCommand.getTime).sum)) ∧
    ∀ p ∈ s.processes,
      p.getProcessTimeRemain =
        wrapInt ((p.metaCmdVect_.drop p.getOpIndex).map MetaCommand.getTime).sum ∧
      (p.getOpIndex = p.getNumberOfCommands → p.getProcessTimeRemain = 0) ∧
      (p.TimesInRange →
        p.getProcessTimeRemain =
          ((p.metaCmdVect_.drop p.getOpIndex).map MetaCommand.getTime).sum ∧
        0 ≤ p.getProcessTimeRemain) := by
  refine ⟨?_, ?_⟩
  · intro cfg' lines q x hx
    obtain ⟨new, hnew, hall⟩ := parseMDF_rem cfg' (some lines) q x hx
    refine ⟨new, hnew, fun p hp => ?_⟩
    have h1 : p.getProcessTimeRemain = wrapInt p.timeOfRemaining := (hall p hp).2
    have h0 : p.getOpIndex = 0 := (hall p hp).1
    have ht : p.timeOfRemaining = (p.metaCmdVect_.map MetaCommand.getTime).sum := by
      rw [Process.timeOfRemaining, h0, List.drop_zero]
    refine ⟨h0, by rw [h1, ht], ?_⟩
    intro hr
    rw [h1, wrapInt_of_range _ (timeOfRemaining_inRange p hr).1, ht]
  · unfold OSprocessRunner.runProcesses at h
    split at h
    · exact absurd h (by simp)
    · rename_i r1 h1
      have h0 := runProcessesStart_strInv cfg mdf _ r1 hstr rfl rfl h1
      have hinv := run_strInv clock cfg schedule _ s h0 h
      intro p hp
      have hr : p.getProcessTimeRemain = wrapInt p.timeOfRemaining := hinv.rem p hp
      refine ⟨hr, ?_, ?_⟩
      · intro hend
        rw [hr]
        unfold Process.timeOfRemaining
        rw [hend, Process.getNumberOfCommands, List.drop_length]
        rfl
      · intro hin
        obtain ⟨hi1, hi2⟩ := timeOfRemaining_inRange p hin
        have he : p.getProcessTimeRemain = p.timeOfRemaining := by
          rw [hr, wrapInt_of_range _ hi1]
        exact ⟨he, by rw [he]; exact hi2⟩

set_option maxRecDepth 20000 in

/-- Witness of the amended C29: the configuration file `strLines` gives the configuration
`strConfig`; after three steps of the engine on the metadata file `twinStream` process 1 is
running with operation index 2 and 0 ms remaining (its `P{run}` of 10 ms is executed),
process 2 is queued with operation index 0 and 10 ms remaining; no operation of the two has a
negative time and the times of each sum to less than `2 ^ 31`. -/
theorem rem_ms_invariant_witness :
    Configuration.new.parseConfigFile (fun _ => false) (some strLines) = .ok strConfig ∧
    strConfig.getSchedCode = 1 ∧
    (OSprocessRunner.new 0 strConfig
        (fillResourceDeques Resources.initial 1 1 1 1 1)).runProcesses
      tickClock (some [twinStream]) [.engine, .engine, .engine] = .ok strMidRun ∧
    strMidRun.processes.map
        (fun p => (p.getProcessNumber, p.getOpIndex, p.getProcessTimeRemain)) =
      [(1, 2, 0), (2, 0, 10)] ∧
    (∀ p ∈ strMidRun.processes, p.TimesInRange) ∧
    (∀ (cfg' : Configuration) (lines : List (List Token)) (q : ReadyQueue)
        (x : MetaData × ReadyQueue),
      (freshLoader cfg').parseMDF (some lines) q = .ok x →
      ∃ new, x.2.processVect_ = q.processVect_ ++ new ∧
        ∀ p ∈ new, p.getOpIndex = 0 ∧
          p.getProcessTimeRemain = wrapInt (p.metaCmdVect_.map MetaCommand.getTime).sum ∧
          (p.TimesInRange →
            p.getProcessTimeRemain = (p.metaCmdVect_.map MetaCommand.getTime).sum)) ∧
    ∀ p ∈ strMidRun.processes,
      p.getProcessTimeRemain =
        wrapInt ((p.metaCmdVect_.drop p.getOpIndex).map MetaCommand.getTime).sum ∧
      (p.getOpIndex = p.getNumberOfCommands → p.getProcessTimeRemain = 0) ∧
      (p.TimesInRange →
        p.getProcessTimeRemain =
          ((p.metaCmdVect_.drop p.getOpIndex).map MetaCommand.getTime).sum ∧
        0 ≤ p.getProcessTimeRemain) :=
  have hc : Configuration.new.parseConfigFile (fun _ => false) (some strLines) =
      .ok strConfig := by rfl
  have h : (OSprocessRunner.new 0 strConfig
        (fillResourceDeques Resources.initial 1 1 1 1 1)).runProcesses
      tickClock (some [twinStream]) [.engine, .engine, .engine] = .ok strMidRun := by rfl
  ⟨hc, by decide, h, by decide, by decide,
    rem_ms_invariant tickClock strConfig 0
      (fillResourceDeques Resources.initial 1 1 1 1 1) (some [twinStream])
      [.engine, .engine, .engine] strMidRun (by decide) h⟩


theorem advances_of_mem (L L' : List Process) (h : ∀ p ∈ L, p ∈ L') : Advances L L' :=
  fun p hp => ⟨p, h p hp, rfl, rfl, Nat.le_refl _⟩

theorem advances_refl (L : List Process) : Advances L L :=
  advances_of_mem L L (fun _ hp => hp)

theorem advances_trans (L1 L2 L3 : List Process) (h12 : Advances L1 L2)
    (h23 : Advances L2 L3) : Advances L1 L3 := by
  intro p hp
  obtain ⟨p2, hp2, a1, a2, a3⟩ := h12 p hp
  obtain ⟨p3, hp3, b1, b2, b3⟩ := h23 p2 hp2
  exact ⟨p3, hp3, b1.trans a1, b2.trans a2, Nat.le_trans a3 b3⟩

theorem engineStep_advances (clock : Nat → Int) (s s' : RunState)
    (h : s.engineStep clock = .ok s') : Advances s.processes s'.processes := by
  obtain ⟨r, pos, done⟩ := s
  cases pos with
  | returned =>
    simp only [RunState.engineStep] at h
    rw [← Except.ok.inj h]
    exact advances_refl _
  | outerTest =>
    simp only [RunState.engineStep] at h
    split_ifs at h with hpos
    · rw [← Except.ok.inj h]
      apply advances_of_mem
      intro p hp
      simp only [RunState.processes, ReadyQueue.removeProcess, List.singleton_append,
        List.cons_append, List.nil_append, List.mem_cons, List.mem_append] at hp ⊢
      rcases hp with hp | hp
      · cases hq : r.readyQ_.processVect_ with
        | nil => rw [hq] at hp; exact absurd hp (by simp)
        | cons a rest =>
          rw [hq] at hp
          simp only [List.headD_cons, List.tail_cons]
          rcases List.mem_cons.mp hp with hp | hp
          · exact Or.inl hp
          · exact Or.inr (Or.inl hp)
      · exact Or.inr (Or.inr hp)
    · rw [← Except.ok.inj h]
      exact advances_refl _
  | innerTest cur =>
    simp only [RunState.engineStep] at h
    split_ifs at h with hlt
    · split at h
      · exact absurd h (by simp)
      · rename_i x hx
        obtain ⟨_, heff⟩ := innerLoopBody_effect clock r cur x hx
        rcases heff with ⟨hbrk, hperm, _⟩ | ⟨hbrk, hq, cmd, evs, _, hops, hi, hpid, _⟩ | hsame
        · simp only [hbrk, if_true] at h
          rw [← Except.ok.inj h]
          apply advances_of_mem
          intro p hp
          simp only [RunState.processes, List.singleton_append, List.cons_append,
            List.nil_append, List.mem_cons, List.mem_append] at hp ⊢
          rcases hp with hp | hp | hp
          · exact Or.inl (hperm.mem_iff.mpr (by rw [hp]; exact List.mem_cons_self _ _))
          · exact Or.inl (hperm.mem_iff.mpr (List.mem_cons_of_mem _ hp))
          · exact Or.inr hp
        · simp only [hbrk, Bool.false_eq_true, if_false] at h
          rw [← Except.ok.inj h]
          intro p hp
          simp only [RunState.processes, List.singleton_append, List.cons_append,
            List.nil_append, List.mem_cons, List.mem_append, hq] at hp ⊢
          rcases hp with hp | hp | hp
          · refine ⟨x.2.1, Or.inl rfl, ?_, ?_, ?_⟩
            · rw [hp]; exact hpid
            · rw [hp]; exact hops
            · rw [hp]; simp only [Process.getOpIndex, hi]; omega
          · exact ⟨p, Or.inr (Or.inl hp), rfl, rfl, Nat.le_refl _⟩
          · exact ⟨p, Or.inr (Or.inr hp), rfl, rfl, Nat.le_refl _⟩
        · rw [hsame] at h
          simp only [Bool.false_eq_true, if_false] at h
          rw [← Except.ok.inj h]
          exact advances_refl _
    · rw [← Except.ok.inj h]
      apply advances_of_mem
      intro p hp
      simp only [RunState.processes, List.singleton_append, List.cons_append,
        List.nil_append, List.mem_cons, List.mem_append, List.mem_singleton] at hp ⊢
      tauto

theorem step_advances (clock : Nat → Int) (s s' : RunState) (a : Action)
    (h : s.step clock a = .ok s') : Advances s.processes s'.processes := by
  cases a with
  | engine => exact engineStep_advances clock s s' h
  | quantumExpired =>
    simp only [RunState.step] at h
    rw [← Except.ok.inj h]
    exact advances_refl _
  | timerArmed =>
    simp only [RunState.step] at h
    rw [← Except.ok.inj h]
    exact advances_refl _
  | mdfLoaded mdf =>
    simp only [RunState.step] at h
    split at h
    · exact absurd h (by simp)
    · rename_i r' hr'
      rw [← Except.ok.inj h]
      rw [importMDF_eq] at hr'
      cases hl : loadBatch s.runner.configObj_ mdf s.runner.readyQ_ with
      | error e => rw [hl] at hr'; exact absurd hr' (by simp)
      | ok q1 =>
        rw [hl] at hr'
        obtain ⟨new, h1, _⟩ := loadBatch_new _ _ _ _ hl
        rw [← Except.ok.inj hr']
        apply advances_of_mem
        intro p hp
        simp only [RunState.processes, h1, List.mem_append] at hp ⊢
        rcases hp with (hp | hp) | hp
        · exact Or.inl (Or.inl hp)
        · exact Or.inl (Or.inr (Or.inl hp))
        · exact Or.inr hp
  | strFlagSet =>
    simp only [RunState.step] at h
    split_ifs at h
    · rw [← Except.ok.inj h]
      exact advances_refl _
    · rw [← Except.ok.inj h]
      exact advances_refl _

theorem run_advances (clock : Nat → Int) :
    ∀ (schedule : List Action) (s s' : RunState),
      RunState.run clock s schedule = .ok s' → Advances s.processes s'.processes := by
  intro schedule
  induction schedule with
  | nil =>
    intro s s' h
    simp only [RunState.run] at h
    rw [← Except.ok.inj h]
    exact advances_refl _
  | cons a rest ih =>
    intro s s' h
    simp only [RunState.run] at h
    split at h
    · exact absurd h (by simp)
    · rename_i s1 h1
      exact advances_trans _ _ _ (step_advances clock s s1 a h1) (ih s1 s' h)

theorem getMetaCommand_in_bounds (cur : Process)
    (hlt : cur.getOpIndex < cur.getNumberOfCommands) :
    ∃ cmd, cur.getMetaCommand cur.getOpIndex = .ok cmd ∧
      cur.metaCmdVect_[cur.getOpIndex]? = some cmd := by
  have hl : cur.getOpIndex < cur.metaCmdVect_.length := hlt
  refine ⟨cur.metaCmdVect_[cur.getOpIndex], ?_, List.getElem?_eq_getElem hl⟩
  unfold Process.getMetaCommand
  rw [List.getElem?_eq_getElem hl]

theorem innerLoopBody_error (clock : Nat → Int) (r : OSprocessRunner) (cur : Process)
    (cmd : MetaCommand) (e : String) (hcmd : cur.getMetaCommand cur.getOpIndex = .ok cmd)
    (h : r.innerLoopBody clock cur = .error e) :
    ∃ r1 : OSprocessRunner, r1.executeOperation clock cmd cur.getProcessNumber = .error e := by
  unfold OSprocessRunner.innerLoopBody at h
  by_cases hrr : r.schedCode_ = 0
  · rw [if_pos hrr] at h
    simp only [] at h
    generalize hr1 : (if r.firstOperation_ = true then
      ({ r with firstOperation_ := false } : OSprocessRunner) else r) = r1 at h
    split_ifs at h with hflag
    rw [hcmd] at h
    simp only [] at h
    cases hex : OSprocessRunner.executeOperation clock ({ r1 with waitForOP_ := false }) cmd
        cur.getProcessNumber with
    | error e' =>
      rw [hex] at h
      rw [← Except.error.inj h]
      exact ⟨_, hex⟩
    | ok r2 => rw [hex] at h; exact absurd h (by simp)
  · rw [if_neg hrr] at h
    by_cases hstr : r.schedCode_ = 1
    · rw [if_pos hstr] at h
      split_ifs at h with hflag
      rw [hcmd] at h
      simp only [] at h
      cases hex : r.executeOperation clock cmd cur.getProcessNumber with
      | error e' =>
        rw [hex] at h
        rw [← Except.error.inj h]
        exact ⟨_, hex⟩
      | ok r2 => rw [hex] at h; exact absurd h (by simp)
    · rw [if_neg hstr] at h
      exact absurd h (by simp)

theorem engineStep_error (clock : Nat → Int) (s : RunState) (e : String)
    (h : s.engineStep clock = .error e) :
    ∃ (cur : Process) (cmd : MetaCommand) (r1 : OSprocessRunner), s.position = .innerTest cur ∧
      cur.getOpIndex < cur.getNumberOfCommands ∧
      cur.getMetaCommand cur.getOpIndex = .ok cmd ∧
      r1.executeOperation clock cmd cur.getProcessNumber = .error e := by
  obtain ⟨r, pos, done⟩ := s
  cases pos with
  | returned => simp only [RunState.engineStep] at h; exact absurd h (by simp)
  | outerTest =>
    simp only [RunState.engineStep] at h
    split_ifs at h
  | innerTest cur =>
    simp only [RunState.engineStep] at h
    split_ifs at h with hlt
    obtain ⟨cmd, hcmd, _⟩ := getMetaCommand_in_bounds cur hlt
    cases hb : r.innerLoopBody clock cur with
    | error e' =>
      rw [hb] at h
      have he : e' = e := Except.error.inj h
      rw [he] at hb
      obtain ⟨r1, hr1⟩ := innerLoopBody_error clock r cur cmd e hcmd hb
      exact ⟨cur, cmd, r1, rfl, hlt, hcmd, hr1⟩
    | ok x =>
      rw [hb] at h
      simp only [] at h
      split_ifs at h

theorem acquireResource_error (st : Resources) (d resource e : String)
    (h : acquireResource st d resource = .error e) :
    e = "sem_wait blocks" ∨ e = "front of an empty deque" := by
  unfold acquireResource at h
  split_ifs at h <;>
    first
    | exact Or.inl (Except.error.inj h).symm
    | exact absurd h (by simp)
    | (split at h
       · exact Or.inr (Except.error.inj h).symm
       · exact absurd h (by simp))

theorem executeOperation_error (clock : Nat → Int) (r : OSprocessRunner) (cmd : MetaCommand)
    (pid : Int) (e : String) (h : r.executeOperation clock cmd pid = .error e) :
    e = "sem_wait blocks" ∨ e = "front of an empty deque" := by
  unfold OSprocessRunner.executeOperation at h
  simp only [MetaCommand.getCode, MetaCommand.getDescriptor, MetaCommand.getTime] at h
  split_ifs at h with h1 h2 h3
  unfold OSprocessRunner.executeInputOutput OSprocessRunner.inputOutput at h
  simp only [] at h
  cases ha : acquireResource r.static_ cmd.descriptor_ "" with
  | error e' =>
    simp only [OSprocessRunner.tick] at h
    rw [ha] at h
    simp only [] at h
    rw [← Except.error.inj h]
    exact acquireResource_error _ _ _ _ ha
  | ok x =>
    simp only [OSprocessRunner.tick] at h
    rw [ha] at h
    exact absurd h (by simp)

/-! ### C30 -/

/-- C30: in every state of a run of `runProcesses()` of a newly constructed engine, under
either policy and any schedule of the other threads (preemption flags, loads of the metadata
file), every process the engine holds (running, ready or completed) has an operation index
that is at most the number of its operations, and the pids of these processes are distinct;
when the run goes on, every such process is held in the later state with the same pid, the
same operations and an operation index that is not smaller.  When the inner loop is entered
for the running process, the lookup `getMetaCommand(getOpIndex())`, which is the expression of
the first lookup and, under STR, of the second one (made before the index is incremented),
is in bounds and returns the operation at the operation index.  A step of the engine fails
only at the inner loop and only by a failure of `executeOperation` on that operation, which
is not the out-of-range failure of the lookup. -/
theorem pc_safety (clock : Nat → Int) (begin : Int) (cfg : Configuration)
    (statics : Resources) (mdf : Option (List (List Token))) (schedule more : List Action)
    (s s' : RunState)
    (h : (OSprocessRunner.new begin cfg statics).runProcesses clock mdf schedule = .ok s)
    (h' : RunState.run clock s more = .ok s') :
    (∀ p ∈ s.processes, p.getOpIndex ≤ p.getNumberOfCommands) ∧
    (pids s.processes).Nodup ∧
    (∀ p ∈ s.processes, ∃ p' ∈ s'.processes, p'.getProcessNumber = p.getProcessNumber ∧
      p'.metaCmdVect_ = p.metaCmdVect_ ∧ p.getOpIndex ≤ p'.getOpIndex) ∧
    (∀ cur, s.position = .innerTest cur → cur.getOpIndex < cur.getNumberOfCommands →
      ∃ cmd, cur.getMetaCommand cur.getOpIndex = .ok cmd ∧
        cur.metaCmdVect_[cur.getOpIndex]? = some cmd) ∧
    ∀ e, s.engineStep clock = .error e →
      e ≠ "std::out_of_range" ∧
      ∃ (cur : Process) (cmd : MetaCommand) (r1 : OSprocessRunner),
        s.position = .innerTest cur ∧ cur.getOpIndex < cur.getNumberOfCommands ∧
        cur.getMetaCommand cur.getOpIndex = .ok cmd ∧
        r1.executeOperation clock cmd cur.getProcessNumber = .error e := by
  have hinv : RunInv s := by
    unfold OSprocessRunner.runProcesses at h
    split at h
    · exact absurd h (by simp)
    · rename_i r1 h1
      exact run_inv clock schedule _ s (runProcessesStart_inv mdf _ r1 rfl rfl h1) h
  refine ⟨fun p hp => (hinv.tracked.shape p hp).1, hinv.tracked.nodup,
    run_advances clock more s s' h', fun cur _ hlt => getMetaCommand_in_bounds cur hlt, ?_⟩
  intro e he
  obtain ⟨cur, cmd, r1, h1, h2, h3, h4⟩ := engineStep_error clock s e he
  refine ⟨?_, cur, cmd, r1, h1, h2, h3, h4⟩
  rcases executeOperation_error clock r1 cmd _ e h4 with h5 | h5 <;> rw [h5] <;> decide

set_option maxRecDepth 20000 in

/-- Witness of C30: the run of `strRunner` on the metadata file `twinStream`.  After three
steps of the engine process 1 is running with operation index 2 and process 2 is queued with
operation index 0; then the STR flag is set, the engine preempts process 1, dispatches it
again (it has the smallest time remaining) and executes its `A{finish}`: process 1 is running
with operation index 3 and process 2 is queued with operation index 0. -/
theorem pc_safety_witness :
    (OSprocessRunner.new 0 strConfig
        (fillResourceDeques Resources.initial 1 1 1 1 1)).runProcesses
      tickClock (some [twinStream]) [.engine, .engine, .engine] = .ok strMidRun ∧
    RunState.run tickClock strMidRun [.strFlagSet, .engine, .engine, .engine] =
      .ok strLateRun ∧
    strMidRun.processes.map (fun p => (p.getProcessNumber, p.getOpIndex)) = [(1, 2), (2, 0)] ∧
    strLateRun.processes.map (fun p => (p.getProcessNumber, p.getOpIndex)) =
      [(1, 3), (2, 0)] ∧
    (∀ p ∈ strMidRun.processes, p.getOpIndex ≤ p.getNumberOfCommands) ∧
    (pids strMidRun.processes).Nodup ∧
    (∀ p ∈ strMidRun.processes, ∃ p' ∈ strLateRun.processes,
      p'.getProcessNumber = p.getProcessNumber ∧
      p'.metaCmdVect_ = p.metaCmdVect_ ∧ p.getOpIndex ≤ p'.getOpIndex) ∧
    (∀ cur, strMidRun.position = .innerTest cur →
      cur.getOpIndex < cur.getNumberOfCommands →
      ∃ cmd, cur.getMetaCommand cur.getOpIndex = .ok cmd ∧
        cur.metaCmdVect_[cur.getOpIndex]? = some cmd) ∧
    ∀ e, strMidRun.engineStep tickClock = .error e →
      e ≠ "std::out_of_range" ∧
      ∃ (cur : Process) (cmd : MetaCommand) (r1 : OSprocessRunner),
        strMidRun.position = .innerTest cur ∧ cur.getOpIndex < cur.getNumberOfCommands ∧
        cur.getMetaCommand cur.getOpIndex = .ok cmd ∧
        r1.executeOperation tickClock cmd cur.getProcessNumber = .error e :=
  have h : (OSprocessRunner.new 0 strConfig
        (fillResourceDeques Resources.initial 1 1 1 1 1)).runProcesses
      tickClock (some [twinStream]) [.engine, .engine, .engine] = .ok strMidRun := by rfl
  have h' : RunState.run tickClock strMidRun [.strFlagSet, .engine, .engine, .engine] =
      .ok strLateRun := by rfl
  ⟨h, h', by decide, by decide,
    pc_safety tickClock 0 strConfig (fillResourceDeques Resources.initial 1 1 1 1 1)
      (some [twinStream]) [.engine, .engine, .engine] [.strFlagSet, .engine, .engine, .engine]
      strMidRun strLateRun h h'⟩

theorem keyAt_sorted (v : List Process)
    (hv : v.Pairwise (fun a b => a.getProcessTimeRemain ≤ b.getProcessTimeRemain))
    (i j : Nat) (hij : i ≤ j) (hj : j < v.length) : keyAt v i ≤ keyAt v j := by
  have hi : i < v.length := by omega
  unfold keyAt
  rw [List.getD_eq_getElem _ _ hi, List.getD_eq_getElem _ _ hj]
  rcases Nat.lt_or_eq_of_le hij with h | h
  · exact (List.pairwise_iff_getElem.mp hv) i j hi hj h
  · subst h; exact le_refl _

theorem sortPass_sorted (s : Nat) (v : List Process)
    (hv : v.Pairwise (fun a b => a.getProcessTimeRemain ≤ b.getProcessTimeRemain)) :
    sortPass s v = v := by
  by_cases hs : s < v.length
  · obtain ⟨idx, h1, h2, _, h4, h5⟩ := sortPass_spec s v hs
    have hidx : idx = s := by
      by_contra hne
      have hlt : s < idx := by omega
      have ha := h4 s (le_refl _) hlt
      have hb := keyAt_sorted v hv s idx h1 h2
      omega
    rw [h5, hidx]
    simp only [List.getD_eq_getElem _ _ hs]
    rw [List.set_set]
    exact List.ext_getElem (by simp) (fun i h1 h2 => by
      rw [List.getElem_set]
      split_ifs with h
      · subst h; rfl
      · rfl)
  · exact sortPass_of_length_le s v (by omega)

theorem sortPasses_sorted_id :
    ∀ (n s : Nat) (v : List Process),
      v.Pairwise (fun a b => a.getProcessTimeRemain ≤ b.getProcessTimeRemain) →
      sortPasses n s v = v := by
  intro n
  induction n with
  | zero => intro s v _; rfl
  | succ n ih =>
    intro s v hv
    rw [sortPasses_succ, sortPass_sorted s v hv]
    exact ih (s + 1) v hv

/-! ### C36 -/

/-- C36: under STR, `sortReadyQueue` leaves unchanged every queue whose times remaining are
non-decreasing from head to tail (the comparison of the selection sort is strict, so every
pass exchanges a position with itself), and for every queue two calls of `sortReadyQueue`
leave the same queue as one call: the same processes at the same positions. -/
theorem sort_idempotent (q : ReadyQueue) (hq : q.schedCode_ = 1) :
    (q.processVect_.Pairwise (fun a b => a.getProcessTimeRemain ≤ b.getProcessTimeRemain) →
      q.sortReadyQueue = q) ∧
    q.sortReadyQueue.sortReadyQueue = q.sortReadyQueue := by
  have hid : ∀ q' : ReadyQueue, q'.schedCode_ = 1 →
      q'.processVect_.Pairwise
        (fun a b => a.getProcessTimeRemain ≤ b.getProcessTimeRemain) →
      q'.sortReadyQueue = q' := by
    intro q' hq' hv
    unfold ReadyQueue.sortReadyQueue
    rw [if_neg (by rw [hq']; decide), if_pos hq', sortPasses_sorted_id _ _ _ hv]
  refine ⟨hid q hq, ?_⟩
  have hs : q.sortReadyQueue.schedCode_ = 1 := by
    unfold ReadyQueue.sortReadyQueue
    simp [hq]
  apply hid _ hs
  rw [sortReadyQueue_str q hq]
  exact sortPasses_sorted q.processVect_

/-- Witness of C36 on the queue A, B, C with times remaining 2, 2, 1: one call gives C, B, A
and a second call leaves C, B, A. -/
theorem sort_idempotent_witness :
    queueABC.schedCode_ = 1 ∧
    queueABC.sortReadyQueue.processVect_.map (fun p => p.getProcessNumber) = [3, 2, 1] ∧
    ((queueABC.processVect_.Pairwise
        (fun a b => a.getProcessTimeRemain ≤ b.getProcessTimeRemain) →
      queueABC.sortReadyQueue = queueABC) ∧
    queueABC.sortReadyQueue.sortReadyQueue = queueABC.sortReadyQueue) :=
  ⟨rfl, by decide, sort_idempotent queueABC rfl⟩

theorem finishCount_cons_skip (t : Token) (rest : List Token)
    (hs : ¬ t.isCommand 'S' "finish") (ha : ¬ t.isCommand 'A' "finish") :
    finishCount (t :: rest) = finishCount rest := by
  unfold finishCount tokensBeforeFinish
  simp [List.takeWhile_cons, hs, ha]

theorem finishCount_cons_finish (t : Token) (rest : List Token)
    (hs : ¬ t.isCommand 'S' "finish") (ha : t.isCommand 'A' "finish") :
    finishCount (t :: rest) = finishCount rest + 1 := by
  unfold finishCount tokensBeforeFinish
  simp [List.takeWhile_cons, hs, ha]

theorem finishCount_cons_stop (t : Token) (rest : List Token)
    (hs : t.isCommand 'S' "finish") : finishCount (t :: rest) = 0 := by
  unfold finishCount tokensBeforeFinish
  simp [List.takeWhile_cons, hs]

theorem parseFullLine_count :
    ∀ (toks : List Token) (md : MetaData) (q : ReadyQueue) (x : MetaData × ReadyQueue),
      md.sFinishFound_ = false → md.parseFullLine toks q = .ok x →
      x.2.processVect_.length = q.processVect_.length + finishCount toks ∧
      x.2.processArrivalIndx_ = q.processArrivalIndx_ + finishCount toks := by
  intro toks
  induction toks with
  | nil =>
    intro md q x _ h
    simp only [MetaData.parseFullLine] at h
    rw [← Except.ok.inj h]
    exact ⟨rfl, rfl⟩
  | cons t rest ih =>
    intro md q x hsf h
    simp only [MetaData.parseFullLine, hsf, Bool.false_eq_true, if_false] at h
    cases hh : md.handler t.code t.descriptor t.cycles q with
    | error e => rw [hh] at h; exact absurd h (by simp)
    | ok y =>
      rw [hh] at h
      simp only [] at h
      obtain ⟨c, hc, _, _, hcase⟩ := handler_cases _ _ _ _ _ _ hh
      rcases hcase with ⟨_, hS, hd, hy⟩ | ⟨_, hS, hd, hy⟩ | ⟨_, _, hns, tm, _, hy⟩
      · have h1 : ¬ t.isCommand 'S' "finish" := by
          intro hf; rw [hf.2] at hd; exact absurd hd (by decide)
        have h2 : ¬ t.isCommand 'A' "finish" := by
          intro hf; rw [hf.2] at hd; exact absurd hd (by decide)
        rw [finishCount_cons_skip t rest h1 h2]
        rw [hy] at h
        exact ih ({ md with currentOpIndex_ := 1 }) q x hsf h
      · have h1 : t.isCommand 'S' "finish" := ⟨by rw [hc, hS], hd⟩
        rw [finishCount_cons_stop t rest h1]
        rw [hy, parseFullLine_of_sFinishFound _ _ _ rfl] at h
        rw [← Except.ok.inj h]
        exact ⟨rfl, rfl⟩
      · have h1 : ¬ t.isCommand 'S' "finish" := by
          intro hf
          apply hns
          refine ⟨?_, hf.2⟩
          have := hf.1
          rw [hc] at this
          exact Option.some.inj this
        have hsf' : y.1.sFinishFound_ = false := by
          rw [hy, storeResult_sFinishFound]; exact hsf
        obtain ⟨i1, i2⟩ := ih y.1 y.2 x hsf' h
        have hq := storeResult_queue md c t.descriptor (atoi t.cycles) tm q
        rw [← hy] at hq
        by_cases ha : c = 'A' ∧ t.descriptor = "finish"
        · have h2 : t.isCommand 'A' "finish" := ⟨by rw [hc, ha.1], ha.2⟩
          rw [finishCount_cons_finish t rest h1 h2]
          rw [if_pos ha] at hq
          rw [i1, i2, hq]
          simp only [List.length_append, List.length_singleton]
          omega
        · have h2 : ¬ t.isCommand 'A' "finish" := by
            intro hf
            apply ha
            refine ⟨?_, hf.2⟩
            have := hf.1
            rw [hc] at this
            exact Option.some.inj this
          rw [finishCount_cons_skip t rest h1 h2]
          rw [if_neg ha] at hq
          rw [i1, i2, hq]
          exact ⟨rfl, rfl⟩

/-! ### C35 -/

/-- C35: for every metadata file a fresh loader accepts, the load appends to the ready queue
as many processes as there are `A{finish}` tokens before the first `S{finish}` of the token
stream (all `A{finish}` tokens when there is no `S{finish}`), and the process arrival index
(the next pid) grows by the same number; the queue before the load is kept as a prefix.
Operations that follow the last such `A{finish}` are part of no process appended. -/
theorem processes_per_load (cfg : Configuration) (lines : List (List Token)) (q : ReadyQueue)
    (x : MetaData × ReadyQueue) (h : (freshLoader cfg).parseMDF (some lines) q = .ok x) :
    ∃ new, x.2.processVect_ = q.processVect_ ++ new ∧
      new.length = finishCount lines.flatten ∧
      x.2.processArrivalIndx_ = q.processArrivalIndx_ + finishCount lines.flatten := by
  obtain ⟨new, h1, _, _, _⟩ := parseMDF_appended cfg (some lines) q x h
  unfold MetaData.parseMDF at h
  simp only [] at h
  rw [parseLines_eq_flatten] at h
  obtain ⟨c1, c2⟩ := parseFullLine_count lines.flatten (freshLoader cfg) q x rfl h
  refine ⟨new, h1, ?_, c2⟩
  rw [h1, List.length_append] at c1
  omega

/-- Witness of C35: the stream `S{begin}0; A{begin}0; P{run}1; A{finish}0; A{begin}0;
P{run}2; S{finish}0` holds one `A{finish}`; its load succeeds and appends one process, of
three operations, and the next pid grows from 1 to 2: the operations `A{begin}0; P{run}2` of
the process that is not closed are dropped. -/
theorem processes_per_load_witness :
    (freshLoader strConfig).parseMDF (some [unclosedStream]) (ReadyQueue.new 1) =
      .ok unclosedLoad ∧
    finishCount [unclosedStream].flatten = 1 ∧
    unclosedLoad.2.processVect_.map (fun p => (p.getProcessNumber, p.getNumberOfCommands)) =
      [(1, 3)] ∧
    ((ReadyQueue.new 1).processArrivalIndx_, unclosedLoad.2.processArrivalIndx_) = (1, 2) ∧
    ∃ new, unclosedLoad.2.processVect_ = (ReadyQueue.new 1).processVect_ ++ new ∧
      new.length = finishCount [unclosedStream].flatten ∧
      unclosedLoad.2.processArrivalIndx_ =
        (ReadyQueue.new 1).processArrivalIndx_ + finishCount [unclosedStream].flatten :=
  have h : (freshLoader strConfig).parseMDF (some [unclosedStream]) (ReadyQueue.new 1) =
      .ok unclosedLoad := by rfl
  ⟨h, by decide, by decide, by decide,
    processes_per_load strConfig [unclosedStream] (ReadyQueue.new 1) unclosedLoad h⟩

theorem storeResult_state (md : MetaData) (c : Char) (d : String) (n t : Int)
    (q : ReadyQueue) :
    (storeResult md c d n t q).1.processObj_.state_ =
      if c = 'A' ∧ d = "begin" then none else md.processObj_.state_ := by
  simp only [storeResult, MetaData.finishProcess, MetaData.insertOperation,
    MetaData.startProcess]
  split_ifs <;> rfl

theorem handler_stateLoad (q0 : ReadyQueue) (md : MetaData) (q : ReadyQueue)
    (code d cycles : String) (x : MetaData × ReadyQueue)
    (hI : StateLoad q0 md q) (h : md.handler code d cycles q = .ok x) :
    StateLoad q0 x.1 x.2 := by
  obtain ⟨hst, new, hnew, hall⟩ := hI
  obtain ⟨c, _, _, _, hcase⟩ := handler_cases _ _ _ _ _ _ h
  rcases hcase with ⟨_, _, _, hx⟩ | ⟨_, _, _, hx⟩ | ⟨_, _, _, t, _, hx⟩
  · rw [hx]; exact ⟨hst, new, hnew, hall⟩
  · rw [hx]; exact ⟨hst, new, hnew, hall⟩
  · have hst' : (storeResult md c d (atoi cycles) t q).1.processObj_.state_ = none := by
      rw [storeResult_state]; split_ifs
      · rfl
      · exact hst
    rw [hx]
    refine ⟨hst', ?_⟩
    rw [storeResult_queue]
    split_ifs with hf
    · refine ⟨new ++ [(storeResult md c d (atoi cycles) t q).1.processObj_], ?_, ?_⟩
      · simp only [hnew, List.append_assoc]
      · intro p hp
        rcases List.mem_append.mp hp with hp | hp
        · exact hall p hp
        · simp only [List.mem_singleton] at hp
          rw [hp]; exact hst'
    · exact ⟨new, hnew, hall⟩

theorem parseMDF_state (cfg : Configuration) (mdf : Option (List (List Token)))
    (q : ReadyQueue) (x : MetaData × ReadyQueue)
    (h : (freshLoader cfg).parseMDF mdf q = .ok x) :
    ∃ new, x.2.processVect_ = q.processVect_ ++ new ∧ ∀ p ∈ new, p.state_ = none := by
  cases mdf with
  | none => exact absurd h (by simp [MetaData.parseMDF])
  | some lines =>
    unfold MetaData.parseMDF at h
    simp only [] at h
    rw [parseLines_eq_flatten] at h
    exact (parseFullLine_preserves (fun md q' => StateLoad q md q')
      (fun md q' code d cycles y hP hh => handler_stateLoad q md q' code d cycles y hP hh)
      lines.flatten (freshLoader cfg) q x ⟨rfl, [], by simp, by simp⟩ h).2

theorem innerLoopBody_process (clock : Nat → Int) (r : OSprocessRunner) (cur : Process)
    (x : OSprocessRunner × Process × Bool) (h : r.innerLoopBody clock cur = .ok x) :
    x.2.1 = cur ∨ x.2.1 = cur.incrementOpIndex ∨
      ∃ t, x.2.1 = (cur.subtractProcessTimeRemain t).incrementOpIndex := by
  unfold OSprocessRunner.innerLoopBody at h
  by_cases hrr : r.schedCode_ = 0
  · rw [if_pos hrr] at h
    simp only [] at h
    generalize hr1 : (if r.firstOperation_ = true then
      ({ r with firstOperation_ := false } : OSprocessRunner) else r) = r1 at h
    split_ifs at h with hflag
    · rw [← Except.ok.inj h]
      exact Or.inl rfl
    · cases hcmd : cur.getMetaCommand cur.getOpIndex with
      | error e => rw [hcmd] at h; exact absurd h (by simp)
      | ok cmd =>
        rw [hcmd] at h
        simp only [] at h
        cases hex : OSprocessRunner.executeOperation clock
            ({ r1 with waitForOP_ := false }) cmd cur.getProcessNumber with
        | error e => rw [hex] at h; exact absurd h (by simp)
        | ok r2 =>
          rw [hex] at h
          rw [← Except.ok.inj h]
          exact Or.inr (Or.inl rfl)
  · rw [if_neg hrr] at h
    by_cases hstr : r.schedCode_ = 1
    · rcases innerLoopBody_str_cases clock r cur x hstr
        (by unfold OSprocessRunner.innerLoopBody; rw [if_neg hrr]; exact h) with
        ⟨_, hx⟩ | ⟨_, cmd, r2, _, _, hx⟩
      · rw [hx]; exact Or.inl rfl
      · rw [hx]; exact Or.inr (Or.inr ⟨_, rfl⟩)
    · rw [if_neg hstr] at h
      rw [← Except.ok.inj h]
      exact Or.inl rfl

/-- A property of processes that the default process has and that neither the increment of
the operation index nor the subtraction of a time changes holds for every process of the
state after a step of the engine when it holds for every process before. -/
theorem engineStep_forall (P : Process → Prop) (hnew : P Process.new)
    (hinc : ∀ p, P p → P p.incrementOpIndex)
    (hsub : ∀ p t, P p → P (p.subtractProcessTimeRemain t))
    (clock : Nat → Int) (s s' : RunState) (hall : ∀ p ∈ s.processes, P p)
    (h : s.engineStep clock = .ok s') : ∀ p ∈ s'.processes, P p := by
  obtain ⟨r, pos, done⟩ := s
  cases pos with
  | returned =>
    simp only [RunState.engineStep] at h
    rw [← Except.ok.inj h]
    exact hall
  | outerTest =>
    simp only [RunState.engineStep] at h
    simp only [RunState.processes, List.nil_append] at hall
    split_ifs at h with hpos
    · rw [← Except.ok.inj h]
      intro p hp
      simp only [RunState.processes, ReadyQueue.removeProcess, List.singleton_append,
        List.cons_append, List.nil_append, List.mem_cons, List.mem_append] at hp
      rcases hp with hp | hp | hp
      · cases hq : r.readyQ_.processVect_ with
        | nil =>
          rw [hq] at hp
          rw [hp]
          exact hnew
        | cons a rest =>
          rw [hq] at hp
          rw [hp]
          exact hall a (List.mem_append_left _ (by rw [hq]; exact List.mem_cons_self _ _))
      · exact hall p (List.mem_append_left _ (List.mem_of_mem_tail hp))
      · exact hall p (List.mem_append_right _ hp)
    · rw [← Except.ok.inj h]
      exact hall
  | innerTest cur =>
    simp only [RunState.engineStep] at h
    simp only [RunState.processes, List.singleton_append, List.cons_append,
      List.nil_append] at hall
    have hcur : P cur := hall cur (List.mem_cons_self _ _)
    have hq : ∀ p ∈ r.readyQ_.processVect_, P p := fun p hp =>
      hall p (List.mem_cons_of_mem _ (List.mem_append_left _ hp))
    have hd : ∀ p ∈ done, P p := fun p hp =>
      hall p (List.mem_cons_of_mem _ (List.mem_append_right _ hp))
    split_ifs at h with hlt
    · split at h
      · exact absurd h (by simp)
      · rename_i x hx
        have hx1 : P x.2.1 := by
          rcases innerLoopBody_process clock r cur x hx with h1 | h1 | ⟨t, h1⟩
          · rw [h1]; exact hcur
          · rw [h1]; exact hinc cur hcur
          · rw [h1]; exact hinc _ (hsub cur t hcur)
        obtain ⟨_, heff⟩ := innerLoopBody_effect clock r cur x hx
        rcases heff with ⟨hbrk, hperm, _⟩ | ⟨hbrk, hqe, _⟩ | hsame
        · simp only [hbrk, if_true] at h
          rw [← Except.ok.inj h]
          intro p hp
          simp only [RunState.processes, List.nil_append, List.mem_append] at hp
          rcases hp with hp | hp
          · rcases List.mem_cons.mp (hperm.mem_iff.mp hp) with hp' | hp'
            · rw [hp']; exact hcur
            · exact hq p hp'
          · exact hd p hp
        · simp only [hbrk, Bool.false_eq_true, if_false] at h
          rw [← Except.ok.inj h]
          intro p hp
          simp only [RunState.processes, List.singleton_append, List.cons_append,
            List.nil_append, List.mem_cons, List.mem_append, hqe] at hp
          rcases hp with hp | hp | hp
          · rw [hp]; exact hx1
          · exact hq p hp
          · exact hd p hp
        · rw [hsame] at h
          simp only [Bool.false_eq_true, if_false] at h
          rw [← Except.ok.inj h]
          exact hall
    · rw [← Except.ok.inj h]
      intro p hp
      simp only [RunState.processes, List.nil_append, List.mem_append,
        List.mem_singleton] at hp
      rcases hp with hp | hp | hp
      · exact hq p hp
      · exact hd p hp
      · rw [hp]; exact hcur

theorem importMDF_new (mdf : Option (List (List Token))) (r r' : OSprocessRunner)
    (h : r.importMDF mdf = .ok r') :
    ∃ x, (freshLoader r.configObj_).parseMDF mdf r.readyQ_ = .ok x ∧ r'.readyQ_ = x.2 := by
  rw [importMDF_eq] at h
  unfold loadBatch at h
  cases hx : (freshLoader r.configObj_).parseMDF mdf r.readyQ_ with
  | error e => rw [hx] at h; exact absurd h (by simp)
  | ok x =>
    rw [hx] at h
    simp only [] at h
    rw [← Except.ok.inj h]
    exact ⟨x, rfl, rfl⟩

theorem step_forall (P : Process → Prop) (hnew : P Process.new)
    (hinc : ∀ p, P p → P p.incrementOpIndex)
    (hsub : ∀ p t, P p → P (p.subtractProcessTimeRemain t))
    (hload : ∀ (cfg : Configuration) (mdf : Option (List (List Token))) (q : ReadyQueue)
      (x : MetaData × ReadyQueue), (freshLoader cfg).parseMDF mdf q = .ok x →
      ∃ new, x.2.processVect_ = q.processVect_ ++ new ∧ ∀ p ∈ new, P p)
    (clock : Nat → Int) (s s' : RunState) (a : Action) (hall : ∀ p ∈ s.processes, P p)
    (h : s.step clock a = .ok s') : ∀ p ∈ s'.processes, P p := by
  cases a with
  | engine => exact engineStep_forall P hnew hinc hsub clock s s' hall h
  | quantumExpired =>
    simp only [RunState.step] at h
    rw [← Except.ok.inj h]
    exact hall
  | timerArmed =>
    simp only [RunState.step] at h
    rw [← Except.ok.inj h]
    exact hall
  | mdfLoaded mdf =>
    simp only [RunState.step] at h
    split at h
    · exact absurd h (by simp)
    · rename_i r' hr'
      rw [← Except.ok.inj h]
      obtain ⟨x, hx, hq⟩ := importMDF_new mdf s.runner r' hr'
      obtain ⟨new, hnew', hP⟩ := hload _ _ _ _ hx
      intro p hp
      simp only [RunState.processes, hq, hnew', List.mem_append] at hp hall
      rcases hp with (hp | hp | hp) | hp
      · exact hall p (Or.inl (Or.inl hp))
      · exact hall p (Or.inl (Or.inr hp))
      · exact hP p hp
      · exact hall p (Or.inr hp)
  | strFlagSet =>
    simp only [RunState.step] at h
    split_ifs at h
    · rw [← Except.ok.inj h]
      exact hall
    · rw [← Except.ok.inj h]
      exact hall

theorem runProcesses_forall (P : Process → Prop) (hnew : P Process.new)
    (hinc : ∀ p, P p → P p.incrementOpIndex)
    (hsub : ∀ p t, P p → P (p.subtractProcessTimeRemain t))
    (hload : ∀ (cfg : Configuration) (mdf : Option (List (List Token))) (q : ReadyQueue)
      (x : MetaData × ReadyQueue), (freshLoader cfg).parseMDF mdf q = .ok x →
      ∃ new, x.2.processVect_ = q.processVect_ ++ new ∧ ∀ p ∈ new, P p)
    (clock : Nat → Int) (mdf : Option (List (List Token))) (r : OSprocessRunner)
    (hq : r.readyQ_.processVect_ = []) (schedule : List Action) (s : RunState)
    (h : r.runProcesses clock mdf schedule = .ok s) : ∀ p ∈ s.processes, P p := by
  have hrun : ∀ (schedule : List Action) (s0 s1 : RunState), (∀ p ∈ s0.processes, P p) →
      RunState.run clock s0 schedule = .ok s1 → ∀ p ∈ s1.processes, P p := by
    intro schedule
    induction schedule with
    | nil =>
      intro s0 s1 hall h
      simp only [RunState.run] at h
      rw [← Except.ok.inj h]
      exact hall
    | cons a rest ih =>
      intro s0 s1 hall h
      simp only [RunState.run] at h
      split at h
      · exact absurd h (by simp)
      · rename_i s2 h2
        exact ih s2 s1 (step_forall P hnew hinc hsub hload clock s0 s2 a hall h2) h
  unfold OSprocessRunner.runProcesses at h
  split at h
  · exact absurd h (by simp)
  · rename_i r1 h1
    refine hrun schedule _ s ?_ h
    unfold OSprocessRunner.runProcessesStart at h1
    simp only [] at h1
    split at h1
    · exact absurd h1 (by simp)
    · rename_i r2 h2
      obtain ⟨x, hx, hq2⟩ := importMDF_new mdf _ r2 h2
      obtain ⟨new, hnew', hP⟩ := hload _ _ _ _ hx
      simp only [hq, List.nil_append] at hnew'
      intro p hp
      simp only [RunState.processes, List.nil_append, List.append_nil] at hp
      split_ifs at h1
      · rw [← Except.ok.inj h1] at hp
        have hp' := (sortReadyQueue_perm r2.readyQ_).1.mem_iff.mp hp
        rw [hq2, hnew'] at hp'
        exact hP p hp'
      · rw [← Except.ok.inj h1, hq2, hnew'] at hp
        exact hP p hp

/-! ### C32 -/

/-- C32, counterexample: the PCB state of the process that the load of `costStream` inserts
into the ready queue was never written (no statement has made it READY: the member holds the
indeterminate content the constructor left); and in the run `rrPreemptState` the preemption
of process 1 leaves the queue 2, 1 with the PCB state of both never written. -/
theorem inserted_process_not_ready :
    costLoad.2.processVect_.map (fun p => (p.getProcessNumber, p.getPCBstate)) =
      [(1, none)] ∧
    (rrPreemptState.runner.innerLoopBody tickClock rrPreemptProcess).toOption.map
      (fun x => (x.2.2, x.1.readyQ_.processVect_.map
        (fun p => (p.getProcessNumber, p.getPCBstate)))) =
      some (true, [(2, none), (1, none)]) := by
  decide

/-- C32, amended: neither the loader nor the engine writes the PCB state.  The PCB state of
every process a fresh loader appends to the ready queue is as its constructor left it, never
written; and in every state of a run of `runProcesses()` of a newly constructed engine, under
either policy and any schedule of the other threads, the PCB state of every process the
engine holds (the running one, the ready ones, among them those put back on preemption, and
the completed ones) was never written.  (The content of a member never written is
indeterminate: nothing is stated about the state a read of it would give.) -/
theorem pcb_state_unassigned (clock : Nat → Int) (begin : Int) (cfg : Configuration)
    (statics : Resources) (mdf : Option (List (List Token))) (schedule : List Action)
    (s : RunState)
    (h : (OSprocessRunner.new begin cfg statics).runProcesses clock mdf schedule = .ok s) :
    (∀ (cfg' : Configuration) (lines : List (List Token)) (q : ReadyQueue)
        (x : MetaData × ReadyQueue),
      (freshLoader cfg').parseMDF (some lines) q = .ok x →
      ∃ new, x.2.processVect_ = q.processVect_ ++ new ∧
        ∀ p ∈ new, p.getPCBstate = none) ∧
    ∀ p ∈ s.processes, p.getPCBstate = none := by
  have hall : ∀ p ∈ s.processes, p.getPCBstate = none :=
    runProcesses_forall (fun p => p.getPCBstate = none) rfl (fun _ hp => hp)
      (fun _ _ hp => hp) (fun cfg' mdf' q x hx => parseMDF_state cfg' mdf' q x hx)
      clock mdf _ rfl schedule s h
  exact ⟨fun cfg' lines q x hx => parseMDF_state cfg' (some lines) q x hx, hall⟩

set_option maxRecDepth 20000 in

/-- Witness of the amended C32: the run `rrPreemptState` of the engine of scenario S1 on the
metadata file `twinStream`, in which process 1 is running and process 2 is queued. -/
theorem pcb_state_unassigned_witness :
    (OSprocessRunner.new 0 fullConfig
        (fillResourceDeques Resources.initial 1 1 1 1 1)).runProcesses
      tickClock (some [twinStream]) [.engine, .engine, .quantumExpired] =
      .ok rrPreemptState ∧
    rrPreemptState.processes.map (fun p => (p.getProcessNumber, p.getPCBstate)) =
      [(1, none), (2, none)] ∧
    (∀ (cfg' : Configuration) (lines : List (List Token)) (q : ReadyQueue)
        (x : MetaData × ReadyQueue),
      (freshLoader cfg').parseMDF (some lines) q = .ok x →
      ∃ new, x.2.processVect_ = q.processVect_ ++ new ∧
        ∀ p ∈ new, p.getPCBstate = none) ∧
    ∀ p ∈ rrPreemptState.processes, p.getPCBstate = none :=
  have h : (OSprocessRunner.new 0 fullConfig
        (fillResourceDeques Resources.initial 1 1 1 1 1)).runProcesses
      tickClock (some [twinStream]) [.engine, .engine, .quantumExpired] =
      .ok rrPreemptState := by rfl
  ⟨h, by decide,
    pcb_state_unassigned tickClock 0 fullConfig
      (fillResourceDeques Resources.initial 1 1 1 1 1) (some [twinStream])
      [.engine, .engine, .quantumExpired] rrPreemptState h⟩

theorem acquire_release_rotate (s s1 : Resources) (d res x : String)
    (h : acquireResource s d res = .ok (s1, x)) (d' : String) :
    (releaseResource s1 d x).dequeOf d' = (s.dequeOf d').rotate (if d' = d then 1 else 0) ∧
    (releaseResource s1 d x).semaphoreOf d' = s.semaphoreOf d' := by
  have hcases : d = "hard drive" ∨ d = "keyboard" ∨ d = "scanner" ∨ d = "monitor" ∨
      d = "projector" ∨ (d ≠ "hard drive" ∧ d ≠ "keyboard" ∧ d ≠ "scanner" ∧ d ≠ "monitor" ∧
        d ≠ "projector") := by
    by_cases h1 : d = "hard drive"
    · exact Or.inl h1
    by_cases h2 : d = "keyboard"
    · exact Or.inr (Or.inl h2)
    by_cases h3 : d = "scanner"
    · exact Or.inr (Or.inr (Or.inl h3))
    by_cases h4 : d = "monitor"
    · exact Or.inr (Or.inr (Or.inr (Or.inl h4)))
    by_cases h5 : d = "projector"
    · exact Or.inr (Or.inr (Or.inr (Or.inr (Or.inl h5))))
    exact Or.inr (Or.inr (Or.inr (Or.inr (Or.inr ⟨h1, h2, h3, h4, h5⟩))))
  rcases hcases with hd | hd | hd | hd | hd | ⟨n1, n2, n3, n4, n5⟩
  case inr.inr.inr.inr.inr =>
    simp only [acquireResource, n1, n2, n3, n4, n5, if_false, Except.ok.injEq,
      Prod.mk.injEq] at h
    rw [← h.1]
    simp only [releaseResource, n1, n2, n3, n4, n5, if_false]
    refine ⟨?_, trivial⟩
    split_ifs with he
    · subst he
      simp [Resources.dequeOf, n1, n2, n3, n4, n5]
    · simp
  all_goals
    subst hd
    simp only [acquireResource, String.reduceEq, if_true, if_false] at h
    split_ifs at h
    split at h
    · exact absurd h (by simp)
    · rename_i y rest hdq
      simp only [Except.ok.injEq, Prod.mk.injEq] at h
      obtain ⟨hs1, hx⟩ := h
      subst hs1 hx
      simp only [releaseResource, Resources.dequeOf, Resources.semaphoreOf, String.reduceEq,
        if_true, if_false]
      split_ifs <;> simp_all [List.rotate_cons_succ]

theorem usesDevice_io (cmd : MetaCommand) (d : String)
    (h : cmd.code_ = 'I' ∨ cmd.code_ = 'O') :
    (cmd.usesDevice d = true) ↔ d = cmd.descriptor_ := by
  unfold MetaCommand.usesDevice
  rcases h with h | h <;> rw [h] <;>
    simp only [beq_self_eq_true, Bool.true_or, Bool.or_true, Bool.true_and, beq_iff_eq] <;>
    exact eq_comm

theorem usesDevice_not_io (cmd : MetaCommand) (d : String)
    (h : ¬ (cmd.code_ = 'I' ∨ cmd.code_ = 'O')) : cmd.usesDevice d = false := by
  unfold MetaCommand.usesDevice
  have a1 : ¬ cmd.code_ = 'I' := fun hc => h (Or.inl hc)
  have a2 : ¬ cmd.code_ = 'O' := fun hc => h (Or.inr hc)
  simp [a1, a2]

theorem executeOperation_rotate (clock : Nat → Int) (r r' : OSprocessRunner)
    (cmd : MetaCommand) (pid : Int) (h : r.executeOperation clock cmd pid = .ok r')
    (d : String) :
    r'.static_.dequeOf d =
      (r.static_.dequeOf d).rotate (if cmd.usesDevice d = true then 1 else 0) ∧
    r'.static_.semaphoreOf d = r.static_.semaphoreOf d := by
  unfold OSprocessRunner.executeOperation at h
  simp only [MetaCommand.getCode, MetaCommand.getDescriptor, MetaCommand.getTime] at h
  split_ifs at h with h1 h2 h3
  · rw [← Except.ok.inj h, static_executeApplication]
    have hu : cmd.usesDevice d = false :=
      usesDevice_not_io cmd d (by rw [h1]; decide)
    simp [hu]
  · rw [← Except.ok.inj h, static_executeProcessorMemory]
    have hu : cmd.usesDevice d = false :=
      usesDevice_not_io cmd d (by rcases h2 with h2 | h2 <;> rw [h2] <;> decide)
    simp [hu]
  · unfold OSprocessRunner.executeInputOutput OSprocessRunner.inputOutput at h
    simp only [] at h
    split at h
    · exact absurd h (by simp)
    · rename_i io hio
      split at hio
      · exact absurd hio (by simp)
      · rename_i acquired hacq
        simp only [Except.ok.injEq] at hio
        rw [← Except.ok.inj h, ← hio]
        have hrot := acquire_release_rotate _ _ _ _ _
          (show acquireResource r.static_ cmd.descriptor_ "" = .ok (acquired.1, acquired.2)
            from hacq) d
        simp only [usesDevice_io cmd d h3]
        exact hrot
  · rw [← Except.ok.inj h]
    have hu : cmd.usesDevice d = false := usesDevice_not_io cmd d h3
    simp [hu]

theorem innerLoopBody_static (clock : Nat → Int) (r : OSprocessRunner) (cur : Process)
    (x : OSprocessRunner × Process × Bool) (h : r.innerLoopBody clock cur = .ok x) :
    (¬ ((r.schedCode_ = 0 ∧ r.rrFlag_ = false) ∨ (r.schedCode_ = 1 ∧ r.strFlag_ = false)) ∧
      x.1.static_ = r.static_) ∨
    (((r.schedCode_ = 0 ∧ r.rrFlag_ = false) ∨ (r.schedCode_ = 1 ∧ r.strFlag_ = false)) ∧
      ∃ (cmd : MetaCommand) (r1 : OSprocessRunner), r1.static_ = r.static_ ∧
        cur.getMetaCommand cur.getOpIndex = .ok cmd ∧
        r1.executeOperation clock cmd cur.getProcessNumber = .ok x.1) := by
  unfold OSprocessRunner.innerLoopBody at h
  by_cases hrr : r.schedCode_ = 0
  · rw [if_pos hrr] at h
    simp only [] at h
    generalize hr1 : (if r.firstOperation_ = true then
      ({ r with firstOperation_ := false } : OSprocessRunner) else r) = r1 at h
    have hf1 : r1.rrFlag_ = r.rrFlag_ := by rw [← hr1]; split_ifs <;> rfl
    have hs1 : r1.static_ = r.static_ := by rw [← hr1]; split_ifs <;> rfl
    split_ifs at h with hflag
    · rw [← Except.ok.inj h]
      left
      rw [hf1] at hflag
      refine ⟨?_, ?_⟩
      · rintro (⟨_, hc⟩ | ⟨hc, _⟩)
        · rw [hflag] at hc; exact absurd hc (by decide)
        · rw [hrr] at hc; exact absurd hc (by decide)
      · unfold OSprocessRunner.logInterruption
        exact hs1
    · cases hcmd : cur.getMetaCommand cur.getOpIndex with
      | error e => rw [hcmd] at h; exact absurd h (by simp)
      | ok cmd =>
        rw [hcmd] at h
        simp only [] at h
        cases hex : OSprocessRunner.executeOperation clock
            ({ r1 with waitForOP_ := false }) cmd cur.getProcessNumber with
        | error e => rw [hex] at h; exact absurd h (by simp)
        | ok r2 =>
          rw [hex] at h
          rw [← Except.ok.inj h]
          right
          rw [hf1] at hflag
          exact ⟨Or.inl ⟨hrr, by simpa using hflag⟩, cmd, ({ r1 with waitForOP_ := false }),
            hs1, rfl, hex⟩
  · rw [if_neg hrr] at h
    by_cases hstr : r.schedCode_ = 1
    · rcases innerLoopBody_str_cases clock r cur x hstr
        (by unfold OSprocessRunner.innerLoopBody; rw [if_neg hrr]; exact h) with
        ⟨hflag, hx⟩ | ⟨hflag, cmd, r2, hcmd, hex, hx⟩
      · left
        refine ⟨?_, ?_⟩
        · rintro (⟨hc, _⟩ | ⟨_, hc⟩)
          · exact hrr hc
          · rw [hflag] at hc; exact absurd hc (by decide)
        · rw [hx]
          unfold OSprocessRunner.logInterruption
          rfl
      · right
        refine ⟨Or.inr ⟨hstr, hflag⟩, cmd, r, rfl, hcmd, ?_⟩
        rw [hx]
        exact hex
    · rw [if_neg hstr] at h
      rw [← Except.ok.inj h]
      left
      refine ⟨?_, rfl⟩
      rintro (⟨hc, _⟩ | ⟨hc, _⟩)
      · exact hrr hc
      · exact hstr hc

theorem innerLoopBody_error_static (clock : Nat → Int) (r : OSprocessRunner) (cur : Process)
    (cmd : MetaCommand) (e : String) (hcmd : cur.getMetaCommand cur.getOpIndex = .ok cmd)
    (h : r.innerLoopBody clock cur = .error e) :
    ∃ r1 : OSprocessRunner, r1.static_ = r.static_ ∧
      r1.executeOperation clock cmd cur.getProcessNumber = .error e := by
  unfold OSprocessRunner.innerLoopBody at h
  by_cases hrr : r.schedCode_ = 0
  · rw [if_pos hrr] at h
    simp only [] at h
    generalize hr1 : (if r.firstOperation_ = true then
      ({ r with firstOperation_ := false } : OSprocessRunner) else r) = r1 at h
    have hs1 : r1.static_ = r.static_ := by rw [← hr1]; split_ifs <;> rfl
    split_ifs at h with hflag
    rw [hcmd] at h
    simp only [] at h
    cases hex : OSprocessRunner.executeOperation clock ({ r1 with waitForOP_ := false }) cmd
        cur.getProcessNumber with
    | error e' =>
      rw [hex] at h
      rw [← Except.error.inj h]
      exact ⟨({ r1 with waitForOP_ := false }), hs1, hex⟩
    | ok r2 => rw [hex] at h; exact absurd h (by simp)
  · rw [if_neg hrr] at h
    by_cases hstr : r.schedCode_ = 1
    · rw [if_pos hstr] at h
      split_ifs at h with hflag
      rw [hcmd] at h
      simp only [] at h
      cases hex : r.executeOperation clock cmd cur.getProcessNumber with
      | error e' =>
        rw [hex] at h
        rw [← Except.error.inj h]
        exact ⟨_, rfl, hex⟩
      | ok r2 => rw [hex] at h; exact absurd h (by simp)
    · rw [if_neg hstr] at h
      exact absurd h (by simp)

theorem step_rotate (clock : Nat → Int) (s s' : RunState) (a : Action)
    (h : s.step clock a = .ok s') (d : String) :
    s'.runner.static_.dequeOf d =
      (s.runner.static_.dequeOf d).rotate (ioCount d (s.stepOperation a).toList) ∧
    s'.runner.static_.semaphoreOf d = s.runner.static_.semaphoreOf d := by
  have hsame : ∀ (st st' : Resources), st' = st →
      st'.dequeOf d = (st.dequeOf d).rotate (ioCount d []) ∧
      st'.semaphoreOf d = st.semaphoreOf d := by
    intro st st' he
    rw [he]
    simp [ioCount]
  cases a with
  | quantumExpired =>
    simp only [RunState.step] at h
    rw [← Except.ok.inj h]
    exact hsame _ _ rfl
  | timerArmed =>
    simp only [RunState.step] at h
    rw [← Except.ok.inj h]
    exact hsame _ _ rfl
  | mdfLoaded mdf =>
    simp only [RunState.step] at h
    split at h
    · exact absurd h (by simp)
    · rename_i r' hr'
      rw [← Except.ok.inj h]
      rw [importMDF_eq] at hr'
      split at hr'
      · exact absurd hr' (by simp)
      · rw [← Except.ok.inj hr']
        exact hsame _ _ rfl
  | strFlagSet =>
    simp only [RunState.step] at h
    split_ifs at h
    · rw [← Except.ok.inj h]
      exact hsame _ _ rfl
    · rw [← Except.ok.inj h]
      exact hsame _ _ rfl
  | engine =>
    obtain ⟨r, pos, done⟩ := s
    simp only [RunState.step] at h
    cases pos with
    | returned =>
      simp only [RunState.engineStep] at h
      rw [← Except.ok.inj h]
      exact hsame _ _ rfl
    | outerTest =>
      simp only [RunState.engineStep] at h
      split_ifs at h
      · rw [← Except.ok.inj h]
        exact hsame _ _ rfl
      · rw [← Except.ok.inj h]
        exact hsame _ _ rfl
    | innerTest cur =>
      simp only [RunState.engineStep] at h
      split_ifs at h with hlt
      · split at h
        · exact absurd h (by simp)
        · rename_i x hx
          have hs' : s'.runner.static_ = x.1.static_ := by
            split_ifs at h <;> rw [← Except.ok.inj h]
          rw [hs']
          rcases innerLoopBody_static clock r cur x hx with
            ⟨hno, hst⟩ | ⟨hyes, cmd, r1, hr1, hcmd, hex⟩
          · have hop : RunState.stepOperation ⟨r, .innerTest cur, done⟩ .engine = none := by
              simp only [RunState.stepOperation, hno, and_false, if_false]
            rw [hop]
            exact hsame _ _ hst
          · have hop : RunState.stepOperation ⟨r, .innerTest cur, done⟩ .engine =
                some (cmd, cur.getProcessNumber) := by
              simp only [RunState.stepOperation, hlt, hyes, and_self, if_true, hcmd]
            rw [hop]
            have hrot := executeOperation_rotate clock r1 x.1 cmd _ hex d
            rw [hr1] at hrot
            simp only [Option.toList, ioCount, List.countP_cons, List.countP_nil, Nat.zero_add]
            exact hrot
      · rw [← Except.ok.inj h]
        have hop : RunState.stepOperation ⟨r, .innerTest cur, done⟩ .engine = none := by
          simp only [RunState.stepOperation, hlt, false_and, if_false]
        rw [hop]
        exact hsame _ _ rfl

theorem run_rotate (clock : Nat → Int) (d : String) :
    ∀ (schedule : List Action) (s s' : RunState),
      RunState.run clock s schedule = .ok s' →
      s'.runner.static_.dequeOf d =
        (s.runner.static_.dequeOf d).rotate
          (ioCount d (RunState.operationsExecuted clock s schedule)) ∧
      s'.runner.static_.semaphoreOf d = s.runner.static_.semaphoreOf d := by
  intro schedule
  induction schedule with
  | nil =>
    intro s s' h
    simp only [RunState.run] at h
    rw [← Except.ok.inj h]
    simp [RunState.operationsExecuted, ioCount]
  | cons a rest ih =>
    intro s s' h
    simp only [RunState.run] at h
    cases h1 : s.step clock a with
    | error e => rw [h1] at h; exact absurd h (by simp)
    | ok s1 =>
      rw [h1] at h
      simp only [] at h
      obtain ⟨i1, i2⟩ := ih s1 s' h
      obtain ⟨f1, f2⟩ := step_rotate clock s s1 a h1 d
      refine ⟨?_, by rw [i2, f2]⟩
      rw [i1, f1, List.rotate_rotate]
      simp only [RunState.operationsExecuted, h1, ioCount, List.countP_append]

theorem acquireResource_total (st : Resources) (d res : String)
    (hfree : ∀ d' ∈ ioDevices, 0 < st.semaphoreOf d' ∧ st.dequeOf d' ≠ []) :
    ∃ x, acquireResource st d res = .ok x := by
  cases hacq : acquireResource st d res with
  | ok x => exact ⟨x, rfl⟩
  | error e =>
    exfalso
    unfold acquireResource at hacq
    have f1 := hfree "hard drive" (by decide)
    have f2 := hfree "keyboard" (by decide)
    have f3 := hfree "scanner" (by decide)
    have f4 := hfree "monitor" (by decide)
    have f5 := hfree "projector" (by decide)
    simp only [Resources.semaphoreOf, Resources.dequeOf, String.reduceEq, if_true,
      if_false] at f1 f2 f3 f4 f5
    split_ifs at hacq <;>
      first
      | omega
      | exact absurd hacq (by simp)
      | (split at hacq
         · rename_i hnil
           first
           | exact f1.2 hnil
           | exact f2.2 hnil
           | exact f3.2 hnil
           | exact f4.2 hnil
           | exact f5.2 hnil
         · exact absurd hacq (by simp))

theorem executeOperation_total (clock : Nat → Int) (r : OSprocessRunner) (cmd : MetaCommand)
    (pid : Int) (hfree : ∀ d' ∈ ioDevices, 0 < r.static_.semaphoreOf d' ∧
      r.static_.dequeOf d' ≠ []) :
    ∃ r', r.executeOperation clock cmd pid = .ok r' := by
  cases hex : r.executeOperation clock cmd pid with
  | ok r' => exact ⟨r', rfl⟩
  | error e =>
    exfalso
    unfold OSprocessRunner.executeOperation at hex
    simp only [MetaCommand.getCode, MetaCommand.getDescriptor, MetaCommand.getTime] at hex
    split_ifs at hex with h1 h2 h3
    unfold OSprocessRunner.executeInputOutput OSprocessRunner.inputOutput at hex
    simp only [OSprocessRunner.tick] at hex
    obtain ⟨x, hx⟩ := acquireResource_total r.static_ cmd.descriptor_ "" hfree
    rw [hx] at hex
    exact absurd hex (by simp)

theorem runProcessesStart_static (mdf : Option (List (List Token))) (r r' : OSprocessRunner)
    (h : r.runProcessesStart mdf = .ok r') : r'.static_ = r.static_ := by
  unfold OSprocessRunner.runProcessesStart at h
  simp only [] at h
  split at h
  · exact absurd h (by simp)
  · rename_i r2 h2
    rw [importMDF_eq] at h2
    split at h2
    · exact absurd h2 (by simp)
    · split_ifs at h <;> rw [← Except.ok.inj h, ← Except.ok.inj h2]

/-- The free lists and semaphores in a state of `runProcesses()` of an engine whose static
members `fillResourceDeques` has set: the free list of each kind is the list of its handles
rotated by the number of I and O operations executed on the kind, and the semaphore holds the
capacity. -/
theorem runProcesses_rotate (clock : Nat → Int) (rsc0 rsc1 rsc2 rsc3 rsc4 : Int)
    (mdf : Option (List (List Token))) (r : OSprocessRunner) (schedule : List Action)
    (s : RunState)
    (hfill : r.static_ = fillResourceDeques Resources.initial rsc0 rsc1 rsc2 rsc3 rsc4)
    (h : r.runProcesses clock mdf schedule = .ok s) (d : String) (hd : d ∈ ioDevices) :
    s.runner.static_.dequeOf d =
      (handleNames (handlePrefix d) (capacityOf d rsc0 rsc1 rsc2 rsc3 rsc4).toNat).rotate
        (ioCount d (r.operationsExecuted clock mdf schedule)) ∧
    s.runner.static_.semaphoreOf d = capacityOf d rsc0 rsc1 rsc2 rsc3 rsc4 := by
  unfold OSprocessRunner.runProcesses at h
  unfold OSprocessRunner.operationsExecuted
  cases h1 : r.runProcessesStart mdf with
  | error e => rw [h1] at h; exact absurd h (by simp)
  | ok r1 =>
    rw [h1] at h
    simp only [] at h ⊢
    obtain ⟨i1, i2⟩ := run_rotate clock d schedule _ s h
    have hs := runProcessesStart_static mdf r r1 h1
    simp only [hs, hfill] at i1 i2
    rw [fill_dequeOf rsc0 rsc1 rsc2 rsc3 rsc4 d hd] at i1
    rw [fill_semaphoreOf rsc0 rsc1 rsc2 rsc3 rsc4 d hd] at i2
    exact ⟨i1, i2⟩

theorem handleNames_rotate_head (pre : String) (n k : Nat) (hn : 0 < n) :
    ∃ rest, (handleNames pre n).rotate k = (pre ++ toString (k % n)) :: rest := by
  have hlen : (handleNames pre n).length = n := handleNames_length pre n
  have hk : k % n < (handleNames pre n).length := by rw [hlen]; exact Nat.mod_lt _ hn
  have hrot : (handleNames pre n).rotate k = (handleNames pre n).rotate (k % n) := by
    have := List.rotate_mod (handleNames pre n) k
    rw [hlen] at this
    exact this.symm
  rw [hrot, List.rotate_eq_drop_append_take (Nat.le_of_lt hk),
    List.drop_eq_getElem_cons hk, List.cons_append]
  refine ⟨List.drop (k % n + 1) (handleNames pre n) ++ List.take (k % n) (handleNames pre n),
    ?_⟩
  congr 1
  simp [handleNames]

theorem engineStep_error_static (clock : Nat → Int) (s : RunState) (e : String)
    (h : s.engineStep clock = .error e) :
    ∃ (cur : Process) (cmd : MetaCommand) (r1 : OSprocessRunner),
      r1.static_ = s.runner.static_ ∧
      r1.executeOperation clock cmd cur.getProcessNumber = .error e := by
  obtain ⟨r, pos, done⟩ := s
  cases pos with
  | returned => simp only [RunState.engineStep] at h; exact absurd h (by simp)
  | outerTest =>
    simp only [RunState.engineStep] at h
    split_ifs at h
  | innerTest cur =>
    simp only [RunState.engineStep] at h
    split_ifs at h with hlt
    obtain ⟨cmd, hcmd, _⟩ := getMetaCommand_in_bounds cur hlt
    cases hb : r.innerLoopBody clock cur with
    | error e' =>
      rw [hb] at h
      have he : e' = e := Except.error.inj h
      rw [he] at hb
      obtain ⟨r1, hs1, hr1⟩ := innerLoopBody_error_static clock r cur cmd e hcmd hb
      exact ⟨cur, cmd, r1, hs1, hr1⟩
    | ok x =>
      rw [hb] at h
      simp only [] at h
      split_ifs at h

/-! ### C33 -/

/-- C33: in every state of a run of `runProcesses()` of a newly constructed engine whose
static members `fillResourceDeques` has set with a capacity `N` of at least 1 for each of the
five device kinds, let `k` be the number of I and O operations on a kind that the engine has
executed so far in the run, over all processes.  Then the free list of the kind is the list
of its handles `P_0, ..., P_(N-1)` rotated by `k`, its head is the handle `P_(k mod N)`, and
the acquisition of `inputOutput` for the kind (the one of the `k`-th operation on the kind,
counted from 0) returns that handle; with `N = 1` it is `P_0`. -/
theorem handle_rotation (clock : Nat → Int) (begin : Int) (cfg : Configuration)
    (rsc0 rsc1 rsc2 rsc3 rsc4 : Int) (mdf : Option (List (List Token)))
    (schedule : List Action) (s : RunState)
    (hcap : ∀ d ∈ ioDevices, 1 ≤ capacityOf d rsc0 rsc1 rsc2 rsc3 rsc4)
    (h : (OSprocessRunner.new begin cfg
        (fillResourceDeques Resources.initial rsc0 rsc1 rsc2 rsc3 rsc4)).runProcesses
      clock mdf schedule = .ok s) :
    ∀ d ∈ ioDevices,
      s.runner.static_.dequeOf d =
        (handleNames (handlePrefix d) (capacityOf d rsc0 rsc1 rsc2 rsc3 rsc4).toNat).rotate
          (ioCount d ((OSprocessRunner.new begin cfg
            (fillResourceDeques Resources.initial rsc0 rsc1 rsc2 rsc3 rsc4)).operationsExecuted
            clock mdf schedule)) ∧
      (s.runner.static_.dequeOf d).head? = some (handlePrefix d ++ toString
        (ioCount d ((OSprocessRunner.new begin cfg
            (fillResourceDeques Resources.initial rsc0 rsc1 rsc2 rsc3 rsc4)).operationsExecuted
            clock mdf schedule) % (capacityOf d rsc0 rsc1 rsc2 rsc3 rsc4).toNat)) ∧
      (∀ res : String, ∃ st, acquireResource s.runner.static_ d res = .ok (st,
        handlePrefix d ++ toString
          (ioCount d ((OSprocessRunner.new begin cfg
            (fillResourceDeques Resources.initial rsc0 rsc1 rsc2 rsc3 rsc4)).operationsExecuted
            clock mdf schedule) % (capacityOf d rsc0 rsc1 rsc2 rsc3 rsc4).toNat))) ∧
      (capacityOf d rsc0 rsc1 rsc2 rsc3 rsc4 = 1 →
        (s.runner.static_.dequeOf d).head? = some (handlePrefix d ++ "0")) := by
  intro d hd
  have hN : 0 < (capacityOf d rsc0 rsc1 rsc2 rsc3 rsc4).toNat := by
    have := hcap d hd
    omega
  have hall : ∀ d' ∈ ioDevices,
      s.runner.static_.dequeOf d' =
        (handleNames (handlePrefix d') (capacityOf d' rsc0 rsc1 rsc2 rsc3 rsc4).toNat).rotate
          (ioCount d' ((OSprocessRunner.new begin cfg
            (fillResourceDeques Resources.initial rsc0 rsc1 rsc2 rsc3 rsc4)).operationsExecuted
            clock mdf schedule)) ∧
      s.runner.static_.semaphoreOf d' = capacityOf d' rsc0 rsc1 rsc2 rsc3 rsc4 :=
    fun d' hd' => runProcesses_rotate clock rsc0 rsc1 rsc2 rsc3 rsc4 mdf _ schedule s rfl h
      d' hd'
  obtain ⟨hrot, hsem⟩ := hall d hd
  obtain ⟨rest, hhead⟩ := handleNames_rotate_head (handlePrefix d)
    (capacityOf d rsc0 rsc1 rsc2 rsc3 rsc4).toNat
    (ioCount d ((OSprocessRunner.new begin cfg
      (fillResourceDeques Resources.initial rsc0 rsc1 rsc2 rsc3 rsc4)).operationsExecuted
      clock mdf schedule)) hN
  have hfree := hrot.trans hhead
  have hbal : s.runner.static_.Balanced := by
    intro d' hd'
    obtain ⟨hr', hs'⟩ := hall d' hd'
    rw [hr', hs', List.length_rotate, handleNames_length]
    have := hcap d' hd'
    omega
  refine ⟨hrot, by rw [hfree]; rfl, ?_, ?_⟩
  · intro res
    obtain ⟨s1, hacq, _⟩ := acquire_release s.runner.static_ d _ rest res hd hbal hfree
    exact ⟨s1, hacq⟩
  · intro h1
    rw [hfree, h1]
    have h0 : ∀ k : Nat, k % Int.toNat 1 = 0 := fun k => by
      have : Int.toNat 1 = 1 := rfl
      rw [this, Nat.mod_one]
    rw [h0]
    rfl

set_option maxRecDepth 20000 in

/-- Witness of C33: with three keyboards, after `A{begin}`, a keyboard input, a monitor
output and two more keyboard inputs, the three keyboard inputs have used `KBRD_0`, `KBRD_1`
and `KBRD_2` and the monitor output `MNTR_0`; three operations on the keyboard are counted,
so the next one uses `KBRD_0` again, and the next operation on the monitor uses `MNTR_1`. -/
theorem handle_rotation_witness :
    (∀ d ∈ ioDevices, 1 ≤ capacityOf d 1 3 1 2 1) ∧
    (OSprocessRunner.new 0 fullConfig
        (fillResourceDeques Resources.initial 1 3 1 2 1)).runProcesses
      tickClock (some [ioStream]) (List.replicate 6 .engine) = .ok ioRun ∧
    descriptions ioRun.runner.operationsVect_ =
      ["preparing process 1", "starting process 1",
       "start keyboard input on KBRD_0", "end keyboard input",
       "start monitor output on MNTR_0", "end monitor output",
       "start keyboard input on KBRD_1", "end keyboard input",
       "start keyboard input on KBRD_2", "end keyboard input"] ∧
    ioCount "keyboard" ((OSprocessRunner.new 0 fullConfig
        (fillResourceDeques Resources.initial 1 3 1 2 1)).operationsExecuted
      tickClock (some [ioStream]) (List.replicate 6 .engine)) = 3 ∧
    (ioRun.runner.static_.dequeOf "keyboard", ioRun.runner.static_.dequeOf "monitor") =
      (["KBRD_0", "KBRD_1", "KBRD_2"], ["MNTR_1", "MNTR_0"]) ∧
    ∀ d ∈ ioDevices,
      ioRun.runner.static_.dequeOf d =
        (handleNames (handlePrefix d) (capacityOf d 1 3 1 2 1).toNat).rotate
          (ioCount d ((OSprocessRunner.new 0 fullConfig
            (fillResourceDeques Resources.initial 1 3 1 2 1)).operationsExecuted
            tickClock (some [ioStream]) (List.replicate 6 .engine))) ∧
      (ioRun.runner.static_.dequeOf d).head? = some (handlePrefix d ++ toString
        (ioCount d ((OSprocessRunner.new 0 fullConfig
            (fillResourceDeques Resources.initial 1 3 1 2 1)).operationsExecuted
            tickClock (some [ioStream]) (List.replicate 6 .engine)) %
          (capacityOf d 1 3 1 2 1).toNat)) ∧
      (∀ res : String, ∃ st, acquireResource ioRun.runner.static_ d res = .ok (st,
        handlePrefix d ++ toString
          (ioCount d ((OSprocessRunner.new 0 fullConfig
            (fillResourceDeques Resources.initial 1 3 1 2 1)).operationsExecuted
            tickClock (some [ioStream]) (List.replicate 6 .engine)) %
            (capacityOf d 1 3 1 2 1).toNat))) ∧
      (capacityOf d 1 3 1 2 1 = 1 →
        (ioRun.runner.static_.dequeOf d).head? = some (handlePrefix d ++ "0")) :=
  have h : (OSprocessRunner.new 0 fullConfig
        (fillResourceDeques Resources.initial 1 3 1 2 1)).runProcesses
      tickClock (some [ioStream]) (List.replicate 6 .engine) = .ok ioRun := by rfl
  ⟨by decide, h, by decide, by decide, by decide,
    handle_rotation tickClock 0 fullConfig 1 3 1 2 1 (some [ioStream])
      (List.replicate 6 .engine) ioRun (by decide) h⟩

/-! ### C34 -/

/-- C34: in every state of a run of `runProcesses()` of a newly constructed engine whose
static members `fillResourceDeques` has set with a capacity `N` of at least 1 for each of the
five device kinds, the free list of each kind is a rearrangement of all its `N` handles (none
is missing, so the list is not empty) and the semaphore of the kind holds `N`.  Hence the
acquisition of `inputOutput` succeeds for every descriptor (the semaphore does not block and
the front of the free list exists), `executeOperation` succeeds for every operation, and the
next step of the engine does not fail. -/
theorem io_acquisition_never_blocks (clock : Nat → Int) (begin : Int) (cfg : Configuration)
    (rsc0 rsc1 rsc2 rsc3 rsc4 : Int) (mdf : Option (List (List Token)))
    (schedule : List Action) (s : RunState)
    (hcap : ∀ d ∈ ioDevices, 1 ≤ capacityOf d rsc0 rsc1 rsc2 rsc3 rsc4)
    (h : (OSprocessRunner.new begin cfg
        (fillResourceDeques Resources.initial rsc0 rsc1 rsc2 rsc3 rsc4)).runProcesses
      clock mdf schedule = .ok s) :
    (∀ d ∈ ioDevices,
      (s.runner.static_.dequeOf d).Perm
        (handleNames (handlePrefix d) (capacityOf d rsc0 rsc1 rsc2 rsc3 rsc4).toNat) ∧
      ((s.runner.static_.dequeOf d).length : Int) = capacityOf d rsc0 rsc1 rsc2 rsc3 rsc4 ∧
      s.runner.static_.semaphoreOf d = capacityOf d rsc0 rsc1 rsc2 rsc3 rsc4 ∧
      s.runner.static_.dequeOf d ≠ []) ∧
    (∀ d res : String, ∃ x, acquireResource s.runner.static_ d res = .ok x) ∧
    (∀ (cmd : MetaCommand) (pid : Int),
      ∃ r', s.runner.executeOperation clock cmd pid = .ok r') ∧
    ∃ s', s.engineStep clock = .ok s' := by
  have hall : ∀ d ∈ ioDevices,
      (s.runner.static_.dequeOf d).Perm
        (handleNames (handlePrefix d) (capacityOf d rsc0 rsc1 rsc2 rsc3 rsc4).toNat) ∧
      ((s.runner.static_.dequeOf d).length : Int) = capacityOf d rsc0 rsc1 rsc2 rsc3 rsc4 ∧
      s.runner.static_.semaphoreOf d = capacityOf d rsc0 rsc1 rsc2 rsc3 rsc4 ∧
      s.runner.static_.dequeOf d ≠ [] := by
    intro d hd
    obtain ⟨hrot, hsem⟩ :=
      runProcesses_rotate clock rsc0 rsc1 rsc2 rsc3 rsc4 mdf _ schedule s rfl h d hd
    have hc := hcap d hd
    have hlen : (s.runner.static_.dequeOf d).length =
        (capacityOf d rsc0 rsc1 rsc2 rsc3 rsc4).toNat := by
      rw [hrot, List.length_rotate, handleNames_length]
    refine ⟨by rw [hrot]; exact List.rotate_perm _ _, by rw [hlen]; omega, hsem, ?_⟩
    intro hnil
    rw [hnil] at hlen
    simp only [List.length_nil] at hlen
    omega
  have hfree : ∀ d ∈ ioDevices, 0 < s.runner.static_.semaphoreOf d ∧
      s.runner.static_.dequeOf d ≠ [] := by
    intro d hd
    obtain ⟨_, _, hsem, hne⟩ := hall d hd
    have hc := hcap d hd
    exact ⟨by rw [hsem]; omega, hne⟩
  refine ⟨hall, fun d res => acquireResource_total _ d res hfree,
    fun cmd pid => executeOperation_total clock _ cmd pid hfree, ?_⟩
  cases hstep : s.engineStep clock with
  | ok s' => exact ⟨s', rfl⟩
  | error e =>
    exfalso
    obtain ⟨cur, cmd, r1, hs1, hr1⟩ := engineStep_error_static clock s e hstep
    obtain ⟨r2, hr2⟩ := executeOperation_total clock r1 cmd cur.getProcessNumber
      (by rw [hs1]; exact hfree)
    rw [hr2] at hr1
    exact absurd hr1 (by simp)

set_option maxRecDepth 20000 in

/-- Witness of C34: the state `ioRun`, after three keyboard inputs and a monitor output on an
engine with three keyboards and two monitors. -/
theorem io_acquisition_never_blocks_witness :
    (∀ d ∈ ioDevices, 1 ≤ capacityOf d 1 3 1 2 1) ∧
    (OSprocessRunner.new 0 fullConfig
        (fillResourceDeques Resources.initial 1 3 1 2 1)).runProcesses
      tickClock (some [ioStream]) (List.replicate 6 .engine) = .ok ioRun ∧
    (∀ d ∈ ioDevices,
      (ioRun.runner.static_.dequeOf d).Perm
        (handleNames (handlePrefix d) (capacityOf d 1 3 1 2 1).toNat) ∧
      ((ioRun.runner.static_.dequeOf d).length : Int) = capacityOf d 1 3 1 2 1 ∧
      ioRun.runner.static_.semaphoreOf d = capacityOf d 1 3 1 2 1 ∧
      ioRun.runner.static_.dequeOf d ≠ []) ∧
    (∀ d res : String, ∃ x, acquireResource ioRun.runner.static_ d res = .ok x) ∧
    (∀ (cmd : MetaCommand) (pid : Int),
      ∃ r', ioRun.runner.executeOperation tickClock cmd pid = .ok r') ∧
    ∃ s', ioRun.engineStep tickClock = .ok s' :=
  have h : (OSprocessRunner.new 0 fullConfig
        (fillResourceDeques Resources.initial 1 3 1 2 1)).runProcesses
      tickClock (some [ioStream]) (List.replicate 6 .engine) = .ok ioRun := by rfl
  ⟨by decide, h,
    io_acquisition_never_blocks tickClock 0 fullConfig 1 3 1 2 1 (some [ioStream])
      (List.replicate 6 .engine) ioRun (by decide) h⟩

theorem take_one_append (a b : String) (h : 1 ≤ a.length) :
    (a ++ b).data.take 1 = a.data.take 1 := take_data_append a b 1 h

theorem executeOperation_operationEvents (clock : Nat → Int) (r r' : OSprocessRunner)
    (cmd : MetaCommand) (pid : Int) (h : r.executeOperation clock cmd pid = .ok r') :
    ∃ evs, r'.operationsVect_ = r.operationsVect_ ++ evs ∧
      (∀ e ∈ evs, e.isOperationOf pid) ∧ evs.length = cmd.eventCount := by
  unfold OSprocessRunner.executeOperation at h
  simp only [MetaCommand.getCode, MetaCommand.getDescriptor, MetaCommand.getTime] at h
  unfold MetaCommand.eventCount
  split_ifs at h with h1 h2 h3
  · rw [← Except.ok.inj h]
    unfold OSprocessRunner.executeApplication
    rw [if_pos h1]
    split_ifs with hb hf
    · simp only [OSprocessRunner.pushOperation, OSprocessRunner.tick,
        OSprocessRunner.timeStamp]
      refine ⟨_, List.append_assoc _ _ _, ?_, rfl⟩
      intro e he
      simp only [List.singleton_append, List.mem_cons, List.mem_singleton,
        List.not_mem_nil, or_false] at he
      rcases he with he | he <;> rw [he]
      · exact ⟨by rw [take_one_append _ _ (by decide)]; decide, Or.inr ⟨rfl, Or.inl rfl⟩⟩
      · exact ⟨by rw [take_one_append _ _ (by decide)]; decide,
          Or.inr ⟨rfl, Or.inr (Or.inl rfl)⟩⟩
    · simp only [OSprocessRunner.pushOperation, OSprocessRunner.tick,
        OSprocessRunner.timeStamp]
      refine ⟨_, rfl, ?_, rfl⟩
      intro e he
      simp only [List.mem_singleton] at he
      rw [he]
      exact ⟨by rw [take_one_append _ _ (by decide)]; decide,
        Or.inr ⟨rfl, Or.inr (Or.inr rfl)⟩⟩
    · exact ⟨[], by simp, fun e he => absurd he (by simp), rfl⟩
  · rw [← Except.ok.inj h]
    rw [if_neg h1, if_pos h2]
    unfold OSprocessRunner.executeProcessorMemory OSprocessRunner.advanceMemAddress
    simp only []
    split_ifs <;>
    · simp only [OSprocessRunner.pushOperation, OSprocessRunner.tick,
        OSprocessRunner.countDown, OSprocessRunner.timeStamp]
      refine ⟨_, List.append_assoc _ _ _, ?_, rfl⟩
      intro e he
      simp only [List.singleton_append, List.mem_cons, List.mem_singleton,
        List.not_mem_nil, or_false] at he
      rcases he with he | he <;> rw [he] <;> refine ⟨?_, Or.inl rfl⟩ <;> dsimp only <;>
        first
        | decide
        | (rw [take_one_append _ _ (by decide)]; decide)
  · rw [if_neg h1, if_neg h2, if_pos h3]
    unfold OSprocessRunner.executeInputOutput OSprocessRunner.inputOutput at h
    simp only [] at h
    split at h
    · exact absurd h (by simp)
    · rename_i io hio
      split at hio
      · exact absurd hio (by simp)
      · simp only [Except.ok.injEq] at hio
        rw [← Except.ok.inj h, ← hio]
        simp only [OSprocessRunner.pushOperation, OSprocessRunner.tick,
          OSprocessRunner.ioThreadDone, OSprocessRunner.timeStamp]
        refine ⟨_, List.append_assoc _ _ _, ?_, rfl⟩
        intro e he
        simp only [List.singleton_append, List.mem_cons, List.mem_singleton,
          List.not_mem_nil, or_false] at he
        rcases he with he | he <;> rw [he]
        · refine ⟨?_, Or.inl rfl⟩
          simp only [ioStartDescription]
          split_ifs <;>
            first
            | decide
            | (rw [take_one_append _ _ (by decide)]; decide)
        · refine ⟨?_, Or.inl rfl⟩
          simp only [ioEndDescription]
          split_ifs <;> decide
  · rw [← Except.ok.inj h]
    rw [if_neg h1, if_neg h2, if_neg h3]
    exact ⟨[], by simp, fun e he => absurd he (by simp), rfl⟩

theorem innerLoopBody_trace (clock : Nat → Int) (r : OSprocessRunner) (cur : Process)
    (x : OSprocessRunner × Process × Bool) (h : r.innerLoopBody clock cur = .ok x) :
    x.2.2 = true ∨
    (x.2.2 = false ∧ ∃ (cmd : MetaCommand) (r1 : OSprocessRunner),
      r1.operationsVect_ = r.operationsVect_ ∧
      cur.getMetaCommand cur.getOpIndex = .ok cmd ∧
      r1.executeOperation clock cmd cur.getProcessNumber = .ok x.1 ∧
      x.2.1.getProcessNumber = cur.getProcessNumber ∧
      x.2.1.metaCmdVect_ = cur.metaCmdVect_ ∧ x.2.1.getOpIndex = cur.getOpIndex + 1) ∨
    x = (r, cur, false) := by
  unfold OSprocessRunner.innerLoopBody at h
  by_cases hrr : r.schedCode_ = 0
  · rw [if_pos hrr] at h
    simp only [] at h
    generalize hr1 : (if r.firstOperation_ = true then
      ({ r with firstOperation_ := false } : OSprocessRunner) else r) = r1 at h
    have ho1 : r1.operationsVect_ = r.operationsVect_ := by rw [← hr1]; split_ifs <;> rfl
    split_ifs at h with hflag
    · rw [← Except.ok.inj h]
      exact Or.inl rfl
    · cases hcmd : cur.getMetaCommand cur.getOpIndex with
      | error e => rw [hcmd] at h; exact absurd h (by simp)
      | ok cmd =>
        rw [hcmd] at h
        simp only [] at h
        cases hex : OSprocessRunner.executeOperation clock
            ({ r1 with waitForOP_ := false }) cmd cur.getProcessNumber with
        | error e => rw [hex] at h; exact absurd h (by simp)
        | ok r2 =>
          rw [hex] at h
          rw [← Except.ok.inj h]
          exact Or.inr (Or.inl ⟨rfl, cmd, ({ r1 with waitForOP_ := false }), ho1, rfl, hex,
            rfl, rfl, rfl⟩)
  · rw [if_neg hrr] at h
    by_cases hstr : r.schedCode_ = 1
    · rcases innerLoopBody_str_cases clock r cur x hstr
        (by unfold OSprocessRunner.innerLoopBody; rw [if_neg hrr]; exact h) with
        ⟨_, hx⟩ | ⟨_, cmd, r2, hcmd, hex, hx⟩
      · rw [hx]; exact Or.inl rfl
      · rw [hx]
        exact Or.inr (Or.inl ⟨rfl, cmd, r, rfl, hcmd, hex, rfl, rfl, rfl⟩)
    · rw [if_neg hstr] at h
      exact Or.inr (Or.inr (Except.ok.inj h).symm)

theorem innerLoopBody_preempt (clock : Nat → Int) (r : OSprocessRunner) (cur : Process)
    (hflag : (r.schedCode_ = 0 ∧ r.rrFlag_ = true) ∨ (r.schedCode_ = 1 ∧ r.strFlag_ = true)) :
    ∃ r', r.innerLoopBody clock cur = .ok (r', cur, true) ∧
      r'.operationsVect_ = r.operationsVect_ ++
        [interruptionEvent clock r cur.getProcessNumber] := by
  rcases hflag with ⟨hs, hf⟩ | ⟨hs, hf⟩
  · have hbody : r.innerLoopBody clock cur = .ok (OSprocessRunner.logInterruption clock
        { (if r.firstOperation_ = true then
            ({ r with firstOperation_ := false } : OSprocessRunner) else r) with
          rrFlag_ := false,
          readyQ_ := (if r.firstOperation_ = true then
            ({ r with firstOperation_ := false } : OSprocessRunner)
              else r).readyQ_.insertProcess cur }
        cur.getProcessNumber, cur, true) := by
      unfold OSprocessRunner.innerLoopBody
      rw [if_pos hs]
      simp only []
      have hf' : (if r.firstOperation_ = true then
          ({ r with firstOperation_ := false } : OSprocessRunner) else r).rrFlag_ = true := by
        split_ifs <;> exact hf
      rw [if_pos hf']
    refine ⟨_, hbody, ?_⟩
    simp only [OSprocessRunner.logInterruption, OSprocessRunner.pushOperation,
      OSprocessRunner.tick, OSprocessRunner.timeStamp, interruptionEvent]
    split_ifs <;> simp_all
  · obtain ⟨r', hbody, hq, _⟩ := innerLoopBody_str_preempt clock r cur hs hf
    refine ⟨OSprocessRunner.logInterruption clock
      { r with strFlag_ := false, readyQ_ := (r.readyQ_.insertProcess cur).sortReadyQueue }
      cur.getProcessNumber, ?_, ?_⟩
    · unfold OSprocessRunner.innerLoopBody
      simp only [hs, hf]
      rfl
    · simp only [OSprocessRunner.logInterruption, OSprocessRunner.pushOperation,
        OSprocessRunner.tick, OSprocessRunner.timeStamp, interruptionEvent, hs]
      rfl

theorem eventsBetween_self (ops : List MetaCommand) (a : Nat) : eventsBetween ops a a = 0 := by
  simp [eventsBetween]

theorem eventsBetween_succ (ops : List MetaCommand) (a b : Nat) (cmd : MetaCommand)
    (hab : a + 1 ≤ b) (hcmd : ops[a]? = some cmd) :
    eventsBetween ops a b = cmd.eventCount + eventsBetween ops (a + 1) b := by
  have hlt : a < ops.length := by
    by_contra hge
    rw [List.getElem?_eq_none (by omega)] at hcmd
    exact absurd hcmd (by simp)
  have hd : ops.drop a = cmd :: ops.drop (a + 1) := by
    rw [List.drop_eq_getElem_cons hlt]
    congr 1
    rw [List.getElem?_eq_getElem hlt] at hcmd
    exact Option.some.inj hcmd
  have hb : b - a = (b - (a + 1)) + 1 := by omega
  unfold eventsBetween
  rw [hd, hb, List.take_succ_cons, List.map_cons, List.sum_cons]

theorem step_inner (clock : Nat → Int) (s s1 : RunState) (a : Action) (cur cur1 : Process)
    (hpos : s.position = .innerTest cur) (h : s.step clock a = .ok s1)
    (hpos1 : s1.position = .innerTest cur1) :
    cur1.getProcessNumber = cur.getProcessNumber ∧ cur1.metaCmdVect_ = cur.metaCmdVect_ ∧
    ∃ evs, s1.runner.operationsVect_ = s.runner.operationsVect_ ++ evs ∧
      (∀ e ∈ evs, e.isOperationOf cur.getProcessNumber) ∧
      ((cur1.getOpIndex = cur.getOpIndex ∧ evs = []) ∨
       (cur1.getOpIndex = cur.getOpIndex + 1 ∧ ∃ cmd,
          cur.metaCmdVect_[cur.getOpIndex]? = some cmd ∧ evs.length = cmd.eventCount)) := by
  obtain ⟨r, pos, done⟩ := s
  simp only [] at hpos
  subst hpos
  have hsame : ∀ r' : OSprocessRunner, r'.operationsVect_ = r.operationsVect_ →
      s1 = ⟨r', .innerTest cur, done⟩ →
      cur1.getProcessNumber = cur.getProcessNumber ∧ cur1.metaCmdVect_ = cur.metaCmdVect_ ∧
      ∃ evs, s1.runner.operationsVect_ = r.operationsVect_ ++ evs ∧
        (∀ e ∈ evs, e.isOperationOf cur.getProcessNumber) ∧
        ((cur1.getOpIndex = cur.getOpIndex ∧ evs = []) ∨
         (cur1.getOpIndex = cur.getOpIndex + 1 ∧ ∃ cmd,
            cur.metaCmdVect_[cur.getOpIndex]? = some cmd ∧
            evs.length = cmd.eventCount)) := by
    intro r' ho hs1
    rw [hs1] at hpos1
    simp only [Position.innerTest.injEq] at hpos1
    rw [hs1, ← hpos1]
    exact ⟨rfl, rfl, [], by simp [ho], fun e he => absurd he (by simp), Or.inl ⟨rfl, rfl⟩⟩
  cases a with
  | quantumExpired =>
    simp only [RunState.step] at h
    exact hsame ({ r with rrFlag_ := true }) rfl (Except.ok.inj h).symm
  | timerArmed =>
    simp only [RunState.step] at h
    exact hsame ({ r with waitForOP_ := true }) rfl (Except.ok.inj h).symm
  | mdfLoaded mdf =>
    simp only [RunState.step] at h
    split at h
    · exact absurd h (by simp)
    · rename_i r' hr'
      rw [importMDF_eq] at hr'
      split at hr'
      · exact absurd hr' (by simp)
      · refine hsame r' ?_ (Except.ok.inj h).symm
        rw [← Except.ok.inj hr']
  | strFlagSet =>
    simp only [RunState.step] at h
    split_ifs at h
    · exact hsame ({ r with strFlag_ := true }) rfl (Except.ok.inj h).symm
    · exact hsame r rfl (Except.ok.inj h).symm
  | engine =>
    simp only [RunState.step, RunState.engineStep] at h
    split_ifs at h with hlt
    · split at h
      · exact absurd h (by simp)
      · rename_i x hx
        split_ifs at h with hbrk
        · rw [← Except.ok.inj h] at hpos1
          exact absurd hpos1 (by simp)
        · have hs1 := (Except.ok.inj h).symm
          rcases innerLoopBody_trace clock r cur x hx with
            hb | ⟨_, cmd, r1, ho1, hcmd, hex, hpid, hops, hidx⟩ | hx3
          · exact absurd hb hbrk
          · rw [hs1] at hpos1
            simp only [Position.innerTest.injEq] at hpos1
            obtain ⟨evs, he1, he2, he3⟩ :=
              executeOperation_operationEvents clock r1 x.1 cmd _ hex
            rw [hs1, ← hpos1]
            refine ⟨hpid, hops, evs, by rw [← ho1]; exact he1, he2, Or.inr ⟨hidx, cmd, ?_, he3⟩⟩
            exact getMetaCommand_ok cur cmd hcmd
          · refine hsame r rfl ?_
            rw [hs1, hx3]
    · rw [← Except.ok.inj h] at hpos1
      exact absurd hpos1 (by simp)

theorem run_inner_segment (clock : Nat → Int) :
    ∀ (schedule : List Action) (s0 s : RunState) (p : Process),
      s0.position = .innerTest p → s0.staysInner clock schedule = true →
      RunState.run clock s0 schedule = .ok s →
      ∃ (cur : Process) (evs : List OperationInfo), s.position = .innerTest cur ∧
        cur.getProcessNumber = p.getProcessNumber ∧ cur.metaCmdVect_ = p.metaCmdVect_ ∧
        p.getOpIndex ≤ cur.getOpIndex ∧
        s.runner.operationsVect_ = s0.runner.operationsVect_ ++ evs ∧
        (∀ e ∈ evs, e.isOperationOf p.getProcessNumber) ∧
        evs.length = eventsBetween p.metaCmdVect_ p.getOpIndex cur.getOpIndex := by
  intro schedule
  induction schedule with
  | nil =>
    intro s0 s p hpos _ h
    simp only [RunState.run] at h
    rw [← Except.ok.inj h]
    exact ⟨p, [], hpos, rfl, rfl, Nat.le_refl _, by simp, fun e he => absurd he (by simp),
      by rw [eventsBetween_self]; rfl⟩
  | cons a rest ih =>
    intro s0 s p hpos hstay h
    simp only [RunState.run] at h
    simp only [RunState.staysInner] at hstay
    cases h1 : s0.step clock a with
    | error e => rw [h1] at h; exact absurd h (by simp)
    | ok s1 =>
      rw [h1] at h hstay
      simp only [] at h hstay
      cases hp1 : s1.position with
      | outerTest => rw [hp1] at hstay; exact absurd hstay (by simp)
      | returned => rw [hp1] at hstay; exact absurd hstay (by simp)
      | innerTest p1 =>
        rw [hp1] at hstay
        simp only [] at hstay
        obtain ⟨a1, a2, evs1, a3, a4, a5⟩ := step_inner clock s0 s1 a p p1 hpos h1 hp1
        obtain ⟨cur, evs2, b1, b2, b3, b4, b5, b6, b7⟩ := ih s1 s p1 hp1 hstay h
        refine ⟨cur, evs1 ++ evs2, b1, b2.trans a1, b3.trans a2, ?_, ?_, ?_, ?_⟩
        · rcases a5 with ⟨c1, _⟩ | ⟨c1, _⟩ <;> omega
        · rw [b5, a3, List.append_assoc]
        · intro e he
          rcases List.mem_append.mp he with he | he
          · exact a4 e he
          · rw [← a1]; exact b6 e he
        · rw [List.length_append, b7, a2]
          rcases a5 with ⟨c1, c2⟩ | ⟨c1, cmd, c2, c3⟩
          · rw [c1, c2]; simp
          · rw [c1, c3]
            exact (eventsBetween_succ p.metaCmdVect_ p.getOpIndex cur.getOpIndex cmd
              (by omega) c2).symm

theorem dispatch_trace (clock : Nat → Int) (sD s0 : RunState)
    (hD : sD.position = .outerTest) (h : sD.engineStep clock = .ok s0) :
    s0.runner.operationsVect_ = sD.runner.operationsVect_ := by
  obtain ⟨r, pos, done⟩ := sD
  simp only [] at hD
  subst hD
  simp only [RunState.engineStep] at h
  split_ifs at h <;> rw [← Except.ok.inj h]

/-! ### C31 -/

set_option maxRecDepth 20000 in

/-- C31, counterexample: under STR, process 1 executes its three operations; during the last
one the load thread imports the metadata file and sets the STR flag.  The engine leaves the
inner loop of process 1, dispatches process 2 and finds the flag set before process 2 has
executed an operation: the interruption event of process 2 comes immediately after the event
"End process 1" of process 1, and process 2 is queued with operation index 0. -/
theorem interruption_without_operation :
    (strRunner.runProcesses tickClock (some [twinStream]) lateFlagSchedule).toOption.map
      (fun s => (eventPairs s.runner.operationsVect_,
        (s.runner.readyQ_.processVect_.filter (fun p => p.getProcessNumber = 2)).map
          (fun p => p.getOpIndex))) =
    some ([("OS", "preparing process 1"), ("OS", "starting process 1"),
           ("Process 1", "start processing action"), ("Process 1", "end processing action"),
           ("OS", "End process 1"),
           ("Process 2", "Process interrupted by STR scheduling algorithm.")], [0]) := by
  decide

/-- C31, amended: let the engine dispatch the process `p` (a step at the test of the outer
loop that leads to the inner loop with `p`), and let the run go on under any schedule of the
other threads as long as the engine stays in the inner loop.  Then the running process is
still `p` (same pid, same operations, operation index not smaller), and the trace is the
trace at the dispatch followed by events of the operations `p` has executed since, and by
nothing else: as many events as these operations append, none when `p` has executed none.
When the preemption flag of the policy is then set and `p` has operations left, the step of
the engine appends exactly the interruption event of `p` (actor "Process <pid>") right after
these events and leads to the test of the outer loop.  So an interruption event of `p`
comes immediately after the last event of the operations `p` executed since its dispatch
when there is one, and otherwise immediately after the event that was last in the trace at
the dispatch, with no event of another process between the dispatch and the interruption
event. -/
theorem preemption_event_placement (clock : Nat → Int) (sD s0 s : RunState) (p : Process)
    (schedule : List Action)
    (hD : sD.position = .outerTest) (hdisp : sD.engineStep clock = .ok s0)
    (hpos : s0.position = .innerTest p)
    (hstay : s0.staysInner clock schedule = true)
    (hrun : RunState.run clock s0 schedule = .ok s) :
    ∃ (cur : Process) (evs : List OperationInfo), s.position = .innerTest cur ∧
      cur.getProcessNumber = p.getProcessNumber ∧ cur.metaCmdVect_ = p.metaCmdVect_ ∧
      p.getOpIndex ≤ cur.getOpIndex ∧
      s.runner.operationsVect_ = sD.runner.operationsVect_ ++ evs ∧
      (∀ e ∈ evs, e.isOperationOf p.getProcessNumber) ∧
      evs.length = eventsBetween p.metaCmdVect_ p.getOpIndex cur.getOpIndex ∧
      (cur.getOpIndex = p.getOpIndex → evs = []) ∧
      (cur.getOpIndex < cur.getNumberOfCommands →
        (s.runner.schedCode_ = 0 ∧ s.runner.rrFlag_ = true) ∨
          (s.runner.schedCode_ = 1 ∧ s.runner.strFlag_ = true) →
        ∃ s', s.engineStep clock = .ok s' ∧ s'.position = .outerTest ∧
          s'.runner.operationsVect_ = sD.runner.operationsVect_ ++ evs ++
            [interruptionEvent clock s.runner p.getProcessNumber]) := by
  obtain ⟨cur, evs, h1, h2, h3, h4, h5, h6, h7⟩ :=
    run_inner_segment clock schedule s0 s p hpos hstay hrun
  have hd := dispatch_trace clock sD s0 hD hdisp
  rw [hd] at h5
  refine ⟨cur, evs, h1, h2, h3, h4, h5, h6, h7, ?_, ?_⟩
  · intro he
    rw [he, eventsBetween_self] at h7
    exact List.length_eq_zero.mp h7
  · intro hlt hflag
    obtain ⟨r', hbody, htrace⟩ := innerLoopBody_preempt clock s.runner cur hflag
    obtain ⟨r, pos, done⟩ := s
    simp only [] at h1 hbody htrace h5 hflag ⊢
    subst h1
    refine ⟨⟨{ r' with processesInRdyQ_ := r'.readyQ_.getNumberOfProcesses }, .outerTest,
      done⟩, ?_, rfl, ?_⟩
    · simp only [RunState.engineStep, hlt, if_true, hbody]
    · simp only [htrace, h5, h2]

set_option maxRecDepth 20000 in

/-- Witness of the amended C31: under RR the engine of scenario S1 dispatches process 1 of
the metadata file `twinStream`; the process executes `A{begin}` and `P{run}`, then the
quantum timer sets `rrFlag_`.  The next step of the engine appends the interruption event of
process 1 right after "end processing action". -/
theorem preemption_event_placement_witness :
    placementStart.position = .outerTest ∧
    placementStart.engineStep tickClock = .ok placementDispatched ∧
    placementDispatched.position = .innerTest placementProcess ∧
    placementDispatched.staysInner tickClock [.engine, .engine, .quantumExpired] = true ∧
    RunState.run tickClock placementDispatched [.engine, .engine, .quantumExpired] =
      .ok placementSegment ∧
    (placementSegment.engineStep tickClock).toOption.map
        (fun s => eventPairs s.runner.operationsVect_) =
      some [("OS", "preparing process 1"), ("OS", "starting process 1"),
            ("Process 1", "start processing action"), ("Process 1", "end processing action"),
            ("Process 1", "Process interrupted by round robin scheduling algorithm.")] ∧
    ∃ (cur : Process) (evs : List OperationInfo), placementSegment.position = .innerTest cur ∧
      cur.getProcessNumber = placementProcess.getProcessNumber ∧
      cur.metaCmdVect_ = placementProcess.metaCmdVect_ ∧
      placementProcess.getOpIndex ≤ cur.getOpIndex ∧
      placementSegment.runner.operationsVect_ =
        placementStart.runner.operationsVect_ ++ evs ∧
      (∀ e ∈ evs, e.isOperationOf placementProcess.getProcessNumber) ∧
      evs.length =
        eventsBetween placementProcess.metaCmdVect_ placementProcess.getOpIndex
          cur.getOpIndex ∧
      (cur.getOpIndex = placementProcess.getOpIndex → evs = []) ∧
      (cur.getOpIndex < cur.getNumberOfCommands →
        (placementSegment.runner.schedCode_ = 0 ∧ placementSegment.runner.rrFlag_ = true) ∨
          (placementSegment.runner.schedCode_ = 1 ∧
            placementSegment.runner.strFlag_ = true) →
        ∃ s', placementSegment.engineStep tickClock = .ok s' ∧ s'.position = .outerTest ∧
          s'.runner.operationsVect_ = placementStart.runner.operationsVect_ ++ evs ++
            [interruptionEvent tickClock placementSegment.runner
              placementProcess.getProcessNumber]) :=
  have h1 : placementStart.engineStep tickClock = .ok placementDispatched := by rfl
  have h2 : RunState.run tickClock placementDispatched [.engine, .engine, .quantumExpired] =
      .ok placementSegment := by rfl
  ⟨by decide, h1, by decide, by decide, h2, by decide,
    preemption_event_placement tickClock placementStart placementDispatched placementSegment
      placementProcess [.engine, .engine, .quantumExpired] (by decide) h1 (by decide)
      (by decide) h2⟩

end OsSim
